import Mathlib

/-!
# Graph-Algorithms-Book: a verification development

Shallow embedding of the graph containers (`graph.hpp`), the Dijkstra solver
(`dijkstra.hpp`), the two LCA structures (`lcaSegmentTree.cpp`, `lcaBinaryLift.cpp`),
the spanning-tree algorithms (`kruskal.cpp`, `prim.hpp`), the two topological sorts
(`topoSortUsingDFS.cpp`, `topoSortUsingKahn.cpp`) and `floydWarshall.cpp`, followed by the
theorems about them.

Conventions of the embedding.

* In `graph.hpp` and `dijkstra.hpp` a vertex (`using Vertex = int;`) is an `Int`, because
  the predecessor array stores `-1`; in the LCA structures and in Kruskal's algorithm
  vertices are only used as indices and are natural numbers.
* A C array or vector indexed by a vertex is embedded as a function of the index; the
  cells `0..V` are its storage, and the theorems speak about graphs whose records stay
  inside it.  Where the code reads outside a vector (`lcaSegmentTree.cpp`) the vectors are
  lists and every access is checked.
* `long long` arithmetic is embedded as `Int` arithmetic.  With non-negative `int` weights
  every sum formed by the Dijkstra solver is at most `INF + 2^31 < 2^63`, and Kruskal's sum
  of fewer than `2^31` weights stays below `2^62`, so no wrap-around can occur.  The sums
  `d[i][n] + d[n][j]` of `floydWarshall.cpp`, which negative weights can drive down, are
  embedded with their 64 bits (`wrap64`).
* `int` variables that are doubled or counted up in a loop (`L` and `timer` of
  `lcaBinaryLift.cpp`, `sz` of `lcaSegmentTree.cpp`, the in-degree counters of
  `topoSortUsingKahn.cpp`) are embedded with their 32 bits: shifts, `++` and `--` wrap
  (`wrap32`), and a vector size that comes out negative gives no result.
* Loops and recursions whose termination depends on the input take a `fuel : Nat` and
  return `none` when the fuel is used up.
-/

namespace GraphBook

/-- The value that a 32-bit `int` holds after an operation whose exact result is `x`
(two's complement wrap-around). -/
def wrap32 (x : Int) : Int := (x + 2 ^ 31) % 2 ^ 32 - 2 ^ 31

/-- The value that a 64-bit `long long` holds after an operation whose exact result is `x`
(two's complement wrap-around). -/
def wrap64 (x : Int) : Int := (x + 2 ^ 63) % 2 ^ 64 - 2 ^ 63

/-! ## graph.hpp -/

/-- `using Edge = std::pair<Vertex, Vertex>;` with `using Vertex = int;`:
first is the neighbour, second the weight. -/
abbrev Edge := Int × Int

/-- Store `x` in cell `i` of the array `a`. -/
def setCell {α : Type} (a : Int → α) (i : Int) (x : α) : Int → α :=
  fun j => if j = i then x else a j

/-- `class weightedGraph`: vertex count, adjacency lists, directedness flag. -/
structure weightedGraph where
  V : Int
  adj : Int → List Edge
  directed : Bool

/-- `weightedGraph(Vertex _V, bool _directed = false)`: all adjacency lists empty. -/
def weightedGraph.new (V : Int) (directed : Bool) : weightedGraph :=
  { V := V, adj := fun _ => [], directed := directed }

/-- `weightedGraph::addEdge(u, v, weight)` (spelled `addEgde` in `codes/graph.hpp`):
`adj[u].push_back(Edge(v, weight)); if (not directed) adj[v].push_back(Edge(u, weight));` -/
def weightedGraph.addEdge (g : weightedGraph) (u v weight : Int) : weightedGraph :=
  let adj1 := setCell g.adj u (g.adj u ++ [(v, weight)])
  if !g.directed then
    { g with adj := setCell adj1 v (adj1 v ++ [(u, weight)]) }
  else
    { g with adj := adj1 }

/-- `class Graph`: the unweighted container. -/
structure Graph where
  V : Int
  adj : Int → List Int
  directed : Bool

/-- `Graph(Vertex _V, bool _directed = false)`. -/
def Graph.new (V : Int) (directed : Bool) : Graph :=
  { V := V, adj := fun _ => [], directed := directed }

/-- `Graph::addEdge(u, v)`:
`adj[u].push_back(v); if (not directed) adj[v].push_back(u);` -/
def Graph.addEdge (g : Graph) (u v : Int) : Graph :=
  let adj1 := setCell g.adj u (g.adj u ++ [v])
  if !g.directed then
    { g with adj := setCell adj1 v (adj1 v ++ [u]) }
  else
    { g with adj := adj1 }

/-- The records that the call `addEdge(u, v, weight)` inserts for vertex `x`, in the order
of insertion. -/
def weightedGraph.inserted (directed : Bool) (x : Int) (c : Int × Int × Int) : List Edge :=
  (if x = c.1 then [(c.2.1, c.2.2)] else []) ++
    (if !directed && decide (x = c.2.1) then [(c.1, c.2.2)] else [])

/-- A sequence of `addEdge` calls on a graph. -/
def weightedGraph.addEdges (g : weightedGraph) (calls : List (Int × Int × Int)) :
    weightedGraph :=
  calls.foldl (fun g c => g.addEdge c.1 c.2.1 c.2.2) g

/-- The records that the call `addEdge(u, v)` inserts for vertex `x`, in the order of
insertion. -/
def Graph.inserted (directed : Bool) (x : Int) (c : Int × Int) : List Int :=
  (if x = c.1 then [c.2] else []) ++ (if !directed && decide (x = c.2) then [c.1] else [])

/-- A sequence of `addEdge` calls on a graph. -/
def Graph.addEdges (g : Graph) (calls : List (Int × Int)) : Graph :=
  calls.foldl (fun g c => g.addEdge c.1 c.2) g

/-! ## dijkstra.hpp -/

namespace Dijkstra

/-- `const ll INF = 0x3f3f3f3f3f3f3f3f;` -/
def INF : Int := 0x3f3f3f3f3f3f3f3f

/-- `using length = std::pair<ll, Vertex>;` -/
abbrev length := Int × Int

/-- The order of `std::pair`: lexicographic, first component first. -/
def pairLe (a b : length) : Bool :=
  decide (a.1 < b.1) || (decide (a.1 = b.1) && decide (a.2 ≤ b.2))

/-- Least element of `m :: xs` for `pairLe`. -/
def minOf : length → List length → length
  | m, [] => m
  | m, x :: xs => if pairLe m x then minOf m xs else minOf x xs

/-- `pq.top()` of a `std::priority_queue<length, ..., std::greater<length>>`: the least pair. -/
def top : List length → Option length
  | [] => none
  | x :: xs => some (minOf x xs)

/-- The fields the solver works on: the arrays `d`, `p` and the local queue `pq`. -/
structure State where
  d : Int → Int
  p : Int → Int
  pq : List length

/-- Body of `for (Edge e : adj[u])`:
`if (len + d[u] < d[v]) { d[v] = len + d[u]; p[v] = u; pq.push(length(d[v], v)); }` -/
def relax (u : Int) (st : State) (e : Edge) : State :=
  if e.2 + st.d u < st.d e.1 then
    { d := setCell st.d e.1 (e.2 + st.d u)
      p := setCell st.p e.1 u
      pq := (e.2 + st.d u, e.1) :: st.pq }
  else st

/-- The `while (not pq.empty())` loop of `solveShortestPaths`. -/
def loop (g : weightedGraph) : Nat → State → Option State
  | 0, _ => none
  | fuel + 1, st =>
    match top st.pq with
    | none => some st
    | some m =>
      let st1 : State := { st with pq := st.pq.erase m }
      if m.1 > st1.d m.2 then loop g fuel st1
      else loop g fuel ((g.adj m.2).foldl (relax m.2) st1)

/-- `memset(d, 0x3f, sizeof(ll) * (V + 1))`: cells `0..V` become `INF`. -/
def memsetINF (V : Int) (d : Int → Int) : Int → Int :=
  fun i => if 0 ≤ i ∧ i ≤ V then INF else d i

/-- State of `solveShortestPaths(s)` when the loop is entered, from the arrays `d0`, `p0`
left in the object. -/
def initState (g : weightedGraph) (s : Int) (d0 : Int → Int) (p0 : Int → Int) :
    State :=
  { d := setCell (memsetINF g.V d0) s 0
    p := setCell p0 s (-1)
    pq := [(0, s)] }

/-- `Dijkstra::solveShortestPaths(s)` on an object whose arrays hold `d0`, `p0`. -/
def solveShortestPaths (g : weightedGraph) (fuel : Nat) (s : Int)
    (d0 : Int → Int) (p0 : Int → Int) : Option State :=
  loop g fuel (initState g s d0 p0)

/-- Arrays of a freshly constructed object: `new ll[V + 1]()`, `new Vertex[V + 1]()`. -/
def zeros : Int → Int := fun _ => 0

/-- The loop `for (Vertex u = t; u != s; u = p[u]) path.push_back(u);` of `printPath`. -/
def pathLoop (p : Int → Int) (s : Int) :
    Nat → Int → List Int → Option (List Int)
  | 0, _, _ => none
  | fuel + 1, u, path => if u = s then some path else pathLoop p s fuel (p u) (path ++ [u])

/-- `Dijkstra::printPath(s, t)`: the returned vector, after
`path.push_back(s); std::reverse(path.begin(), path.end());`. -/
def printPath (p : Int → Int) (fuel : Nat) (s t : Int) : Option (List Int) :=
  (pathLoop p s fuel t []).map fun path => (path ++ [s]).reverse

/-- The undirected example graph of the specification. -/
def exampleGraph : weightedGraph :=
  ((((weightedGraph.new 4 false).addEdge 1 2 4).addEdge 2 3 1).addEdge 1 3 5).addEdge 3 4 2

end Dijkstra

end GraphBook

namespace GraphBook

namespace Dijkstra

/-! ### Vocabulary of the shortest-path statements -/

/-- The index `v` is a cell of the arrays of `g`: `0 ≤ v ≤ V`. -/
def InRange (g : weightedGraph) (v : Int) : Prop := 0 ≤ v ∧ v ≤ g.V

instance (g : weightedGraph) (v : Int) : Decidable (InRange g v) := by
  unfold InRange
  infer_instance

/-- Every adjacency record lives in a cell `0..V` and points to a cell `0..V`. -/
def WellFormed (g : weightedGraph) : Prop :=
  ∀ u e, e ∈ g.adj u → InRange g u ∧ InRange g e.1

/-- All edge weights are non-negative. -/
def NonNeg (g : weightedGraph) : Prop := ∀ u e, e ∈ g.adj u → 0 ≤ e.2

/-- `Walk g a c l w`: `l` is a sequence of vertices from `a` to `c` in which each vertex is
followed by one of its neighbours, and `w` is the sum of the weights of the records used. -/
inductive Walk (g : weightedGraph) : Int → Int → List Int → Int → Prop
  | single (a : Int) : Walk g a a [a] 0
  | cons {a b c : Int} {l : List Int} {w : Int} (len : Int) :
      (b, len) ∈ g.adj a → Walk g b c l w → Walk g a c (a :: l) (len + w)

/-- `x` is the length of a shortest path from `s` to `v`: some path without repeated vertex
has weight `x`, and no sequence of edges from `s` to `v` weighs less. -/
def IsDist (g : weightedGraph) (s v : Int) (x : Int) : Prop :=
  (∃ l, l.Nodup ∧ Walk g s v l x) ∧ ∀ l w, Walk g s v l w → x ≤ w

/-- `st` is the state in which `solveShortestPaths(s)` returns. -/
def Solves (g : weightedGraph) (s : Int) (d0 : Int → Int) (p0 : Int → Int)
    (st : State) : Prop :=
  ∃ fuel, solveShortestPaths g fuel s d0 p0 = some st

/-- Sum of the distance cells `0..V`, as a natural number. -/
def dSum (g : weightedGraph) (d : Int → Int) : Nat :=
  ∑ i in Finset.range (g.V.toNat + 1), (d (i : Int)).toNat

/-- Variant of the main loop: queue length plus twice the sum of the distance cells. -/
def potential (g : weightedGraph) (st : State) : Nat :=
  st.pq.length + 2 * dSum g st.d

/-- Loop invariant of `solveShortestPaths(s)`.  `R v` lists the records of `v` that have
been looked at since `d[v]` last changed; `t` is a time stamp of the last change. -/
structure Inv (g : weightedGraph) (s : Int) (R : Int → List Edge) (t : Int → Nat)
    (st : State) : Prop where
  ds : st.d s = 0
  bound : ∀ v, InRange g v → 0 ≤ st.d v ∧ st.d v ≤ INF
  queued : ∀ v, InRange g v → st.d v < INF →
    (st.d v, v) ∈ st.pq ∨ ∀ e ∈ R v, st.d e.1 ≤ st.d v + e.2
  pred : ∀ v, InRange g v → v ≠ s → st.d v < INF →
    ∃ len, (v, len) ∈ g.adj (st.p v) ∧ st.d (st.p v) + len ≤ st.d v ∧
      (st.d (st.p v) < st.d v ∨ (st.d (st.p v) = st.d v ∧ t (st.p v) < t v))

/-- A predecessor cell that differs from what the loop started with (`p0`) belongs to a
vertex whose distance has been lowered below `INF`. -/
def Keep (p0 : Int → Int) (st : State) : Prop :=
  ∀ v, st.p v = p0 v ∨ st.d v < INF

/-- Two runs of the loop move in lockstep: same queue, same distance cells, and every
predecessor cell is either equal in both or still holds what each run started with.
`pa`, `pb` are the predecessor arrays the runs started with, `dfin` the distance array the
second object was left with. -/
structure Sim (g : weightedGraph) (pa pb dfin : Int → Int) (a b : State) : Prop where
  pq : a.pq = b.pq
  pqr : ∀ m ∈ a.pq, InRange g m.2
  d : ∀ v, InRange g v → a.d v = b.d v
  dout : ∀ v, ¬ InRange g v → b.d v = dfin v
  p : ∀ v, a.p v = b.p v ∨ (a.p v = pa v ∧ b.p v = pb v)

/-- A directed path `1 → 2 → ... → 2122219137` whose edges all weigh `2^31 - 1`. -/
def longPath : weightedGraph :=
  { V := 2122219137
    adj := fun u => if 1 ≤ u ∧ u < 2122219137 then [(u + 1, 2147483647)] else []
    directed := true }

end Dijkstra

end GraphBook

namespace GraphBook

/-! ## lcaSegmentTree.cpp

Vectors are embedded as lists; every indexed access is checked, and an access outside the
vector makes the operation return `none`. -/

namespace LcaSegmentTree

/-- `const int INF = 0x3f3f3f3f;` -/
def INF : Int := 0x3f3f3f3f

/-- `struct LCA`: the member vectors and sizes. -/
structure LCA where
  depth : List Int
  euler : List Nat
  firstFoundAt : List Nat
  segTree : List Nat
  visited : List Bool
  V : Nat
  segTreeSize : Nat
  deriving DecidableEq

/-- A checked write `a[i] = x`. -/
def store {α : Type} (a : List α) (i : Nat) (x : α) : Option (List α) :=
  if i < a.length then some (a.set i x) else none

/-- `LCA::eulerTourDFS(adj, u, parent)`; `fuel` bounds the depth of the recursion. -/
def eulerTourDFS (adj : List (List Nat)) : Nat → Nat → Nat → LCA → Option LCA
  | 0, _, _, _ => none
  | fuel + 1, u, parent, t => do
    let visited ← store t.visited u true
    let dp ← t.depth[parent]?
    let depth ← store t.depth u (dp + 1)
    let firstFoundAt ← store t.firstFoundAt u t.euler.length
    let t1 : LCA :=
      { t with visited := visited, depth := depth, firstFoundAt := firstFoundAt,
               euler := t.euler ++ [u] }
    let row ← adj[u]?
    row.foldlM
      (fun (t2 : LCA) (v : Nat) => do
        let seen ← t2.visited[v]?
        if !seen then
          let t3 ← eulerTourDFS adj fuel v u t2
          pure { t3 with euler := t3.euler ++ [u] }
        else pure t2)
      t1

/-- `for (sz = 1; sz < m; sz <<= 1);` started at `sz`, at most `fuel` tests of `sz < m`.
`sz` is an `int`: the shift wraps. -/
def sizeLoop (m : Int) : Nat → Int → Option Int
  | 0, _ => none
  | fuel + 1, sz => if sz < m then sizeLoop m fuel (wrap32 (sz * 2)) else some sz

/-- Body of `for (int i = sz - 1; i >= 1; --i)` for one `i`:
`segTree[i] = (depth[l] > depth[r] ? r : l)` with `l = segTree[2i]`, `r = segTree[2i+1]`. -/
def buildNode (depth : List Int) (seg : List Nat) (i : Nat) : Option (List Nat) := do
  let l ← seg[2 * i]?
  let r ← seg[2 * i + 1]?
  let dl ← depth[l]?
  let dr ← depth[r]?
  store seg i (if dl > dr then r else l)

/-- The constructor `LCA(adj, root)` on an object whose member `V` holds the value `v0`
before it is initialised.  Members are initialised in the order of their declaration, and
`depth`, `firstFoundAt` and `visited` are declared before `V`: the initialisers
`depth(V + 1)`, `firstFoundAt(V + 1)` and `visited(V + 1)` read `v0`, not `adj.size()`,
and a negative `V + 1` is no vector size.  `2 * V`, `m`, `sz` and `sz << 1` are `int`s; a
negative `2 * V` in `euler.reserve(2 * V)` or `sz << 1` in `segTree.resize(sz << 1)` is no
vector size either.  The traversal gets `adj.size() + 1` units of fuel: it
marks a new vertex with a row in `adj` at every call, so it cannot nest deeper; the loop
for `sz` stops within `euler.size() + 1` tests or never. -/
def LCA.construct (adj : List (List Nat)) (root : Nat) (v0 : Int) : Option LCA := do
  let cells ← if 0 ≤ wrap32 (v0 + 1) then some (wrap32 (v0 + 1)).toNat else none
  let t0 : LCA :=
    { depth := List.replicate cells 0, euler := [], firstFoundAt := List.replicate cells 0,
      segTree := [], visited := List.replicate cells false, V := adj.length,
      segTreeSize := 0 }
  let _ ← if 0 ≤ wrap32 (2 * wrap32 adj.length) then some () else none
  let depth0 ← store t0.depth root (-1)
  let t1 ← eulerTourDFS adj (adj.length + 1) root root { t0 with depth := depth0 }
  let depth1 ← store t1.depth 0 INF
  let m := wrap32 t1.euler.length
  let szInt ← sizeLoop m (t1.euler.length + 1) 1
  let size ← if 0 ≤ wrap32 (szInt * 2) then some (wrap32 (szInt * 2)).toNat else none
  let sz := szInt.toNat
  let seg0 : List Nat := List.replicate size 0
  let seg1 ← (List.range m.toNat).foldlM
    (fun (seg : List Nat) (i : Nat) => do
      let x ← t1.euler[i]?
      store seg (sz + i) x)
    seg0
  let seg2 ← ((List.range (sz - 1)).map fun k => sz - 1 - k).foldlM (buildNode depth1) seg1
  pure { t1 with depth := depth1, segTree := seg2, segTreeSize := size }

/-- The constructor `LCA(adj, root)` on an object whose member `V` happens to hold
`adj.size()` already when `depth`, `firstFoundAt` and `visited` are sized, so that they
get the `adj.size() + 1` cells that the initialiser list asks for. -/
def LCA.build (adj : List (List Nat)) (root : Nat) : Option LCA :=
  LCA.construct adj root adj.length

/-- `LCA::query(L, R, l, r, v)`; `fuel` bounds the depth of the recursion. -/
def LCA.query (t : LCA) : Nat → Int → Int → Int → Int → Nat → Option Nat
  | 0, _, _, _, _, _ => none
  | fuel + 1, L, R, l, r0, v =>
    let r := if r0 = -1 then r0 + t.segTreeSize else r0
    if R < l ∨ L > r then some 0
    else if L ≤ l ∧ R ≥ r then t.segTree[v]?
    else do
      let mid := l + (r - l) / 2
      let left ← t.query fuel L R l mid (2 * v)
      let right ← t.query fuel L R (mid + 1) r (2 * v + 1)
      let dl ← t.depth[left]?
      let dr ← t.depth[right]?
      pure (if dl > dr then right else left)

/-- `LCA::lca(u, v)`: `query(l, r)` with the default arguments `l = 0, r = -1, v = 1`. -/
def LCA.lca (t : LCA) (u v : Nat) : Option Nat := do
  let l ← t.firstFoundAt[u]?
  let r ← t.firstFoundAt[v]?
  if l > r then t.query (t.segTreeSize + 2) r l 0 (-1) 1
  else t.query (t.segTreeSize + 2) l r 0 (-1) 1

/-- The tree `1-2, 1-3, 2-4, 2-5` of the specification, as a 1-based adjacency list. -/
def exampleTree : List (List Nat) := [[], [2, 3], [1, 4, 5], [1], [2], [2]]

/-- The path `1-2-3-4`. -/
def pathTree : List (List Nat) := [[], [2], [1, 3], [2, 4], [3]]

/-- The tree with the single vertex 1. -/
def oneNode : List (List Nat) := [[], []]

end LcaSegmentTree

end GraphBook

namespace GraphBook

/-! ## lcaBinaryLift.cpp

Vertices are natural numbers; the vectors `tin`, `tout` and `adj` are embedded as functions
of the index, the table `ancestor` as a list of rows.  The clock `timer` and the time
stamps are `int`s. -/

namespace LcaBinaryLift

/-- Store `x` in cell `i` of a vector. -/
def setAt {α : Type} (a : Nat → α) (i : Nat) (x : α) : Nat → α :=
  fun j => if j = i then x else a j

/-- Read cell `[u][i]` of `ancestor`. -/
def getRow (a : List (List Nat)) (u i : Nat) : Nat :=
  (a.getD u []).getD i 0

/-- Store `x` in cell `[u][i]` of `ancestor`. -/
def setRow (a : List (List Nat)) (u i x : Nat) : List (List Nat) :=
  a.set u ((a.getD u []).set i x)

/-- `struct LCA`. -/
structure LCA where
  timer : Int
  L : Nat
  V : Nat
  tin : Nat → Int
  tout : Nat → Int
  ancestor : List (List Nat)

/-- `for (L = 1; L < V; L <<= 1);` started at `L`, at most `fuel` tests of `L < V`.  `L`
is an `int`: the shift wraps, so `2^30` becomes `-2^31` and then 0. -/
def levelLoop (V : Int) : Nat → Int → Option Int
  | 0, _ => none
  | fuel + 1, L => if L < V then levelLoop V fuel (wrap32 (L * 2)) else some L

/-- `for (int i = 1; i <= L; ++i) ancestor[u][i] = ancestor[ancestor[u][i - 1]][i - 1];` -/
def fillRow (L u : Nat) (a : List (List Nat)) : List (List Nat) :=
  (List.range L).foldl (fun a k => setRow a u (k + 1) (getRow a (getRow a u k) k)) a

/-- `LCA::dfs(adj, u, parent)`; `fuel` bounds the depth of the recursion.  `timer` is an
`int`: `++timer` wraps. -/
def dfs (adj : Nat → List Nat) : Nat → Nat → Nat → LCA → Option LCA
  | 0, _, _, _ => none
  | fuel + 1, u, parent, t =>
    let t1 : LCA :=
      { t with timer := wrap32 (t.timer + 1)
               tin := setAt t.tin u (wrap32 (t.timer + 1))
               ancestor := fillRow t.L u (setRow t.ancestor u 0 parent) }
    match (adj u).foldlM
        (fun (t2 : LCA) (v : Nat) => if v ≠ parent then dfs adj fuel v u t2 else some t2)
        t1 with
    | none => none
    | some t2 =>
      some { t2 with timer := wrap32 (t2.timer + 1)
                     tout := setAt t2.tout u (wrap32 (t2.timer + 1)) }

/-- The constructor `LCA(adj, _V, root)`, with
`ancestor.assign(V + 1, std::vector<int>(L + 1))`.  The loop for `L` either stops within
`V + 1` tests or never; a recursion deeper than `V + 1` calls has met some vertex twice
on one branch and never returns, so `V + 1` is all the fuel a returning run can use. -/
def LCA.build (adj : Nat → List Nat) (V root : Nat) : Option LCA :=
  match levelLoop V (V + 1) 1 with
  | none => none
  | some L =>
    dfs adj (V + 1) root root
      { timer := 0, L := L.toNat, V := V
        tin := fun _ => 0, tout := fun _ => 0
        ancestor := List.replicate (V + 1) (List.replicate (L.toNat + 1) 0) }

/-- `LCA::isAncestor(u, v)`. -/
def LCA.isAncestor (t : LCA) (u v : Nat) : Bool :=
  decide (t.tin u ≤ t.tin v) && decide (t.tout u ≥ t.tout v)

/-- Body of `for (int i = L; i >= 0; --i)` in `lca`. -/
def LCA.lift (t : LCA) (v : Nat) (u i : Nat) : Nat :=
  if !t.isAncestor (getRow t.ancestor u i) v then getRow t.ancestor u i else u

/-- `LCA::lca(u, v)`. -/
def LCA.lca (t : LCA) (u v : Nat) : Nat :=
  if t.isAncestor u v then u
  else if t.isAncestor v u then v
  else getRow t.ancestor (((List.range (t.L + 1)).map fun k => t.L - k).foldl (t.lift v) u) 0

/-- The tree `1-2, 1-3, 2-4, 2-5` of the specification. -/
def exampleAdj : Nat → List Nat :=
  fun u => [[], [2, 3], [1, 4, 5], [1], [2], [2]].getD u []

end LcaBinaryLift

end GraphBook

namespace GraphBook

namespace LcaBinaryLift

/-! ### Vocabulary of the LCA statements -/

/-- `v` is one of the vertices `1..V`. -/
def InTree (V v : Nat) : Prop := 1 ≤ v ∧ v ≤ V

instance (V v : Nat) : Decidable (InTree V v) := by
  unfold InTree
  infer_instance

/-- The adjacency lists `adj` describe the undirected tree on the vertices `1..V` which,
rooted at `root`, has the parent function `par` (the root is its own parent) and the depth
function `dep`: the neighbours of `u` are, each listed once, its parent and its children. -/
structure IsRootedTree (adj : Nat → List Nat) (V root : Nat) (par dep : Nat → Nat) : Prop where
  root_mem : InTree V root
  par_root : par root = root
  dep_root : dep root = 0
  par_mem : ∀ v, InTree V v → InTree V (par v)
  dep_par : ∀ v, InTree V v → v ≠ root → dep v = dep (par v) + 1
  nodup : ∀ u, InTree V u → (adj u).Nodup
  adj_iff : ∀ u v, InTree V u →
    (v ∈ adj u ↔ InTree V v ∧ ((v ≠ root ∧ par v = u) ∨ (u ≠ root ∧ par u = v)))

/-- `u` is an ancestor of `x` (possibly `x` itself): some number of parent steps leads from
`x` to `u`. -/
def IsAnc (par : Nat → Nat) (u x : Nat) : Prop := ∃ k, par^[k] x = u

/-- `l` is the tree path from `root` to `v`: a sequence of pairwise distinct vertices that
starts at `root`, ends at `v` and follows an edge at every step. -/
def RootPath (adj : Nat → List Nat) (root v : Nat) (l : List Nat) : Prop :=
  l.head? = some root ∧ l.getLast? = some v ∧ l.Chain' (fun a b => b ∈ adj a) ∧ l.Nodup

/-- `u` is an ancestor of `v` (possibly `v` itself): it lies on the tree path from `root`
to `v`. -/
def OnRootPath (adj : Nat → List Nat) (root u v : Nat) : Prop :=
  ∃ l, RootPath adj root v l ∧ u ∈ l

/-- `v` has depth `d`: the tree path from `root` to `v` has `d` edges. -/
def HasDepth (adj : Nat → List Nat) (root v d : Nat) : Prop :=
  ∃ l, RootPath adj root v l ∧ l.length = d + 1

/-- The adjacency lists `adj` are those of a tree on the vertices `1..V` rooted at `root`,
for some parent and depth functions. -/
def IsTree (adj : Nat → List Nat) (V root : Nat) : Prop :=
  ∃ par dep, IsRootedTree adj V root par dep

/-- `v` can be reached from `root` by following `n` edges. -/
def ReachIn (adj : Nat → List Nat) (root : Nat) : Nat → Nat → Prop
  | 0, v => v = root
  | n + 1, v => ∃ u, ReachIn adj root n u ∧ v ∈ adj u

/-- The ordered pairs `(u, v)` with `v` listed in `adj[u]`, for `u` in `1..V`. -/
def adjPairs (adj : Nat → List Nat) (V : Nat) : Finset (Nat × Nat) :=
  (Finset.Icc 1 V).biUnion (fun u => (adj u).toFinset.image (fun v => (u, v)))

/-- The ordered pairs `(par v, v)` and `(v, par v)` for the vertices `v` other than the
root. -/
def parPairs (par : Nat → Nat) (V root : Nat) : Finset (Nat × Nat) :=
  ((Finset.Icc 1 V).erase root).image (fun v => (par v, v)) ∪
    ((Finset.Icc 1 V).erase root).image (fun v => (v, par v))

/-- The adjacency lists `adj` describe an undirected tree on the vertices `1..V`: every
edge is listed once at each of its two ends, the graph is connected and it has `V - 1`
edges. -/
structure IsUndirectedTree (adj : Nat → List Nat) (V : Nat) : Prop where
  mem : ∀ u v, InTree V u → v ∈ adj u → InTree V v
  symm : ∀ u v, InTree V u → v ∈ adj u → u ∈ adj v
  nodup : ∀ u, InTree V u → (adj u).Nodup
  connected : ∀ u v, InTree V u → InTree V v →
    Relation.ReflTransGen (fun a b => b ∈ adj a) u v
  edges : (Finset.Icc 1 V).sum (fun u => (adj u).length) = 2 * (V - 1)

/-- The table has `V + 1` rows of `L + 1` entries. -/
def Shape (a : List (List Nat)) (V L : Nat) : Prop :=
  a.length = V + 1 ∧ ∀ u, u ≤ V → (a.getD u []).length = L + 1

/-- Row `x` of the table holds the `2^i`-th ancestors of `x`, for `i = 0..L`. -/
def RowOK (par : Nat → Nat) (L : Nat) (a : List (List Nat)) (x : Nat) : Prop :=
  ∀ i, i ≤ L → getRow a x i = par^[2 ^ i] x

/-- The time stamps of the vertices below `u` fit into an `int` when the clock shows
`timer`: two stamps for each vertex of any finite set of vertices below `u`. -/
def Room (par : Nat → Nat) (V : Nat) (timer : Int) (u : Nat) : Prop :=
  ∀ S : Finset Nat, (∀ x ∈ S, InTree V x ∧ IsAnc par u x) →
    timer + 2 * (S.card : Int) < 2 ^ 31

/-- The first time stamp of `u` and the time stamps of the vertices properly below `u` fit
into an `int` when the clock shows `timer`; the last stamp of `u` may not. -/
def RoomBelow (par : Nat → Nat) (V : Nat) (timer : Int) (u : Nat) : Prop :=
  ∀ S : Finset Nat, (∀ x ∈ S, InTree V x ∧ IsAnc par u x ∧ x ≠ u) →
    timer + 1 + 2 * (S.card : Int) < 2 ^ 31

/-- What a call `dfs(adj, u, parent)` that starts in state `t` and returns in state `t'`
has done: it has stamped the vertices below `u`, and only those, with nested intervals
inside `(t.timer, t'.timer]` and has filled their rows of the table. -/
structure DfsPost (par : Nat → Nat) (V L : Nat) (t t' : LCA) (u : Nat) : Prop where
  hL : t'.L = t.L
  shape : Shape t'.ancestor V L
  timer : t.timer < t'.timer
  tin_u : t'.tin u = t.timer + 1
  tout_u : t'.tout u = t'.timer
  frame : ∀ x, ¬ IsAnc par u x →
    t'.tin x = t.tin x ∧ t'.tout x = t.tout x ∧
      ∀ i, getRow t'.ancestor x i = getRow t.ancestor x i
  below : ∀ x, InTree V x → IsAnc par u x →
    t.timer < t'.tin x ∧ t'.tin x < t'.tout x ∧ t'.tout x ≤ t'.timer ∧
      RowOK par L t'.ancestor x
  nest : ∀ x y, InTree V x → InTree V y → IsAnc par u x → IsAnc par u y →
    ((t'.tin x ≤ t'.tin y ∧ t'.tout y ≤ t'.tout x) ↔ IsAnc par x y)
  count : ∃ S : Finset Nat, (∀ x, x ∈ S ↔ InTree V x ∧ IsAnc par u x) ∧
    t'.timer = t.timer + 2 * (S.card : Int)

/-- Invariant of the loop `for (int v : adj[u])` of `dfs`, after the neighbours `done`
have been handled; `t` is the state in which `dfs(adj, u, parent)` was entered. -/
structure DfsLoop (par : Nat → Nat) (V L : Nat) (t t2 : LCA) (u : Nat) (done : List Nat) :
    Prop where
  hL : t2.L = t.L
  shape : Shape t2.ancestor V L
  timer : t.timer + 1 ≤ t2.timer
  tin_u : t2.tin u = t.timer + 1
  row_u : RowOK par L t2.ancestor u
  frame : ∀ x, x ≠ u → (∀ c ∈ done, c ≠ par u → ¬ IsAnc par c x) →
    t2.tin x = t.tin x ∧ t2.tout x = t.tout x ∧
      ∀ i, getRow t2.ancestor x i = getRow t.ancestor x i
  below : ∀ c ∈ done, c ≠ par u → ∀ x, InTree V x → IsAnc par c x →
    t.timer + 1 < t2.tin x ∧ t2.tin x < t2.tout x ∧ t2.tout x ≤ t2.timer ∧
      RowOK par L t2.ancestor x
  nest : ∀ c ∈ done, c ≠ par u → ∀ c' ∈ done, c' ≠ par u →
    ∀ x y, InTree V x → InTree V y → IsAnc par c x → IsAnc par c' y →
      ((t2.tin x ≤ t2.tin y ∧ t2.tout y ≤ t2.tout x) ↔ IsAnc par x y)
  count : ∃ S : Finset Nat,
    (∀ x, x ∈ S ↔ InTree V x ∧ ∃ c ∈ done, c ≠ par u ∧ IsAnc par c x) ∧
    t2.timer = t.timer + 1 + 2 * (S.card : Int)

/-- The structure in which the constructor calls `dfs`: the clock at 0, the vectors
filled with zeros, `L` levels. -/
def initial (V L : Nat) : LCA :=
  { timer := 0, L := L, V := V
    tin := fun _ => 0, tout := fun _ => 0
    ancestor := List.replicate (V + 1) (List.replicate (L + 1) 0) }

/-- The tree on the vertices `1..n` in which 1 is joined to 2 and 2 to each of `3..n`. -/
def broomAdj (n : Nat) : Nat → List Nat :=
  fun u =>
    if u = 1 then [2]
    else if u = 2 then 1 :: List.range' 3 (n - 2)
    else if 3 ≤ u ∧ u ≤ n then [2] else []

/-- Parent function of `broomAdj n` rooted at 1. -/
def broomPar : Nat → Nat := fun v => if v ≤ 2 then 1 else 2

/-- Depth function of `broomAdj n` rooted at 1. -/
def broomDep : Nat → Nat := fun v => if v ≤ 1 then 0 else if v = 2 then 1 else 2

/-- The star on the vertices `1..n`: vertex 1 is joined to each of `2..n`. -/
def starAdj (n : Nat) : Nat → List Nat :=
  fun u => if u = 1 then List.range' 2 (n - 1) else if 2 ≤ u ∧ u ≤ n then [1] else []

/-- Parent function of the example tree rooted at 1. -/
def examplePar : Nat → Nat := fun v => [0, 1, 1, 1, 2, 2].getD v 0

/-- Depth function of the example tree rooted at 1. -/
def exampleDep : Nat → Nat := fun v => [0, 0, 1, 1, 2, 2].getD v 0

end LcaBinaryLift

end GraphBook

namespace GraphBook

namespace LcaSegmentTree

open LcaBinaryLift (InTree IsAnc)

/-! ### Vocabulary of the Euler tour and segment tree statements -/

/-- The neighbours of `u` in the vector of rows `adj`. -/
def adjOf (adj : List (List Nat)) : Nat → List Nat := fun u => adj.getD u []

/-- The state in which the constructor calls `eulerTourDFS(adj, root, root)` when `depth`,
`firstFoundAt` and `visited` have `cells` cells: nothing is marked, the tour is empty and
`depth[root]` is `-1`. -/
def start (adj : List (List Nat)) (root cells : Nat) : LCA :=
  { depth := (List.replicate cells 0).set root (-1), euler := [],
    firstFoundAt := List.replicate cells 0, segTree := [],
    visited := List.replicate cells false, V := adj.length, segTreeSize := 0 }

/-- The star on the vertices `1..n` as a 1-based vector of rows. -/
def starTree (n : Nat) : List (List Nat) :=
  (List.range (n + 1)).map (LcaBinaryLift.starAdj n)

/-- The state after the first four statements of `eulerTourDFS(adj, u, parent)`, with `dp`
the value read from `depth[parent]`. -/
def enter (t : LCA) (u : Nat) (dp : Int) : LCA :=
  { t with visited := t.visited.set u true, depth := t.depth.set u (dp + 1),
           firstFoundAt := t.firstFoundAt.set u t.euler.length, euler := t.euler ++ [u] }

/-- The body of the loop `for (int v : adj[u])` of `eulerTourDFS`. -/
def visit (adj : List (List Nat)) (fuel u : Nat) (t2 : LCA) (v : Nat) : Option LCA := do
  let seen ← t2.visited[v]?
  if !seen then
    let t3 ← eulerTourDFS adj fuel v u t2
    pure { t3 with euler := t3.euler ++ [u] }
  else pure t2

/-- `x` is `u` or lies below one of the children of `u` listed in `done`. -/
def Covered (par : Nat → Nat) (u : Nat) (done : List Nat) (x : Nat) : Prop :=
  x = u ∨ ∃ c ∈ done, c ≠ par u ∧ IsAnc par c x

/-- The cells of the vertex `x` are filled: it is marked, its depth is stored, it occurs in
the tour and `firstFoundAt[x]` is the index of its first occurrence. -/
structure Cells (dep : Nat → Nat) (t : LCA) (x : Nat) : Prop where
  visited : t.visited[x]? = some true
  depth : t.depth[x]? = some (dep x : Int)
  mem : x ∈ t.euler
  first : t.firstFoundAt[x]? = some (t.euler.indexOf x)

/-- The cells with index `x` are the same in `t` and `t1`. -/
structure Same (t t1 : LCA) (x : Nat) : Prop where
  visited : t1.visited[x]? = t.visited[x]?
  depth : t1.depth[x]? = t.depth[x]?
  first : t1.firstFoundAt[x]? = t.firstFoundAt[x]?

/-- What a call of `eulerTourDFS` on `u` entered in state `t` has done when it is in state
`t1` and has dealt with the vertices of the region `P`: it has appended `tour` to `euler`,
a walk from `u` to `u` through the region, with two entries per vertex of the region less
one; it has filled the cells of the region and left the others alone. -/
structure TourInv (adjf : Nat → List Nat) (dep : Nat → Nat) (n : Nat) (P : Nat → Prop)
    (t t1 : LCA) (u : Nat) (tour : List Nat) : Prop where
  euler : t1.euler = t.euler ++ tour
  head : tour.head? = some u
  last : tour.getLast? = some u
  chain : tour.Chain' (fun a b => b ∈ adjf a)
  visited_len : t1.visited.length = t.visited.length
  depth_len : t1.depth.length = t.depth.length
  first_len : t1.firstFoundAt.length = t.firstFoundAt.length
  mem : ∀ x ∈ tour, InTree n x ∧ P x
  count : ∃ S : Finset Nat, (∀ x, x ∈ S ↔ InTree n x ∧ P x) ∧ tour.length + 1 = 2 * S.card
  frame : ∀ x, ¬ P x → Same t t1 x
  below : ∀ x, InTree n x → P x → Cells dep t1 x

/-- What `eulerTourDFS(adj, u, parent)` needs of the state `t` it is called in: the
vectors have a cell for every vertex, the vertices below `u` are unmarked and not yet in
the tour, the parent of `u` is marked and `depth[parent]` is one less than the depth of
`u`. -/
structure TourPre (par dep : Nat → Nat) (n root : Nat) (t : LCA) (u : Nat) : Prop where
  visited_len : n < t.visited.length
  depth_len : n < t.depth.length
  first_len : n < t.firstFoundAt.length
  fresh : ∀ x, InTree n x → IsAnc par u x → t.visited[x]? = some false ∧ x ∉ t.euler
  parent_seen : u ≠ root → t.visited[par u]? = some true
  parent_depth : t.depth[par u]? = some ((dep u : Int) - 1)

/-- Node `i` of the segment tree `s` holds whichever of its two children's vertices has
the smaller depth, as assigned by `segTree[i] = (depth[l] > depth[r] ? r : l)`. -/
def NodeOK (depth : List Int) (s : List Nat) (i : Nat) : Prop :=
  ∃ l r dl dr, s[2 * i]? = some l ∧ s[2 * i + 1]? = some r ∧ depth[l]? = some dl ∧
    depth[r]? = some dr ∧ s[i]? = some (if dl > dr then r else l)

/-- Node `i` of the segment tree `s` holds the vertex of one of the leaves `lo..hi-1`, and
no vertex held by these leaves has a smaller depth. -/
def MinLeaf (depth : List Int) (s : List Nat) (i lo hi : Nat) : Prop :=
  ∃ j x dx, lo ≤ j ∧ j < hi ∧ s[i]? = some x ∧ s[j]? = some x ∧ depth[x]? = some dx ∧
    ∀ j2, lo ≤ j2 → j2 < hi → ∃ y dy, s[j2]? = some y ∧ depth[y]? = some dy ∧ dx ≤ dy

/-- The segment tree `seg` with `sz` leaves built over the tour `euler`: the tour fills
the first leaves, the other leaves hold 0, every entry has a cell in `depth` and every
internal node holds the better of its children. -/
structure SegOK (euler : List Nat) (depth : List Int) (seg : List Nat) (sz : Nat) : Prop where
  len : seg.length = 2 * sz
  leaves : ∀ i, i < euler.length → seg[sz + i]? = euler[i]?
  padding : ∀ i, euler.length ≤ i → i < sz → seg[sz + i]? = some 0
  bound : ∀ (j x : Nat), seg[j]? = some x → x < depth.length
  nodes : ∀ j, 1 ≤ j → j < sz → NodeOK depth seg j

end LcaSegmentTree

end GraphBook

namespace GraphBook

/-! ## kruskal.cpp

The arrays `parent` and `size` are embedded as functions of the index. -/

namespace Kruskal

/-- `struct Edge { int u, v, weight; }`. -/
structure Edge where
  u : Nat
  v : Nat
  weight : Int
deriving DecidableEq

/-- The order used by `std::sort`, from `Edge::operator<`: by weight alone. -/
def weightLe (a b : Edge) : Prop := a.weight ≤ b.weight

instance : DecidableRel weightLe := fun a b => by
  unfold weightLe
  infer_instance

/-- Store `x` in cell `i` of an array. -/
def setAt (a : Nat → Nat) (i x : Nat) : Nat → Nat :=
  fun j => if j = i then x else a j

/-- `struct DisjointSetUnion`. -/
structure DisjointSetUnion where
  n : Nat
  parent : Nat → Nat
  size : Nat → Nat

/-- `DisjointSetUnion(int _n)`: zero-filled arrays of `n + 1` cells, then
`parent[i] = i; size[i] = 1;` for `i = 1..n`. -/
def DisjointSetUnion.new (n : Nat) : DisjointSetUnion :=
  { n := n
    parent := fun i => if 1 ≤ i ∧ i ≤ n then i else 0
    size := fun i => if 1 ≤ i ∧ i ≤ n then 1 else 0 }

/-- `DisjointSetUnion::findSet(v)`, with path compression; `fuel` bounds the depth of the
recursion. -/
def findSet : Nat → DisjointSetUnion → Nat → Option (DisjointSetUnion × Nat)
  | 0, _, _ => none
  | fuel + 1, s, v =>
    if v = s.parent v then some (s, v)
    else
      match findSet fuel s (s.parent v) with
      | none => none
      | some (s1, r) => some ({ s1 with parent := setAt s1.parent v r }, r)

/-- The linking step of `unionSets`, for two distinct representatives:
`if (size[a] < size[b]) std::swap(a, b); parent[b] = a; size[a] += size[b]; size[b] = 0;` -/
def link (s : DisjointSetUnion) (a b : Nat) : DisjointSetUnion :=
  if s.size a < s.size b then
    { s with parent := setAt s.parent a b
             size := setAt (setAt s.size b (s.size b + s.size a)) a 0 }
  else
    { s with parent := setAt s.parent b a
             size := setAt (setAt s.size a (s.size a + s.size b)) b 0 }

/-- `DisjointSetUnion::unionSets(a, b)`. -/
def unionSets (fuel : Nat) (s : DisjointSetUnion) (a b : Nat) :
    Option (DisjointSetUnion × Bool) :=
  match findSet fuel s a with
  | none => none
  | some (s1, a1) =>
    match findSet fuel s1 b with
    | none => none
    | some (s2, b1) => if a1 ≠ b1 then some (link s2 a1 b1, true) else some (s2, false)

/-- The loop `for (Edge e : edges)` of `kruskalMST`, on the sorted container. -/
def kruskalLoop (fuel : Nat) : List Edge → DisjointSetUnion → Int → Option Int
  | [], _, sumMST => some sumMST
  | e :: es, dsu, sumMST =>
    match unionSets fuel dsu e.u e.v with
    | none => none
    | some (dsu1, true) => kruskalLoop fuel es dsu1 (sumMST + e.weight)
    | some (dsu1, false) => kruskalLoop fuel es dsu1 sumMST

/-- `kruskalMST` after `std::sort` has left the container in the order `sorted`.  A
`findSet` recursion deeper than `V + 1` calls has met a vertex twice and never returns, so
`V + 1` is all the fuel a returning run can use. -/
def kruskalSorted (sorted : List Edge) (V : Nat) : Option Int :=
  kruskalLoop (V + 1) sorted (DisjointSetUnion.new V) 0

/-- `kruskalMST(edges, V)`, with insertion sort as the sorting procedure.  `std::sort` may
leave edges of equal weight in any order; the theorems cover every sorted arrangement. -/
def kruskalMST (edges : List Edge) (V : Nat) : Option Int :=
  kruskalSorted (edges.insertionSort weightLe) V

/-- The example graph: edges `(1,2,4)`, `(2,3,1)`, `(1,3,5)`, `(3,4,2)`. -/
def exampleEdges : List Edge := [⟨1, 2, 4⟩, ⟨2, 3, 1⟩, ⟨1, 3, 5⟩, ⟨3, 4, 2⟩]

end Kruskal

end GraphBook

namespace GraphBook

namespace Kruskal

/-! ### Vocabulary of the spanning-tree statements -/

/-- `v` is one of the vertices `1..V`. -/
def InV (V v : Nat) : Prop := 1 ≤ v ∧ v ≤ V

instance (V v : Nat) : Decidable (InV V v) := by
  unfold InV
  infer_instance

instance : IsTotal Edge weightLe := ⟨fun a b => le_total a.weight b.weight⟩

instance : IsTrans Edge weightLe := ⟨fun _ _ _ h1 h2 => le_trans h1 h2⟩

/-- Both endpoints of every edge are vertices `1..V`. -/
def EdgesIn (V : Nat) (es : List Edge) : Prop := ∀ e ∈ es, InV V e.u ∧ InV V e.v

/-- `a` and `b` are joined by a sequence of edges of `es`, used in either direction. -/
def Conn (es : List Edge) : Nat → Nat → Prop :=
  Relation.EqvGen fun a b => ∃ e ∈ es, e.u = a ∧ e.v = b

/-- The edges `es` connect the vertices `1..V`. -/
def Connected (V : Nat) (es : List Edge) : Prop := ∀ a b, InV V a → InV V b → Conn es a b

/-- Sum of the weights of a list of edges. -/
def weightSum (es : List Edge) : Int := (es.map fun e => e.weight).sum

/-- `T` is a spanning tree of the graph `edges` on the vertices `1..V`: a selection of
`V - 1` of the edges (each edge record used at most as often as it is listed) that
connects all the vertices. -/
def IsSpanningTree (edges : List Edge) (V : Nat) (T : List Edge) : Prop :=
  T.Subperm edges ∧ T.length + 1 = V ∧ Connected V T

/-! ### A partition given by a representative function -/

/-- Merge the class of `b` into the class of `a`. -/
def merge (r : Nat → Nat) (a b : Nat) : Nat → Nat :=
  fun v => if r v = r b then r a else r v

/-- Kruskal's greedy choice on a partition given by representatives: the sum of the
weights of the edges that join two classes when their turn comes. -/
def kruskalFlat : (Nat → Nat) → List Edge → Int
  | _, [] => 0
  | r, e :: es =>
    if r e.u = r e.v then kruskalFlat r es
    else e.weight + kruskalFlat (merge r e.u e.v) es

/-- The partition after all the edges have been merged in. -/
def flatFinal : (Nat → Nat) → List Edge → Nat → Nat
  | r, [] => r
  | r, e :: es => flatFinal (merge r e.u e.v) es

/-- Number of classes of the partition on `1..V`: the representatives are the fixed
points. -/
def classes (V : Nat) (r : Nat → Nat) : Nat :=
  ((Finset.Icc 1 V).filter fun v => r v = v).card

/-- `r` picks a representative in each class and keeps the vertices `1..V` together. -/
structure Flat (V : Nat) (r : Nat → Nat) : Prop where
  idem : ∀ v, r (r v) = r v
  mem : ∀ v, InV V v → InV V (r v)

/-- `a` and `b` are joined by steps that stay in a class of `r` or follow an edge of
`es`. -/
def ConnR (r : Nat → Nat) (es : List Edge) : Nat → Nat → Prop :=
  Relation.EqvGen fun a b => r a = r b ∨ ∃ e ∈ es, e.u = a ∧ e.v = b

/-! ### The forest of the disjoint-set structure -/

/-- `r` is the representative of `v`: following `parent` from `v` leads to `r`, which is
its own parent. -/
def IsRootOf (s : DisjointSetUnion) (v r : Nat) : Prop :=
  s.parent r = r ∧ ∃ k, s.parent^[k] v = r

/-- `x` and `y` are in the same set. -/
def Same (s : DisjointSetUnion) (x y : Nat) : Prop :=
  ∃ r, IsRootOf s x r ∧ IsRootOf s y r

/-- Invariant of the structure: parents of vertices are vertices, and following `parent`
climbs strictly for some ranking until a representative is reached. -/
structure DInv (V : Nat) (s : DisjointSetUnion) : Prop where
  mem : ∀ v, InV V v → InV V (s.parent v)
  ranked : ∃ rank : Nat → Nat, ∀ v, InV V v → s.parent v ≠ v → rank v < rank (s.parent v)

/-- The sets of the structure `s` are the classes of `r`. -/
def Corr (V : Nat) (s : DisjointSetUnion) (r : Nat → Nat) : Prop :=
  ∀ x y, InV V x → InV V y → (Same s x y ↔ r x = r y)

end Kruskal

end GraphBook

namespace GraphBook

/-! ## prim.hpp -/

namespace Prim

/-- The locals of `PrimMST`: the sum, the counter, the `visited` vector and the queue `pQ`
of pairs (edge weight, vertex). -/
structure State where
  sumMST : Int
  weightCount : Int
  visited : Int → Bool
  pQ : List Edge

/-- Body of `for (Edge e : adj[u])`:
`int v = e.first; if (visited[v]) continue; pQ.push(Edge(e.second, v));` -/
def push (st : State) (e : Edge) : State :=
  if st.visited e.1 then st else { st with pQ := (e.2, e.1) :: st.pQ }

/-- The `while (not pQ.empty())` loop of `PrimMST`; `pQ.top()` of the
`std::greater` queue is the least pair. -/
def loop (g : weightedGraph) : Nat → State → Option State
  | 0, _ => none
  | fuel + 1, st =>
    match Dijkstra.top st.pQ with
    | none => some st
    | some E =>
      let st1 : State := { st with pQ := st.pQ.erase E }
      if st1.visited E.2 then loop g fuel st1
      else
        let st2 : State :=
          { st1 with visited := setCell st1.visited E.2 true
                     sumMST := st1.sumMST + E.1
                     weightCount := st1.weightCount + 1 }
        if st2.weightCount = g.V then some st2
        else loop g fuel ((g.adj E.2).foldl push st2)

/-- State of `PrimMST` when the loop is entered, after `pQ.push(Edge(0, 1))`. -/
def initState : State :=
  { sumMST := 0, weightCount := 0, visited := fun _ => false, pQ := [(0, 1)] }

/-- `Prim::PrimMST()`: the returned `sumMST`. -/
def PrimMST (g : weightedGraph) (fuel : Nat) : Option Int :=
  (loop g fuel initState).map fun st => st.sumMST

end Prim

end GraphBook

namespace GraphBook

namespace Prim

/-! ### Vocabulary of the statements about `PrimMST` -/

/-- The call `addEgde(u, v, weight)` that inserts an edge of the edge list. -/
def toCall (e : Kruskal.Edge) : Int × Int × Int := ((e.u : Int), (e.v : Int), e.weight)

/-- The undirected `weightedGraph` on `V` vertices built through `addEgde` from a list of
edges. -/
def graphOf (V : Nat) (edges : List Kruskal.Edge) : weightedGraph :=
  (weightedGraph.new V false).addEdges (edges.map toCall)

/-- The partition that `visited` stands for: the visited vertices form the class of vertex
1, every other vertex is a class of its own. -/
def rep (visited : Int → Bool) : Nat → Nat := fun x => if visited x then 1 else x

/-- Work left for the loop: one unit for each queue entry and, for each vertex not yet
visited, one unit for its visit and one for each record it will push. -/
def potential (g : weightedGraph) (V : Nat) (st : State) : Nat :=
  st.pQ.length +
    (Finset.Icc 1 V).sum fun x : Nat => if st.visited x then 0 else (g.adj x).length + 1

/-- The value `w` is the weight of a minimum spanning tree of the graph `edges` on the
vertices `1..V`. -/
def IsMinWeight (edges : List Kruskal.Edge) (V : Nat) (w : Int) : Prop :=
  (∃ T, Kruskal.IsSpanningTree edges V T ∧ Kruskal.weightSum T = w) ∧
    ∀ T, Kruskal.IsSpanningTree edges V T → w ≤ Kruskal.weightSum T

/-- What the sum, the counter and `visited` satisfy once vertex 1 has been visited; `F`
lists the edges through which the other visited vertices were reached.  The last field
is the exchange property: every spanning tree can be traded for one that continues the
visited part and is no heavier. -/
structure PCore (edges : List Kruskal.Edge) (V : Nat) (F : List Kruskal.Edge) (st : State) :
    Prop where
  vis_in : ∀ x : Nat, st.visited x = true → Kruskal.InV V x
  vis_one : st.visited 1 = true
  count : st.weightCount + Kruskal.classes V (rep st.visited) = V + 1
  sum : st.sumMST = Kruskal.weightSum F
  nodup : F.Nodup
  sub : ∀ f ∈ F, f ∈ edges
  ends : ∀ f ∈ F, st.visited f.u = true ∧ st.visited f.v = true
  len : (F.length : Int) + 1 = st.weightCount
  conn : ∀ x : Nat, st.visited x = true → Kruskal.Conn F 1 x
  lower : ∀ T, Kruskal.IsSpanningTree edges V T →
    ∃ T' : List Kruskal.Edge, T'.Subperm edges ∧
      T'.length + 1 = Kruskal.classes V (rep st.visited) ∧
      (∀ x y, Kruskal.InV V x → Kruskal.InV V y → Kruskal.ConnR (rep st.visited) T' x y) ∧
      st.sumMST + Kruskal.weightSum T' ≤ Kruskal.weightSum T

/-- What the queue holds, for the vertices marked in `vis`: every entry stands for an edge
from a marked vertex to the entry's vertex, and every edge from a marked vertex to an
unmarked vertex other than `skip` has its entry. -/
structure PQueue (edges : List Kruskal.Edge) (vis : Int → Bool) (skip : Int)
    (pQ : List Edge) : Prop where
  sound : ∀ m ∈ pQ, ∃ e ∈ edges, e.weight = m.1 ∧
    (((e.v : Int) = m.2 ∧ vis e.u = true) ∨ ((e.u : Int) = m.2 ∧ vis e.v = true))
  complete : ∀ e ∈ edges,
    (vis e.u = true → vis e.v = false → (e.v : Int) ≠ skip →
      (e.weight, (e.v : Int)) ∈ pQ) ∧
    (vis e.v = true → vis e.u = false → (e.u : Int) ≠ skip →
      (e.weight, (e.u : Int)) ∈ pQ)

end Prim

end GraphBook

namespace GraphBook

/-! ## topoSortUsingDFS.cpp -/

/-- The values of `for (Vertex i = Vertex(1); i <= V; ++i)`. -/
def vertices (V : Int) : List Int := (List.range V.toNat).map fun (k : Nat) => (k : Int) + 1

/-- What `topologicalSort` prints: the error message `err`, or the vertices of the
ordering. -/
inductive Printed where
  | message : Printed
  | ordering : List Int → Printed
  deriving DecidableEq

namespace TopoSortDFS

/-- The containers that `topoSortUtil` works on: `order` and `visited`. -/
structure State where
  order : List Int
  visited : Int → Bool

/-- `topoSortUtil(G, u, order, visited)`; `fuel` bounds the depth of the recursion. -/
def topoSortUtil (G : Graph) : Nat → Int → State → Option State
  | 0, _, _ => none
  | fuel + 1, u, st => do
    let st1 : State := { st with visited := setCell st.visited u true }
    let st2 ← (G.adj u).foldlM
      (fun (s : State) (v : Int) => if !s.visited v then topoSortUtil G fuel v s else pure s)
      st1
    pure { st2 with order := st2.order ++ [u] }

/-- `int pos[V + 1]={}; int p = 0; for (Vertex u : topologicalOrdering) { pos[u] = p; ++p; }` -/
def assignPos (l : List Int) : Int → Int :=
  (l.foldl (fun (acc : (Int → Int) × Int) (u : Int) => (setCell acc.1 u acc.2, acc.2 + 1))
    (fun _ => 0, 0)).1

/-- `topologicalSort(G, err)`; every call of `topoSortUtil` gets `fuel`. -/
def topologicalSort (G : Graph) (fuel : Nat) : Option Printed := do
  let st ← (vertices G.V).foldlM
    (fun (s : State) (i : Int) => if !s.visited i then topoSortUtil G fuel i s else pure s)
    { order := [], visited := fun _ => false }
  let topologicalOrdering := st.order.reverse
  let pos := assignPos topologicalOrdering
  if (vertices G.V).any fun i => (G.adj i).any fun v => decide (pos v < pos i) then
    pure Printed.message
  else
    pure (Printed.ordering topologicalOrdering)

/-- The directed graph with the single vertex 1 and the edge `1 -> 1`. -/
def selfLoop : Graph := (Graph.new 1 true).addEdge 1 1

/-- The directed graph on the vertices `1..4` with the adjacency lists that the calls
`addEdge(1, 2)`, `addEdge(1, 3)`, `addEdge(3, 2)`, `addEdge(2, 4)` leave. -/
def exampleDag : Graph :=
  { V := 4
    adj := fun u => if u = 1 then [2, 3] else if u = 2 then [4] else if u = 3 then [2] else []
    directed := true }

end TopoSortDFS

end GraphBook

namespace GraphBook

/-! ### Vocabulary of the statements about topological orderings -/

/-- The graph has the edge `u -> v`, with `u` one of the vertices `1..V`. -/
def Graph.HasEdge (G : Graph) (u v : Int) : Prop := (1 ≤ u ∧ u ≤ G.V) ∧ v ∈ G.adj u

/-- The graph is a graph on the vertices `1..V`: the edges that leave these vertices lead
to these vertices. -/
def Graph.OnVertices (G : Graph) : Prop := ∀ u v, G.HasEdge u v → 1 ≤ v ∧ v ≤ G.V

/-- The graph has no directed cycle; a self-loop is a cycle of length 1. -/
def Graph.Acyclic (G : Graph) : Prop := ∀ u, ¬ Relation.TransGen G.HasEdge u u

/-- The list `l` is a permutation of `1..V` in which every edge leads forward. -/
def Graph.IsTopologicalOrder (G : Graph) (l : List Int) : Prop :=
  l.Nodup ∧ (∀ x, x ∈ l ↔ 1 ≤ x ∧ x ≤ G.V) ∧
    ∀ u v, G.HasEdge u v → l.indexOf u < l.indexOf v

namespace TopoSortDFS

/-- Number of vertices `1..V` not yet marked in `visited`. -/
def unvisited (V : Int) (vis : Int → Bool) : Nat :=
  ((Finset.Icc 1 V).filter fun x => vis x = false).card

/-- Invariant of the traversal: `order` lists finished vertices once each, and every edge
that leaves a finished vertex leads to a vertex finished earlier, or to a vertex from which
the finished one can be reached. -/
structure TInv (G : Graph) (st : State) : Prop where
  nodup : st.order.Nodup
  mem : ∀ x ∈ st.order, st.visited x = true
  vis_in : ∀ x, st.visited x = true → 1 ≤ x ∧ x ≤ G.V
  closed : ∀ x ∈ st.order, ∀ y ∈ G.adj x,
    (y ∈ st.order ∧ st.order.indexOf y < st.order.indexOf x) ∨
      Relation.ReflTransGen G.HasEdge y x

/-- The vertices that are marked but not finished (the calls in progress) all reach `u`. -/
def GrayReach (G : Graph) (st : State) (u : Int) : Prop :=
  ∀ g, st.visited g = true → g ∉ st.order → Relation.ReflTransGen G.HasEdge g u

/-- How the state grows during calls: `order` is extended by vertices that were not marked,
and the marks added are those of the new entries of `order`. -/
structure Grow (st st' : State) : Prop where
  order : ∃ new, st'.order = st.order ++ new
  visited : ∀ x, st'.visited x = true ↔ st.visited x = true ∨ x ∈ st'.order
  fresh : ∀ x ∈ st'.order, x ∈ st.order ∨ st.visited x = false

end TopoSortDFS

end GraphBook

namespace GraphBook

/-! ## topoSortUsingKahn.cpp -/

namespace TopoSortKahn

/-- The containers of `topologicalSort`: `inDegree`, the queue `Q` (front first) and
`topologicalOrdering`. -/
structure State where
  inDegree : Int → Int
  Q : List Int
  topologicalOrdering : List Int

/-- The loop that counts incoming edges:
`for (Vertex u = Vertex(1); u <= V; ++u) for (Vertex v : adj) inDegree[v]++;`
on `Vertex inDegree[V + 1]={}`.  The counters are `int`s: `++` wraps. -/
def countIn (G : Graph) : Int → Int :=
  (vertices G.V).foldl
    (fun (d : Int → Int) (u : Int) =>
      (G.adj u).foldl (fun (d : Int → Int) (v : Int) => setCell d v (wrap32 (d v + 1))) d)
    (fun _ => 0)

/-- Body of `for (Vertex v : adj)` in the main loop:
`--inDegree[v]; if (inDegree[v] == 0) Q.push(v);` with the `int` counter wrapping. -/
def release (st : State) (v : Int) : State :=
  if wrap32 (st.inDegree v - 1) = 0 then
    { st with inDegree := setCell st.inDegree v (wrap32 (st.inDegree v - 1)),
              Q := st.Q ++ [v] }
  else
    { st with inDegree := setCell st.inDegree v (wrap32 (st.inDegree v - 1)) }

/-- The loop `while (not Q.empty())`. -/
def loop (G : Graph) : Nat → State → Option State
  | 0, _ => none
  | fuel + 1, st =>
    match st.Q with
    | [] => some st
    | u :: rest =>
      loop G fuel
        ((G.adj u).foldl release
          { st with Q := rest, topologicalOrdering := st.topologicalOrdering ++ [u] })

/-- State when the main loop is entered: the vertices with in-degree 0 are queued in
increasing order. -/
def initState (G : Graph) : State :=
  { inDegree := countIn G
    Q := (vertices G.V).filter fun u => decide (countIn G u = 0)
    topologicalOrdering := [] }

/-- `topologicalSort(G, err)`. -/
def topologicalSort (G : Graph) (fuel : Nat) : Option Printed :=
  (loop G fuel (initState G)).map fun st =>
    if (st.topologicalOrdering.length : Int) ≠ G.V then Printed.message
    else Printed.ordering st.topologicalOrdering

/-- The directed graph on the vertices 1, 2 with `n` records of the edge `1 -> 2`, as `n`
calls `addEdge(1, 2)` build it. -/
def parallelEdges (n : Nat) : Graph :=
  { V := 2, directed := true, adj := fun u => if u = 1 then List.replicate n 2 else [] }

/-- The directed graph on the vertices 1, 2 with `2^32` records of the edge `1 -> 2`. -/
def manyEdges : Graph := parallelEdges (2 ^ 32)

end TopoSortKahn

end GraphBook

namespace GraphBook

namespace TopoSortKahn

/-- Number of edge records `u -> v` with `u` in `1..V`: the in-degree of `v`, parallel
edges counted. -/
def inRecords (G : Graph) (v : Int) : Nat :=
  ((vertices G.V).map fun u => (G.adj u).count v).sum

/-- Number of edge records that lead to `v` from vertices `1..V` not listed in `out`. -/
def remaining (G : Graph) (out : List Int) (v : Int) : Nat :=
  (((vertices G.V).filter fun u => decide (u ∉ out)).map fun u => (G.adj u).count v).sum

/-- Invariant of the main loop: the vertices printed or queued are, once each, those whose
in-degree counter is zero; the counter of a vertex holds, as an `int`, the number of edges
that come from vertices not yet printed, a number below `2^32`; and what is printed comes
after all its predecessors. -/
structure KInv (G : Graph) (st : State) : Prop where
  nodup : (st.topologicalOrdering ++ st.Q).Nodup
  mem_in : ∀ x ∈ st.topologicalOrdering ++ st.Q, 1 ≤ x ∧ x ≤ G.V
  deg : ∀ v, 1 ≤ v ∧ v ≤ G.V →
    st.inDegree v = wrap32 (remaining G st.topologicalOrdering v)
  small : ∀ v, 1 ≤ v ∧ v ≤ G.V → remaining G st.topologicalOrdering v < 2 ^ 32
  zero : ∀ v, 1 ≤ v ∧ v ≤ G.V →
    (v ∈ st.topologicalOrdering ++ st.Q ↔ st.inDegree v = 0)
  before : ∀ v ∈ st.topologicalOrdering, ∀ u, G.HasEdge u v →
    u ∈ st.topologicalOrdering ∧
      st.topologicalOrdering.indexOf u < st.topologicalOrdering.indexOf v

/-- Invariant of the loop over `adj[u]` in the main loop, after the records `done`; `st0`
is the state in which that loop was entered. -/
structure KStep (G : Graph) (st0 : State) (done : List Int) (s : State) : Prop where
  ord : s.topologicalOrdering = st0.topologicalOrdering
  nodup : (s.topologicalOrdering ++ s.Q).Nodup
  mem_in : ∀ x ∈ s.topologicalOrdering ++ s.Q, 1 ≤ x ∧ x ≤ G.V
  deg : ∀ v, 1 ≤ v ∧ v ≤ G.V → s.inDegree v = wrap32 (st0.inDegree v - done.count v)
  zero : ∀ v, 1 ≤ v ∧ v ≤ G.V → (v ∈ s.topologicalOrdering ++ s.Q ↔ s.inDegree v = 0)

end TopoSortKahn

end GraphBook

namespace GraphBook

/-! ## floydWarshall.cpp -/

namespace FloydWarshall

/-- `const ll INF = 0x3f3f3f3f3f3f3f3f;` -/
def INF : Int := 0x3f3f3f3f3f3f3f3f

/-- The matrix `std::vector<std::vector<ll>> d`: `cell i j` is `d[i][j]`. -/
structure Matrix where
  cell : Int → Int → Int

/-- The assignment `d[i][j] = x`. -/
def setEntry (d : Matrix) (i j x : Int) : Matrix :=
  ⟨fun a b => if a = i ∧ b = j then x else d.cell a b⟩

/-- `d(V + 1, std::vector<ll>(V + 1, INF))` followed by
`for (Vertex i = 1; i <= V; ++i) d[i][i] = 0LL;`. -/
def initDiag (V : Int) : Matrix :=
  (vertices V).foldl (fun (d : Matrix) (i : Int) => setEntry d i i 0) ⟨fun _ _ => INF⟩

/-- The loop that enters the edges:
`d[u][e.first] = std::min(d[u][e.first], (ll)e.second)` for every record of `adj[u]`,
`u = 1..V`. -/
def initEdges (g : weightedGraph) (d : Matrix) : Matrix :=
  (vertices g.V).foldl
    (fun (d : Matrix) (u : Int) =>
      (g.adj u).foldl
        (fun (d : Matrix) (e : Edge) => setEntry d u e.1 (min (d.cell u e.1) e.2)) d)
    d

/-- The assignment `d[i][j] = std::min(d[i][j], (d[i][n] + d[n][j]))`, the sum being a
`long long`. -/
def relaxVia (n : Int) (d : Matrix) (i j : Int) : Matrix :=
  setEntry d i j (min (d.cell i j) (wrap64 (d.cell i n + d.cell n j)))

/-- One turn of the loop over `n`: the loops over `i` and `j`. -/
def phase (V : Int) (d : Matrix) (n : Int) : Matrix :=
  (vertices V).foldl
    (fun (d : Matrix) (i : Int) =>
      (vertices V).foldl (fun (d : Matrix) (j : Int) => relaxVia n d i j) d)
    d

/-- The matrix after the three nested loops. -/
def closure (g : weightedGraph) : Matrix :=
  (vertices g.V).foldl (phase g.V) (initEdges g (initDiag g.V))

/-- What `floydWarshall` produces: whether the message `Graph has a negative cycle` is
printed, and the returned matrix. -/
structure Result where
  negativeCycle : Bool
  d : Matrix

/-- `floydWarshall(G)`: after the nested loops, `d[0][0]` is set to 0 if some `d[u][u]` is
negative and to 1 otherwise. -/
def floydWarshall (g : weightedGraph) : Result :=
  let d := closure g
  if (vertices g.V).any fun u => decide (d.cell u u < 0) then
    { negativeCycle := true, d := setEntry d 0 0 0 }
  else
    { negativeCycle := false, d := setEntry d 0 0 1 }

end FloydWarshall

end GraphBook

namespace GraphBook

namespace FloydWarshall

/-! ### Vocabulary of the statements about `floydWarshall` -/

/-- `x` is one of the vertices `1..V`. -/
def Vtx (g : weightedGraph) (x : Int) : Prop := 1 ≤ x ∧ x ≤ g.V

instance (g : weightedGraph) (x : Int) : Decidable (Vtx g x) := by
  unfold Vtx
  infer_instance

/-- The graph is a graph on the vertices `1..V`: the records of these vertices point to
these vertices. -/
def OnVertices (g : weightedGraph) : Prop := ∀ u, Vtx g u → ∀ e ∈ g.adj u, Vtx g e.1

/-- The weights are `int`s, as the second component of `std::pair<Vertex, Vertex>` is. -/
def IntWeights (g : weightedGraph) : Prop :=
  ∀ u, Vtx g u → ∀ e ∈ g.adj u, -2 ^ 31 ≤ e.2 ∧ e.2 < 2 ^ 31

/-- The matrix `d` exists: its `(V + 1)^2` cells of 8 bytes can be addressed with 64-bit
pointers. -/
def MatrixFits (g : weightedGraph) : Prop := 8 * (g.V + 1) ^ 2 < 2 ^ 64

/-- No cycle has negative weight: every sequence of edges that returns to its first
vertex has a non-negative sum of weights. -/
def NoNegCycle (g : weightedGraph) : Prop :=
  ∀ a l w, Vtx g a → Dijkstra.Walk g a a l w → 0 ≤ w

/-- Every entry of `d'` is at most the entry of `d`. -/
def Le (d' d : Matrix) : Prop := ∀ a b, d'.cell a b ≤ d.cell a b

/-- The value `x` is either the weight of a sequence of edges from `i` to `j`, or at least
the sentinel `INF` plus the weights of a sequence that leaves `i` and of a sequence that
reaches `j`. -/
def SoundVal (g : weightedGraph) (i j x : Int) : Prop :=
  (∃ l, Dijkstra.Walk g i j l x) ∨
    ∃ c l1 w1 a l2 w2, Dijkstra.Walk g i c l1 w1 ∧ Vtx g a ∧ Dijkstra.Walk g a j l2 w2 ∧
      INF + w1 + w2 ≤ x

/-- Every entry between vertices is a sound value. -/
def Sound (g : weightedGraph) (d : Matrix) : Prop :=
  ∀ i j, Vtx g i → Vtx g j → SoundVal g i j (d.cell i j)

/-- The entry `d[i][j]` is at most the weight of every path from `i` to `j` whose
vertices other than `i` and `j` are at most `n`. -/
def Via (g : weightedGraph) (n : Int) (d : Matrix) (i j : Int) : Prop :=
  ∀ l w, Dijkstra.Walk g i j l w → l.Nodup → (∀ x ∈ l, x ≠ i → x ≠ j → x ≤ n) →
    d.cell i j ≤ w

/-- State of the matrix inside the turn for `n + 1`: sound, at most the sentinel, below
every path through `1..n`, and, for the pairs already treated, below every path through
`1..n+1`. -/
structure PhaseInv (g : weightedGraph) (n : Int) (treated : Int → Int → Prop) (d : Matrix) :
    Prop where
  sound : Sound g d
  upper : ∀ a b, d.cell a b ≤ INF
  old : ∀ i j, Vtx g i → Vtx g j → Via g n d i j
  new : ∀ i j, Vtx g i → Vtx g j → treated i j → Via g (n + 1) d i j

end FloydWarshall

end GraphBook

namespace GraphBook

/-! ## Theorems: 32-bit wrap-around -/

theorem wrap32_of_range {x : Int} (h1 : -2 ^ 31 ≤ x) (h2 : x < 2 ^ 31) : wrap32 x = x := by
  unfold wrap32
  omega

theorem wrap32_natCast (k : Nat) (h : k < 2 ^ 31) : wrap32 (k : Int) = (k : Int) :=
  wrap32_of_range (by omega) (by omega)

/-- Wrapping an intermediate result does not change the wrapped sum. -/
theorem wrap32_add (x y : Int) : wrap32 (wrap32 x + y) = wrap32 (x + y) := by
  unfold wrap32
  omega

/-! ## Theorems: graph.hpp -/

theorem setCell_same {α : Type} (a : Int → α) (i : Int) (x : α) :
    setCell a i x i = x := by
  simp [setCell]

theorem setCell_ne {α : Type} (a : Int → α) {i j : Int} (x : α) (h : j ≠ i) :
    setCell a i x j = a j := by
  simp [setCell, h]

theorem weightedGraph.weighted_addEdge_V (g : weightedGraph) (u v w : Int) :
    (g.addEdge u v w).V = g.V := by
  unfold weightedGraph.addEdge
  split <;> rfl

theorem weightedGraph.weighted_addEdge_directed (g : weightedGraph) (u v w : Int) :
    (g.addEdge u v w).directed = g.directed := by
  unfold weightedGraph.addEdge
  split <;> rfl

/-- The adjacency list of every vertex after one `addEdge`. -/
theorem weightedGraph.weighted_addEdge_adj (g : weightedGraph) (u v w x : Int) :
    (g.addEdge u v w).adj x = g.adj x ++ weightedGraph.inserted g.directed x (u, v, w) := by
  unfold weightedGraph.addEdge weightedGraph.inserted
  cases hd : g.directed
  · by_cases hxv : x = v
    · by_cases hxu : x = u
      · have huv : u = v := by omega
        simp [setCell, hxu, huv]
      · have hvu : ¬ v = u := by omega
        simp [setCell, hxu, hxv, hvu]
    · by_cases hxu : x = u
      · have huv : ¬ u = v := by omega
        simp [setCell, hxu, huv]
      · simp [setCell, hxu, hxv]
  · by_cases hxu : x = u
    · simp [setCell, hxu]
    · simp [setCell, hxu]

theorem Graph.addEdge_V (g : Graph) (u v : Int) : (g.addEdge u v).V = g.V := by
  unfold Graph.addEdge
  split <;> rfl

theorem Graph.addEdge_directed (g : Graph) (u v : Int) :
    (g.addEdge u v).directed = g.directed := by
  unfold Graph.addEdge
  split <;> rfl

/-- The adjacency list of every vertex after one `addEdge`. -/
theorem Graph.addEdge_adj (g : Graph) (u v x : Int) :
    (g.addEdge u v).adj x = g.adj x ++ Graph.inserted g.directed x (u, v) := by
  unfold Graph.addEdge Graph.inserted
  cases hd : g.directed
  · by_cases hxv : x = v
    · by_cases hxu : x = u
      · have huv : u = v := by omega
        simp [setCell, hxu, huv]
      · have hvu : ¬ v = u := by omega
        simp [setCell, hxu, hxv, hvu]
    · by_cases hxu : x = u
      · have huv : ¬ u = v := by omega
        simp [setCell, hxu, huv]
      · simp [setCell, hxu, hxv]
  · by_cases hxu : x = u
    · simp [setCell, hxu]
    · simp [setCell, hxu]

theorem weightedGraph.weighted_addEdges_spec (calls : List (Int × Int × Int)) :
    ∀ g : weightedGraph, (g.addEdges calls).V = g.V ∧
      (g.addEdges calls).directed = g.directed ∧
      ∀ x, (g.addEdges calls).adj x =
        g.adj x ++ (calls.map (weightedGraph.inserted g.directed x)).flatten := by
  induction calls with
  | nil => intro g; simp [weightedGraph.addEdges]
  | cons c cs ih =>
    intro g
    obtain ⟨h1, h2, h3⟩ := ih (g.addEdge c.1 c.2.1 c.2.2)
    have hstep : g.addEdges (c :: cs) = (g.addEdge c.1 c.2.1 c.2.2).addEdges cs := rfl
    rw [hstep]
    refine ⟨by rw [h1, weightedGraph.weighted_addEdge_V], by rw [h2, weightedGraph.weighted_addEdge_directed], ?_⟩
    intro x
    rw [h3 x, weightedGraph.weighted_addEdge_adj, weightedGraph.weighted_addEdge_directed]
    simp [List.append_assoc]

theorem Graph.addEdges_spec (calls : List (Int × Int)) :
    ∀ g : Graph, (g.addEdges calls).V = g.V ∧ (g.addEdges calls).directed = g.directed ∧
      ∀ x, (g.addEdges calls).adj x =
        g.adj x ++ (calls.map (Graph.inserted g.directed x)).flatten := by
  induction calls with
  | nil => intro g; simp [Graph.addEdges]
  | cons c cs ih =>
    intro g
    obtain ⟨h1, h2, h3⟩ := ih (g.addEdge c.1 c.2)
    have hstep : g.addEdges (c :: cs) = (g.addEdge c.1 c.2).addEdges cs := rfl
    rw [hstep]
    refine ⟨by rw [h1, Graph.addEdge_V], by rw [h2, Graph.addEdge_directed], ?_⟩
    intro x
    rw [h3 x, Graph.addEdge_adj, Graph.addEdge_directed]
    simp [List.append_assoc]

/-- C9: `addEdge(u, v[, weight])`, for `weightedGraph` and for `Graph`, leaves `V` and
`directed` unchanged, appends the record for `v` at the end of `adj[u]`, then, when the
graph is undirected, appends the mirror record for `u` at the end of `adj[v]` (both land in
`adj[u]`, in this order, when `u = v`), and leaves every other adjacency sequence
unchanged.  Hence after any sequence of calls on a new graph, `adj[x]` lists, in insertion
order, exactly the records inserted for `x`. -/
theorem addEdge_appends :
    (∀ (g : weightedGraph) (u v w : Int),
      (g.addEdge u v w).V = g.V ∧ (g.addEdge u v w).directed = g.directed ∧
      (g.directed = true →
        (g.addEdge u v w).adj u = g.adj u ++ [(v, w)] ∧
        ∀ x, x ≠ u → (g.addEdge u v w).adj x = g.adj x) ∧
      (g.directed = false →
        (u ≠ v → (g.addEdge u v w).adj u = g.adj u ++ [(v, w)] ∧
          (g.addEdge u v w).adj v = g.adj v ++ [(u, w)]) ∧
        (u = v → (g.addEdge u v w).adj u = g.adj u ++ [(v, w), (u, w)]) ∧
        ∀ x, x ≠ u → x ≠ v → (g.addEdge u v w).adj x = g.adj x)) ∧
    (∀ (g : Graph) (u v : Int),
      (g.addEdge u v).V = g.V ∧ (g.addEdge u v).directed = g.directed ∧
      (g.directed = true →
        (g.addEdge u v).adj u = g.adj u ++ [v] ∧
        ∀ x, x ≠ u → (g.addEdge u v).adj x = g.adj x) ∧
      (g.directed = false →
        (u ≠ v → (g.addEdge u v).adj u = g.adj u ++ [v] ∧
          (g.addEdge u v).adj v = g.adj v ++ [u]) ∧
        (u = v → (g.addEdge u v).adj u = g.adj u ++ [v, u]) ∧
        ∀ x, x ≠ u → x ≠ v → (g.addEdge u v).adj x = g.adj x)) ∧
    (∀ (V : Int) (directed : Bool) (calls : List (Int × Int × Int)) (x : Int),
      ((weightedGraph.new V directed).addEdges calls).V = V ∧
      ((weightedGraph.new V directed).addEdges calls).directed = directed ∧
      ((weightedGraph.new V directed).addEdges calls).adj x =
        (calls.map (weightedGraph.inserted directed x)).flatten) ∧
    (∀ (V : Int) (directed : Bool) (calls : List (Int × Int)) (x : Int),
      ((Graph.new V directed).addEdges calls).V = V ∧
      ((Graph.new V directed).addEdges calls).directed = directed ∧
      ((Graph.new V directed).addEdges calls).adj x =
        (calls.map (Graph.inserted directed x)).flatten) := by
  refine ⟨?_, ?_, ?_, ?_⟩
  · intro g u v w
    refine ⟨weightedGraph.weighted_addEdge_V g u v w, weightedGraph.weighted_addEdge_directed g u v w, ?_, ?_⟩
    · intro hd
      constructor
      · rw [weightedGraph.weighted_addEdge_adj]
        simp [weightedGraph.inserted, hd]
      · intro x hx
        rw [weightedGraph.weighted_addEdge_adj]
        simp [weightedGraph.inserted, hd, hx]
    · intro hd
      refine ⟨?_, ?_, ?_⟩
      · intro huv
        constructor
        · rw [weightedGraph.weighted_addEdge_adj]
          simp [weightedGraph.inserted, hd, huv]
        · rw [weightedGraph.weighted_addEdge_adj]
          simp [weightedGraph.inserted, hd, Ne.symm huv]
      · intro huv
        rw [weightedGraph.weighted_addEdge_adj]
        simp [weightedGraph.inserted, hd, huv]
      · intro x hxu hxv
        rw [weightedGraph.weighted_addEdge_adj]
        simp [weightedGraph.inserted, hd, hxu, hxv]
  · intro g u v
    refine ⟨Graph.addEdge_V g u v, Graph.addEdge_directed g u v, ?_, ?_⟩
    · intro hd
      constructor
      · rw [Graph.addEdge_adj]
        simp [Graph.inserted, hd]
      · intro x hx
        rw [Graph.addEdge_adj]
        simp [Graph.inserted, hd, hx]
    · intro hd
      refine ⟨?_, ?_, ?_⟩
      · intro huv
        constructor
        · rw [Graph.addEdge_adj]
          simp [Graph.inserted, hd, huv]
        · rw [Graph.addEdge_adj]
          simp [Graph.inserted, hd, Ne.symm huv]
      · intro huv
        rw [Graph.addEdge_adj]
        simp [Graph.inserted, hd, huv]
      · intro x hxu hxv
        rw [Graph.addEdge_adj]
        simp [Graph.inserted, hd, hxu, hxv]
  · intro V directed calls x
    obtain ⟨h1, h2, h3⟩ := weightedGraph.weighted_addEdges_spec calls (weightedGraph.new V directed)
    exact ⟨h1, h2, by simpa [weightedGraph.new] using h3 x⟩
  · intro V directed calls x
    obtain ⟨h1, h2, h3⟩ := Graph.addEdges_spec calls (Graph.new V directed)
    exact ⟨h1, h2, by simpa [Graph.new] using h3 x⟩

end GraphBook

namespace GraphBook

namespace Dijkstra

/-! ## Theorems: dijkstra.hpp -/

theorem minOf_mem (m : length) (xs : List length) : minOf m xs ∈ m :: xs := by
  induction xs generalizing m with
  | nil => simp [minOf]
  | cons x xs ih =>
    unfold minOf
    split
    · have := ih m
      simp only [List.mem_cons] at this ⊢
      tauto
    · have := ih x
      simp only [List.mem_cons] at this ⊢
      tauto

theorem top_mem {pq : List length} {m : length} (h : top pq = some m) : m ∈ pq := by
  cases pq with
  | nil => simp [top] at h
  | cons x xs =>
    simp only [top, Option.some.injEq] at h
    subst h
    exact minOf_mem x xs

theorem top_eq_none {pq : List length} (h : top pq = none) : pq = [] := by
  cases pq with
  | nil => rfl
  | cons x xs => simp [top] at h

theorem InRange_of_adj {g : weightedGraph} (hwf : WellFormed g) {u : Int} {e : Edge}
    (he : e ∈ g.adj u) : InRange g u ∧ InRange g e.1 := hwf u e he

theorem INF_pos : 0 < INF := by decide

/-- One execution of the body of the edge loop keeps the invariant; the record just looked
at joins the records of `u` that are known to be relaxed. -/
theorem relax_inv {g : weightedGraph} (hwf : WellFormed g) (hnn : NonNeg g) {s u : Int}
    {done : List Edge} {t : Int → Nat} {st : State} {e : Edge} (he : e ∈ g.adj u)
    (h : Inv g s (setCell g.adj u done) t st) :
    ∃ t', Inv g s (setCell g.adj u (done ++ [e])) t' (relax u st e) := by
  obtain ⟨hu, hx⟩ := hwf u e he
  have hlen : 0 ≤ e.2 := hnn u e he
  have hdu := (h.bound u hu).1
  by_cases hc : e.2 + st.d u < st.d e.1
  · -- the record improves `d[e.1]`
    have hxu : e.1 ≠ u := by
      intro hxu
      rw [hxu] at hc
      omega
    have hxs : e.1 ≠ s := by
      intro hxs
      rw [hxs, h.ds] at hc
      omega
    have hdx := h.bound e.1 hx
    refine ⟨setCell t e.1 (t u + 1), ?_⟩
    simp only [relax, if_pos hc]
    constructor
    · show setCell st.d e.1 (e.2 + st.d u) s = 0
      rw [setCell_ne _ _ (Ne.symm hxs), h.ds]
    · intro v hv
      show 0 ≤ setCell st.d e.1 (e.2 + st.d u) v ∧ setCell st.d e.1 (e.2 + st.d u) v ≤ INF
      by_cases hvx : v = e.1
      · subst hvx
        rw [setCell_same]
        omega
      · rw [setCell_ne _ _ hvx]
        exact h.bound v hv
    · intro v hv hlt
      by_cases hvx : v = e.1
      · left
        subst hvx
        show (setCell st.d e.1 (e.2 + st.d u) e.1, e.1) ∈ (e.2 + st.d u, e.1) :: st.pq
        rw [setCell_same]
        exact List.mem_cons_self _ _
      · have hdv : setCell st.d e.1 (e.2 + st.d u) v = st.d v := setCell_ne _ _ hvx
        have hlt' : st.d v < INF := by
          have : setCell st.d e.1 (e.2 + st.d u) v < INF := hlt
          rwa [hdv] at this
        have hle : ∀ y, setCell st.d e.1 (e.2 + st.d u) y ≤ st.d y := by
          intro y
          by_cases hy : y = e.1
          · subst hy
            rw [setCell_same]
            omega
          · rw [setCell_ne _ _ hy]
        rcases h.queued v hv hlt' with hq | hr
        · left
          show (setCell st.d e.1 (e.2 + st.d u) v, v) ∈ (e.2 + st.d u, e.1) :: st.pq
          rw [hdv]
          exact List.mem_cons_of_mem _ hq
        · right
          intro e' he'
          show setCell st.d e.1 (e.2 + st.d u) e'.1 ≤ setCell st.d e.1 (e.2 + st.d u) v + e'.2
          rw [hdv]
          by_cases hvu : v = u
          · subst hvu
            rw [setCell_same] at he' hr
            rcases List.mem_append.1 he' with h1 | h1
            · exact le_trans (hle _) (hr e' h1)
            · have : e' = e := by simpa using h1
              subst this
              rw [setCell_same]
              omega
          · rw [setCell_ne _ _ hvu] at he' hr
            exact le_trans (hle _) (hr e' he')
    · intro v hv hvs hlt
      show ∃ len, (v, len) ∈ g.adj (setCell st.p e.1 u v) ∧
        setCell st.d e.1 (e.2 + st.d u) (setCell st.p e.1 u v) + len
          ≤ setCell st.d e.1 (e.2 + st.d u) v ∧
        (setCell st.d e.1 (e.2 + st.d u) (setCell st.p e.1 u v)
            < setCell st.d e.1 (e.2 + st.d u) v ∨
          (setCell st.d e.1 (e.2 + st.d u) (setCell st.p e.1 u v)
              = setCell st.d e.1 (e.2 + st.d u) v ∧
            setCell t e.1 (t u + 1) (setCell st.p e.1 u v) < setCell t e.1 (t u + 1) v))
      by_cases hvx : v = e.1
      · subst hvx
        simp only [setCell_same, setCell_ne _ _ (Ne.symm hxu)]
        refine ⟨e.2, he, by omega, ?_⟩
        by_cases h0 : e.2 = 0
        · right
          constructor <;> omega
        · left
          omega
      · have hlt' : st.d v < INF := by
          have : setCell st.d e.1 (e.2 + st.d u) v < INF := hlt
          rwa [setCell_ne _ _ hvx] at this
        obtain ⟨len, hmem, hsum, hrank⟩ := h.pred v hv hvs hlt'
        simp only [setCell_ne _ _ hvx]
        refine ⟨len, hmem, ?_, ?_⟩
        · by_cases hpx : st.p v = e.1
          · rw [hpx, setCell_same]
            rw [hpx] at hsum
            omega
          · rw [setCell_ne _ _ hpx]
            exact hsum
        · by_cases hpx : st.p v = e.1
          · left
            rw [hpx, setCell_same]
            rw [hpx] at hrank
            omega
          · rw [setCell_ne _ _ hpx, setCell_ne _ _ hpx]
            exact hrank
  · -- nothing is written
    refine ⟨t, ?_⟩
    simp only [relax, if_neg hc]
    refine ⟨h.ds, h.bound, ?_, h.pred⟩
    intro v hv hlt
    rcases h.queued v hv hlt with hq | hr
    · exact Or.inl hq
    · right
      intro e' he'
      by_cases hvu : v = u
      · subst hvu
        rw [setCell_same] at he' hr
        rcases List.mem_append.1 he' with h1 | h1
        · exact hr e' h1
        · have : e' = e := by simpa using h1
          subst this
          omega
      · rw [setCell_ne _ _ hvu] at he' hr
        exact hr e' he'

theorem dSum_setCell_lt (g : weightedGraph) (d : Int → Int) {x y : Int} (hx : InRange g x)
    (hy0 : 0 ≤ y) (hy : y < d x) : dSum g (setCell d x y) < dSum g d := by
  unfold dSum
  apply Finset.sum_lt_sum
  · intro i _
    by_cases hi : (i : Int) = x
    · rw [hi, setCell_same]
      omega
    · rw [setCell_ne _ _ hi]
  · refine ⟨x.toNat, ?_, ?_⟩
    · rw [Finset.mem_range]
      have h1 := hx.1
      have h2 := hx.2
      omega
    · have hcast : ((x.toNat : Nat) : Int) = x := Int.toNat_of_nonneg hx.1
      rw [hcast, setCell_same]
      omega

theorem relax_potential {g : weightedGraph} (hwf : WellFormed g) (hnn : NonNeg g) {u : Int}
    {st : State} {e : Edge} (he : e ∈ g.adj u) (hb : 0 ≤ st.d u) :
    potential g (relax u st e) ≤ potential g st := by
  obtain ⟨_, hx⟩ := hwf u e he
  have hlen : 0 ≤ e.2 := hnn u e he
  by_cases hc : e.2 + st.d u < st.d e.1
  · simp only [relax, if_pos hc, potential, List.length_cons]
    have := dSum_setCell_lt g st.d hx (by omega : 0 ≤ e.2 + st.d u) hc
    omega
  · simp only [relax, if_neg hc]
    exact le_refl _

/-- The whole edge loop over `es`, a segment of `adj[u]`, keeps the invariant and does not
raise the variant. -/
theorem foldl_relax_inv {g : weightedGraph} (hwf : WellFormed g) (hnn : NonNeg g) {s u : Int}
    (es : List Edge) :
    ∀ (done : List Edge) (t : Int → Nat) (st : State), (∀ e ∈ es, e ∈ g.adj u) →
      Inv g s (setCell g.adj u done) t st →
      ∃ t', Inv g s (setCell g.adj u (done ++ es)) t' (es.foldl (relax u) st) ∧
        potential g (es.foldl (relax u) st) ≤ potential g st := by
  induction es with
  | nil =>
    intro done t st _ h
    exact ⟨t, by simpa using h, le_refl _⟩
  | cons e es ih =>
    intro done t st hes h
    have he : e ∈ g.adj u := hes e (List.mem_cons_self _ _)
    obtain ⟨t1, h1⟩ := relax_inv hwf hnn he h
    have hpot : potential g (relax u st e) ≤ potential g st :=
      relax_potential hwf hnn he (h.bound u (hwf u e he).1).1
    obtain ⟨t2, h2, hpot2⟩ := ih (done ++ [e]) t1 (relax u st e)
      (fun e' he' => hes e' (List.mem_cons_of_mem _ he')) h1
    refine ⟨t2, ?_, ?_⟩
    · simpa [List.foldl_cons, List.append_assoc] using h2
    · simpa [List.foldl_cons] using le_trans hpot2 hpot

theorem setCell_self {α : Type} (a : Int → α) (i : Int) : setCell a i (a i) = a := by
  funext j
  by_cases h : j = i
  · subst h
    rw [setCell_same]
  · rw [setCell_ne _ _ h]

/-- Removing the popped pair keeps the invariant when the pair is stale. -/
theorem pop_stale_inv {g : weightedGraph} {s : Int} {t : Int → Nat} {st : State} {m : length}
    (h : Inv g s g.adj t st) (hm : m.1 > st.d m.2) :
    Inv g s g.adj t { st with pq := st.pq.erase m } := by
  refine ⟨h.ds, h.bound, ?_, h.pred⟩
  intro v hv hlt
  rcases h.queued v hv hlt with hq | hr
  · left
    have hne : (st.d v, v) ≠ m := by
      intro heq
      rw [← heq] at hm
      simp at hm
    exact (List.mem_erase_of_ne hne).2 hq
  · exact Or.inr hr

/-- Removing the popped pair keeps the invariant, with the records of the popped vertex
all still to be looked at. -/
theorem pop_fresh_inv {g : weightedGraph} {s : Int} {t : Int → Nat} {st : State} {m : length}
    (h : Inv g s g.adj t st) :
    Inv g s (setCell g.adj m.2 []) t { st with pq := st.pq.erase m } := by
  refine ⟨h.ds, h.bound, ?_, h.pred⟩
  intro v hv hlt
  by_cases hvm : v = m.2
  · right
    subst hvm
    rw [setCell_same]
    intro e he
    simp at he
  · rw [setCell_ne _ _ hvm]
    rcases h.queued v hv hlt with hq | hr
    · left
      have hne : (st.d v, v) ≠ m := by
        intro heq
        apply hvm
        rw [← heq]
      exact (List.mem_erase_of_ne hne).2 hq
    · exact Or.inr hr

theorem erase_potential (g : weightedGraph) {st : State} {m : length} (hm : m ∈ st.pq) :
    potential g { st with pq := st.pq.erase m } + 1 = potential g st := by
  have h1 := List.length_erase_of_mem hm
  have h2 : 0 < st.pq.length := List.length_pos_of_mem hm
  simp only [potential]
  omega

/-- Total correctness of the main loop: with more fuel than the variant it returns, in a
state with an empty queue that satisfies the invariant. -/
theorem loop_terminates {g : weightedGraph} (hwf : WellFormed g) (hnn : NonNeg g) {s : Int} :
    ∀ (n : Nat) (st : State) (t : Int → Nat), Inv g s g.adj t st → potential g st < n →
      ∃ r t', loop g n st = some r ∧ Inv g s g.adj t' r ∧ r.pq = [] := by
  intro n
  induction n with
  | zero => intro st t _ hlt; omega
  | succ n ih =>
    intro st t h hlt
    cases htop : top st.pq with
    | none =>
      refine ⟨st, t, ?_, h, top_eq_none htop⟩
      simp [loop, htop]
    | some m =>
      have hmem := top_mem htop
      have hpot := erase_potential g hmem
      by_cases hst : m.1 > st.d m.2
      · obtain ⟨r, t', hr, hinv, hpq⟩ := ih _ t (pop_stale_inv h hst) (by omega)
        refine ⟨r, t', ?_, hinv, hpq⟩
        simp only [loop, htop]
        rw [if_pos hst]
        exact hr
      · obtain ⟨t1, h1, hp1⟩ := foldl_relax_inv hwf hnn (g.adj m.2) [] t
          { st with pq := st.pq.erase m } (fun e he => he) (pop_fresh_inv h)
        rw [List.nil_append, setCell_self] at h1
        obtain ⟨r, t', hr, hinv, hpq⟩ := ih _ t1 h1 (by omega)
        refine ⟨r, t', ?_, hinv, hpq⟩
        simp only [loop, htop]
        rw [if_neg hst]
        exact hr

theorem loop_mono (g : weightedGraph) :
    ∀ (n : Nat) (st r : State), loop g n st = some r → loop g (n + 1) st = some r := by
  intro n
  induction n with
  | zero => intro st r h; simp [loop] at h
  | succ n ih =>
    intro st r h
    rw [loop] at h ⊢
    cases htop : top st.pq with
    | none => simpa [htop] using h
    | some m =>
      simp only [htop] at h ⊢
      by_cases hst : m.1 > st.d m.2
      · rw [if_pos hst] at h ⊢
        exact ih _ _ h
      · rw [if_neg hst] at h ⊢
        exact ih _ _ h

theorem loop_mono_add (g : weightedGraph) (n k : Nat) (st r : State)
    (h : loop g n st = some r) : loop g (n + k) st = some r := by
  induction k with
  | zero => exact h
  | succ k ih => exact loop_mono g (n + k) st r ih

/-- The result of the loop does not depend on the fuel. -/
theorem loop_unique (g : weightedGraph) {n m : Nat} {st r r' : State}
    (h : loop g n st = some r) (h' : loop g m st = some r') : r = r' := by
  have h1 := loop_mono_add g n m st r h
  have h2 := loop_mono_add g m n st r' h'
  rw [Nat.add_comm] at h2
  rw [h1] at h2
  exact Option.some.inj h2

theorem memsetINF_in {g : weightedGraph} {v : Int} (hv : InRange g v) (d : Int → Int) :
    memsetINF g.V d v = INF := if_pos hv

theorem memsetINF_out {g : weightedGraph} {v : Int} (hv : ¬ InRange g v) (d : Int → Int) :
    memsetINF g.V d v = d v := if_neg hv

theorem init_inv (g : weightedGraph) {s : Int} (hs : InRange g s) (d0 p0 : Int → Int) :
    Inv g s g.adj (fun _ => 0) (initState g s d0 p0) := by
  have hd : ∀ v, InRange g v → v ≠ s → (initState g s d0 p0).d v = INF := by
    intro v hv hvs
    show setCell (memsetINF g.V d0) s 0 v = INF
    rw [setCell_ne _ _ hvs, memsetINF_in hv]
  have hds : (initState g s d0 p0).d s = 0 := setCell_same _ _ _
  refine ⟨hds, ?_, ?_, ?_⟩
  · intro v hv
    by_cases hvs : v = s
    · subst hvs
      rw [hds]
      exact ⟨le_refl _, le_of_lt INF_pos⟩
    · rw [hd v hv hvs]
      exact ⟨le_of_lt INF_pos, le_refl _⟩
  · intro v hv hlt
    by_cases hvs : v = s
    · left
      subst hvs
      rw [hds]
      exact List.mem_singleton.2 rfl
    · rw [hd v hv hvs] at hlt
      exact absurd hlt (lt_irrefl _)
  · intro v hv hvs hlt
    rw [hd v hv hvs] at hlt
    exact absurd hlt (lt_irrefl _)

/-- Total correctness of `solveShortestPaths`: on a graph with non-negative weights it
returns, and the state it returns in has an empty queue and satisfies the invariant. -/
theorem solve_terminates {g : weightedGraph} (hwf : WellFormed g) (hnn : NonNeg g) {s : Int}
    (hs : InRange g s) (d0 p0 : Int → Int) :
    ∃ st t, Solves g s d0 p0 st ∧ Inv g s g.adj t st ∧ st.pq = [] := by
  obtain ⟨r, t, hr, hinv, hpq⟩ := loop_terminates hwf hnn
    (potential g (initState g s d0 p0) + 1) _ _ (init_inv g hs d0 p0) (Nat.lt_succ_self _)
  exact ⟨r, t, ⟨_, hr⟩, hinv, hpq⟩

theorem solves_unique {g : weightedGraph} {s : Int} {d0 p0 : Int → Int} {st st' : State}
    (h : Solves g s d0 p0 st) (h' : Solves g s d0 p0 st') : st = st' := by
  obtain ⟨n, hn⟩ := h
  obtain ⟨m, hm⟩ := h'
  exact loop_unique g hn hm

/-! ### Walks -/

theorem Walk.nonneg {g : weightedGraph} (hnn : NonNeg g) {a c : Int} {l : List Int} {w : Int}
    (h : Walk g a c l w) : 0 ≤ w := by
  induction h with
  | single a => exact le_refl _
  | cons len hmem _ ih =>
    have := hnn _ _ hmem
    simp only at this
    omega

theorem Walk.inRange {g : weightedGraph} (hwf : WellFormed g) {a c : Int} {l : List Int}
    {w : Int} (h : Walk g a c l w) (ha : InRange g a) : InRange g c := by
  induction h with
  | single a => exact ha
  | cons len hmem _ ih => exact ih (hwf _ _ hmem).2

theorem Walk.snoc {g : weightedGraph} {a b c : Int} {l : List Int} {w len : Int}
    (h : Walk g a b l w) (hmem : (c, len) ∈ g.adj b) : Walk g a c (l ++ [c]) (w + len) := by
  induction h with
  | single a =>
    have h1 : Walk g a c [a, c] (len + 0) := Walk.cons len hmem (Walk.single c)
    simpa using h1
  | cons len' hmem' _ ih =>
    have h1 := Walk.cons len' hmem' (ih hmem)
    rw [← add_assoc] at h1
    simpa using h1

theorem Walk.head_eq {g : weightedGraph} {a c : Int} {l : List Int} {w : Int}
    (h : Walk g a c l w) : l.head? = some a := by
  cases h <;> rfl

theorem Walk.getLast_eq {g : weightedGraph} {a c : Int} {l : List Int} {w : Int}
    (h : Walk g a c l w) : l.getLast? = some c := by
  induction h with
  | single a => rfl
  | cons len _ hw ih =>
    cases hw with
    | single b => rfl
    | cons len' h1 h2 =>
      rw [List.getLast?_cons_cons]
      exact ih

theorem Walk.first_mem {g : weightedGraph} {a c : Int} {l : List Int} {w : Int}
    (h : Walk g a c l w) : a ∈ l := by
  cases h <;> exact List.mem_cons_self _ _

/-- From a vertex met on a walk, the rest of the walk is a walk that uses a sublist of the
vertices and weighs no more. -/
theorem Walk.from_mem {g : weightedGraph} (hnn : NonNeg g) {a c : Int} {l : List Int}
    {w : Int} (h : Walk g a c l w) :
    ∀ x ∈ l, ∃ l' w', Walk g x c l' w' ∧ l'.Sublist l ∧ w' ≤ w := by
  induction h with
  | single a =>
    intro x hx
    have : x = a := by simpa using hx
    subst this
    exact ⟨[x], 0, Walk.single x, List.Sublist.refl _, le_refl _⟩
  | @cons a b c l w len hmem hw ih =>
    intro x hx
    rcases List.mem_cons.1 hx with hxa | hxl
    · subst hxa
      exact ⟨x :: l, len + w, Walk.cons len hmem hw, List.Sublist.refl _, le_refl _⟩
    · obtain ⟨l', w', h1, h2, h3⟩ := ih x hxl
      have := hnn _ _ hmem
      simp only at this
      exact ⟨l', w', h1, List.Sublist.cons _ h2, by omega⟩

/-- Loop erasure: below every walk there is a path without repeated vertex. -/
theorem Walk.to_simple {g : weightedGraph} (hnn : NonNeg g) {a c : Int} {l : List Int}
    {w : Int} (h : Walk g a c l w) :
    ∃ l' w', Walk g a c l' w' ∧ l'.Nodup ∧ w' ≤ w := by
  induction h with
  | single a => exact ⟨[a], 0, Walk.single a, List.nodup_singleton a, le_refl _⟩
  | @cons a b c l w len hmem hw ih =>
    obtain ⟨l1, w1, h1, hnd, hle⟩ := ih
    by_cases ha : a ∈ l1
    · obtain ⟨l2, w2, h2, hsub, hle2⟩ := h1.from_mem hnn a ha
      have := hnn _ _ hmem
      simp only at this
      exact ⟨l2, w2, h2, hnd.sublist hsub, by omega⟩
    · exact ⟨a :: l1, len + w1, Walk.cons len hmem h1, List.nodup_cons.2 ⟨ha, hnd⟩, by omega⟩

/-! ### The state in which the solver returns -/

/-- In the final state every record of a vertex with a finite distance is relaxed. -/
theorem final_relaxed {g : weightedGraph} {s : Int} {t : Int → Nat} {st : State}
    (h : Inv g s g.adj t st) (hpq : st.pq = []) {v : Int} (hv : InRange g v)
    (hlt : st.d v < INF) : ∀ e ∈ g.adj v, st.d e.1 ≤ st.d v + e.2 := by
  rcases h.queued v hv hlt with hq | hr
  · rw [hpq] at hq
    simp at hq
  · exact hr

/-- No walk beats the final distances. -/
theorem final_upper {g : weightedGraph} (hwf : WellFormed g) (hnn : NonNeg g) {s : Int}
    {t : Int → Nat} {st : State} (h : Inv g s g.adj t st) (hpq : st.pq = []) {a c : Int}
    {l : List Int} {w : Int} (hw : Walk g a c l w) (ha : InRange g a) :
    st.d c ≤ st.d a + w := by
  induction hw with
  | single a => omega
  | @cons a b c l w len hmem hw' ih =>
    have hb : InRange g b := (hwf _ _ hmem).2
    have hc : InRange g c := hw'.inRange hwf hb
    have h1 := ih hb
    have hw0 := hw'.nonneg hnn
    have hlen := hnn _ _ hmem
    simp only at hlen
    by_cases hlt : st.d a < INF
    · have h2 := final_relaxed h hpq ha hlt _ hmem
      simp only at h2
      omega
    · have h3 := (h.bound c hc).2
      omega

/-- Following the predecessor cells from a vertex with a finite final distance reaches the
source; the vertices pushed by the loop of `printPath`, read backwards after the source,
form a path without repeated vertex whose weight is the distance. -/
theorem final_chain {g : weightedGraph} (hwf : WellFormed g) (hnn : NonNeg g) {s : Int}
    {t : Int → Nat} {st : State} (h : Inv g s g.adj t st) (hpq : st.pq = []) :
    ∀ v, InRange g v → st.d v < INF →
      ∃ fuel l, (∀ path, pathLoop st.p s fuel v path = some (path ++ l)) ∧
        Walk g s v (l ++ [s]).reverse (st.d v) ∧ (l ++ [s]).Nodup ∧
        ∀ x ∈ l, st.d x < st.d v ∨ (st.d x = st.d v ∧ t x ≤ t v) := by
  intro v
  have hWF : WellFounded (InvImage (Prod.Lex (· < ·) (· < ·))
      (fun v : Int => ((st.d v).toNat, t v))) :=
    InvImage.wf _ (Prod.lex Nat.lt_wfRel Nat.lt_wfRel).wf
  refine hWF.induction
    (C := fun v => InRange g v → st.d v < INF →
      ∃ fuel l, (∀ path, pathLoop st.p s fuel v path = some (path ++ l)) ∧
        Walk g s v (l ++ [s]).reverse (st.d v) ∧ (l ++ [s]).Nodup ∧
        ∀ x ∈ l, st.d x < st.d v ∨ (st.d x = st.d v ∧ t x ≤ t v)) v ?_
  intro v ih hv hlt
  by_cases hvs : v = s
  · subst hvs
    refine ⟨1, [], ?_, ?_, ?_, ?_⟩
    · intro path
      simp [pathLoop]
    · rw [h.ds]
      exact Walk.single v
    · simp
    · intro x hx
      simp at hx
  · obtain ⟨len, hmem, hsum, hrank⟩ := h.pred v hv hvs hlt
    have hu : InRange g (st.p v) := (hwf _ _ hmem).1
    have hlen := hnn _ _ hmem
    simp only at hlen
    have hdv := h.bound v hv
    have hdu := h.bound (st.p v) hu
    have hult : st.d (st.p v) < INF := by omega
    have hrel := final_relaxed h hpq hu hult _ hmem
    simp only at hrel
    have heq : st.d (st.p v) + len = st.d v := by omega
    have hlex : InvImage (Prod.Lex (· < ·) (· < ·)) (fun v : Int => ((st.d v).toNat, t v))
        (st.p v) v := by
      show Prod.Lex (· < ·) (· < ·) ((st.d (st.p v)).toNat, t (st.p v)) ((st.d v).toNat, t v)
      rcases hrank with h1 | ⟨h1, h2⟩
      · apply Prod.Lex.left
        omega
      · rw [h1]
        exact Prod.Lex.right _ h2
    obtain ⟨fuel, l, hloop, hwalk, hnd, hrk⟩ := ih (st.p v) hlex hu hult
    refine ⟨fuel + 1, v :: l, ?_, ?_, ?_, ?_⟩
    · intro path
      rw [pathLoop, if_neg hvs, hloop]
      simp
    · have h2 := hwalk.snoc hmem
      rw [heq] at h2
      simpa using h2
    · have hvl : v ∉ l := by
        intro hmem'
        have := hrk v hmem'
        omega
      rw [List.cons_append, List.nodup_cons]
      refine ⟨?_, hnd⟩
      intro hmem'
      rcases List.mem_append.1 hmem' with h1 | h1
      · exact hvl h1
      · exact hvs (by simpa using h1)
    · intro x hx
      rcases List.mem_cons.1 hx with hxv | hxl
      · subst hxv
        right
        exact ⟨rfl, le_refl _⟩
      · have := hrk x hxl
        omega

/-! ### Two runs from the same source -/

theorem relax_sim {g : weightedGraph} (hwf : WellFormed g) {pa pb dfin : Int → Int} {u : Int}
    {a b : State} {e : Edge} (he : e ∈ g.adj u) (h : Sim g pa pb dfin a b) :
    Sim g pa pb dfin (relax u a e) (relax u b e) := by
  obtain ⟨hu, hx⟩ := hwf u e he
  have hdu := h.d u hu
  have hdx := h.d e.1 hx
  by_cases hc : e.2 + a.d u < a.d e.1
  · have hc' : e.2 + b.d u < b.d e.1 := by rw [← hdu, ← hdx]; exact hc
    simp only [relax, if_pos hc, if_pos hc']
    refine ⟨?_, ?_, ?_, ?_, ?_⟩
    · show (e.2 + a.d u, e.1) :: a.pq = (e.2 + b.d u, e.1) :: b.pq
      rw [hdu, h.pq]
    · intro m hm
      rcases List.mem_cons.1 hm with h1 | h1
      · rw [h1]
        exact hx
      · exact h.pqr m h1
    · intro v hv
      show setCell a.d e.1 (e.2 + a.d u) v = setCell b.d e.1 (e.2 + b.d u) v
      by_cases hvx : v = e.1
      · rw [hvx, setCell_same, setCell_same, hdu]
      · rw [setCell_ne _ _ hvx, setCell_ne _ _ hvx]
        exact h.d v hv
    · intro v hv
      show setCell b.d e.1 (e.2 + b.d u) v = dfin v
      have hvx : v ≠ e.1 := fun hvx => hv (hvx ▸ hx)
      rw [setCell_ne _ _ hvx]
      exact h.dout v hv
    · intro v
      show setCell a.p e.1 u v = setCell b.p e.1 u v ∨
        (setCell a.p e.1 u v = pa v ∧ setCell b.p e.1 u v = pb v)
      by_cases hvx : v = e.1
      · left
        rw [hvx, setCell_same, setCell_same]
      · rw [setCell_ne _ _ hvx, setCell_ne _ _ hvx]
        exact h.p v
  · have hc' : ¬ e.2 + b.d u < b.d e.1 := by rw [← hdu, ← hdx]; exact hc
    simp only [relax, if_neg hc, if_neg hc']
    exact h

theorem foldl_relax_sim {g : weightedGraph} (hwf : WellFormed g) {pa pb dfin : Int → Int}
    {u : Int} (es : List Edge) :
    ∀ (a b : State), (∀ e ∈ es, e ∈ g.adj u) → Sim g pa pb dfin a b →
      Sim g pa pb dfin (es.foldl (relax u) a) (es.foldl (relax u) b) := by
  induction es with
  | nil => intro a b _ h; exact h
  | cons e es ih =>
    intro a b hes h
    rw [List.foldl_cons, List.foldl_cons]
    exact ih _ _ (fun e' he' => hes e' (List.mem_cons_of_mem _ he'))
      (relax_sim hwf (hes e (List.mem_cons_self _ _)) h)

theorem erase_sim {g : weightedGraph} {pa pb dfin : Int → Int} {a b : State} (m : length)
    (h : Sim g pa pb dfin a b) :
    Sim g pa pb dfin { a with pq := a.pq.erase m } { b with pq := b.pq.erase m } := by
  refine ⟨?_, ?_, h.d, h.dout, h.p⟩
  · show a.pq.erase m = b.pq.erase m
    rw [h.pq]
  · intro x hx
    exact h.pqr x (List.mem_of_mem_erase hx)

/-- A run that returns drags along every run that starts in lockstep with it. -/
theorem loop_sim {g : weightedGraph} (hwf : WellFormed g) {pa pb dfin : Int → Int} :
    ∀ (n : Nat) (a b ra : State), Sim g pa pb dfin a b → loop g n a = some ra →
      ∃ rb, loop g n b = some rb ∧ Sim g pa pb dfin ra rb := by
  intro n
  induction n with
  | zero => intro a b ra _ h; simp [loop] at h
  | succ n ih =>
    intro a b ra hsim h
    rw [loop] at h ⊢
    cases htop : top a.pq with
    | none =>
      have htopb : top b.pq = none := by rw [← hsim.pq]; exact htop
      simp only [htop, Option.some.injEq] at h
      simp only [htopb]
      subst h
      exact ⟨b, rfl, hsim⟩
    | some m =>
      have htopb : top b.pq = some m := by rw [← hsim.pq]; exact htop
      simp only [htop] at h
      simp only [htopb]
      have hm : InRange g m.2 := hsim.pqr m (top_mem htop)
      have hd : a.d m.2 = b.d m.2 := hsim.d m.2 hm
      have hsim1 := erase_sim m hsim
      by_cases hst : m.1 > a.d m.2
      · have hst' : m.1 > b.d m.2 := by rw [← hd]; exact hst
        rw [if_pos hst] at h
        rw [if_pos hst']
        exact ih _ _ ra hsim1 h
      · have hst' : ¬ m.1 > b.d m.2 := by rw [← hd]; exact hst
        rw [if_neg hst] at h
        rw [if_neg hst']
        exact ih _ _ ra (foldl_relax_sim hwf (g.adj m.2) _ _ (fun e he => he) hsim1) h

/-- Idempotence: a second `solveShortestPaths(s)` on the arrays left by a first one returns
and leaves exactly those arrays. -/
theorem solve_twice {g : weightedGraph} (hwf : WellFormed g) {s : Int} (hs : InRange g s)
    {d0 p0 : Int → Int} {st : State} (h : Solves g s d0 p0 st) :
    ∃ st', Solves g s st.d st.p st' ∧ st'.d = st.d ∧ st'.p = st.p := by
  obtain ⟨n, hn⟩ := h
  have hinit : Sim g (setCell p0 s (-1)) (setCell st.p s (-1)) st.d
      (initState g s d0 p0) (initState g s st.d st.p) := by
    refine ⟨rfl, ?_, ?_, ?_, ?_⟩
    · intro m hm
      have : m = (0, s) := by simpa [initState] using hm
      rw [this]
      exact hs
    · intro v hv
      show setCell (memsetINF g.V d0) s 0 v = setCell (memsetINF g.V st.d) s 0 v
      by_cases hvs : v = s
      · rw [hvs, setCell_same, setCell_same]
      · rw [setCell_ne _ _ hvs, setCell_ne _ _ hvs]
        rw [memsetINF_in hv, memsetINF_in hv]
    · intro v hv
      show setCell (memsetINF g.V st.d) s 0 v = st.d v
      have hvs : v ≠ s := fun hvs => hv (hvs ▸ hs)
      rw [setCell_ne _ _ hvs, memsetINF_out hv]
    · intro v
      exact Or.inr ⟨rfl, rfl⟩
  obtain ⟨rb, hrb, hsim⟩ := loop_sim hwf n _ _ st hinit hn
  refine ⟨rb, ⟨n, hrb⟩, ?_, ?_⟩
  · funext v
    by_cases hv : InRange g v
    · exact (hsim.d v hv).symm
    · exact hsim.dout v hv
  · funext v
    rcases hsim.p v with h1 | ⟨h1, h2⟩
    · exact h1.symm
    · rw [h2]
      by_cases hvs : v = s
      · rw [hvs, setCell_same]
        rw [hvs, setCell_same] at h1
        exact h1.symm
      · rw [setCell_ne _ _ hvs]

/-! ### Predecessor cells that are never written -/

theorem relax_keep {p0 : Int → Int} {u : Int} {st : State} {e : Edge}
    (hb : st.d e.1 ≤ INF) (h : Keep p0 st) : Keep p0 (relax u st e) := by
  by_cases hc : e.2 + st.d u < st.d e.1
  · simp only [relax, if_pos hc]
    intro v
    show setCell st.p e.1 u v = p0 v ∨ setCell st.d e.1 (e.2 + st.d u) v < INF
    by_cases hv : v = e.1
    · right
      rw [hv, setCell_same]
      omega
    · rw [setCell_ne _ _ hv, setCell_ne _ _ hv]
      exact h v
  · simp only [relax, if_neg hc]
    exact h

theorem foldl_relax_keep {g : weightedGraph} (hwf : WellFormed g) (hnn : NonNeg g)
    {s u : Int} {p0 : Int → Int} (es : List Edge) :
    ∀ (done : List Edge) (t : Int → Nat) (st : State), (∀ e ∈ es, e ∈ g.adj u) →
      Inv g s (setCell g.adj u done) t st → Keep p0 st →
      Keep p0 (es.foldl (relax u) st) := by
  induction es with
  | nil => intro _ _ st _ _ hk; exact hk
  | cons e es ih =>
    intro done t st hes h hk
    have he : e ∈ g.adj u := hes e (List.mem_cons_self _ _)
    obtain ⟨t1, h1⟩ := relax_inv hwf hnn he h
    rw [List.foldl_cons]
    exact ih (done ++ [e]) t1 (relax u st e) (fun e' he' => hes e' (List.mem_cons_of_mem _ he'))
      h1 (relax_keep (h.bound e.1 (hwf u e he).2).2 hk)

/-- Every returning run of the loop leaves untouched the predecessor cells of the
vertices whose distance stays `INF`. -/
theorem loop_keep {g : weightedGraph} (hwf : WellFormed g) (hnn : NonNeg g) {s : Int}
    {p0 : Int → Int} :
    ∀ (n : Nat) (st r : State) (t : Int → Nat), Inv g s g.adj t st → Keep p0 st →
      loop g n st = some r → Keep p0 r := by
  intro n
  induction n with
  | zero => intro st r t _ _ h; simp [loop] at h
  | succ n ih =>
    intro st r t hinv hk h
    rw [loop] at h
    cases htop : top st.pq with
    | none =>
      simp only [htop, Option.some.injEq] at h
      rw [← h]
      exact hk
    | some m =>
      simp only [htop] at h
      by_cases hst : m.1 > st.d m.2
      · rw [if_pos hst] at h
        exact ih _ r t (pop_stale_inv hinv hst) hk h
      · rw [if_neg hst] at h
        obtain ⟨t1, h1, _⟩ := foldl_relax_inv hwf hnn (g.adj m.2) [] t
          { st with pq := st.pq.erase m } (fun e he => he) (pop_fresh_inv hinv)
        rw [List.nil_append, setCell_self] at h1
        have hk1 : Keep p0 ((g.adj m.2).foldl (relax m.2) { st with pq := st.pq.erase m }) :=
          foldl_relax_keep hwf hnn (g.adj m.2) [] t _ (fun e he => he) (pop_fresh_inv hinv) hk
        exact ih _ r t1 h1 hk1 h

/-- After `solveShortestPaths(s)` a vertex whose distance is `INF` has the predecessor
cell it had before (the source has `-1`). -/
theorem solve_keep {g : weightedGraph} (hwf : WellFormed g) (hnn : NonNeg g) {s : Int}
    (hs : InRange g s) {d0 p0 : Int → Int} {st : State} (h : Solves g s d0 p0 st) :
    ∀ v, st.d v = INF → st.p v = setCell p0 s (-1) v := by
  obtain ⟨n, hn⟩ := h
  have hk : Keep (setCell p0 s (-1)) (initState g s d0 p0) := fun v => Or.inl rfl
  have := loop_keep hwf hnn n _ st _ (init_inv g hs d0 p0) hk hn
  intro v hv
  rcases this v with h1 | h1
  · exact h1
  · omega

end Dijkstra

end GraphBook

namespace GraphBook

namespace Dijkstra

/-! ### The example graph and the long path -/

theorem exampleGraph_adj (u : Int) :
    exampleGraph.adj u =
      if u = 1 then [(2, 4), (3, 5)]
      else if u = 2 then [(1, 4), (3, 1)]
      else if u = 3 then [(2, 1), (1, 5), (4, 2)]
      else if u = 4 then [(3, 2)]
      else [] := by
  by_cases h1 : u = 1
  · subst h1; rfl
  by_cases h2 : u = 2
  · subst h2; rfl
  by_cases h3 : u = 3
  · subst h3; rfl
  by_cases h4 : u = 4
  · subst h4; rfl
  simp [exampleGraph, weightedGraph.addEdge, weightedGraph.new, setCell, h1, h2, h3, h4]

theorem exampleGraph_mem {u : Int} {e : Edge} (h : e ∈ exampleGraph.adj u) :
    (1 ≤ u ∧ u ≤ 4) ∧ (1 ≤ e.1 ∧ e.1 ≤ 4) ∧ (0 ≤ e.2 ∧ e.2 ≤ 5) := by
  rw [exampleGraph_adj] at h
  split_ifs at h with h1 h2 h3 h4
  · subst h1
    simp only [List.mem_cons, List.mem_singleton, List.not_mem_nil, or_false] at h
    rcases h with h | h <;> subst h <;> decide
  · subst h2
    simp only [List.mem_cons, List.mem_singleton, List.not_mem_nil, or_false] at h
    rcases h with h | h <;> subst h <;> decide
  · subst h3
    simp only [List.mem_cons, List.mem_singleton, List.not_mem_nil, or_false] at h
    rcases h with h | h | h <;> subst h <;> decide
  · subst h4
    simp only [List.mem_cons, List.mem_singleton, List.not_mem_nil, or_false] at h
    subst h
    decide
  · simp at h

theorem exampleGraph_V : exampleGraph.V = 4 := rfl

theorem exampleGraph_wf : WellFormed exampleGraph := by
  intro u e he
  obtain ⟨h1, h2, _⟩ := exampleGraph_mem he
  simp only [InRange, exampleGraph_V]
  omega

theorem exampleGraph_nonneg : NonNeg exampleGraph := by
  intro u e he
  exact (exampleGraph_mem he).2.2.1

theorem exampleGraph_inRange_one : InRange exampleGraph 1 := by
  simp only [InRange, exampleGraph_V]
  omega

theorem longPath_mem {u : Int} {e : Edge} (h : e ∈ longPath.adj u) :
    (1 ≤ u ∧ u < 2122219137) ∧ e = (u + 1, 2147483647) := by
  simp only [longPath] at h
  split_ifs at h with hu
  · exact ⟨hu, by simpa using h⟩
  · simp at h

theorem longPath_V : longPath.V = 2122219137 := rfl

theorem longPath_wf : WellFormed longPath := by
  intro u e he
  obtain ⟨h1, h2⟩ := longPath_mem he
  subst h2
  simp only [InRange, longPath_V]
  omega

theorem longPath_nonneg : NonNeg longPath := by
  intro u e he
  obtain ⟨_, h2⟩ := longPath_mem he
  subst h2
  show (0 : Int) ≤ 2147483647
  omega

theorem longPath_inRange_one : InRange longPath 1 := by
  simp only [InRange, longPath_V]
  omega

/-- On the long path a walk from `a` to `c` weighs `(c - a) * (2^31 - 1)`. -/
theorem longPath_walk_weight {a c : Int} {l : List Int} {w : Int}
    (h : Walk longPath a c l w) : w = (c - a) * 2147483647 := by
  induction h with
  | single a => simp
  | cons len hmem _ ih =>
    obtain ⟨_, h2⟩ := longPath_mem hmem
    simp only [Prod.mk.injEq] at h2
    obtain ⟨hb, hlen⟩ := h2
    subst hb
    rw [ih, hlen]
    ring

theorem longPath_walk_exists (k : Nat) :
    ∀ a : Int, 1 ≤ a → a + k ≤ 2122219137 → ∃ l w, Walk longPath a (a + k) l w := by
  induction k with
  | zero =>
    intro a _ _
    exact ⟨[a], 0, by simpa using Walk.single a⟩
  | succ k ih =>
    intro a ha hk
    have hk' : a + 1 + (k : Int) ≤ 2122219137 := by push_cast at hk; omega
    obtain ⟨l, w, hw⟩ := ih (a + 1) (by omega) hk'
    have hmem : (a + 1, (2147483647 : Int)) ∈ longPath.adj a := by
      simp only [longPath]
      rw [if_pos ⟨ha, by push_cast at hk; omega⟩]
      exact List.mem_singleton.2 rfl
    have := Walk.cons 2147483647 hmem hw
    refine ⟨a :: l, 2147483647 + w, ?_⟩
    have heq : a + ((k + 1 : Nat) : Int) = a + 1 + (k : Int) := by push_cast; ring
    rw [heq]
    exact this

theorem longPath_reachable : ∃ l w, Walk longPath 1 2122219137 l w := by
  have := longPath_walk_exists 2122219136 1 (by omega) (by norm_num)
  simpa using this

/-- On the long path the last vertex keeps the distance `INF`, which is smaller than the
weight of the only path that leads to it. -/
theorem longPath_final {st : State} {t : Int → Nat}
    (hinv : Inv longPath 1 longPath.adj t st) (hpq : st.pq = []) :
    st.d 2122219137 = INF ∧ ∀ l w, Walk longPath 1 2122219137 l w → INF < w := by
  have hN : InRange longPath 2122219137 := by
    simp only [InRange, longPath_V]
    omega
  have hbig : ∀ l w, Walk longPath 1 2122219137 l w → INF < w := by
    intro l w hw
    rw [longPath_walk_weight hw]
    decide
  refine ⟨?_, hbig⟩
  by_contra hne
  have hlt : st.d 2122219137 < INF := lt_of_le_of_ne (hinv.bound _ hN).2 hne
  obtain ⟨_, l, _, hwalk, _, _⟩ := final_chain longPath_wf longPath_nonneg hinv hpq _ hN hlt
  have := hbig _ _ hwalk
  omega

/-! ### Simple paths of the example graph -/

theorem Walk.mem_inRange {g : weightedGraph} (hwf : WellFormed g) {a c : Int} {l : List Int}
    {w : Int} (h : Walk g a c l w) (ha : InRange g a) : ∀ x ∈ l, InRange g x := by
  induction h with
  | single a =>
    intro x hx
    have : x = a := by simpa using hx
    rw [this]
    exact ha
  | cons len hmem _ ih =>
    intro x hx
    rcases List.mem_cons.1 hx with h1 | h1
    · rw [h1]
      exact ha
    · exact ih (hwf _ _ hmem).2 x h1

theorem exampleGraph_walk_weight {a c : Int} {l : List Int} {w : Int}
    (h : Walk exampleGraph a c l w) : w + 5 ≤ 5 * l.length := by
  induction h with
  | single a => simp
  | cons len hmem _ ih =>
    have := (exampleGraph_mem hmem).2.2.2
    simp only at this
    simp only [List.length_cons]
    push_cast
    omega

theorem exampleGraph_simple_length {l : List Int} (hnd : l.Nodup)
    (hr : ∀ x ∈ l, InRange exampleGraph x) : l.length ≤ 5 := by
  have hsub : l.toFinset ⊆ Finset.Icc (0 : Int) 4 := by
    intro x hx
    have := hr x (List.mem_toFinset.1 hx)
    simp only [InRange, exampleGraph_V] at this
    exact Finset.mem_Icc.2 this
  have hcard := Finset.card_le_card hsub
  rw [List.toFinset_card_of_nodup hnd, Int.card_Icc] at hcard
  simpa using hcard

theorem exampleGraph_simple_lt_INF :
    ∀ v l w, Walk exampleGraph 1 v l w → l.Nodup → w < INF := by
  intro v l w hw hnd
  have h1 := exampleGraph_walk_weight hw
  have h2 := exampleGraph_simple_length hnd (hw.mem_inRange exampleGraph_wf exampleGraph_inRange_one)
  have h3 : (25 : Int) < INF := by decide
  have h4 : (l.length : Int) ≤ 5 := by exact_mod_cast h2
  omega

/-- The solver run on the example graph of the specification, from source 1. -/
theorem exampleGraph_solves :
    ∃ st, Solves exampleGraph 1 zeros zeros st ∧
      st.d 1 = 0 ∧ st.d 2 = 4 ∧ st.d 3 = 5 ∧ st.d 4 = 7 := by
  have h : ((solveShortestPaths exampleGraph 20 1 zeros zeros).map
      fun st => (st.d 1, st.d 2, st.d 3, st.d 4)) = some (0, 4, 5, 7) := by decide
  cases hst : solveShortestPaths exampleGraph 20 1 zeros zeros with
  | none =>
    rw [hst] at h
    simp at h
  | some st =>
    rw [hst] at h
    simp only [Option.map_some', Option.some.injEq, Prod.mk.injEq] at h
    exact ⟨st, ⟨20, hst⟩, h⟩

/-- What the returned state satisfies on a graph with non-negative weights. -/
theorem solve_final {g : weightedGraph} (hwf : WellFormed g) (hnn : NonNeg g) {s : Int}
    (hs : InRange g s) (d0 p0 : Int → Int) :
    ∃ st, Solves g s d0 p0 st ∧ st.d s = 0 ∧
      (∀ v, InRange g v → st.d v ≤ INF) ∧
      (∀ v l w, Walk g s v l w → st.d v ≤ w) ∧
      (∀ v, InRange g v → st.d v < INF →
        ∃ fuel path, printPath st.p fuel s v = some path ∧ path.Nodup ∧
          Walk g s v path (st.d v)) := by
  obtain ⟨st, t, hsol, hinv, hpq⟩ := solve_terminates hwf hnn hs d0 p0
  refine ⟨st, hsol, hinv.ds, fun v hv => (hinv.bound v hv).2, ?_, ?_⟩
  · intro v l w hw
    have := final_upper hwf hnn hinv hpq hw hs
    rw [hinv.ds] at this
    omega
  · intro v hv hlt
    obtain ⟨fuel, l, hloop, hwalk, hnd, _⟩ := final_chain hwf hnn hinv hpq v hv hlt
    refine ⟨fuel, (l ++ [s]).reverse, ?_, List.nodup_reverse.2 hnd, hwalk⟩
    rw [printPath, hloop]
    simp

/-- C1, the claim as stated fails: on the directed path `1 → 2 → ... → 2122219137` with
all weights `2^31 - 1` (non-negative `int` weights, `V` an `int`) the last vertex is
reachable from 1, yet `solveShortestPaths(1)` returns with `d[2122219137] = INF`, which is
not the length of a shortest path: every path from 1 to it weighs more than `INF`. -/
theorem solveShortestPaths_longPath_not_shortest :
    WellFormed longPath ∧ NonNeg longPath ∧ InRange longPath 1 ∧
    (∃ l w, Walk longPath 1 2122219137 l w) ∧
    ∃ st, Solves longPath 1 zeros zeros st ∧ st.d 2122219137 = INF ∧
      (∀ l w, Walk longPath 1 2122219137 l w → INF < w) ∧
      ¬ IsDist longPath 1 2122219137 (st.d 2122219137) := by
  refine ⟨longPath_wf, longPath_nonneg, longPath_inRange_one, longPath_reachable, ?_⟩
  obtain ⟨st, t, hsol, hinv, hpq⟩ :=
    solve_terminates longPath_wf longPath_nonneg longPath_inRange_one zeros zeros
  obtain ⟨hd, hbig⟩ := longPath_final hinv hpq
  refine ⟨st, hsol, hd, hbig, ?_⟩
  rintro ⟨⟨l, _, hw⟩, _⟩
  have := hbig _ _ hw
  omega

/-- C1 (amended): for every weighted graph whose records stay in `0..V` and whose weights
are non-negative, and every source `s` in `0..V`, `solveShortestPaths(s)` returns, all runs
return the same state, `d[s] = 0`, and for every vertex `v` that some path from `s` of
weight below `INF` reaches, `d[v]` is the minimum over all paths from `s` to `v` of the
sum of the edge weights (attained by a path without repeated vertex).  On the example
graph with source 1 it gives `d[2] = 4`, `d[3] = 5`, `d[4] = 7`. -/
theorem solveShortestPaths_shortest (g : weightedGraph) (s : Int) (d0 p0 : Int → Int)
    (hwf : WellFormed g) (hnn : NonNeg g) (hs : InRange g s) :
    (∃ st, Solves g s d0 p0 st ∧ (∀ st', Solves g s d0 p0 st' → st' = st) ∧ st.d s = 0 ∧
      ∀ v, (∃ l w, Walk g s v l w ∧ w < INF) → IsDist g s v (st.d v)) ∧
    ∃ st, Solves exampleGraph 1 zeros zeros st ∧ st.d 2 = 4 ∧ st.d 3 = 5 ∧ st.d 4 = 7 := by
  constructor
  · obtain ⟨st, hsol, hds, _, hup, hpath⟩ := solve_final hwf hnn hs d0 p0
    refine ⟨st, hsol, fun st' h' => solves_unique h' hsol, hds, ?_⟩
    rintro v ⟨l, w, hw, hlt⟩
    have hv : InRange g v := hw.inRange hwf hs
    have hdv : st.d v < INF := lt_of_le_of_lt (hup v l w hw) hlt
    obtain ⟨_, path, _, hnd, hwalk⟩ := hpath v hv hdv
    exact ⟨⟨path, hnd, hwalk⟩, hup v⟩
  · obtain ⟨st, hsol, _, h2, h3, h4⟩ := exampleGraph_solves
    exact ⟨st, hsol, h2, h3, h4⟩

/-- Witness of C1 on the example graph of the specification. -/
theorem solveShortestPaths_shortest_witness :
    WellFormed exampleGraph ∧ NonNeg exampleGraph ∧ InRange exampleGraph 1 ∧
    ((∃ st, Solves exampleGraph 1 zeros zeros st ∧
        (∀ st', Solves exampleGraph 1 zeros zeros st' → st' = st) ∧ st.d 1 = 0 ∧
        ∀ v, (∃ l w, Walk exampleGraph 1 v l w ∧ w < INF) →
          IsDist exampleGraph 1 v (st.d v)) ∧
      ∃ st, Solves exampleGraph 1 zeros zeros st ∧ st.d 2 = 4 ∧ st.d 3 = 5 ∧ st.d 4 = 7) :=
  ⟨exampleGraph_wf, exampleGraph_nonneg, exampleGraph_inRange_one,
    solveShortestPaths_shortest exampleGraph 1 zeros zeros exampleGraph_wf exampleGraph_nonneg
      exampleGraph_inRange_one⟩

theorem pathLoop_stuck {p : Int → Int} {s z : Int} (hz : z ≠ s) (hp : p z = z) :
    ∀ (fuel : Nat) (path : List Int), pathLoop p s fuel z path = none := by
  intro fuel
  induction fuel with
  | zero => intro path; rfl
  | succ fuel ih =>
    intro path
    rw [pathLoop, if_neg hz, hp]
    exact ih _

/-- C2, the claim as stated fails: on the long path the last vertex is reachable from 1,
but after `solveShortestPaths(1)` on a fresh object its distance is `INF` and its
predecessor cell still holds 0, as does the cell of vertex 0, so the loop of
`printPath(1, 2122219137)` goes `2122219137, 0, 0, ...` and never returns. -/
theorem printPath_longPath_no_path :
    WellFormed longPath ∧ NonNeg longPath ∧ InRange longPath 1 ∧
    (∃ l w, Walk longPath 1 2122219137 l w) ∧
    ∃ st, Solves longPath 1 zeros zeros st ∧ st.d 2122219137 = INF ∧
      st.p 2122219137 = 0 ∧ st.p 0 = 0 ∧
      ∀ fuel, printPath st.p fuel 1 2122219137 = none := by
  refine ⟨longPath_wf, longPath_nonneg, longPath_inRange_one, longPath_reachable, ?_⟩
  obtain ⟨st, t, hsol, hinv, hpq⟩ :=
    solve_terminates longPath_wf longPath_nonneg longPath_inRange_one zeros zeros
  obtain ⟨hd, _⟩ := longPath_final hinv hpq
  have hkeep := solve_keep longPath_wf longPath_nonneg longPath_inRange_one hsol
  have h0r : InRange longPath 0 := by
    simp only [InRange, longPath_V]
    omega
  have hd0 : st.d 0 = INF := by
    by_contra hne
    have hlt : st.d 0 < INF := lt_of_le_of_ne (hinv.bound 0 h0r).2 hne
    obtain ⟨_, l, _, hwalk, _, _⟩ :=
      final_chain longPath_wf longPath_nonneg hinv hpq 0 h0r hlt
    have h1 := longPath_walk_weight hwalk
    have h2 := (hinv.bound 0 h0r).1
    omega
  have hpN : st.p 2122219137 = 0 := by
    rw [hkeep _ hd, setCell_ne _ _ (by decide)]
    rfl
  have hp0 : st.p 0 = 0 := by
    rw [hkeep _ hd0, setCell_ne _ _ (by decide)]
    rfl
  refine ⟨st, hsol, hd, hpN, hp0, ?_⟩
  intro fuel
  cases fuel with
  | zero => rfl
  | succ fuel =>
    rw [printPath, pathLoop, if_neg (by decide), hpN,
      pathLoop_stuck (by decide : (0 : Int) ≠ 1) hp0]
    rfl

/-- C2 (amended): for every weighted graph with non-negative weights and every source `s`,
after `solveShortestPaths(s)`, for every vertex `v` that some path from `s` of weight
below `INF` reaches, `printPath(s, v)` terminates and returns a sequence that starts at
`s`, ends at `v`, follows an edge of the graph at every step, and whose edges can be
chosen so that their weights sum to `d[v]`. -/
theorem printPath_reconstructs (g : weightedGraph) (s : Int) (d0 p0 : Int → Int)
    (hwf : WellFormed g) (hnn : NonNeg g) (hs : InRange g s) :
    ∃ st, Solves g s d0 p0 st ∧
      ∀ v, (∃ l w, Walk g s v l w ∧ w < INF) →
        ∃ fuel path, printPath st.p fuel s v = some path ∧
          path.head? = some s ∧ path.getLast? = some v ∧ Walk g s v path (st.d v) := by
  obtain ⟨st, hsol, _, _, hup, hpath⟩ := solve_final hwf hnn hs d0 p0
  refine ⟨st, hsol, ?_⟩
  rintro v ⟨l, w, hw, hlt⟩
  have hv : InRange g v := hw.inRange hwf hs
  have hdv : st.d v < INF := lt_of_le_of_lt (hup v l w hw) hlt
  obtain ⟨fuel, path, hpp, _, hwalk⟩ := hpath v hv hdv
  exact ⟨fuel, path, hpp, hwalk.head_eq, hwalk.getLast_eq, hwalk⟩

/-- Witness of C2 on the example graph of the specification. -/
theorem printPath_reconstructs_witness :
    WellFormed exampleGraph ∧ NonNeg exampleGraph ∧ InRange exampleGraph 1 ∧
    ∃ st, Solves exampleGraph 1 zeros zeros st ∧
      ∀ v, (∃ l w, Walk exampleGraph 1 v l w ∧ w < INF) →
        ∃ fuel path, printPath st.p fuel 1 v = some path ∧
          path.head? = some 1 ∧ path.getLast? = some v ∧
          Walk exampleGraph 1 v path (st.d v) :=
  ⟨exampleGraph_wf, exampleGraph_nonneg, exampleGraph_inRange_one,
    printPath_reconstructs exampleGraph 1 zeros zeros exampleGraph_wf exampleGraph_nonneg
      exampleGraph_inRange_one⟩

/-- C3: for every weighted graph with non-negative weights in which every path from `s`
without repeated vertex weighs less than `INF`, after `solveShortestPaths(s)`, for every
vertex `v` in `0..V`: `d[v] = INF` if and only if there is no path from `s` to `v`. -/
theorem solveShortestPaths_INF_iff_unreachable (g : weightedGraph) (s : Int)
    (d0 p0 : Int → Int) (hwf : WellFormed g) (hnn : NonNeg g) (hs : InRange g s)
    (hsimple : ∀ v l w, Walk g s v l w → l.Nodup → w < INF) :
    ∃ st, Solves g s d0 p0 st ∧
      ∀ v, InRange g v → (st.d v = INF ↔ ¬ ∃ l w, Walk g s v l w) := by
  obtain ⟨st, hsol, _, hb, hup, hpath⟩ := solve_final hwf hnn hs d0 p0
  refine ⟨st, hsol, ?_⟩
  intro v hv
  constructor
  · rintro hd ⟨l, w, hw⟩
    obtain ⟨l', w', hw', hnd, _⟩ := hw.to_simple hnn
    have h1 := hsimple v l' w' hw' hnd
    have h2 := hup v l' w' hw'
    omega
  · intro hno
    by_contra hne
    have hlt : st.d v < INF := lt_of_le_of_ne (hb v hv) hne
    obtain ⟨_, path, _, _, hwalk⟩ := hpath v hv hlt
    exact hno ⟨path, _, hwalk⟩

/-- Witness of C3 on the example graph of the specification. -/
theorem solveShortestPaths_INF_iff_unreachable_witness :
    WellFormed exampleGraph ∧ NonNeg exampleGraph ∧ InRange exampleGraph 1 ∧
    (∀ v l w, Walk exampleGraph 1 v l w → l.Nodup → w < INF) ∧
    ∃ st, Solves exampleGraph 1 zeros zeros st ∧
      ∀ v, InRange exampleGraph v → (st.d v = INF ↔ ¬ ∃ l w, Walk exampleGraph 1 v l w) :=
  ⟨exampleGraph_wf, exampleGraph_nonneg, exampleGraph_inRange_one, exampleGraph_simple_lt_INF,
    solveShortestPaths_INF_iff_unreachable exampleGraph 1 zeros zeros exampleGraph_wf
      exampleGraph_nonneg exampleGraph_inRange_one exampleGraph_simple_lt_INF⟩

/-- C4: for every weighted graph (records inside `0..V`, any weights) and every source `s`,
if `solveShortestPaths(s)` has returned and left the arrays `d`, `p`, then a second
`solveShortestPaths(s)` on that object returns and leaves `d` and `p` identical, entry for
entry; with non-negative weights the first run does return. -/
theorem solveShortestPaths_idempotent (g : weightedGraph) (s : Int) (d0 p0 : Int → Int)
    (st : State) (hwf : WellFormed g) (hs : InRange g s) (h : Solves g s d0 p0 st) :
    (∃ st', Solves g s st.d st.p st' ∧ st'.d = st.d ∧ st'.p = st.p) ∧
    (NonNeg g → ∃ st1, Solves g s d0 p0 st1) := by
  refine ⟨solve_twice hwf hs h, fun hnn => ?_⟩
  obtain ⟨st1, _, h1, _⟩ := solve_terminates hwf hnn hs d0 p0
  exact ⟨st1, h1⟩

/-- Witness of C4 on the example graph of the specification. -/
theorem solveShortestPaths_idempotent_witness :
    WellFormed exampleGraph ∧ InRange exampleGraph 1 ∧
    ∃ st, Solves exampleGraph 1 zeros zeros st ∧
      ((∃ st', Solves exampleGraph 1 st.d st.p st' ∧ st'.d = st.d ∧ st'.p = st.p) ∧
        (NonNeg exampleGraph → ∃ st1, Solves exampleGraph 1 zeros zeros st1)) := by
  obtain ⟨st, hst, _⟩ := exampleGraph_solves
  exact ⟨exampleGraph_wf, exampleGraph_inRange_one, st, hst,
    solveShortestPaths_idempotent exampleGraph 1 zeros zeros st exampleGraph_wf
      exampleGraph_inRange_one hst⟩

end Dijkstra

end GraphBook

namespace GraphBook

namespace LcaSegmentTree

/-! ## Theorems: lcaSegmentTree.cpp -/

/-- C6, the code at a failing input: on the tree `1-2, 1-3, 2-4, 2-5` rooted at 1 the
Euler tour is `1 2 4 2 5 2 1 3 1`, 16 leaves are allocated and `segTreeSize = 32`;
`lca(4, 3)` returns 2, which is not an ancestor of 3 (the lowest common ancestor is 1),
and `lca(4, 5)` reads the segment tree outside its 32 entries.  On the path `1-2-3-4`,
`lca(3, 4)` returns 2 although 3 is an ancestor of 4. -/
theorem lca_segmentTree_wrong_answer :
    (LCA.build exampleTree 1).map (fun t => (t.euler, t.segTreeSize)) =
      some ([1, 2, 4, 2, 5, 2, 1, 3, 1], 32) ∧
    (LCA.build exampleTree 1).bind (fun t => t.lca 4 3) = some 2 ∧
    (LCA.build exampleTree 1).bind (fun t => t.lca 4 5) = none ∧
    (LCA.build pathTree 1).bind (fun t => t.lca 3 4) = some 2 := by
  decide

/-- C7, the code at a failing input: on the one-node tree the segment tree has 2 entries
and `lca(1, 1)` reads `segTree[2]`, outside the vector, instead of returning 1; on the
tree `1-2, 1-3, 2-4, 2-5` every self-query reads outside the vector as well. -/
theorem lca_segmentTree_self_query_out_of_bounds :
    (LCA.build oneNode 1).map (fun t => (t.segTree, t.segTreeSize)) = some ([0, 1], 2) ∧
    (LCA.build oneNode 1).bind (fun t => t.lca 1 1) = none ∧
    (LCA.build exampleTree 1).map (fun t => [1, 2, 3, 4, 5].map fun u => t.lca u u) =
      some [none, none, none, none, none] := by
  decide

end LcaSegmentTree

end GraphBook

namespace GraphBook

namespace LcaBinaryLift

/-! ## Theorems: lcaBinaryLift.cpp -/

section Tree

variable {adj : Nat → List Nat} {V root : Nat} {par dep : Nat → Nat}

theorem tree_iterate_mem (h : IsRootedTree adj V root par dep) {x : Nat} (hx : InTree V x)
    (k : Nat) : InTree V (par^[k] x) := by
  induction k with
  | zero => exact hx
  | succ k ih =>
    rw [Function.iterate_succ_apply']
    exact h.par_mem _ ih

theorem tree_iterate_root (h : IsRootedTree adj V root par dep) (k : Nat) :
    par^[k] root = root := by
  induction k with
  | zero => rfl
  | succ k ih => rw [Function.iterate_succ_apply', ih, h.par_root]

theorem tree_dep_pos (h : IsRootedTree adj V root par dep) {x : Nat} (hx : InTree V x)
    (hne : x ≠ root) : 0 < dep x := by
  rw [h.dep_par x hx hne]
  omega

theorem tree_dep_par (h : IsRootedTree adj V root par dep) {x : Nat} (hx : InTree V x) :
    dep (par x) = dep x - 1 := by
  by_cases hne : x = root
  · rw [hne, h.par_root, h.dep_root]
  · rw [h.dep_par x hx hne]
    omega

theorem tree_dep_iterate (h : IsRootedTree adj V root par dep) {x : Nat} (hx : InTree V x)
    (k : Nat) : dep (par^[k] x) = dep x - k := by
  induction k with
  | zero => rfl
  | succ k ih =>
    rw [Function.iterate_succ_apply', tree_dep_par h (tree_iterate_mem h hx k), ih]
    omega

theorem IsAnc.refl (par : Nat → Nat) (x : Nat) : IsAnc par x x := ⟨0, rfl⟩

theorem IsAnc.trans {par : Nat → Nat} {a b c : Nat} (h1 : IsAnc par a b)
    (h2 : IsAnc par b c) : IsAnc par a c := by
  obtain ⟨k, hk⟩ := h1
  obtain ⟨j, hj⟩ := h2
  refine ⟨k + j, ?_⟩
  rw [Function.iterate_add_apply, hj, hk]

theorem IsAnc.parent {par : Nat → Nat} {a x : Nat} (h1 : IsAnc par a (par x)) :
    IsAnc par a x := by
  obtain ⟨k, hk⟩ := h1
  exact ⟨k + 1, by rw [Function.iterate_succ_apply]; exact hk⟩

theorem tree_anc_mem (h : IsRootedTree adj V root par dep) {a x : Nat} (hx : InTree V x)
    (ha : IsAnc par a x) : InTree V a := by
  obtain ⟨k, hk⟩ := ha
  rw [← hk]
  exact tree_iterate_mem h hx k

theorem tree_anc_dep_le (h : IsRootedTree adj V root par dep) {a x : Nat} (hx : InTree V x)
    (ha : IsAnc par a x) : dep a ≤ dep x := by
  obtain ⟨k, hk⟩ := ha
  rw [← hk, tree_dep_iterate h hx]
  omega

theorem tree_anc_dep_eq (h : IsRootedTree adj V root par dep) {a x : Nat} (hx : InTree V x)
    (ha : IsAnc par a x) (hd : dep x ≤ dep a) : a = x := by
  obtain ⟨k, hk⟩ := ha
  have h1 := tree_dep_iterate h hx k
  rw [hk] at h1
  by_cases hk0 : k = 0
  · rw [hk0] at hk
    exact hk.symm
  · have h0 : dep x = 0 := by omega
    have hxr : x = root := by
      by_contra hne
      have := tree_dep_pos h hx hne
      omega
    rw [hxr, tree_iterate_root h] at hk
    rw [hxr, ← hk]

/-- A neighbour that is not the parent is a child. -/
theorem tree_child (h : IsRootedTree adj V root par dep) {u c : Nat} (hu : InTree V u)
    (hc : c ∈ adj u) (hne : c ≠ par u) :
    InTree V c ∧ c ≠ root ∧ par c = u ∧ dep c = dep u + 1 := by
  obtain ⟨hcm, h1 | h1⟩ := (h.adj_iff u c hu).1 hc
  · refine ⟨hcm, h1.1, h1.2, ?_⟩
    rw [h.dep_par c hcm h1.1, h1.2]
  · exact absurd h1.2.symm hne

/-- The subtrees of two children of one vertex do not meet. -/
theorem tree_child_unique (h : IsRootedTree adj V root par dep) {u c c' x : Nat}
    (hx : InTree V x) (hc : dep c = dep u + 1) (hc' : dep c' = dep u + 1)
    (h1 : IsAnc par c x) (h2 : IsAnc par c' x) : c = c' := by
  obtain ⟨k, hk⟩ := h1
  obtain ⟨j, hj⟩ := h2
  have e1 := tree_dep_iterate h hx k
  have e2 := tree_dep_iterate h hx j
  rw [hk] at e1
  rw [hj] at e2
  have : k = j := by omega
  rw [← hk, ← hj, this]

/-- A vertex strictly below `u` lies below a child of `u`. -/
theorem tree_below_child (h : IsRootedTree adj V root par dep) {u : Nat} (hu : InTree V u)
    (k : Nat) : ∀ x, InTree V x → par^[k] x = u → x ≠ u →
      ∃ c, c ∈ adj u ∧ c ≠ par u ∧ IsAnc par c x := by
  induction k with
  | zero =>
    intro x _ hk hne
    exact absurd hk hne
  | succ k ih =>
    intro x hx hk hne
    rw [Function.iterate_succ_apply] at hk
    by_cases hp : par x = u
    · have hxr : x ≠ root := by
        intro hxr
        rw [hxr, h.par_root] at hp
        exact hne (hxr.trans hp)
      have hmem : x ∈ adj u := (h.adj_iff u x hu).2 ⟨hx, Or.inl ⟨hxr, hp⟩⟩
      refine ⟨x, hmem, ?_, IsAnc.refl par x⟩
      intro hxp
      have hd := h.dep_par x hx hxr
      rw [hp] at hd
      have hd2 := tree_dep_par h hu
      rw [← hxp] at hd2
      omega
    · obtain ⟨c, hc1, hc2, hc3⟩ := ih (par x) (h.par_mem x hx) hk hp
      exact ⟨c, hc1, hc2, hc3.parent⟩

/-- Depths stay below the number of vertices. -/
theorem tree_dep_lt (h : IsRootedTree adj V root par dep) {x : Nat} (hx : InTree V x) :
    dep x < V := by
  have hinj : Set.InjOn (fun k => par^[k] x) (Finset.range (dep x + 1) : Set Nat) := by
    intro i hi j hj hij
    have hi' : i < dep x + 1 := by simpa using hi
    have hj' : j < dep x + 1 := by simpa using hj
    have e1 := tree_dep_iterate h hx i
    have e2 := tree_dep_iterate h hx j
    simp only at hij
    rw [hij] at e1
    omega
  have hmaps : ∀ k ∈ Finset.range (dep x + 1), (fun k => par^[k] x) k ∈ Finset.Icc 1 V := by
    intro k _
    exact Finset.mem_Icc.2 (tree_iterate_mem h hx k)
  have := Finset.card_le_card_of_injOn _ hmaps hinj
  simp at this
  omega

end Tree

/-! ### The table -/

theorem setAt_same {α : Type} (a : Nat → α) (i : Nat) (x : α) : setAt a i x i = x := by
  simp [setAt]

theorem setAt_ne {α : Type} (a : Nat → α) {i j : Nat} (x : α) (h : j ≠ i) :
    setAt a i x j = a j := by
  simp [setAt, h]

theorem getRow_setRow_same {a : List (List Nat)} {V L u i : Nat} (hs : Shape a V L)
    (hu : u ≤ V) (hi : i ≤ L) (x : Nat) : getRow (setRow a u i x) u i = x := by
  have h1 : u < a.length := by rw [hs.1]; omega
  have h2 : i < (a.getD u []).length := by rw [hs.2 u hu]; omega
  simp only [List.getD_eq_getElem?_getD, List.getElem?_eq_getElem h1, Option.getD_some] at h2
  simp [getRow, setRow, List.getD_eq_getElem?_getD, List.getElem?_set, h1, h2]

theorem getRow_setRow_ne (a : List (List Nat)) {u i v j : Nat} (x : Nat)
    (h : ¬ (v = u ∧ j = i)) : getRow (setRow a u i x) v j = getRow a v j := by
  simp only [getRow, setRow, List.getD_eq_getElem?_getD, List.getElem?_set]
  by_cases hv : u = v
  · subst hv
    have hj : ¬ i = j := fun hj => h ⟨rfl, hj.symm⟩
    by_cases h1 : u < a.length
    · simp [h1, List.getElem?_set, hj]
    · have h3 : a[u]? = none := List.getElem?_eq_none (by omega)
      simp [h1, h3]
  · simp [hv]

theorem shape_setRow {a : List (List Nat)} {V L : Nat} (hs : Shape a V L) (u i x : Nat) :
    Shape (setRow a u i x) V L := by
  unfold setRow
  constructor
  · rw [List.length_set]
    exact hs.1
  · intro v hv
    have := hs.2 v hv
    simp only [List.getD_eq_getElem?_getD, List.getElem?_set] at this ⊢
    by_cases hvu : u = v
    · subst hvu
      have h1 : u < a.length := by rw [hs.1]; omega
      simp only [List.getElem?_eq_getElem h1, Option.getD_some] at this
      simp [h1, this]
    · simp [hvu, this]

/-- The loop that fills row `u`: after `n ≤ L` rounds the entries `0..n` of the row are
right, the table keeps its shape and the other rows are untouched. -/
theorem fillRow_spec {adj : Nat → List Nat} {V root : Nat} {par dep : Nat → Nat}
    (h : IsRootedTree adj V root par dep) {L u : Nat} (hu : InTree V u)
    {a : List (List Nat)} (hs : Shape a V L)
    (hpre : ∀ w, InTree V w → w ≠ u → IsAnc par w u → RowOK par L a w) :
    ∀ n, n ≤ L →
      Shape (fillRow n u (setRow a u 0 (par u))) V L ∧
      (∀ x i, x ≠ u → getRow (fillRow n u (setRow a u 0 (par u))) x i = getRow a x i) ∧
      (∀ i, i ≤ n → getRow (fillRow n u (setRow a u 0 (par u))) u i = par^[2 ^ i] u) := by
  intro n
  induction n with
  | zero =>
    intro _
    refine ⟨shape_setRow hs _ _ _, ?_, ?_⟩
    · intro x i hx
      exact getRow_setRow_ne a _ (fun hc => hx hc.1)
    · intro i hi
      have hi0 : i = 0 := by omega
      subst hi0
      show getRow (setRow a u 0 (par u)) u 0 = par^[2 ^ 0] u
      rw [getRow_setRow_same hs hu.2 (Nat.zero_le _)]
      rfl
  | succ n ih =>
    intro hn
    obtain ⟨ihs, ihf, ihr⟩ := ih (by omega)
    have hstep : fillRow (n + 1) u (setRow a u 0 (par u)) =
        setRow (fillRow n u (setRow a u 0 (par u))) u (n + 1)
          (getRow (fillRow n u (setRow a u 0 (par u)))
            (getRow (fillRow n u (setRow a u 0 (par u))) u n) n) := by
      unfold fillRow
      rw [List.range_succ, List.foldl_append]
      rfl
    have hw : getRow (fillRow n u (setRow a u 0 (par u))) u n = par^[2 ^ n] u :=
      ihr n (le_refl _)
    have hval : getRow (fillRow n u (setRow a u 0 (par u))) (par^[2 ^ n] u) n =
        par^[2 ^ (n + 1)] u := by
      have hpow : 2 ^ (n + 1) = 2 ^ n + 2 ^ n := by ring
      rw [hpow, Function.iterate_add_apply]
      by_cases hwu : par^[2 ^ n] u = u
      · rw [hwu, hwu]
        exact hw.trans hwu
      · rw [ihf _ _ hwu]
        exact hpre _ (tree_iterate_mem h hu _) hwu ⟨_, rfl⟩ n (by omega)
    rw [hstep, hw, hval]
    refine ⟨shape_setRow ihs _ _ _, ?_, ?_⟩
    · intro x i hx
      rw [getRow_setRow_ne _ _ (fun hc => hx hc.1)]
      exact ihf x i hx
    · intro i hi
      by_cases hin : i = n + 1
      · subst hin
        exact getRow_setRow_same ihs hu.2 hn _
      · rw [getRow_setRow_ne _ _ (fun hc => hin hc.2)]
        exact ihr i (by omega)

/-! ### The traversal -/

section Dfs

variable {adj : Nat → List Nat} {V root : Nat} {par dep : Nat → Nat}

/-- A child of `u` is below no ancestor of `u`. -/
theorem tree_child_not_above (h : IsRootedTree adj V root par dep) {u c w : Nat}
    (hu : InTree V u) (hc : dep c = dep u + 1) (hw : IsAnc par w u) : ¬ IsAnc par c w := by
  intro hcw
  have h1 := tree_anc_dep_le h hu hw
  have h2 := tree_anc_dep_le h (tree_anc_mem h hu hw) hcw
  omega

/-- An ancestor of a child of `u`, other than the child, is an ancestor of `u`. -/
theorem tree_anc_of_child {par : Nat → Nat} {u v w : Nat} (hpv : par v = u) (hne : w ≠ v)
    (hw : IsAnc par w v) : IsAnc par w u := by
  obtain ⟨k, hk⟩ := hw
  cases k with
  | zero => exact absurd hk.symm hne
  | succ k =>
    rw [Function.iterate_succ_apply, hpv] at hk
    exact ⟨k, hk⟩

theorem dfs_loop_init (h : IsRootedTree adj V root par dep) {L u : Nat} {t : LCA}
    (hu : InTree V u) (hL : t.L = L) (hs : Shape t.ancestor V L)
    (hpre : ∀ w, InTree V w → w ≠ u → IsAnc par w u → RowOK par L t.ancestor w) :
    DfsLoop par V L t
      { t with timer := t.timer + 1
               tin := setAt t.tin u (t.timer + 1)
               ancestor := fillRow t.L u (setRow t.ancestor u 0 (par u)) } u [] := by
  subst hL
  obtain ⟨h1, h2, h3⟩ := fillRow_spec h hu hs hpre t.L (le_refl _)
  refine ⟨rfl, h1, le_refl _, setAt_same _ _ _, h3, ?_, ?_, ?_, ⟨∅, ?_, ?_⟩⟩
  · intro x hx _
    exact ⟨setAt_ne _ _ hx, rfl, fun i => h2 x i hx⟩
  · intro c hc
    simp at hc
  · intro c hc
    simp at hc
  · intro x
    simp
  · show t.timer + 1 = t.timer + 1 + 2 * ((∅ : Finset Nat).card : Int)
    simp

theorem dfs_loop_skip {L u : Nat} {t t2 : LCA} {done : List Nat}
    (hloop : DfsLoop par V L t t2 u done) : DfsLoop par V L t t2 u (done ++ [par u]) := by
  have hmem : ∀ c, c ∈ done ++ [par u] → c ≠ par u → c ∈ done := by
    intro c hc hne
    rcases List.mem_append.1 hc with h1 | h1
    · exact h1
    · exact absurd (List.mem_singleton.1 h1) hne
  obtain ⟨S, hS, hcard⟩ := hloop.count
  refine ⟨hloop.hL, hloop.shape, hloop.timer, hloop.tin_u, hloop.row_u, ?_, ?_, ?_,
    ⟨S, ?_, hcard⟩⟩
  · intro x hx hno
    exact hloop.frame x hx (fun c hc hne => hno c (List.mem_append_left _ hc) hne)
  · intro c hc hne
    exact hloop.below c (hmem c hc hne) hne
  · intro c hc hne c' hc' hne'
    exact hloop.nest c (hmem c hc hne) hne c' (hmem c' hc' hne') hne'
  · intro x
    rw [hS x]
    constructor
    · rintro ⟨hx, c, hc, hne, hcx⟩
      exact ⟨hx, c, List.mem_append_left _ hc, hne, hcx⟩
    · rintro ⟨hx, c, hc, hne, hcx⟩
      exact ⟨hx, c, hmem c hc hne, hne, hcx⟩

/-- The rows that a call for the child `v` of `u` needs are in place. -/
theorem dfs_loop_pre (h : IsRootedTree adj V root par dep) {L u v : Nat} {t t2 : LCA}
    {done : List Nat} (hu : InTree V u) (hdone : ∀ c ∈ done, c ∈ adj u)
    (hpv : par v = u)
    (hpre : ∀ w, InTree V w → w ≠ u → IsAnc par w u → RowOK par L t.ancestor w)
    (hloop : DfsLoop par V L t t2 u done) :
    ∀ w, InTree V w → w ≠ v → IsAnc par w v → RowOK par L t2.ancestor w := by
  intro w hw hne hanc
  have hwu : IsAnc par w u := tree_anc_of_child hpv hne hanc
  by_cases hwu' : w = u
  · rw [hwu']
    exact hloop.row_u
  · have hfr := hloop.frame w hwu' (fun c hc hcp =>
      tree_child_not_above h hu (tree_child h hu (hdone c hc) hcp).2.2.2 hwu)
    intro i hi
    rw [hfr.2.2 i]
    exact hpre w hw hwu' hwu i hi

/-- The invariant after the call for the child `v` has returned. -/
theorem dfs_loop_child (h : IsRootedTree adj V root par dep) {L u v : Nat} {t t2 t3 : LCA}
    {done : List Nat} (hu : InTree V u) (hdone : ∀ c ∈ done, c ∈ adj u) (hv : v ∈ adj u)
    (hvd : v ∉ done) (hvp : v ≠ par u) (hloop : DfsLoop par V L t t2 u done)
    (hpost : DfsPost par V L t2 t3 v) : DfsLoop par V L t t3 u (done ++ [v]) := by
  obtain ⟨hvm, hvr, hpv, hdv⟩ := tree_child h hu hv hvp
  have hch : ∀ c ∈ done, c ≠ par u → dep c = dep u + 1 := fun c hc hcp =>
    (tree_child h hu (hdone c hc) hcp).2.2.2
  have hvu : ¬ IsAnc par v u := tree_child_not_above h hu hdv (IsAnc.refl par u)
  -- a vertex below an earlier child is not below `v`
  have hsep : ∀ c ∈ done, c ≠ par u → ∀ x, InTree V x → IsAnc par c x → ¬ IsAnc par v x := by
    intro c hc hcp x hx hcx hvx
    have := tree_child_unique h hx (hch c hc hcp) hdv hcx hvx
    exact hvd (this ▸ hc)
  have hcases : ∀ c, c ∈ done ++ [v] → c ∈ done ∨ c = v := by
    intro c hc
    rcases List.mem_append.1 hc with h1 | h1
    · exact Or.inl h1
    · exact Or.inr (List.mem_singleton.1 h1)
  have hfu := hpost.frame u hvu
  obtain ⟨S, hS, hcard⟩ := hloop.count
  obtain ⟨Sv, hSv, hcardv⟩ := hpost.count
  have hdisj : Disjoint S Sv := by
    rw [Finset.disjoint_left]
    intro x hx hxv
    obtain ⟨hxm, c, hc, hcp, hcx⟩ := (hS x).1 hx
    exact hsep c hc hcp x hxm hcx ((hSv x).1 hxv).2
  refine ⟨hpost.hL.trans hloop.hL, hpost.shape, ?_, ?_, ?_, ?_, ?_, ?_, ⟨S ∪ Sv, ?_, ?_⟩⟩
  · have := hloop.timer
    have := hpost.timer
    omega
  · rw [hfu.1]
    exact hloop.tin_u
  · intro i hi
    rw [hfu.2.2 i]
    exact hloop.row_u i hi
  · intro x hx hno
    have h1 := hpost.frame x (hno v (List.mem_append_right _ (List.mem_singleton.2 rfl)) hvp)
    have h2 := hloop.frame x hx (fun c hc hcp => hno c (List.mem_append_left _ hc) hcp)
    exact ⟨h1.1.trans h2.1, h1.2.1.trans h2.2.1, fun i => (h1.2.2 i).trans (h2.2.2 i)⟩
  · intro c hc hcp x hx hcx
    rcases hcases c hc with hcd | hcv
    · have h1 := hpost.frame x (hsep c hcd hcp x hx hcx)
      obtain ⟨b1, b2, b3, b4⟩ := hloop.below c hcd hcp x hx hcx
      have := hpost.timer
      refine ⟨by rw [h1.1]; exact b1, by rw [h1.1, h1.2.1]; exact b2,
        by rw [h1.2.1]; omega, ?_⟩
      intro i hi
      rw [h1.2.2 i]
      exact b4 i hi
    · rw [hcv] at hcx
      obtain ⟨b1, b2, b3, b4⟩ := hpost.below x hx hcx
      have := hloop.timer
      exact ⟨by omega, b2, b3, b4⟩
  · intro c hc hcp c' hc' hcp' x y hx hy hcx hcy
    rcases hcases c hc with hcd | hcv <;> rcases hcases c' hc' with hcd' | hcv'
    · have h1 := hpost.frame x (hsep c hcd hcp x hx hcx)
      have h2 := hpost.frame y (hsep c' hcd' hcp' y hy hcy)
      rw [h1.1, h2.1, h1.2.1, h2.2.1]
      exact hloop.nest c hcd hcp c' hcd' hcp' x y hx hy hcx hcy
    · -- `x` below an earlier child, `y` below `v`
      rw [hcv'] at hcy
      have h1 := hpost.frame x (hsep c hcd hcp x hx hcx)
      obtain ⟨b1, b2, b3, _⟩ := hloop.below c hcd hcp x hx hcx
      obtain ⟨d1, d2, d3, _⟩ := hpost.below y hy hcy
      constructor
      · rintro ⟨_, e2⟩
        rw [h1.2.1] at e2
        omega
      · intro hxy
        exact absurd hcy (hsep c hcd hcp y hy (hcx.trans hxy))
    · -- `x` below `v`, `y` below an earlier child
      rw [hcv] at hcx
      have h2 := hpost.frame y (hsep c' hcd' hcp' y hy hcy)
      obtain ⟨b1, b2, b3, _⟩ := hloop.below c' hcd' hcp' y hy hcy
      obtain ⟨d1, d2, d3, _⟩ := hpost.below x hx hcx
      constructor
      · rintro ⟨e1, _⟩
        rw [h2.1] at e1
        omega
      · intro hxy
        exact absurd (hcx.trans hxy) (hsep c' hcd' hcp' y hy hcy)
    · rw [hcv] at hcx
      rw [hcv'] at hcy
      exact hpost.nest x y hx hy hcx hcy
  · intro x
    rw [Finset.mem_union, hS, hSv]
    constructor
    · rintro (⟨hx, c, hc, hcp, hcx⟩ | ⟨hx, hvx⟩)
      · exact ⟨hx, c, List.mem_append_left _ hc, hcp, hcx⟩
      · exact ⟨hx, v, List.mem_append_right _ (List.mem_singleton.2 rfl), hvp, hvx⟩
    · rintro ⟨hx, c, hc, hcp, hcx⟩
      rcases hcases c hc with hcd | hcv
      · exact Or.inl ⟨hx, c, hcd, hcp, hcx⟩
      · rw [hcv] at hcx
        exact Or.inr ⟨hx, hcx⟩
  · rw [Finset.card_union_of_disjoint hdisj, hcardv, hcard]
    push_cast
    ring

theorem tree_child_anc {par : Nat → Nat} {u c x : Nat} (hpc : par c = u)
    (hcx : IsAnc par c x) : IsAnc par u x :=
  IsAnc.trans ⟨1, by rw [Function.iterate_one]; exact hpc⟩ hcx

/-- The invariant at the end of the loop gives the summary of the call. -/
theorem dfs_finish (h : IsRootedTree adj V root par dep) {L u : Nat} {t t2 : LCA}
    (hu : InTree V u) (hloop : DfsLoop par V L t t2 u (adj u)) :
    DfsPost par V L t
      { t2 with timer := t2.timer + 1, tout := setAt t2.tout u (t2.timer + 1) } u := by
  have hchild : ∀ x, InTree V x → IsAnc par u x → x ≠ u →
      ∃ c, c ∈ adj u ∧ c ≠ par u ∧ IsAnc par c x := by
    intro x hx ⟨k, hk⟩ hne
    exact tree_below_child h hu k x hx hk hne
  have hdep : ∀ c ∈ adj u, c ≠ par u → par c = u ∧ dep c = dep u + 1 := fun c hc hcp =>
    ⟨(tree_child h hu hc hcp).2.2.1, (tree_child h hu hc hcp).2.2.2⟩
  have htm := hloop.timer
  obtain ⟨S, hS, hcard⟩ := hloop.count
  have huS : u ∉ S := by
    intro hmem
    obtain ⟨_, c, hc, hcp, hcu⟩ := (hS u).1 hmem
    exact tree_child_not_above h hu (hdep c hc hcp).2 (IsAnc.refl par u) hcu
  refine ⟨hloop.hL, hloop.shape, ?_, hloop.tin_u, setAt_same _ _ _, ?_, ?_, ?_,
    ⟨insert u S, ?_, ?_⟩⟩
  · show t.timer < t2.timer + 1
    omega
  · intro x hx
    have hxu : x ≠ u := fun e => hx (e ▸ IsAnc.refl par u)
    have := hloop.frame x hxu (fun c hc hcp hcx => hx (tree_child_anc (hdep c hc hcp).1 hcx))
    exact ⟨this.1, (setAt_ne _ _ hxu).trans this.2.1, this.2.2⟩
  · intro x hx hux
    by_cases hxu : x = u
    · subst hxu
      refine ⟨?_, ?_, ?_, hloop.row_u⟩
      · show t.timer < t2.tin x
        rw [hloop.tin_u]
        omega
      · show t2.tin x < setAt t2.tout x (t2.timer + 1) x
        rw [hloop.tin_u, setAt_same]
        omega
      · show setAt t2.tout x (t2.timer + 1) x ≤ t2.timer + 1
        rw [setAt_same]
    · obtain ⟨c, hc, hcp, hcx⟩ := hchild x hx hux hxu
      obtain ⟨b1, b2, b3, b4⟩ := hloop.below c hc hcp x hx hcx
      refine ⟨?_, ?_, ?_, b4⟩
      · show t.timer < t2.tin x
        omega
      · show t2.tin x < setAt t2.tout u (t2.timer + 1) x
        rw [setAt_ne _ _ hxu]
        exact b2
      · show setAt t2.tout u (t2.timer + 1) x ≤ t2.timer + 1
        rw [setAt_ne _ _ hxu]
        omega
  · intro x y hx hy hux huy
    show (t2.tin x ≤ t2.tin y ∧
      setAt t2.tout u (t2.timer + 1) y ≤ setAt t2.tout u (t2.timer + 1) x) ↔ IsAnc par x y
    by_cases hxu : x = u
    · subst hxu
      rw [setAt_same]
      by_cases hyu : y = x
      · subst hyu
        rw [setAt_same]
        exact ⟨fun _ => IsAnc.refl par y, fun _ => ⟨le_refl _, le_refl _⟩⟩
      · obtain ⟨c, hc, hcp, hcy⟩ := hchild y hy huy hyu
        obtain ⟨b1, b2, b3, _⟩ := hloop.below c hc hcp y hy hcy
        rw [setAt_ne _ _ hyu, hloop.tin_u]
        exact ⟨fun _ => huy, fun _ => ⟨by omega, by omega⟩⟩
    · obtain ⟨c, hc, hcp, hcx⟩ := hchild x hx hux hxu
      obtain ⟨b1, b2, b3, _⟩ := hloop.below c hc hcp x hx hcx
      rw [setAt_ne _ _ hxu]
      by_cases hyu : y = u
      · subst hyu
        rw [setAt_same, hloop.tin_u]
        constructor
        · rintro ⟨e1, _⟩
          omega
        · intro hxy
          exact absurd (hcx.trans hxy)
            (tree_child_not_above h hy (hdep c hc hcp).2 (IsAnc.refl par y))
      · obtain ⟨c', hc', hcp', hcy⟩ := hchild y hy huy hyu
        rw [setAt_ne _ _ hyu]
        exact hloop.nest c hc hcp c' hc' hcp' x y hx hy hcx hcy
  · intro x
    rw [Finset.mem_insert, hS]
    constructor
    · rintro (hxu | ⟨hx, c, hc, hcp, hcx⟩)
      · rw [hxu]
        exact ⟨hu, IsAnc.refl par u⟩
      · exact ⟨hx, tree_child_anc (hdep c hc hcp).1 hcx⟩
    · rintro ⟨hx, hux⟩
      by_cases hxu : x = u
      · exact Or.inl hxu
      · exact Or.inr ⟨hx, hchild x hx hux hxu⟩
  · show t2.timer + 1 = t.timer + 2 * ((insert u S).card : Int)
    rw [Finset.card_insert_of_not_mem huS, hcard]
    push_cast
    ring

/-- Room for all stamps below `u` is room for the first stamp of `u` and the stamps
properly below it. -/
theorem roomBelow_of_room {u : Nat} {timer : Int} (hu : InTree V u)
    (hroom : Room par V timer u) : RoomBelow par V timer u := by
  intro S hS
  have huS : u ∉ S := fun hm => (hS u hm).2.2 rfl
  have := hroom (insert u S) (by
    intro x hx
    rcases Finset.mem_insert.1 hx with hxu | hx
    · rw [hxu]
      exact ⟨hu, IsAnc.refl par u⟩
    · exact ⟨(hS x hx).1, (hS x hx).2.1⟩)
  rw [Finset.card_insert_of_not_mem huS] at this
  push_cast at this
  omega

/-- The clock leaves room for the call of a child that has not been handled. -/
theorem dfs_loop_room (h : IsRootedTree adj V root par dep) {L u v : Nat} {t t2 : LCA}
    {done : List Nat} (hu : InTree V u) (hdone : ∀ c ∈ done, c ∈ adj u) (hv : v ∈ adj u)
    (hvd : v ∉ done) (hvp : v ≠ par u) (hroom : RoomBelow par V t.timer u)
    (hloop : DfsLoop par V L t t2 u done) : Room par V t2.timer v := by
  obtain ⟨hvm, hvr, hpv, hdv⟩ := tree_child h hu hv hvp
  obtain ⟨S, hS, hcard⟩ := hloop.count
  intro Sv hSv
  have hsub : ∀ x ∈ S, InTree V x ∧ IsAnc par u x := by
    intro x hx
    obtain ⟨hxm, c, hc, hcp, hcx⟩ := (hS x).1 hx
    exact ⟨hxm, tree_child_anc (tree_child h hu (hdone c hc) hcp).2.2.1 hcx⟩
  have hdisj : Disjoint S Sv := by
    rw [Finset.disjoint_left]
    intro x hx hxv
    obtain ⟨hxm, c, hc, hcp, hcx⟩ := (hS x).1 hx
    have := tree_child_unique h hxm (tree_child h hu (hdone c hc) hcp).2.2.2 hdv hcx
      (hSv x hxv).2
    exact hvd (this ▸ hc)
  have huS : u ∉ S ∪ Sv := by
    intro hmem
    rcases Finset.mem_union.1 hmem with hm | hm
    · obtain ⟨_, c, hc, hcp, hcu⟩ := (hS u).1 hm
      exact tree_child_not_above h hu (tree_child h hu (hdone c hc) hcp).2.2.2
        (IsAnc.refl par u) hcu
    · exact tree_child_not_above h hu hdv (IsAnc.refl par u) (hSv u hm).2
  have := hroom (S ∪ Sv) (by
    intro x hx
    have hxu : x ≠ u := fun e => huS (e ▸ hx)
    rcases Finset.mem_union.1 hx with hm | hm
    · exact ⟨(hsub x hm).1, (hsub x hm).2, hxu⟩
    · exact ⟨(hSv x hm).1, tree_child_anc hpv (hSv x hm).2, hxu⟩)
  rw [Finset.card_union_of_disjoint hdisj] at this
  push_cast at this
  omega

/-- The loop over the neighbours of `u`, given that the calls for the children behave. -/
theorem dfs_loop_run (h : IsRootedTree adj V root par dep) {L fuel u : Nat} {t : LCA}
    (hu : InTree V u)
    (hpre : ∀ w, InTree V w → w ≠ u → IsAnc par w u → RowOK par L t.ancestor w)
    (ih : ∀ c t2, InTree V c → dep c = dep u + 1 → t2.L = L → Shape t2.ancestor V L →
      (∀ w, InTree V w → w ≠ c → IsAnc par w c → RowOK par L t2.ancestor w) →
      0 ≤ t2.timer → Room par V t2.timer c →
      ∃ t3, dfs adj fuel c (par c) t2 = some t3 ∧ DfsPost par V L t2 t3 c)
    (hL : t.L = L) (h0 : 0 ≤ t.timer) (hroom : RoomBelow par V t.timer u) :
    ∀ (todo done : List Nat) (t2 : LCA), done ++ todo = adj u →
      DfsLoop par V L t t2 u done →
      ∃ t3, todo.foldlM
          (fun (t2 : LCA) (v : Nat) => if v ≠ par u then dfs adj fuel v u t2 else some t2)
          t2 = some t3 ∧
        DfsLoop par V L t t3 u (adj u) := by
  intro todo
  induction todo with
  | nil =>
    intro done t2 hsplit hloop
    rw [List.append_nil] at hsplit
    rw [← hsplit]
    exact ⟨t2, rfl, hloop⟩
  | cons v todo ihl =>
    intro done t2 hsplit hloop
    have hnd := h.nodup u hu
    rw [← hsplit] at hnd
    have hvd : v ∉ done := by
      intro hmem
      have := (List.nodup_append.1 hnd).2.2
      exact this hmem (List.mem_cons_self _ _)
    have hdone : ∀ c ∈ done, c ∈ adj u := by
      intro c hc
      rw [← hsplit]
      exact List.mem_append_left _ hc
    have hv : v ∈ adj u := by
      rw [← hsplit]
      exact List.mem_append_right _ (List.mem_cons_self _ _)
    have hsplit' : (done ++ [v]) ++ todo = adj u := by
      rw [← hsplit]
      simp
    rw [List.foldlM_cons]
    by_cases hvp : v = par u
    · have hstep : (if v ≠ par u then dfs adj fuel v u t2 else some t2) = some t2 := by
        rw [if_neg (not_not.2 hvp)]
      rw [hstep]
      have hloop' := dfs_loop_skip hloop
      rw [← hvp] at hloop'
      exact ihl (done ++ [v]) t2 hsplit' hloop'
    · obtain ⟨hvm, _, hpv, hdv⟩ := tree_child h hu hv hvp
      obtain ⟨t3, hrun, hpost⟩ := ih v t2 hvm hdv (hloop.hL.trans hL) hloop.shape
        (dfs_loop_pre h hu hdone hpv hpre hloop) (by have := hloop.timer; omega)
        (dfs_loop_room h hu hdone hv hvd hvp hroom hloop)
      rw [hpv] at hrun
      have hstep : (if v ≠ par u then dfs adj fuel v u t2 else some t2) = some t3 := by
        rw [if_pos hvp]
        exact hrun
      rw [hstep]
      exact ihl (done ++ [v]) t3 hsplit' (dfs_loop_child h hu hdone hv hvd hvp hloop hpost)

/-- A call of `dfs` up to its last stamp: when the calls for the children behave and the
clock has room for the first stamp of `u` and the stamps below `u`, the call returns, and
before the last stamp of `u` is taken the state is as `DfsLoop` says. -/
theorem dfs_children (h : IsRootedTree adj V root par dep) {L fuel u : Nat} {t : LCA}
    (hu : InTree V u) (hL : t.L = L) (hs : Shape t.ancestor V L)
    (hpre : ∀ w, InTree V w → w ≠ u → IsAnc par w u → RowOK par L t.ancestor w)
    (ih : ∀ c t2, InTree V c → dep c = dep u + 1 → t2.L = L → Shape t2.ancestor V L →
      (∀ w, InTree V w → w ≠ c → IsAnc par w c → RowOK par L t2.ancestor w) →
      0 ≤ t2.timer → Room par V t2.timer c →
      ∃ t3, dfs adj fuel c (par c) t2 = some t3 ∧ DfsPost par V L t2 t3 c)
    (h0 : 0 ≤ t.timer) (hroom : RoomBelow par V t.timer u) :
    ∃ t3, dfs adj (fuel + 1) u (par u) t =
        some { t3 with timer := wrap32 (t3.timer + 1)
                       tout := setAt t3.tout u (wrap32 (t3.timer + 1)) } ∧
      DfsLoop par V L t t3 u (adj u) := by
  have hfirst : t.timer + 1 < 2 ^ 31 := by
    have := hroom ∅ (by simp)
    simpa using this
  have hw : wrap32 (t.timer + 1) = t.timer + 1 := wrap32_of_range (by omega) hfirst
  obtain ⟨t3, hrun, hloop⟩ := dfs_loop_run h hu hpre ih hL h0 hroom (adj u) [] _
    (List.nil_append _) (dfs_loop_init h hu hL hs hpre)
  refine ⟨t3, ?_, hloop⟩
  rw [dfs]
  simp only [hw, hrun]

/-- Total correctness of `dfs`: called on a vertex `u` of the tree with its parent, with
the rows of the proper ancestors of `u` in place, fuel for the levels below `u` and room
on the clock for the stamps below `u`, it returns and has done what `DfsPost` says. -/
theorem dfs_spec (h : IsRootedTree adj V root par dep) (L : Nat) :
    ∀ (fuel u : Nat) (t : LCA), InTree V u → V + 1 ≤ fuel + dep u → t.L = L →
      Shape t.ancestor V L →
      (∀ w, InTree V w → w ≠ u → IsAnc par w u → RowOK par L t.ancestor w) →
      0 ≤ t.timer → Room par V t.timer u →
      ∃ t', dfs adj fuel u (par u) t = some t' ∧ DfsPost par V L t t' u := by
  intro fuel
  induction fuel with
  | zero =>
    intro u t hu hf
    have := tree_dep_lt h hu
    omega
  | succ fuel ih =>
    intro u t hu hf hL hs hpre h0 hroom
    have ih' : ∀ c t2, InTree V c → dep c = dep u + 1 → t2.L = L → Shape t2.ancestor V L →
        (∀ w, InTree V w → w ≠ c → IsAnc par w c → RowOK par L t2.ancestor w) →
        0 ≤ t2.timer → Room par V t2.timer c →
        ∃ t3, dfs adj fuel c (par c) t2 = some t3 ∧ DfsPost par V L t2 t3 c := by
      intro c t2 hc hdc hL2 hs2 hpre2 h02 hroom2
      exact ih c t2 hc (by omega) hL2 hs2 hpre2 h02 hroom2
    obtain ⟨t3, hrun, hloop⟩ := dfs_children h hu hL hs hpre ih' h0
      (roomBelow_of_room hu hroom)
    have hpost := dfs_finish h hu hloop
    obtain ⟨S, hS, hcard⟩ := hpost.count
    have hfit := hroom S (fun x hx => (hS x).1 hx)
    have hcard2 : t3.timer + 1 = t.timer + 2 * (S.card : Int) := hcard
    have htm := hloop.timer
    have hw : wrap32 (t3.timer + 1) = t3.timer + 1 :=
      wrap32_of_range (by omega) (by omega)
    rw [hw] at hrun
    exact ⟨_, hrun, hpost⟩

end Dfs

/-! ### The constructor and the queries -/

/-- For `V ≤ 2^30` the loop `for (L = 1; L < V; L <<= 1);` stops at the least power of two
that is at least `V`. -/
theorem levelLoop_pow (V : Nat) (hV : V ≤ 2 ^ 30) :
    ∀ (fuel i : Nat), i ≤ Nat.clog 2 V → Nat.clog 2 V < i + fuel →
      levelLoop V fuel ((2 : Int) ^ i) = some ((2 : Int) ^ Nat.clog 2 V) := by
  have hc30 : Nat.clog 2 V ≤ 30 := (Nat.le_pow_iff_clog_le (by omega)).1 hV
  intro fuel
  induction fuel with
  | zero =>
    intro i h1 h2
    omega
  | succ fuel ih =>
    intro i h1 h2
    rw [levelLoop]
    by_cases hi : i = Nat.clog 2 V
    · have hle : V ≤ 2 ^ i := by
        rw [hi]
        exact Nat.le_pow_clog (by omega) V
      have hnot : ¬ ((2 : Int) ^ i < (V : Int)) := by
        have : ((V : Nat) : Int) ≤ ((2 ^ i : Nat) : Int) := Int.ofNat_le.2 hle
        push_cast at this
        omega
      rw [if_neg hnot, hi]
    · have hlt : 2 ^ i < V := (Nat.pow_lt_iff_lt_clog (by omega)).2 (by omega)
      have hyes : (2 : Int) ^ i < (V : Int) := by
        have : ((2 ^ i : Nat) : Int) < ((V : Nat) : Int) := Int.ofNat_lt.2 hlt
        push_cast at this
        exact this
      have hpow : (2 : Int) ^ (i + 1) ≤ 2 ^ 30 :=
        pow_le_pow_right₀ (by norm_num) (by omega)
      have hpos : (0 : Int) < 2 ^ (i + 1) := by positivity
      have hw : wrap32 ((2 : Int) ^ i * 2) = 2 ^ (i + 1) := by
        rw [← pow_succ]
        exact wrap32_of_range (by omega) (by omega)
      rw [if_pos hyes, hw]
      exact ih (i + 1) (by omega) (by omega)

/-- Once `L` is 0 the loop `for (...; L < V; L <<= 1);` never ends. -/
theorem levelLoop_zero (V : Int) (hV : 0 < V) : ∀ fuel, levelLoop V fuel 0 = none := by
  intro fuel
  induction fuel with
  | zero => rfl
  | succ fuel ih =>
    rw [levelLoop, if_pos hV]
    have : wrap32 (0 * 2) = 0 := by decide
    rw [this]
    exact ih

/-- For `V > 2^30` the loop `for (L = 1; L < V; L <<= 1);` never ends: `L` passes `2^30`,
wraps to `-2^31` and stays 0 from then on. -/
theorem levelLoop_never (V : Int) (hV : 2 ^ 30 < V) :
    ∀ (fuel i : Nat), i ≤ 30 → levelLoop V fuel ((2 : Int) ^ i) = none := by
  intro fuel
  induction fuel with
  | zero =>
    intro i _
    rfl
  | succ fuel ih =>
    intro i hi
    have hpow : (2 : Int) ^ i ≤ 2 ^ 30 := pow_le_pow_right₀ (by norm_num) hi
    rw [levelLoop, if_pos (by omega)]
    by_cases h30 : i = 30
    · rw [h30]
      have hw : wrap32 ((2 : Int) ^ 30 * 2) = -2 ^ 31 := by decide
      rw [hw]
      cases fuel with
      | zero => rfl
      | succ fuel =>
        rw [levelLoop, if_pos (by omega)]
        have hw2 : wrap32 (-2 ^ 31 * 2) = 0 := by decide
        rw [hw2]
        exact levelLoop_zero V (by omega) fuel
    · have hpow2 : (2 : Int) ^ (i + 1) ≤ 2 ^ 30 :=
        pow_le_pow_right₀ (by norm_num) (by omega)
      have hpos : (0 : Int) < 2 ^ (i + 1) := by positivity
      have hw : wrap32 ((2 : Int) ^ i * 2) = 2 ^ (i + 1) := by
        rw [← pow_succ]
        exact wrap32_of_range (by omega) (by omega)
      rw [hw]
      exact ih (i + 1) (by omega)

/-- The value of `L` that the constructor computes, for every `V`. -/
theorem level_count (V : Nat) :
    levelLoop V (V + 1) 1 =
      if V ≤ 2 ^ 30 then some (((2 ^ Nat.clog 2 V : Nat) : Int)) else none := by
  by_cases hV : V ≤ 2 ^ 30
  · rw [if_pos hV]
    have hc : Nat.clog 2 V ≤ V :=
      (Nat.le_pow_iff_clog_le (by omega)).1 (le_of_lt (Nat.lt_two_pow V))
    have := levelLoop_pow V hV (V + 1) 0 (Nat.zero_le _) (by omega)
    rw [pow_zero] at this
    rw [this]
    push_cast
    rfl
  · rw [if_neg hV]
    have hV2 : (2 : Int) ^ 30 < (V : Int) := by
      have : ((2 ^ 30 : Nat) : Int) < ((V : Nat) : Int) := Int.ofNat_lt.2 (by omega)
      push_cast at this
      exact this
    have := levelLoop_never V hV2 (V + 1) 0 (by omega)
    rw [pow_zero] at this
    exact this

section Queries

variable {adj : Nat → List Nat} {V root : Nat} {par dep : Nat → Nat}

theorem tree_root_anc (h : IsRootedTree adj V root par dep) {x : Nat} (hx : InTree V x) :
    IsAnc par root x := by
  refine ⟨dep x, ?_⟩
  by_contra hne
  have h1 := tree_dep_pos h (tree_iterate_mem h hx (dep x)) hne
  rw [tree_dep_iterate h hx] at h1
  omega

theorem tree_anc_root (h : IsRootedTree adj V root par dep) {w : Nat}
    (hw : IsAnc par w root) : w = root := by
  obtain ⟨k, hk⟩ := hw
  rw [tree_iterate_root h] at hk
  exact hk.symm

theorem shape_replicate (V L : Nat) :
    Shape (List.replicate (V + 1) (List.replicate (L + 1) 0)) V L := by
  constructor
  · simp
  · intro u hu
    have hlt : u < V + 1 := by omega
    simp [List.getD_eq_getElem?_getD, List.getElem?_replicate, hlt]

/-- For `V ≤ 2^30` the constructor calls `dfs` with `L` the least power of two that is at
least `V`. -/
theorem build_unfold (adj : Nat → List Nat) (V root : Nat) (hV : V ≤ 2 ^ 30) :
    LCA.build adj V root = dfs adj (V + 1) root root (initial V (2 ^ Nat.clog 2 V)) := by
  unfold LCA.build
  rw [level_count, if_pos hV]
  simp only [Int.toNat_ofNat]
  rfl

/-- The clock of the constructor leaves room for all stamps but the last when
`V ≤ 2^30`. -/
theorem roomBelow_root (h : IsRootedTree adj V root par dep) (hV : V ≤ 2 ^ 30) :
    RoomBelow par V 0 root := by
  intro S hS
  have hsub : S ⊆ (Finset.Icc 1 V).erase root := by
    intro x hx
    exact Finset.mem_erase.2 ⟨(hS x hx).2.2, Finset.mem_Icc.2 (hS x hx).1⟩
  have hc := Finset.card_le_card hsub
  rw [Finset.card_erase_of_mem (Finset.mem_Icc.2 h.root_mem), Nat.card_Icc] at hc
  have := h.root_mem.1
  have := h.root_mem.2
  omega

/-- The constructor up to the last stamp of the root, for `V ≤ 2^30`: it returns; before
`tout[root]` is taken the traversal has done what `DfsLoop` says and the clock shows
`2 * V - 1`. -/
theorem build_loop (h : IsRootedTree adj V root par dep) (hV : V ≤ 2 ^ 30) :
    ∃ t3, LCA.build adj V root =
        some { t3 with timer := wrap32 (t3.timer + 1)
                       tout := setAt t3.tout root (wrap32 (t3.timer + 1)) } ∧
      DfsLoop par V (2 ^ Nat.clog 2 V) (initial V (2 ^ Nat.clog 2 V)) t3 root (adj root) ∧
      t3.timer = 2 * (V : Int) - 1 := by
  have hpre : ∀ w, InTree V w → w ≠ root → IsAnc par w root →
      RowOK par (2 ^ Nat.clog 2 V) (initial V (2 ^ Nat.clog 2 V)).ancestor w :=
    fun w _ hne hw => absurd (tree_anc_root h hw) hne
  have ih : ∀ c t2, InTree V c → dep c = dep root + 1 → t2.L = 2 ^ Nat.clog 2 V →
      Shape t2.ancestor V (2 ^ Nat.clog 2 V) →
      (∀ w, InTree V w → w ≠ c → IsAnc par w c → RowOK par (2 ^ Nat.clog 2 V) t2.ancestor w) →
      0 ≤ t2.timer → Room par V t2.timer c →
      ∃ t3, dfs adj V c (par c) t2 = some t3 ∧ DfsPost par V (2 ^ Nat.clog 2 V) t2 t3 c :=
    fun c t2 hc hdc hL hs hp h0 hroom =>
      dfs_spec h _ V c t2 hc (by omega) hL hs hp h0 hroom
  obtain ⟨t3, hrun, hloop⟩ := dfs_children h h.root_mem
    (rfl : (initial V (2 ^ Nat.clog 2 V)).L = 2 ^ Nat.clog 2 V) (shape_replicate V _) hpre ih
    (le_refl (0 : Int)) (roomBelow_root h hV)
  rw [h.par_root] at hrun
  refine ⟨t3, by rw [build_unfold _ _ _ hV]; exact hrun, hloop, ?_⟩
  obtain ⟨S, hS, hcard⟩ := hloop.count
  have hSeq : S = (Finset.Icc 1 V).erase root := by
    ext x
    rw [hS, Finset.mem_erase, Finset.mem_Icc]
    constructor
    · rintro ⟨hx, c, hc, hcp, hcx⟩
      refine ⟨?_, hx⟩
      intro hxr
      rw [hxr] at hcx
      exact tree_child_not_above h h.root_mem (tree_child h h.root_mem hc hcp).2.2.2
        (IsAnc.refl par root) hcx
    · rintro ⟨hne, hx⟩
      obtain ⟨k, hk⟩ := tree_root_anc h hx
      exact ⟨hx, tree_below_child h h.root_mem k x hx hk hne⟩
  rw [hSeq, Finset.card_erase_of_mem (Finset.mem_Icc.2 h.root_mem), Nat.card_Icc] at hcard
  have h0 : (initial V (2 ^ Nat.clog 2 V)).timer = 0 := rfl
  rw [h0] at hcard
  have := h.root_mem.1
  have := h.root_mem.2
  omega

/-- The constructor returns on every tree with fewer than `2^30` vertices; in the
structure it builds, `isAncestor` decides ancestry, the table holds the `2^i`-th
ancestors, and `L ≥ V`. -/
theorem build_spec (h : IsRootedTree adj V root par dep) (hV : V < 2 ^ 30) :
    ∃ t, LCA.build adj V root = some t ∧ V ≤ t.L ∧
      (∀ x y, InTree V x → InTree V y → (t.isAncestor x y = true ↔ IsAnc par x y)) ∧
      (∀ x, InTree V x → RowOK par t.L t.ancestor x) := by
  obtain ⟨t3, hb, hloop, htm⟩ := build_loop h (le_of_lt hV)
  have hw : wrap32 (t3.timer + 1) = t3.timer + 1 :=
    wrap32_of_range (by omega) (by omega)
  rw [hw] at hb
  have hpost := dfs_finish h h.root_mem hloop
  have hL : t3.L = 2 ^ Nat.clog 2 V := hloop.hL
  refine ⟨_, hb, ?_, ?_, ?_⟩
  · show V ≤ t3.L
    rw [hL]
    exact Nat.le_pow_clog (by omega) V
  · intro x y hx hy
    have := hpost.nest x y hx hy (tree_root_anc h hx) (tree_root_anc h hy)
    rw [← this]
    simp [LCA.isAncestor]
  · intro x hx
    show RowOK par t3.L t3.ancestor x
    rw [hL]
    exact (hpost.below x hx (tree_root_anc h hx)).2.2.2

/-- The table of the constructor on every tree with at most `2^30` vertices: the
constructor returns, `L ≥ V`, and the table holds the `2^i`-th ancestors.  (With `2^30`
vertices the last time stamp wraps; the table does not depend on it.) -/
theorem build_table (h : IsRootedTree adj V root par dep) (hV : V ≤ 2 ^ 30) :
    ∃ t, LCA.build adj V root = some t ∧ V ≤ t.L ∧
      (∀ x, InTree V x → RowOK par t.L t.ancestor x) := by
  obtain ⟨t3, hb, hloop, _⟩ := build_loop h hV
  have hL : t3.L = 2 ^ Nat.clog 2 V := hloop.hL
  refine ⟨_, hb, ?_, ?_⟩
  · show V ≤ t3.L
    rw [hL]
    exact Nat.le_pow_clog (by omega) V
  · intro x hx
    show RowOK par t3.L t3.ancestor x
    rw [hL]
    by_cases hxr : x = root
    · rw [hxr]
      exact hloop.row_u
    · obtain ⟨k, hk⟩ := tree_root_anc h hx
      obtain ⟨c, hc, hcp, hcx⟩ := tree_below_child h h.root_mem k x hx hk hxr
      exact (hloop.below c hc hcp x hx hcx).2.2.2

/-- The structure that the constructor builds on a tree with exactly `2^30` vertices: the
last time stamp `tout[root]` is `2^31` wrapped to `-2^31`, so `isAncestor(root, x)` is
false for every other vertex `x`; between vertices other than the root `isAncestor`
decides ancestry, and the table is right. -/
theorem build_boundary (h : IsRootedTree adj V root par dep) (hV : V = 2 ^ 30) :
    ∃ t, LCA.build adj V root = some t ∧ V ≤ t.L ∧
      (∀ x, InTree V x → RowOK par t.L t.ancestor x) ∧
      (∀ x, InTree V x → x ≠ root → t.isAncestor root x = false) ∧
      (∀ x y, InTree V x → InTree V y → x ≠ root → y ≠ root →
        (t.isAncestor x y = true ↔ IsAnc par x y)) := by
  obtain ⟨t3, hb, hloop, htm⟩ := build_loop h (le_of_eq hV)
  have hL : t3.L = 2 ^ Nat.clog 2 V := hloop.hL
  have hlast : wrap32 (t3.timer + 1) = -2 ^ 31 := by
    rw [htm, hV]
    decide
  have hbelow : ∀ x, InTree V x → x ≠ root →
      ∃ c, c ∈ adj root ∧ c ≠ par root ∧ IsAnc par c x := by
    intro x hx hxr
    obtain ⟨k, hk⟩ := tree_root_anc h hx
    exact tree_below_child h h.root_mem k x hx hk hxr
  have h0 : (initial V (2 ^ Nat.clog 2 V)).timer = 0 := rfl
  refine ⟨_, hb, ?_, ?_, ?_, ?_⟩
  · show V ≤ t3.L
    rw [hL]
    exact Nat.le_pow_clog (by omega) V
  · intro x hx
    show RowOK par t3.L t3.ancestor x
    rw [hL]
    by_cases hxr : x = root
    · rw [hxr]
      exact hloop.row_u
    · obtain ⟨c, hc, hcp, hcx⟩ := hbelow x hx hxr
      exact (hloop.below c hc hcp x hx hcx).2.2.2
  · intro x hx hxr
    obtain ⟨c, hc, hcp, hcx⟩ := hbelow x hx hxr
    obtain ⟨b1, b2, b3, _⟩ := hloop.below c hc hcp x hx hcx
    rw [h0] at b1
    show (decide (t3.tin root ≤ t3.tin x) &&
      decide (setAt t3.tout root (wrap32 (t3.timer + 1)) root ≥
        setAt t3.tout root (wrap32 (t3.timer + 1)) x)) = false
    rw [setAt_same, setAt_ne _ _ hxr, hlast]
    have hf : decide (-2 ^ 31 ≥ t3.tout x) = false := decide_eq_false (by omega)
    rw [hf, Bool.and_false]
  · intro x y hx hy hxr hyr
    obtain ⟨c, hc, hcp, hcx⟩ := hbelow x hx hxr
    obtain ⟨c', hc', hcp', hcy⟩ := hbelow y hy hyr
    have := hloop.nest c hc hcp c' hc' hcp' x y hx hy hcx hcy
    rw [← this]
    show (decide (t3.tin x ≤ t3.tin y) &&
      decide (setAt t3.tout root (wrap32 (t3.timer + 1)) x ≥
        setAt t3.tout root (wrap32 (t3.timer + 1)) y)) = true ↔ _
    rw [setAt_ne _ _ hxr, setAt_ne _ _ hyr]
    simp

theorem tree_anc_step {par : Nat → Nat} {a v : Nat} (ha : IsAnc par a v) :
    IsAnc par (par a) v := by
  obtain ⟨k, hk⟩ := ha
  exact ⟨k + 1, by rw [Function.iterate_succ_apply', hk]⟩

theorem levels_succ (n : Nat) :
    (List.range (n + 1)).map (fun k => n + 1 - 1 - k) =
      n :: (List.range n).map (fun k => n - 1 - k) := by
  rw [List.range_succ_eq_map, List.map_cons, List.map_map]
  congr 1
  apply List.map_congr_left
  intro k _
  simp only [Function.comp]
  omega

/-- The lifting loop of `lca`: from the `j`-th ancestor of `u`, with the first ancestor of
`u` that is an ancestor of `v` being the `k0`-th and less than `2^n` steps further up, the
levels `n-1, ..., 0` lead to the `(k0-1)`-th ancestor of `u`. -/
theorem lift_loop (h : IsRootedTree adj V root par dep) {t : LCA}
    (hanc : ∀ x y, InTree V x → InTree V y → (t.isAncestor x y = true ↔ IsAnc par x y))
    (hrow : ∀ x, InTree V x → RowOK par t.L t.ancestor x) {u v : Nat} (hu : InTree V u)
    (hv : InTree V v) {k0 : Nat} (hk0 : ∀ k, IsAnc par (par^[k] u) v ↔ k0 ≤ k) :
    ∀ n, n ≤ t.L + 1 → ∀ j, j < k0 → k0 ≤ j + 2 ^ n →
      ((List.range n).map (fun k => n - 1 - k)).foldl (t.lift v) (par^[j] u) =
        par^[k0 - 1] u := by
  intro n
  induction n with
  | zero =>
    intro _ j hj hk
    have : j = k0 - 1 := by simp at hk; omega
    simp [this]
  | succ n ih =>
    intro hn j hj hk
    rw [levels_succ, List.foldl_cons]
    have hget : getRow t.ancestor (par^[j] u) n = par^[2 ^ n + j] u := by
      rw [hrow _ (tree_iterate_mem h hu j) n (by omega), Function.iterate_add_apply]
    have hdec : t.isAncestor (par^[2 ^ n + j] u) v = true ↔ k0 ≤ 2 ^ n + j := by
      rw [hanc _ _ (tree_iterate_mem h hu _) hv]
      exact hk0 _
    unfold LCA.lift
    rw [hget]
    by_cases hc : k0 ≤ 2 ^ n + j
    · rw [hdec.2 hc]
      simp only [Bool.not_true, Bool.false_eq_true, if_false]
      exact ih (by omega) j hj (by omega)
    · have hf : t.isAncestor (par^[2 ^ n + j] u) v = false := by
        cases hb : t.isAncestor (par^[2 ^ n + j] u) v with
        | false => rfl
        | true => exact absurd (hdec.1 hb) hc
      rw [hf]
      simp only [Bool.not_false, if_true]
      have hpow : 2 ^ (n + 1) = 2 ^ n + 2 ^ n := by ring
      exact ih (by omega) (2 ^ n + j) (by omega) (by omega)

/-- `lca(u, v)` is a common ancestor of `u` and `v` below which every common ancestor
lies. -/
theorem lca_spec (h : IsRootedTree adj V root par dep) {t : LCA} (hL : V ≤ t.L)
    (hanc : ∀ x y, InTree V x → InTree V y → (t.isAncestor x y = true ↔ IsAnc par x y))
    (hrow : ∀ x, InTree V x → RowOK par t.L t.ancestor x) {u v : Nat} (hu : InTree V u)
    (hv : InTree V v) :
    IsAnc par (t.lca u v) u ∧ IsAnc par (t.lca u v) v ∧
      ∀ a, IsAnc par a u → IsAnc par a v → IsAnc par a (t.lca u v) := by
  classical
  unfold LCA.lca
  by_cases h1 : t.isAncestor u v = true
  · rw [if_pos h1]
    exact ⟨IsAnc.refl par u, (hanc u v hu hv).1 h1, fun a ha _ => ha⟩
  rw [if_neg h1]
  by_cases h2 : t.isAncestor v u = true
  · rw [if_pos h2]
    exact ⟨(hanc v u hv hu).1 h2, IsAnc.refl par v, fun a _ ha => ha⟩
  rw [if_neg h2]
  have hex : ∃ k, IsAnc par (par^[k] u) v := by
    obtain ⟨k, hk⟩ := tree_root_anc h hu
    exact ⟨k, hk ▸ tree_root_anc h hv⟩
  have hmono : ∀ k, IsAnc par (par^[k] u) v → IsAnc par (par^[k + 1] u) v := by
    intro k hk
    rw [Function.iterate_succ_apply']
    exact tree_anc_step hk
  have hk0 : ∀ k, IsAnc par (par^[k] u) v ↔ Nat.find hex ≤ k := by
    intro k
    constructor
    · intro hk
      exact Nat.find_min' hex hk
    · intro hle
      induction k with
      | zero =>
        have : Nat.find hex = 0 := by omega
        rw [← this]
        exact Nat.find_spec hex
      | succ k ihk =>
        by_cases hlk : Nat.find hex ≤ k
        · exact hmono k (ihk hlk)
        · have : Nat.find hex = k + 1 := by omega
          rw [← this]
          exact Nat.find_spec hex
  have hpos : 0 < Nat.find hex := by
    by_contra hz
    have hz0 : Nat.find hex = 0 := by omega
    have := Nat.find_spec hex
    rw [hz0] at this
    exact h1 ((hanc u v hu hv).2 this)
  have hle : Nat.find hex ≤ dep u := by
    apply Nat.find_min' hex
    have e : par^[dep u] u = root := by
      by_contra hne
      have := tree_dep_pos h (tree_iterate_mem h hu (dep u)) hne
      rw [tree_dep_iterate h hu] at this
      omega
    rw [e]
    exact tree_root_anc h hv
  have hdu := tree_dep_lt h hu
  have hpow : t.L < 2 ^ t.L := Nat.lt_two_pow t.L
  have hloop := lift_loop h hanc hrow hu hv hk0 (t.L + 1) (le_refl _) 0 hpos
    (by rw [pow_succ]; omega)
  have hlist : (List.range (t.L + 1)).map (fun k => t.L - k) =
      (List.range (t.L + 1)).map (fun k => t.L + 1 - 1 - k) := by
    apply List.map_congr_left
    intro k _
    omega
  have hloop' : ((List.range (t.L + 1)).map (fun k => t.L + 1 - 1 - k)).foldl (t.lift v) u =
      par^[Nat.find hex - 1] u := hloop
  rw [hlist, hloop']
  have hres : getRow t.ancestor (par^[Nat.find hex - 1] u) 0 = par^[Nat.find hex] u := by
    rw [hrow _ (tree_iterate_mem h hu _) 0 (Nat.zero_le _)]
    have e : Nat.find hex = 2 ^ 0 + (Nat.find hex - 1) := by
      simp only [pow_zero]
      omega
    conv_rhs => rw [e, Function.iterate_add_apply]
  rw [hres]
  refine ⟨⟨_, rfl⟩, Nat.find_spec hex, ?_⟩
  rintro a ⟨k, hk⟩ hav
  rw [← hk] at hav ⊢
  have hge := (hk0 k).1 hav
  refine ⟨k - Nat.find hex, ?_⟩
  rw [← Function.iterate_add_apply]
  congr 1
  omega

/-- As many parent steps as the depth says, or more, lead to the root. -/
theorem tree_iterate_ge (h : IsRootedTree adj V root par dep) {x : Nat} (hx : InTree V x)
    {k : Nat} (hk : dep x ≤ k) : par^[k] x = root := by
  have e : par^[dep x] x = root := by
    by_contra hne
    have := tree_dep_pos h (tree_iterate_mem h hx (dep x)) hne
    rw [tree_dep_iterate h hx] at this
    omega
  obtain ⟨j, rfl⟩ : ∃ j, k = j + dep x := ⟨k - dep x, by omega⟩
  rw [Function.iterate_add_apply, e, tree_iterate_root h]

/-- Once the lifting loop of `lca` stands at the root it stays there. -/
theorem lift_root (h : IsRootedTree adj V root par dep) {t : LCA}
    (hrow : RowOK par t.L t.ancestor root) (v : Nat) :
    ∀ l : List Nat, (∀ i ∈ l, i ≤ t.L) → l.foldl (t.lift v) root = root := by
  intro l
  induction l with
  | nil => intro _; rfl
  | cons i l ih =>
    intro hl
    rw [List.foldl_cons]
    have hget : getRow t.ancestor root i = root := by
      rw [hrow i (hl i (List.mem_cons_self _ _)), tree_iterate_root h]
    have hstep : t.lift v root i = root := by
      unfold LCA.lift
      rw [hget]
      split <;> rfl
    rw [hstep]
    exact ih (fun j hj => hl j (List.mem_cons_of_mem _ hj))

/-- When `isAncestor(root, x)` is false for the vertices `x` other than the root, as it is
after the last time stamp has wrapped, `lca(u, v)` is the root for all `u`, `v` other than
the root neither of which is an ancestor of the other. -/
theorem lca_boundary (h : IsRootedTree adj V root par dep) {t : LCA} (hL : V ≤ t.L)
    (hrow : ∀ x, InTree V x → RowOK par t.L t.ancestor x)
    (hroot : ∀ x, InTree V x → x ≠ root → t.isAncestor root x = false)
    (hanc : ∀ x y, InTree V x → InTree V y → x ≠ root → y ≠ root →
      (t.isAncestor x y = true ↔ IsAnc par x y))
    {u v : Nat} (hu : InTree V u) (hv : InTree V v) (hur : u ≠ root) (hvr : v ≠ root)
    (h1 : ¬ IsAnc par u v) (h2 : ¬ IsAnc par v u) : t.lca u v = root := by
  have e1 : t.isAncestor u v = false := by
    cases hb : t.isAncestor u v with
    | false => rfl
    | true => exact absurd ((hanc u v hu hv hur hvr).1 hb) h1
  have e2 : t.isAncestor v u = false := by
    cases hb : t.isAncestor v u with
    | false => rfl
    | true => exact absurd ((hanc v u hv hu hvr hur).1 hb) h2
  have hget : getRow t.ancestor u (t.L - 0) = root := by
    rw [Nat.sub_zero, hrow u hu t.L (le_refl _)]
    have := tree_dep_lt h hu
    have := Nat.lt_two_pow t.L
    exact tree_iterate_ge h hu (by omega)
  have hfirst : t.lift v u (t.L - 0) = root := by
    unfold LCA.lift
    rw [hget, hroot v hv hvr]
    rfl
  unfold LCA.lca
  rw [e1, e2]
  simp only [Bool.false_eq_true, if_false]
  rw [List.range_succ_eq_map, List.map_cons, List.foldl_cons, hfirst,
    lift_root h (hrow root h.root_mem) v _ (by
      intro i hi
      simp only [List.mem_map, List.mem_range] at hi
      obtain ⟨k, _, rfl⟩ := hi
      omega),
    hrow root h.root_mem 0 (Nat.zero_le _)]
  exact tree_iterate_root h _

end Queries

end LcaBinaryLift

end GraphBook

namespace GraphBook

namespace LcaBinaryLift

/-! ### Tree paths -/

section Paths

variable {adj : Nat → List Nat} {V root : Nat} {par dep : Nat → Nat}

/-- On a path without repeated vertex that does not go up from its first vertex, every
step goes down to a child, so every vertex of the path is an ancestor of the last one. -/
theorem path_goes_down (h : IsRootedTree adj V root par dep) :
    ∀ (rest : List Nat) (a v : Nat), InTree V a → (a = root ∨ par a ∉ rest) →
      (a :: rest).Chain' (fun a b => b ∈ adj a) → (a :: rest).Nodup →
      (a :: rest).getLast? = some v →
      (∀ u ∈ a :: rest, IsAnc par u v) ∧ dep v = dep a + rest.length := by
  intro rest
  induction rest with
  | nil =>
    intro a v _ _ _ _ hlast
    have hav : a = v := by simpa using hlast
    refine ⟨?_, by rw [hav]; rfl⟩
    intro u hu
    have hua : u = a := by simpa using hu
    rw [hua, hav]
    exact IsAnc.refl par v
  | cons b rest ih =>
    intro a v ha hup hchain hnd hlast
    have hba : b ∈ adj a := (List.chain'_cons.1 hchain).1
    have hchain' : (b :: rest).Chain' (fun a b => b ∈ adj a) := (List.chain'_cons.1 hchain).2
    have hnd' : (b :: rest).Nodup := (List.nodup_cons.1 hnd).2
    have hab : a ∉ b :: rest := (List.nodup_cons.1 hnd).1
    have hlast' : (b :: rest).getLast? = some v := by
      rw [List.getLast?_cons_cons] at hlast
      exact hlast
    obtain ⟨hbm, hcase⟩ := (h.adj_iff a b ha).1 hba
    have hchild : b ≠ root ∧ par b = a := by
      rcases hcase with hc | hc
      · exact hc
      · rcases hup with hroot | hnot
        · exact absurd hroot hc.1
        · exact absurd (hc.2 ▸ List.mem_cons_self _ _) hnot
    have hup' : b = root ∨ par b ∉ rest := by
      right
      rw [hchild.2]
      exact fun hmem => hab (List.mem_cons_of_mem _ hmem)
    obtain ⟨hall, hlen⟩ := ih b v hbm hup' hchain' hnd' hlast'
    have hdb : dep b = dep a + 1 := by
      rw [h.dep_par b hbm hchild.1, hchild.2]
    refine ⟨?_, by rw [hlen, hdb, List.length_cons]; omega⟩
    intro u hu
    rcases List.mem_cons.1 hu with hua | hur
    · rw [hua]
      exact tree_child_anc hchild.2 (hall b (List.mem_cons_self _ _))
    · exact hall u hur

/-- The path from the root down to a vertex: it lists exactly the ancestors of the
vertex. -/
theorem path_from_root (h : IsRootedTree adj V root par dep) :
    ∀ (n v : Nat), InTree V v → dep v = n →
      ∃ l : List Nat, l.head? = some root ∧ l.getLast? = some v ∧
        l.Chain' (fun a b => b ∈ adj a) ∧ l.Nodup ∧ l.length = n + 1 ∧
        ∀ u, u ∈ l ↔ IsAnc par u v := by
  intro n
  induction n with
  | zero =>
    intro v hv hd
    have hvr : v = root := by
      by_contra hne
      have := tree_dep_pos h hv hne
      omega
    subst hvr
    refine ⟨[v], rfl, rfl, List.chain'_singleton _, List.nodup_singleton _, rfl, ?_⟩
    intro u
    constructor
    · intro hu
      rw [List.mem_singleton.1 hu]
      exact IsAnc.refl par v
    · intro hu
      rw [tree_anc_root h hu]
      exact List.mem_singleton.2 rfl
  | succ n ih =>
    intro v hv hd
    have hvr : v ≠ root := by
      intro hvr
      rw [hvr, h.dep_root] at hd
      omega
    have hp := h.par_mem v hv
    have hdp : dep (par v) = n := by
      have := h.dep_par v hv hvr
      omega
    obtain ⟨l, hhead, hlast, hchain, hnd, hlen, hmem⟩ := ih (par v) hp hdp
    have hne : l ≠ [] := by
      intro hl
      rw [hl] at hlen
      simp at hlen
    have hvl : v ∉ l := by
      intro hvl
      have := tree_anc_dep_le h hp ((hmem v).1 hvl)
      omega
    refine ⟨l ++ [v], ?_, ?_, ?_, ?_, ?_, ?_⟩
    · rw [List.head?_append_of_ne_nil _ hne]
      exact hhead
    · simp
    · rw [List.chain'_append]
      refine ⟨hchain, List.chain'_singleton _, ?_⟩
      intro x hx y hy
      have hx' : x = par v := by
        rw [hlast] at hx
        exact (Option.mem_some_iff.1 hx).symm
      have hy' : y = v := by
        simpa using hy.symm
      rw [hx', hy']
      exact (h.adj_iff (par v) v hp).2 ⟨hv, Or.inl ⟨hvr, rfl⟩⟩
    · rw [List.nodup_append]
      refine ⟨hnd, List.nodup_singleton _, ?_⟩
      intro x hx hy
      exact hvl (List.mem_singleton.1 hy ▸ hx)
    · simp [hlen]
    · intro u
      rw [List.mem_append, hmem u, List.mem_singleton]
      constructor
      · rintro (hu | hu)
        · exact hu.parent
        · rw [hu]
          exact IsAnc.refl par v
      · intro hu
        by_cases huv : u = v
        · exact Or.inr huv
        · exact Or.inl (tree_anc_of_child rfl huv hu)

/-- Lying on the tree path from the root is being an ancestor. -/
theorem onRootPath_iff (h : IsRootedTree adj V root par dep) {u v : Nat} (hv : InTree V v) :
    OnRootPath adj root u v ↔ IsAnc par u v := by
  constructor
  · rintro ⟨l, ⟨hhead, hlast, hchain, hnd⟩, hu⟩
    cases l with
    | nil => simp at hu
    | cons a rest =>
      have ha : a = root := by simpa using hhead
      subst ha
      exact (path_goes_down h rest a v h.root_mem (Or.inl rfl) hchain hnd hlast).1 u hu
  · intro hu
    obtain ⟨l, hhead, hlast, hchain, hnd, _, hmem⟩ := path_from_root h (dep v) v hv rfl
    exact ⟨l, ⟨hhead, hlast, hchain, hnd⟩, (hmem u).2 hu⟩

/-- The number of edges of the tree path from the root is the depth. -/
theorem hasDepth_iff (h : IsRootedTree adj V root par dep) {v d : Nat} (hv : InTree V v) :
    HasDepth adj root v d ↔ d = dep v := by
  constructor
  · rintro ⟨l, ⟨hhead, hlast, hchain, hnd⟩, hlen⟩
    cases l with
    | nil => simp at hlen
    | cons a rest =>
      have ha : a = root := by simpa using hhead
      subst ha
      have := (path_goes_down h rest a v h.root_mem (Or.inl rfl) hchain hnd hlast).2
      rw [h.dep_root] at this
      simp only [List.length_cons] at hlen
      omega
  · intro hd
    obtain ⟨l, hhead, hlast, hchain, hnd, hlen, _⟩ := path_from_root h (dep v) v hv rfl
    exact ⟨l, ⟨hhead, hlast, hchain, hnd⟩, by rw [hlen, hd]⟩

end Paths

/-! ### Undirected trees and rooted trees -/

theorem mem_adjPairs {adj : Nat → List Nat} {V : Nat} (u v : Nat) :
    (u, v) ∈ adjPairs adj V ↔ InTree V u ∧ v ∈ adj u := by
  simp only [adjPairs, Finset.mem_biUnion, Finset.mem_image, List.mem_toFinset,
    Finset.mem_Icc, Prod.mk.injEq, InTree]
  constructor
  · rintro ⟨a, ha, b, hb, rfl, rfl⟩
    exact ⟨ha, hb⟩
  · rintro ⟨hu, hv⟩
    exact ⟨u, hu, v, hv, rfl, rfl⟩

theorem mem_parPairs {par : Nat → Nat} {V root : Nat} (u v : Nat) :
    (u, v) ∈ parPairs par V root ↔
      (v ≠ root ∧ InTree V v ∧ par v = u) ∨ (u ≠ root ∧ InTree V u ∧ par u = v) := by
  simp only [parPairs, Finset.mem_union, Finset.mem_image, Finset.mem_erase, Finset.mem_Icc,
    Prod.mk.injEq, InTree]
  constructor
  · rintro (⟨a, ⟨h1, h2⟩, h3, rfl⟩ | ⟨a, ⟨h1, h2⟩, rfl, h3⟩)
    · exact Or.inl ⟨h1, h2, h3⟩
    · exact Or.inr ⟨h1, h2, h3⟩
  · rintro (⟨h1, h2, h3⟩ | ⟨h1, h2, h3⟩)
    · exact Or.inl ⟨v, ⟨h1, h2⟩, h3, rfl⟩
    · exact Or.inr ⟨u, ⟨h1, h2⟩, rfl, h3⟩

/-- Lists without repetition hold as many ordered pairs as their lengths add up to. -/
theorem card_adjPairs {adj : Nat → List Nat} {V : Nat}
    (hnd : ∀ u, InTree V u → (adj u).Nodup) :
    (adjPairs adj V).card = (Finset.Icc 1 V).sum (fun u => (adj u).length) := by
  unfold adjPairs
  rw [Finset.card_biUnion]
  · refine Finset.sum_congr rfl (fun u hu => ?_)
    rw [Finset.card_image_of_injective _ (fun a b hab => (Prod.mk.inj hab).2)]
    exact List.toFinset_card_of_nodup (hnd u (Finset.mem_Icc.1 hu))
  · intro a _ b _ hab
    rw [Finset.disjoint_left]
    intro p hpa hpb
    obtain ⟨x, _, rfl⟩ := Finset.mem_image.1 hpa
    obtain ⟨y, _, hy⟩ := Finset.mem_image.1 hpb
    exact hab (Prod.mk.inj hy).1.symm

/-- A parent function along which the depth drops links `V - 1` vertices to their
parents, which makes `2 * (V - 1)` ordered pairs. -/
theorem card_parPairs {par dep : Nat → Nat} {V root : Nat} (hroot : InTree V root)
    (hdep : ∀ v, InTree V v → v ≠ root → dep v = dep (par v) + 1) :
    (parPairs par V root).card = 2 * (V - 1) := by
  have hcardS : ((Finset.Icc 1 V).erase root).card = V - 1 := by
    rw [Finset.card_erase_of_mem (Finset.mem_Icc.2 hroot), Nat.card_Icc]
    omega
  unfold parPairs
  rw [Finset.card_union_of_disjoint, Finset.card_image_of_injective,
    Finset.card_image_of_injective, hcardS]
  · omega
  · exact fun a b hab => (Prod.mk.inj hab).1
  · exact fun a b hab => (Prod.mk.inj hab).2
  · rw [Finset.disjoint_left]
    intro p hpa hpb
    obtain ⟨x, hx, rfl⟩ := Finset.mem_image.1 hpa
    obtain ⟨y, hy, hxy⟩ := Finset.mem_image.1 hpb
    obtain ⟨h1, h2⟩ := Prod.mk.inj hxy
    obtain ⟨hx1, hx2⟩ := Finset.mem_erase.1 hx
    obtain ⟨hy1, hy2⟩ := Finset.mem_erase.1 hy
    have d1 := hdep x (Finset.mem_Icc.1 hx2) hx1
    have d2 := hdep y (Finset.mem_Icc.1 hy2) hy1
    rw [← h1] at d1
    rw [h2] at d2
    omega

theorem reachIn_mem {adj : Nat → List Nat} {V root : Nat} (h : IsUndirectedTree adj V)
    (hroot : InTree V root) : ∀ (n v : Nat), ReachIn adj root n v → InTree V v := by
  intro n
  induction n with
  | zero =>
    intro v hv
    rw [show v = root from hv]
    exact hroot
  | succ n ih =>
    rintro v ⟨u, hu, hvu⟩
    exact h.mem u v (ih u hu) hvu

theorem reachIn_of_connected {adj : Nat → List Nat} {root v : Nat}
    (h : Relation.ReflTransGen (fun a b => b ∈ adj a) root v) :
    ∃ n, ReachIn adj root n v := by
  induction h with
  | refl => exact ⟨0, rfl⟩
  | tail _ hbc ih =>
    obtain ⟨n, hn⟩ := ih
    exact ⟨n + 1, _, hn, hbc⟩

/-- An undirected tree can be rooted at each of its vertices: the depth of a vertex is its
distance from the root and its parent is a neighbour one step closer to the root; the
count of the edges shows that there are no other edges. -/
theorem undirectedTree_rooted {adj : Nat → List Nat} {V root : Nat}
    (h : IsUndirectedTree adj V) (hroot : InTree V root) : IsTree adj V root := by
  classical
  have hdist : ∀ v, InTree V v →
      ∃ n, ReachIn adj root n v ∧ ∀ m, ReachIn adj root m v → n ≤ m := by
    intro v hv
    have hex := reachIn_of_connected (h.connected root v hroot hv)
    exact ⟨Nat.find hex, Nat.find_spec hex, fun m hm => Nat.find_min' hex hm⟩
  choose! dep hdep using hdist
  have hdep0 : dep root = 0 := Nat.le_zero.1 ((hdep root hroot).2 0 rfl)
  have hpred : ∀ v, ∃ u, (v = root → u = root) ∧
      (InTree V v → v ≠ root → InTree V u ∧ v ∈ adj u ∧ dep v = dep u + 1) := by
    intro v
    by_cases hv : InTree V v ∧ v ≠ root
    · obtain ⟨hv, hne⟩ := hv
      obtain ⟨hr, hmin⟩ := hdep v hv
      cases hn : dep v with
      | zero =>
        rw [hn] at hr
        exact absurd hr hne
      | succ n =>
        rw [hn] at hr
        obtain ⟨u, hu, hvu⟩ := hr
        have hum := reachIn_mem h hroot n u hu
        refine ⟨u, fun e => absurd e hne, fun _ _ => ⟨hum, hvu, ?_⟩⟩
        have h1 := (hdep u hum).2 n hu
        have h2 := hmin (dep u + 1) ⟨u, (hdep u hum).1, hvu⟩
        omega
    · exact ⟨root, fun _ => rfl, fun hv' hne => absurd ⟨hv', hne⟩ hv⟩
  choose par hpar using hpred
  have hparroot : par root = root := (hpar root).1 rfl
  have hstep : ∀ v, InTree V v → v ≠ root →
      InTree V (par v) ∧ v ∈ adj (par v) ∧ dep v = dep (par v) + 1 :=
    fun v hv hne => (hpar v).2 hv hne
  have hTE : parPairs par V root ⊆ adjPairs adj V := by
    rintro ⟨u, v⟩ hp
    rw [mem_adjPairs]
    rcases (mem_parPairs u v).1 hp with ⟨h1, h2, h3⟩ | ⟨h1, h2, h3⟩
    · obtain ⟨hm, ha, _⟩ := hstep v h2 h1
      rw [h3] at hm ha
      exact ⟨hm, ha⟩
    · obtain ⟨hm, ha, _⟩ := hstep u h2 h1
      rw [h3] at hm ha
      exact ⟨h2, h.symm v u hm ha⟩
  have hET : parPairs par V root = adjPairs adj V :=
    Finset.eq_of_subset_of_card_le hTE (by
      rw [card_adjPairs h.nodup, h.edges,
        card_parPairs hroot (fun v hv hne => (hstep v hv hne).2.2)])
  refine ⟨par, dep, hroot, hparroot, hdep0, ?_, ?_, h.nodup, ?_⟩
  · intro v hv
    by_cases hne : v = root
    · rw [hne, hparroot]
      exact hroot
    · exact (hstep v hv hne).1
  · intro v hv hne
    exact (hstep v hv hne).2.2
  · intro u v hu
    constructor
    · intro hvu
      have hm := h.mem u v hu hvu
      have : (u, v) ∈ parPairs par V root := by
        rw [hET, mem_adjPairs]
        exact ⟨hu, hvu⟩
      rcases (mem_parPairs u v).1 this with ⟨h1, _, h3⟩ | ⟨h1, _, h3⟩
      · exact ⟨hm, Or.inl ⟨h1, h3⟩⟩
      · exact ⟨hm, Or.inr ⟨h1, h3⟩⟩
    · rintro ⟨hv, ⟨h1, h3⟩ | ⟨h1, h3⟩⟩
      · have := (hstep v hv h1).2.1
        rw [h3] at this
        exact this
      · have := hstep u hu h1
        rw [h3] at this
        exact h.symm v u this.1 this.2.1

/-- A rooted tree is an undirected tree. -/
theorem rooted_undirectedTree {adj : Nat → List Nat} {V root : Nat} {par dep : Nat → Nat}
    (h : IsRootedTree adj V root par dep) : IsUndirectedTree adj V := by
  have hsymm : ∀ u v, InTree V u → v ∈ adj u → u ∈ adj v := by
    intro u v hu hvu
    obtain ⟨hv, hc⟩ := (h.adj_iff u v hu).1 hvu
    exact (h.adj_iff v u hv).2 ⟨hu, hc.symm⟩
  have hdown : ∀ (n v : Nat), InTree V v → dep v = n →
      Relation.ReflTransGen (fun a b => b ∈ adj a) root v := by
    intro n
    induction n with
    | zero =>
      intro v hv hd
      have hvr : v = root := by
        by_contra hne
        have := h.dep_par v hv hne
        omega
      rw [hvr]
    | succ n ih =>
      intro v hv hd
      have hne : v ≠ root := by
        intro hvr
        rw [hvr, h.dep_root] at hd
        omega
      have hp := h.par_mem v hv
      have hdp := h.dep_par v hv hne
      exact (ih (par v) hp (by omega)).tail ((h.adj_iff (par v) v hp).2 ⟨hv, Or.inl ⟨hne, rfl⟩⟩)
  have hup : ∀ (n v : Nat), InTree V v → dep v = n →
      Relation.ReflTransGen (fun a b => b ∈ adj a) v root := by
    intro n
    induction n with
    | zero =>
      intro v hv hd
      have hvr : v = root := by
        by_contra hne
        have := h.dep_par v hv hne
        omega
      rw [hvr]
    | succ n ih =>
      intro v hv hd
      have hne : v ≠ root := by
        intro hvr
        rw [hvr, h.dep_root] at hd
        omega
      have hp := h.par_mem v hv
      have hdp := h.dep_par v hv hne
      exact Relation.ReflTransGen.head ((h.adj_iff v (par v) hv).2 ⟨hp, Or.inr ⟨hne, rfl⟩⟩)
        (ih (par v) hp (by omega))
  refine ⟨fun u v hu hvu => ((h.adj_iff u v hu).1 hvu).1, hsymm, h.nodup, ?_, ?_⟩
  · intro u v hu hv
    exact (hup (dep u) u hu rfl).trans (hdown (dep v) v hv rfl)
  · rw [← card_adjPairs h.nodup, ← card_parPairs h.root_mem h.dep_par]
    congr 1
    ext ⟨u, v⟩
    rw [mem_adjPairs, mem_parPairs]
    constructor
    · rintro ⟨hu, hvu⟩
      obtain ⟨hv, hc⟩ := (h.adj_iff u v hu).1 hvu
      rcases hc with ⟨h1, h3⟩ | ⟨h1, h3⟩
      · exact Or.inl ⟨h1, hv, h3⟩
      · exact Or.inr ⟨h1, hu, h3⟩
    · rintro (⟨h1, hv, h3⟩ | ⟨h1, hu, h3⟩)
      · have hu : InTree V u := h3 ▸ h.par_mem v hv
        exact ⟨hu, (h.adj_iff u v hu).2 ⟨hv, Or.inl ⟨h1, h3⟩⟩⟩
      · have hv : InTree V v := h3 ▸ h.par_mem u hu
        exact ⟨hu, (h.adj_iff u v hu).2 ⟨hv, Or.inr ⟨h1, h3⟩⟩⟩

/-- The adjacency lists of an undirected tree are those of a rooted tree for each root,
and conversely. -/
theorem undirectedTree_iff {adj : Nat → List Nat} {V root : Nat} (hroot : InTree V root) :
    IsUndirectedTree adj V ↔ IsTree adj V root :=
  ⟨fun h => undirectedTree_rooted h hroot, fun ⟨_, _, h⟩ => rooted_undirectedTree h⟩

/-! ### The example tree -/

theorem exampleAdj_rooted : IsRootedTree exampleAdj 5 1 examplePar exampleDep := by
  refine ⟨⟨le_refl _, by omega⟩, rfl, rfl, ?_, ?_, ?_, ?_⟩
  · rintro v ⟨h1, h2⟩
    interval_cases v <;> exact ⟨by decide, by decide⟩
  · rintro v ⟨h1, h2⟩ hne
    interval_cases v <;> first | rfl | exact absurd rfl hne
  · rintro u ⟨h1, h2⟩
    interval_cases u <;> decide
  · rintro u v ⟨h1, h2⟩
    by_cases hv : v ≤ 5
    · interval_cases u <;> interval_cases v <;> simp [exampleAdj, examplePar, InTree]
    · have hv' : 5 < v := by omega
      have hp : examplePar v = 0 := by
        unfold examplePar
        rw [List.getD_eq_default]
        simp only [List.length_cons, List.length_nil]
        omega
      have hnot : ¬ InTree 5 v := fun hin => hv hin.2
      interval_cases u <;> simp [exampleAdj, hnot] <;> omega

set_option maxRecDepth 100000 in
theorem exampleAdj_lca :
    (LCA.build exampleAdj 5 1).map (fun t => (t.lca 4 5, t.lca 4 3, t.lca 2 5)) =
      some (2, 1, 2) := by
  decide

/-! ### Stars -/

theorem mem_starAdj {n u v : Nat} :
    v ∈ starAdj n u ↔ (u = 1 ∧ 2 ≤ v ∧ v ≤ n) ∨ (2 ≤ u ∧ u ≤ n ∧ v = 1) := by
  unfold starAdj
  by_cases hu : u = 1
  · rw [if_pos hu, List.mem_range']
    constructor
    · rintro ⟨i, hi, rfl⟩
      exact Or.inl ⟨hu, by omega, by omega⟩
    · rintro (⟨_, h1, h2⟩ | ⟨h1, _, _⟩)
      · exact ⟨v - 2, by omega, by omega⟩
      · omega
  · rw [if_neg hu]
    by_cases h2 : 2 ≤ u ∧ u ≤ n
    · rw [if_pos h2, List.mem_singleton]
      constructor
      · intro hv
        exact Or.inr ⟨h2.1, h2.2, hv⟩
      · rintro (⟨h1, _, _⟩ | ⟨_, _, hv⟩)
        · exact absurd h1 hu
        · exact hv
    · rw [if_neg h2]
      constructor
      · intro hv
        exact absurd hv (List.not_mem_nil v)
      · rintro (⟨h1, _, _⟩ | ⟨h3, h4, _⟩)
        · exact absurd h1 hu
        · exact absurd ⟨h3, h4⟩ h2

/-- The star on `1..n` is an undirected tree. -/
theorem starAdj_tree (n : Nat) (hn : 1 ≤ n) : IsUndirectedTree (starAdj n) n := by
  have hone : ∀ v, InTree n v → Relation.ReflTransGen (fun a b => b ∈ starAdj n a) 1 v := by
    intro v hv
    by_cases hv1 : v = 1
    · rw [hv1]
    · exact Relation.ReflTransGen.single (mem_starAdj.2 (Or.inl ⟨rfl, by
        have := hv.1
        omega, hv.2⟩))
  have hto : ∀ u, InTree n u → Relation.ReflTransGen (fun a b => b ∈ starAdj n a) u 1 := by
    intro u hu
    by_cases hu1 : u = 1
    · rw [hu1]
    · exact Relation.ReflTransGen.single (mem_starAdj.2 (Or.inr ⟨by
        have := hu.1
        omega, hu.2, rfl⟩))
  refine ⟨?_, ?_, ?_, ?_, ?_⟩
  · intro u v _ hv
    rcases mem_starAdj.1 hv with ⟨_, h1, h2⟩ | ⟨_, _, h3⟩
    · exact ⟨by omega, h2⟩
    · rw [h3]
      exact ⟨le_refl _, hn⟩
  · intro u v _ hv
    rcases mem_starAdj.1 hv with ⟨h0, h1, h2⟩ | ⟨h1, h2, h3⟩
    · exact mem_starAdj.2 (Or.inr ⟨h1, h2, h0⟩)
    · exact mem_starAdj.2 (Or.inl ⟨h3, h1, h2⟩)
  · intro u _
    unfold starAdj
    split
    · exact List.nodup_range' 2 (n - 1)
    · split
      · exact List.nodup_singleton 1
      · exact List.nodup_nil
  · intro u v hu hv
    exact (hto u hu).trans (hone v hv)
  · have hsplit : Finset.Icc 1 n = insert 1 (Finset.Icc 2 n) := by
      ext x
      simp only [Finset.mem_Icc, Finset.mem_insert]
      omega
    have hnot : (1 : Nat) ∉ Finset.Icc 2 n := by
      simp
    have hrest : ∀ u ∈ Finset.Icc 2 n, (starAdj n u).length = 1 := by
      intro u hu
      rw [Finset.mem_Icc] at hu
      unfold starAdj
      rw [if_neg (by omega), if_pos hu]
      rfl
    rw [hsplit, Finset.sum_insert hnot, Finset.sum_congr rfl hrest]
    simp [starAdj]
    omega

/-- On more than `2^30` vertices the constructor does not return: the loop for `L` never
ends. -/
theorem build_never (adj : Nat → List Nat) (V root : Nat) (hV : 2 ^ 30 < V) :
    LCA.build adj V root = none := by
  unfold LCA.build
  rw [level_count, if_neg (by omega)]

/-! ### Brooms -/

theorem mem_broomAdj {n u v : Nat} :
    v ∈ broomAdj n u ↔
      (u = 1 ∧ v = 2) ∨ (u = 2 ∧ (v = 1 ∨ (3 ≤ v ∧ v ≤ n))) ∨ (3 ≤ u ∧ u ≤ n ∧ v = 2) := by
  unfold broomAdj
  by_cases h1 : u = 1
  · rw [if_pos h1, List.mem_singleton]
    omega
  · rw [if_neg h1]
    by_cases h2 : u = 2
    · rw [if_pos h2, List.mem_cons, List.mem_range']
      constructor
      · rintro (hv | ⟨i, hi, rfl⟩)
        · exact Or.inr (Or.inl ⟨h2, Or.inl hv⟩)
        · exact Or.inr (Or.inl ⟨h2, Or.inr ⟨by omega, by omega⟩⟩)
      · rintro (⟨h, _⟩ | ⟨_, hv | ⟨h3, h4⟩⟩ | ⟨h, _, _⟩)
        · exact absurd h h1
        · exact Or.inl hv
        · exact Or.inr ⟨v - 3, by omega, by omega⟩
        · omega
    · rw [if_neg h2]
      by_cases h3 : 3 ≤ u ∧ u ≤ n
      · rw [if_pos h3, List.mem_singleton]
        omega
      · rw [if_neg h3]
        constructor
        · intro hv
          exact absurd hv (List.not_mem_nil v)
        · intro hv
          omega

/-- The broom on `1..n` is the tree rooted at 1 with the parent function `broomPar`. -/
theorem broom_rooted (n : Nat) (hn : 2 ≤ n) :
    IsRootedTree (broomAdj n) n 1 broomPar broomDep := by
  refine ⟨⟨le_refl _, by omega⟩, rfl, rfl, ?_, ?_, ?_, ?_⟩
  · intro v _
    unfold broomPar InTree
    split <;> omega
  · intro v hv hne
    have := hv.1
    unfold broomDep broomPar
    by_cases h2 : v = 2
    · subst h2
      rfl
    · have h3 : ¬ v ≤ 2 := by omega
      have h1 : ¬ v ≤ 1 := by omega
      rw [if_neg h1, if_neg h2, if_neg h3]
      rfl
  · intro u _
    unfold broomAdj
    split
    · exact List.nodup_singleton 2
    · split
      · refine List.nodup_cons.2 ⟨?_, List.nodup_range' 3 (n - 2)⟩
        rw [List.mem_range']
        rintro ⟨i, _, hi⟩
        omega
      · split
        · exact List.nodup_singleton 2
        · exact List.nodup_nil
  · intro u v hu
    have := hu.1
    have := hu.2
    rw [mem_broomAdj]
    unfold InTree broomPar
    split_ifs <;> omega

/-- In the broom an ancestor of `x` other than `x` is 1 or 2. -/
theorem broom_anc {a x : Nat} (h : IsAnc broomPar a x) : a = x ∨ a ≤ 2 := by
  obtain ⟨k, hk⟩ := h
  cases k with
  | zero => exact Or.inl hk.symm
  | succ k =>
    right
    rw [Function.iterate_succ_apply'] at hk
    rw [← hk]
    unfold broomPar
    split <;> omega

/-! ### The claims -/

theorem exampleAdj_tree : IsUndirectedTree exampleAdj 5 :=
  rooted_undirectedTree exampleAdj_rooted

/-- C5, the claim at two trees that are too large.  On the star with `2^30 + 1` vertices
rooted at 1 the loop `for (L = 1; L < V; L <<= 1);` never ends (`L` reaches `2^30`, wraps
to `-2^31` and is 0 from then on), so the constructor does not return and `lca(2, 3)` has
no value.  On the broom with `2^30` vertices (1 joined to 2, and 2 to each of the others)
rooted at 1 the constructor returns, but the last of the `2^31` time stamps, `tout[1]`,
has wrapped to `-2^31`: the root is no longer recognised as an ancestor, and `lca(3, 4)`
is 1 although 2, of depth 1, is an ancestor of 3 and of 4. -/
theorem lca_binaryLift_large_trees :
    (IsUndirectedTree (starAdj (2 ^ 30 + 1)) (2 ^ 30 + 1) ∧ InTree (2 ^ 30 + 1) 1 ∧
      InTree (2 ^ 30 + 1) 2 ∧ InTree (2 ^ 30 + 1) 3 ∧
      (∀ fuel, levelLoop ((2 ^ 30 + 1 : Nat) : Int) fuel 1 = none) ∧
      (LCA.build (starAdj (2 ^ 30 + 1)) (2 ^ 30 + 1) 1).map (fun t => t.lca 2 3) = none) ∧
    (IsUndirectedTree (broomAdj (2 ^ 30)) (2 ^ 30) ∧ InTree (2 ^ 30) 1 ∧
      InTree (2 ^ 30) 3 ∧ InTree (2 ^ 30) 4 ∧
      (LCA.build (broomAdj (2 ^ 30)) (2 ^ 30) 1).map (fun t => t.lca 3 4) = some 1 ∧
      OnRootPath (broomAdj (2 ^ 30)) 1 2 3 ∧ OnRootPath (broomAdj (2 ^ 30)) 1 2 4 ∧
      HasDepth (broomAdj (2 ^ 30)) 1 2 1 ∧ HasDepth (broomAdj (2 ^ 30)) 1 1 0) := by
  have h := broom_rooted (2 ^ 30) (by norm_num)
  have m1 : InTree (2 ^ 30) 1 := ⟨by norm_num, by norm_num⟩
  have m2 : InTree (2 ^ 30) 2 := ⟨by norm_num, by norm_num⟩
  have m3 : InTree (2 ^ 30) 3 := ⟨by norm_num, by norm_num⟩
  have m4 : InTree (2 ^ 30) 4 := ⟨by norm_num, by norm_num⟩
  refine ⟨⟨starAdj_tree _ (by norm_num), ⟨by norm_num, by norm_num⟩,
    ⟨by norm_num, by norm_num⟩, ⟨by norm_num, by norm_num⟩, ?_, ?_⟩,
    rooted_undirectedTree h, m1, m3, m4, ?_, (onRootPath_iff h m3).2 ⟨1, rfl⟩,
    (onRootPath_iff h m4).2 ⟨1, rfl⟩, (hasDepth_iff h m2).2 rfl, (hasDepth_iff h m1).2 rfl⟩
  · intro fuel
    have := levelLoop_never ((2 ^ 30 + 1 : Nat) : Int) (by norm_num) fuel 0 (by omega)
    rw [pow_zero] at this
    exact this
  · rw [build_never _ _ _ (by norm_num)]
    rfl
  · obtain ⟨t, hb, hL, hrow, hroot, hanc⟩ := build_boundary h rfl
    have hlca : t.lca 3 4 = 1 :=
      lca_boundary h hL hrow hroot hanc m3 m4 (by decide) (by decide)
        (fun ha => by have := broom_anc ha; omega) (fun ha => by have := broom_anc ha; omega)
    rw [hb, Option.map_some', hlca]

/-- C5, amended: for every undirected tree on the vertices `1..V` with `V < 2^30` given by
its adjacency lists, every root and all vertices `u`, `v`, the constructor
`LCA(adj, V, root)` returns and `lca(u, v)` is a
vertex that lies on the tree paths from the root to `u` and to `v` (an ancestor of both);
every common ancestor of `u` and `v` is an ancestor of it and is not deeper, so it has
maximum depth among the common ancestors.  On the tree with edges `1-2, 1-3, 2-4, 2-5`
rooted at 1: `lca(4,5) = 2`, `lca(4,3) = 1`, `lca(2,5) = 2`. -/
theorem lca_binaryLift_correct (adj : Nat → List Nat) (V root u v : Nat)
    (hV : V < 2 ^ 30) (ht : IsUndirectedTree adj V) (hroot : InTree V root)
    (hu : InTree V u) (hv : InTree V v) :
    (∃ t, LCA.build adj V root = some t ∧ InTree V (t.lca u v) ∧
      OnRootPath adj root (t.lca u v) u ∧ OnRootPath adj root (t.lca u v) v ∧
      ∀ a, OnRootPath adj root a u → OnRootPath adj root a v →
        OnRootPath adj root a (t.lca u v) ∧
        ∀ da dl, HasDepth adj root a da → HasDepth adj root (t.lca u v) dl → da ≤ dl) ∧
    (LCA.build exampleAdj 5 1).map (fun t => (t.lca 4 5, t.lca 4 3, t.lca 2 5)) =
      some (2, 1, 2) := by
  refine ⟨?_, exampleAdj_lca⟩
  obtain ⟨par, dep, h⟩ := undirectedTree_rooted ht hroot
  obtain ⟨t, hb, hL, hanc, hrow⟩ := build_spec h hV
  obtain ⟨h1, h2, h3⟩ := lca_spec h hL hanc hrow hu hv
  have hm : InTree V (t.lca u v) := tree_anc_mem h hu h1
  refine ⟨t, hb, hm, (onRootPath_iff h hu).2 h1, (onRootPath_iff h hv).2 h2, ?_⟩
  intro a ha1 ha2
  have haw : IsAnc par a (t.lca u v) :=
    h3 a ((onRootPath_iff h hu).1 ha1) ((onRootPath_iff h hv).1 ha2)
  refine ⟨(onRootPath_iff h hm).2 haw, ?_⟩
  intro da dl hda hdl
  rw [(hasDepth_iff h (tree_anc_mem h hm haw)).1 hda, (hasDepth_iff h hm).1 hdl]
  exact tree_anc_dep_le h hm haw

/-- Witness of C5 on the example tree, for the vertices 4 and 5. -/
theorem lca_binaryLift_correct_witness :
    5 < 2 ^ 30 ∧ IsUndirectedTree exampleAdj 5 ∧ InTree 5 1 ∧ InTree 5 4 ∧ InTree 5 5 ∧
    ((∃ t, LCA.build exampleAdj 5 1 = some t ∧ InTree 5 (t.lca 4 5) ∧
      OnRootPath exampleAdj 1 (t.lca 4 5) 4 ∧ OnRootPath exampleAdj 1 (t.lca 4 5) 5 ∧
      ∀ a, OnRootPath exampleAdj 1 a 4 → OnRootPath exampleAdj 1 a 5 →
        OnRootPath exampleAdj 1 a (t.lca 4 5) ∧
        ∀ da dl, HasDepth exampleAdj 1 a da → HasDepth exampleAdj 1 (t.lca 4 5) dl →
          da ≤ dl) ∧
    (LCA.build exampleAdj 5 1).map (fun t => (t.lca 4 5, t.lca 4 3, t.lca 2 5)) =
      some (2, 1, 2)) :=
  ⟨by norm_num, exampleAdj_tree, by decide, by decide, by decide,
    lca_binaryLift_correct exampleAdj 5 1 4 5 (by norm_num) exampleAdj_tree (by decide)
      (by decide) (by decide)⟩

/-- C8, the claim at two trees that are too large.  On the star with `2^30 + 1` vertices
rooted at 1 the constructor does not return (the loop for `L` never ends), so no `tin` and
`tout` exist and `isAncestor(1, 2)` has no value, although 1 lies on the path from the
root to 2.  On the star with `2^30` vertices rooted at 1 the constructor returns, but the
last of the `2^31` time stamps, `tout[1]`, has wrapped to `-2^31`, and `isAncestor(1, 2)`
is false although 1 lies on the path from the root to 2. -/
theorem isAncestor_large_trees :
    (IsUndirectedTree (starAdj (2 ^ 30 + 1)) (2 ^ 30 + 1) ∧ InTree (2 ^ 30 + 1) 1 ∧
      InTree (2 ^ 30 + 1) 2 ∧ OnRootPath (starAdj (2 ^ 30 + 1)) 1 1 2 ∧
      (LCA.build (starAdj (2 ^ 30 + 1)) (2 ^ 30 + 1) 1).map (fun t => t.isAncestor 1 2) =
        none) ∧
    (IsUndirectedTree (starAdj (2 ^ 30)) (2 ^ 30) ∧ InTree (2 ^ 30) 1 ∧ InTree (2 ^ 30) 2 ∧
      OnRootPath (starAdj (2 ^ 30)) 1 1 2 ∧
      (LCA.build (starAdj (2 ^ 30)) (2 ^ 30) 1).map (fun t => t.isAncestor 1 2) =
        some false) := by
  have hstar := starAdj_tree (2 ^ 30) (by norm_num)
  have m1 : InTree (2 ^ 30) 1 := ⟨by norm_num, by norm_num⟩
  have m2 : InTree (2 ^ 30) 2 := ⟨by norm_num, by norm_num⟩
  refine ⟨⟨starAdj_tree _ (by norm_num), ⟨by norm_num, by norm_num⟩,
    ⟨by norm_num, by norm_num⟩, ⟨[1, 2], ⟨rfl, rfl, ?_, by decide⟩, by decide⟩, ?_⟩,
    hstar, m1, m2, ⟨[1, 2], ⟨rfl, rfl, ?_, by decide⟩, by decide⟩, ?_⟩
  · refine List.chain'_pair.2 (mem_starAdj.2 (Or.inl ⟨rfl, le_refl _, by norm_num⟩))
  · rw [build_never _ _ _ (by norm_num)]
    rfl
  · refine List.chain'_pair.2 (mem_starAdj.2 (Or.inl ⟨rfl, le_refl _, by norm_num⟩))
  · obtain ⟨par, dep, h⟩ := undirectedTree_rooted hstar m1
    obtain ⟨t, hb, _, _, hroot, _⟩ := build_boundary h rfl
    rw [hb, Option.map_some', hroot 2 m2 (by decide)]

/-- C8, amended: for every undirected tree on the vertices `1..V` with `V < 2^30`, every
root and all vertices `u`,
`v` of it, after construction `isAncestor(u, v)`, that is `tin[u] <= tin[v] and
tout[u] >= tout[v]`, is true if and only if `u` lies on the tree path from `root` to `v`
(`u = v` included). -/
theorem isAncestor_decides_ancestry (adj : Nat → List Nat) (V root u v : Nat)
    (hV : V < 2 ^ 30) (ht : IsUndirectedTree adj V) (hroot : InTree V root)
    (hu : InTree V u) (hv : InTree V v) :
    ∃ t, LCA.build adj V root = some t ∧
      (t.isAncestor u v = true ↔ (t.tin u ≤ t.tin v ∧ t.tout u ≥ t.tout v)) ∧
      (t.isAncestor u v = true ↔ OnRootPath adj root u v) := by
  obtain ⟨par, dep, h⟩ := undirectedTree_rooted ht hroot
  obtain ⟨t, hb, _, hanc, _⟩ := build_spec h hV
  refine ⟨t, hb, by simp [LCA.isAncestor], ?_⟩
  rw [onRootPath_iff h hv]
  exact hanc u v hu hv

/-- Witness of C8 on the example tree, for the vertices 2 and 5. -/
theorem isAncestor_decides_ancestry_witness :
    5 < 2 ^ 30 ∧ IsUndirectedTree exampleAdj 5 ∧ InTree 5 1 ∧ InTree 5 2 ∧ InTree 5 5 ∧
    ∃ t, LCA.build exampleAdj 5 1 = some t ∧
      (t.isAncestor 2 5 = true ↔ (t.tin 2 ≤ t.tin 5 ∧ t.tout 2 ≥ t.tout 5)) ∧
      (t.isAncestor 2 5 = true ↔ OnRootPath exampleAdj 1 2 5) :=
  ⟨by norm_num, exampleAdj_tree, by decide, by decide, by decide,
    isAncestor_decides_ancestry exampleAdj 5 1 2 5 (by norm_num) exampleAdj_tree (by decide)
      (by decide) (by decide)⟩

end LcaBinaryLift

end GraphBook

namespace GraphBook

namespace LcaBinaryLift

/-! ### The level count and the table -/

set_option maxRecDepth 100000 in
theorem exampleAdj_levels :
    (LCA.build exampleAdj 5 1).map (fun t => (t.L, t.ancestor.map List.length)) =
      some (8, [9, 9, 9, 9, 9, 9]) := by
  decide

/-- C16, at `V = 5` (the example tree) and in general: the constructor leaves in `L` the
least power of two that is at least `V`, which is `2^ceil(log2 V)` and never
`ceil(log2 V)`; for `V = 5` it is 8 instead of 3 and every row of the table has 9 entries
instead of 4.  (For `V > 2^30` the loop never ends and `L` gets no value.) -/
theorem level_count_not_log :
    Nat.clog 2 5 = 3 ∧
    (LCA.build exampleAdj 5 1).map (fun t => (t.L, t.ancestor.map List.length)) =
      some (8, [9, 9, 9, 9, 9, 9]) ∧
    (∀ V : Nat, levelLoop V (V + 1) 1 =
      if V ≤ 2 ^ 30 then some (((2 ^ Nat.clog 2 V : Nat) : Int)) else none) ∧
    ∀ V : Nat, levelLoop V (V + 1) 1 ≠ some ((Nat.clog 2 V : Nat) : Int) := by
  refine ⟨?_, exampleAdj_levels, level_count, ?_⟩
  · have h1 : Nat.clog 2 5 ≤ 3 := (Nat.le_pow_iff_clog_le (by omega)).1 (by norm_num)
    have h2 : 2 < Nat.clog 2 5 := (Nat.pow_lt_iff_lt_clog (by omega)).1 (by norm_num)
    omega
  · intro V
    rw [level_count]
    split
    · intro heq
      have := Int.ofNat_inj.1 (Option.some.inj heq)
      exact absurd this (Nat.lt_two_pow _).ne'
    · exact fun heq => Option.noConfusion heq

/-- C17, the claim at a tree that is too large: on the star with `2^30 + 1` vertices
rooted at 1 the constructor does not return (the loop for `L` never ends), so no level `L`
and no table exist and `ancestor[2][0]` has no value. -/
theorem ancestor_table_no_structure :
    IsUndirectedTree (starAdj (2 ^ 30 + 1)) (2 ^ 30 + 1) ∧ InTree (2 ^ 30 + 1) 1 ∧
    InTree (2 ^ 30 + 1) 2 ∧
    (LCA.build (starAdj (2 ^ 30 + 1)) (2 ^ 30 + 1) 1).map
      (fun t => (t.L, getRow t.ancestor 2 0)) = none := by
  refine ⟨starAdj_tree _ (by norm_num), ⟨by norm_num, by norm_num⟩,
    ⟨by norm_num, by norm_num⟩, ?_⟩
  rw [build_never _ _ _ (by norm_num)]
  rfl

/-- C17, amended: for every undirected tree on the vertices `1..V` with `V ≤ 2^30` and
every root, the constructor
returns and, with `par` the parent function of the rooted tree (the root is its own
parent) and `dep` the depth, every vertex `u` and every level `k` in `0..L` satisfy:
`ancestor[u][k]` is the vertex reached from `u` by `2^k` parent steps; it is the root when
`dep u ≤ 2^k`; `ancestor[u][0]` is the parent of `u`; and for `k ≥ 1`,
`ancestor[u][k] = ancestor[ancestor[u][k-1]][k-1]`. -/
theorem ancestor_table_correct (adj : Nat → List Nat) (V root : Nat) (hV : V ≤ 2 ^ 30)
    (ht : IsUndirectedTree adj V) (hroot : InTree V root) :
    ∃ t par dep, LCA.build adj V root = some t ∧ IsRootedTree adj V root par dep ∧
      ∀ u, InTree V u → ∀ k, k ≤ t.L →
        getRow t.ancestor u k = par^[2 ^ k] u ∧
        (dep u ≤ 2 ^ k → getRow t.ancestor u k = root) ∧
        getRow t.ancestor u 0 = par u ∧
        (1 ≤ k →
          getRow t.ancestor u k = getRow t.ancestor (getRow t.ancestor u (k - 1)) (k - 1)) := by
  obtain ⟨par, dep, h⟩ := undirectedTree_rooted ht hroot
  obtain ⟨t, hb, _, hrow⟩ := build_table h hV
  refine ⟨t, par, dep, hb, h, ?_⟩
  intro u hu k hk
  have hk' := hrow u hu k hk
  refine ⟨hk', ?_, ?_, ?_⟩
  · intro hd
    rw [hk']
    by_contra hne
    have h1 := tree_dep_pos h (tree_iterate_mem h hu (2 ^ k)) hne
    rw [tree_dep_iterate h hu] at h1
    omega
  · rw [hrow u hu 0 (Nat.zero_le _)]
    rfl
  · intro h1
    have hx := tree_iterate_mem h hu (2 ^ (k - 1))
    rw [hk', hrow u hu (k - 1) (by omega), hrow _ hx (k - 1) (by omega),
      ← Function.iterate_add_apply]
    congr 1
    have : k = k - 1 + 1 := by omega
    rw [this, pow_succ]
    simp
    ring

/-- Witness of C17 on the example tree rooted at 1. -/
theorem ancestor_table_correct_witness :
    5 ≤ 2 ^ 30 ∧ IsUndirectedTree exampleAdj 5 ∧ InTree 5 1 ∧
    ∃ t par dep, LCA.build exampleAdj 5 1 = some t ∧ IsRootedTree exampleAdj 5 1 par dep ∧
      ∀ u, InTree 5 u → ∀ k, k ≤ t.L →
        getRow t.ancestor u k = par^[2 ^ k] u ∧
        (dep u ≤ 2 ^ k → getRow t.ancestor u k = 1) ∧
        getRow t.ancestor u 0 = par u ∧
        (1 ≤ k →
          getRow t.ancestor u k = getRow t.ancestor (getRow t.ancestor u (k - 1)) (k - 1)) :=
  ⟨by norm_num, exampleAdj_tree, by decide,
    ancestor_table_correct exampleAdj 5 1 (by norm_num) exampleAdj_tree (by decide)⟩

end LcaBinaryLift

end GraphBook

namespace GraphBook

namespace LcaSegmentTree

open LcaBinaryLift (InTree IsAnc IsRootedTree IsUndirectedTree HasDepth)

/-! ## Theorems: the Euler tour of lcaSegmentTree.cpp -/

section Tour

variable {adj : List (List Nat)} {n root : Nat} {par dep : Nat → Nat}

/-- One call of `eulerTourDFS` whose checked accesses succeed is the entry followed by the
loop over the neighbours. -/
theorem eulerTourDFS_succ (fuel u parent : Nat) (t : LCA) (dp : Int) (row : List Nat)
    (h1 : u < t.visited.length) (h2 : u < t.depth.length) (h3 : u < t.firstFoundAt.length)
    (h4 : t.depth[parent]? = some dp) (h5 : adj[u]? = some row) :
    eulerTourDFS adj (fuel + 1) u parent t = row.foldlM (visit adj fuel u) (enter t u dp) := by
  rw [eulerTourDFS]
  simp only [store, if_pos h1, if_pos h2, if_pos h3, h4, h5, Option.bind_eq_bind,
    Option.some_bind]
  rfl

theorem tourInv_congr {adjf : Nat → List Nat} {P Q : Nat → Prop} {t t1 : LCA} {u : Nat}
    {tour : List Nat} (h1 : ∀ x, P x → Q x) (h2 : ∀ x, InTree n x → Q x → P x)
    (hinv : TourInv adjf dep n P t t1 u tour) : TourInv adjf dep n Q t t1 u tour := by
  obtain ⟨S, hS, hcard⟩ := hinv.count
  refine ⟨hinv.euler, hinv.head, hinv.last, hinv.chain, hinv.visited_len, hinv.depth_len,
    hinv.first_len, ?_, ⟨S, ?_, hcard⟩, ?_, ?_⟩
  · intro x hx
    exact ⟨(hinv.mem x hx).1, h1 x (hinv.mem x hx).2⟩
  · intro x
    rw [hS x]
    constructor
    · rintro ⟨a, b⟩
      exact ⟨a, h1 x b⟩
    · rintro ⟨a, b⟩
      exact ⟨a, h2 x a b⟩
  · intro x hx
    exact hinv.frame x (fun hp => hx (h1 x hp))
  · intro x hx hq
    exact hinv.below x hx (h2 x hx hq)

theorem covered_nil (u x : Nat) : Covered par u [] x ↔ x = u := by
  simp [Covered]

theorem covered_snoc (u v x : Nat) (done : List Nat) :
    Covered par u (done ++ [v]) x ↔ Covered par u done x ∨ (v ≠ par u ∧ IsAnc par v x) := by
  unfold Covered
  constructor
  · rintro (hx | ⟨c, hc, hcp, hcx⟩)
    · exact Or.inl (Or.inl hx)
    · rcases List.mem_append.1 hc with hc | hc
      · exact Or.inl (Or.inr ⟨c, hc, hcp, hcx⟩)
      · rw [List.mem_singleton] at hc
        subst hc
        exact Or.inr ⟨hcp, hcx⟩
  · rintro ((hx | ⟨c, hc, hcp, hcx⟩) | ⟨hvp, hvx⟩)
    · exact Or.inl hx
    · exact Or.inr ⟨c, List.mem_append_left _ hc, hcp, hcx⟩
    · exact Or.inr ⟨v, List.mem_append_right _ (List.mem_singleton_self v), hvp, hvx⟩

/-- The covered vertices lie below `u`. -/
theorem covered_below (h : IsRootedTree (adjOf adj) n root par dep) {u x : Nat}
    {done : List Nat} (hu : InTree n u) (hdone : ∀ c ∈ done, c ∈ adjOf adj u)
    (hx : Covered par u done x) : IsAnc par u x := by
  rcases hx with hx | ⟨c, hc, hcp, hcx⟩
  · rw [hx]
    exact IsAnc.refl par u
  · exact LcaBinaryLift.tree_child_anc (LcaBinaryLift.tree_child h hu (hdone c hc) hcp).2.2.1 hcx

/-- The vertices below a child that has not been handled are not covered. -/
theorem covered_not_below (h : IsRootedTree (adjOf adj) n root par dep) {u v x : Nat}
    {done : List Nat} (hu : InTree n u) (hdone : ∀ c ∈ done, c ∈ adjOf adj u)
    (hv : v ∈ adjOf adj u) (hvp : v ≠ par u) (hvd : v ∉ done) (hx : InTree n x)
    (hcov : Covered par u done x) : ¬ IsAnc par v x := by
  intro hvx
  have hdv := (LcaBinaryLift.tree_child h hu hv hvp).2.2.2
  rcases hcov with hxu | ⟨c, hc, hcp, hcx⟩
  · rw [hxu] at hvx
    exact LcaBinaryLift.tree_child_not_above h hu hdv (IsAnc.refl par u) hvx
  · have hdc := (LcaBinaryLift.tree_child h hu (hdone c hc) hcp).2.2.2
    have := LcaBinaryLift.tree_child_unique h hx hdc hdv hcx hvx
    rw [this] at hc
    exact hvd hc

/-- The parent of `u` is not covered. -/
theorem parent_not_covered (h : IsRootedTree (adjOf adj) n root par dep) {u : Nat}
    {done : List Nat} (hu : InTree n u) (hdone : ∀ c ∈ done, c ∈ adjOf adj u)
    (hne : u ≠ root) : ¬ Covered par u done (par u) := by
  rintro (hx | ⟨c, hc, hcp, hcx⟩)
  · have h1 := LcaBinaryLift.tree_dep_par h hu
    have h2 := LcaBinaryLift.tree_dep_pos h hu hne
    rw [hx] at h1
    omega
  · have hdc := (LcaBinaryLift.tree_child h hu (hdone c hc) hcp).2.2.2
    exact LcaBinaryLift.tree_child_not_above h hu hdc ⟨1, rfl⟩ hcx

/-- A neighbour of `u` that is its parent: then `u` is not the root. -/
theorem parent_neighbour (h : IsRootedTree (adjOf adj) n root par dep) {u v : Nat}
    (hv : v ∈ adjOf adj u) (hvp : v = par u) : u ≠ root := by
  intro hur
  rw [hur, h.par_root] at hvp
  rw [hur, hvp] at hv
  rcases ((h.adj_iff root root h.root_mem).1 hv).2 with h1 | h1
  · exact h1.1 rfl
  · exact h1.1 rfl

theorem cells_append {t : LCA} {x : Nat} (l : List Nat) (hc : Cells dep t x) :
    Cells dep { t with euler := t.euler ++ l } x :=
  ⟨hc.visited, hc.depth, List.mem_append_left _ hc.mem, by
    rw [hc.first]
    exact congrArg some (List.indexOf_append_of_mem hc.mem).symm⟩

theorem cells_same {t t1 : LCA} {x : Nat} (l : List Nat) (hs : Same t t1 x)
    (he : t1.euler = t.euler ++ l) (hc : Cells dep t x) : Cells dep t1 x :=
  ⟨hs.visited.trans hc.visited, hs.depth.trans hc.depth, by
    rw [he]
    exact List.mem_append_left _ hc.mem, by
    rw [hs.first, hc.first, he]
    exact congrArg some (List.indexOf_append_of_mem hc.mem).symm⟩

theorem same_trans {t t1 t2 : LCA} {x : Nat} (h1 : Same t t1 x) (h2 : Same t1 t2 x) :
    Same t t2 x :=
  ⟨h2.visited.trans h1.visited, h2.depth.trans h1.depth, h2.first.trans h1.first⟩

/-- The invariant holds after the entry of the call. -/
theorem tour_init {u : Nat} {t : LCA} (hu : InTree n u)
    (hpre : TourPre par dep n root t u) :
    TourInv (adjOf adj) dep n (Covered par u []) t (enter t u ((dep u : Int) - 1)) u [u] := by
  have h1 : u < t.visited.length := lt_of_le_of_lt hu.2 hpre.visited_len
  have h2 : u < t.depth.length := lt_of_le_of_lt hu.2 hpre.depth_len
  have h3 : u < t.firstFoundAt.length := lt_of_le_of_lt hu.2 hpre.first_len
  have hnot : u ∉ t.euler := (hpre.fresh u hu (IsAnc.refl par u)).2
  refine ⟨rfl, rfl, rfl, List.chain'_singleton u, ?_, ?_, ?_, ?_, ⟨{u}, ?_, ?_⟩, ?_, ?_⟩
  · simp [enter]
  · simp [enter]
  · simp [enter]
  · intro x hx
    rw [List.mem_singleton] at hx
    rw [hx]
    exact ⟨hu, Or.inl rfl⟩
  · intro x
    rw [Finset.mem_singleton, covered_nil]
    constructor
    · intro hx
      rw [hx]
      exact ⟨hu, rfl⟩
    · exact fun hx => hx.2
  · simp
  · intro x hx
    have hne : u ≠ x := fun e => hx (Or.inl e.symm)
    exact ⟨List.getElem?_set_ne hne, List.getElem?_set_ne hne, List.getElem?_set_ne hne⟩
  · intro x _ hx
    rw [covered_nil] at hx
    subst hx
    refine ⟨List.getElem?_set_self h1, ?_, ?_, ?_⟩
    · show (t.depth.set x ((dep x : Int) - 1 + 1))[x]? = some (dep x : Int)
      rw [List.getElem?_set_self h2]
      congr 1
      omega
    · show x ∈ t.euler ++ [x]
      simp
    · show (t.firstFoundAt.set x t.euler.length)[x]? = some ((t.euler ++ [x]).indexOf x)
      rw [List.getElem?_set_self h3, List.indexOf_append_of_not_mem hnot]
      simp

/-- The state in which the loop of `u` calls a child satisfies the requirements of the
call. -/
theorem tour_child_pre (h : IsRootedTree (adjOf adj) n root par dep) {u v : Nat}
    {t t2 : LCA} {done tour : List Nat} (hu : InTree n u)
    (hdone : ∀ c ∈ done, c ∈ adjOf adj u) (hv : v ∈ adjOf adj u) (hvp : v ≠ par u)
    (hvd : v ∉ done) (hpre : TourPre par dep n root t u)
    (hloop : TourInv (adjOf adj) dep n (Covered par u done) t t2 u tour) :
    TourPre par dep n root t2 v := by
  obtain ⟨hvm, hvr, hpv, hdv⟩ := LcaBinaryLift.tree_child h hu hv hvp
  have hcu := hloop.below u hu (Or.inl rfl)
  refine ⟨?_, ?_, ?_, ?_, ?_, ?_⟩
  · rw [hloop.visited_len]
    exact hpre.visited_len
  · rw [hloop.depth_len]
    exact hpre.depth_len
  · rw [hloop.first_len]
    exact hpre.first_len
  · intro x hx hvx
    have hnc : ¬ Covered par u done x :=
      fun hcov => covered_not_below h hu hdone hv hvp hvd hx hcov hvx
    have hfresh := hpre.fresh x hx (LcaBinaryLift.tree_child_anc hpv hvx)
    refine ⟨(hloop.frame x hnc).visited.trans hfresh.1, ?_⟩
    rw [hloop.euler, List.mem_append]
    rintro (hmem | hmem)
    · exact hfresh.2 hmem
    · exact hnc (hloop.mem x hmem).2
  · intro _
    rw [hpv]
    exact hcu.visited
  · rw [hpv, hcu.depth, hdv]
    congr 1
    push_cast
    omega

/-- The invariant after a child has been visited and `u` appended again. -/
theorem tour_step_child (h : IsRootedTree (adjOf adj) n root par dep) {u v : Nat}
    {t t2 t3 : LCA} {done tour tourc : List Nat} (hu : InTree n u)
    (hdone : ∀ c ∈ done, c ∈ adjOf adj u) (hv : v ∈ adjOf adj u) (hvp : v ≠ par u)
    (hvd : v ∉ done)
    (hloop : TourInv (adjOf adj) dep n (Covered par u done) t t2 u tour)
    (hpost : TourInv (adjOf adj) dep n (IsAnc par v) t2 t3 v tourc) :
    TourInv (adjOf adj) dep n (Covered par u (done ++ [v])) t
      { t3 with euler := t3.euler ++ [u] } u (tour ++ (tourc ++ [u])) := by
  obtain ⟨hvm, hvr, hpv, hdv⟩ := LcaBinaryLift.tree_child h hu hv hvp
  obtain ⟨S, hS, hcard⟩ := hloop.count
  obtain ⟨Sc, hSc, hcardc⟩ := hpost.count
  have huv : u ∈ adjOf adj v := (h.adj_iff v u hvm).2 ⟨hu, Or.inr ⟨hvr, hpv⟩⟩
  have hdisj : Disjoint S Sc := by
    rw [Finset.disjoint_left]
    intro x hx hxc
    exact covered_not_below h hu hdone hv hvp hvd ((hS x).1 hx).1 ((hS x).1 hx).2
      ((hSc x).1 hxc).2
  refine ⟨?_, ?_, ?_, ?_, ?_, ?_, ?_, ?_, ⟨S ∪ Sc, ?_, ?_⟩, ?_, ?_⟩
  · show t3.euler ++ [u] = t.euler ++ (tour ++ (tourc ++ [u]))
    rw [hpost.euler, hloop.euler]
    simp
  · have := hloop.head
    cases tour with
    | nil => simp at this
    | cons a rest => simpa using this
  · rw [← List.append_assoc]
    simp
  · refine hloop.chain.append (hpost.chain.append (List.chain'_singleton u) ?_) ?_
    · intro x hx y hy
      rw [hpost.last] at hx
      simp at hx hy
      rw [← hx, ← hy]
      exact huv
    · intro x hx y hy
      rw [hloop.last] at hx
      have hh : (tourc ++ [u]).head? = some v := by
        have := hpost.head
        cases tourc with
        | nil => simp at this
        | cons a rest => simpa using this
      rw [hh] at hy
      simp at hx hy
      rw [← hx, ← hy]
      exact hv
  · exact hpost.visited_len.trans hloop.visited_len
  · exact hpost.depth_len.trans hloop.depth_len
  · exact hpost.first_len.trans hloop.first_len
  · intro x hx
    rw [covered_snoc]
    rcases List.mem_append.1 hx with hx | hx
    · exact ⟨(hloop.mem x hx).1, Or.inl (hloop.mem x hx).2⟩
    · rcases List.mem_append.1 hx with hx | hx
      · exact ⟨(hpost.mem x hx).1, Or.inr ⟨hvp, (hpost.mem x hx).2⟩⟩
      · rw [List.mem_singleton] at hx
        rw [hx]
        exact ⟨hu, Or.inl (Or.inl rfl)⟩
  · intro x
    rw [Finset.mem_union, hS, hSc, covered_snoc]
    constructor
    · rintro (⟨a, b⟩ | ⟨a, b⟩)
      · exact ⟨a, Or.inl b⟩
      · exact ⟨a, Or.inr ⟨hvp, b⟩⟩
    · rintro ⟨a, b | b⟩
      · exact Or.inl ⟨a, b⟩
      · exact Or.inr ⟨a, b.2⟩
  · rw [Finset.card_union_of_disjoint hdisj]
    simp only [List.length_append, List.length_singleton]
    omega
  · intro x hx
    rw [covered_snoc] at hx
    have h1 := hloop.frame x (fun hc => hx (Or.inl hc))
    have h2 := hpost.frame x (fun hc => hx (Or.inr ⟨hvp, hc⟩))
    exact ⟨h2.visited.trans h1.visited, h2.depth.trans h1.depth, h2.first.trans h1.first⟩
  · intro x hx hcov
    rw [covered_snoc] at hcov
    rcases hcov with hcov | hcov
    · have hnb := covered_not_below h hu hdone hv hvp hvd hx hcov
      exact cells_append [u] (cells_same tourc (hpost.frame x hnb) hpost.euler
        (hloop.below x hx hcov))
    · exact cells_append [u] (hpost.below x hx hcov.2)

/-- The loop over the neighbours of `u`, given that the calls for the children behave. -/
theorem tour_loop_run (h : IsRootedTree (adjOf adj) n root par dep) {fuel u : Nat} {t : LCA}
    (hu : InTree n u) (hpre : TourPre par dep n root t u)
    (ih : ∀ c t2, InTree n c → dep c = dep u + 1 → TourPre par dep n root t2 c →
      ∃ t3 tourc, eulerTourDFS adj fuel c (par c) t2 = some t3 ∧
        TourInv (adjOf adj) dep n (IsAnc par c) t2 t3 c tourc) :
    ∀ (todo done : List Nat) (t2 : LCA) (tour : List Nat), done ++ todo = adjOf adj u →
      TourInv (adjOf adj) dep n (Covered par u done) t t2 u tour →
      ∃ t3 tour3, todo.foldlM (visit adj fuel u) t2 = some t3 ∧
        TourInv (adjOf adj) dep n (Covered par u (adjOf adj u)) t t3 u tour3 := by
  intro todo
  induction todo with
  | nil =>
    intro done t2 tour hsplit hloop
    rw [List.append_nil] at hsplit
    rw [← hsplit]
    exact ⟨t2, tour, rfl, hloop⟩
  | cons v todo ihl =>
    intro done t2 tour hsplit hloop
    have hnd := h.nodup u hu
    rw [← hsplit] at hnd
    have hvd : v ∉ done := by
      intro hmem
      have := (List.nodup_append.1 hnd).2.2
      exact this hmem (List.mem_cons_self _ _)
    have hdone : ∀ c ∈ done, c ∈ adjOf adj u := by
      intro c hc
      rw [← hsplit]
      exact List.mem_append_left _ hc
    have hv : v ∈ adjOf adj u := by
      rw [← hsplit]
      exact List.mem_append_right _ (List.mem_cons_self _ _)
    have hsplit2 : (done ++ [v]) ++ todo = adjOf adj u := by
      rw [← hsplit]
      simp
    rw [List.foldlM_cons]
    by_cases hvp : v = par u
    · have hur := parent_neighbour h hv hvp
      have hseen : t2.visited[v]? = some true := by
        rw [hvp]
        exact (hloop.frame (par u) (parent_not_covered h hu hdone hur)).visited.trans
          (hpre.parent_seen hur)
      have hstep : visit adj fuel u t2 v = some t2 := by
        simp [visit, hseen]
      rw [hstep]
      refine ihl (done ++ [v]) t2 tour hsplit2 (tourInv_congr ?_ ?_ hloop)
      · intro x hx
        exact (covered_snoc u v x done).2 (Or.inl hx)
      · intro x _ hx
        rcases (covered_snoc u v x done).1 hx with hx | hx
        · exact hx
        · exact absurd hvp hx.1
    · obtain ⟨hvm, _, hpv, hdv⟩ := LcaBinaryLift.tree_child h hu hv hvp
      have hpre2 := tour_child_pre h hu hdone hv hvp hvd hpre hloop
      obtain ⟨t3, tourc, hrun, hpost⟩ := ih v t2 hvm hdv hpre2
      rw [hpv] at hrun
      have hseen : t2.visited[v]? = some false := (hpre2.fresh v hvm (IsAnc.refl par v)).1
      have hstep : visit adj fuel u t2 v = some { t3 with euler := t3.euler ++ [u] } := by
        simp [visit, hseen, hrun]
      rw [hstep]
      exact ihl (done ++ [v]) _ _ hsplit2 (tour_step_child h hu hdone hv hvp hvd hloop hpost)

/-- Total correctness of `eulerTourDFS`: called on a vertex `u` of the tree with its
parent, in a state that satisfies `TourPre` and with fuel for the levels below `u`, it
returns and has appended the tour of the subtree of `u`. -/
theorem tour_spec (h : IsRootedTree (adjOf adj) n root par dep) (hlen : adj.length = n + 1) :
    ∀ (fuel u : Nat) (t : LCA), InTree n u → n + 1 ≤ fuel + dep u →
      TourPre par dep n root t u →
      ∃ t1 tour, eulerTourDFS adj fuel u (par u) t = some t1 ∧
        TourInv (adjOf adj) dep n (IsAnc par u) t t1 u tour := by
  intro fuel
  induction fuel with
  | zero =>
    intro u t hu hf
    have := LcaBinaryLift.tree_dep_lt h hu
    omega
  | succ fuel ih =>
    intro u t hu hf hpre
    have ih2 : ∀ c t2, InTree n c → dep c = dep u + 1 → TourPre par dep n root t2 c →
        ∃ t3 tourc, eulerTourDFS adj fuel c (par c) t2 = some t3 ∧
          TourInv (adjOf adj) dep n (IsAnc par c) t2 t3 c tourc := by
      intro c t2 hc hdc hpre2
      exact ih c t2 hc (by omega) hpre2
    obtain ⟨t3, tour3, hrun, hloop⟩ := tour_loop_run h hu hpre ih2 (adjOf adj u) [] _ [u]
      (List.nil_append _) (tour_init hu hpre)
    refine ⟨t3, tour3, ?_, tourInv_congr ?_ ?_ hloop⟩
    · have hrow : adj[u]? = some (adjOf adj u) := by
        have hlt : u < adj.length := by
          have := hu.2
          omega
        simp [adjOf, List.getD_eq_getElem?_getD, List.getElem?_eq_getElem hlt]
      rw [eulerTourDFS_succ fuel u (par u) t _ _ (lt_of_le_of_lt hu.2 hpre.visited_len)
        (lt_of_le_of_lt hu.2 hpre.depth_len) (lt_of_le_of_lt hu.2 hpre.first_len)
        hpre.parent_depth hrow]
      exact hrun
    · intro x hx
      exact covered_below h hu (fun c hc => hc) hx
    · intro x hx hux
      by_cases hxu : x = u
      · exact Or.inl hxu
      · obtain ⟨k, hk⟩ := hux
        obtain ⟨c, hc1, hc2, hc3⟩ := LcaBinaryLift.tree_below_child h hu k x hx hk hxu
        exact Or.inr ⟨c, hc1, hc2, hc3⟩

end Tour

/-! ### The segment tree -/

theorem store_of_lt {α : Type} (a : List α) (i : Nat) (x : α) (h : i < a.length) :
    store a i x = some (a.set i x) := by
  rw [store, if_pos h]

theorem sizeLoop_eq (m : Int) : ∀ (fuel : Nat) (sz : Int),
    sizeLoop m fuel sz = LcaBinaryLift.levelLoop m fuel sz := by
  intro fuel
  induction fuel with
  | zero =>
    intro sz
    rw [sizeLoop, LcaBinaryLift.levelLoop]
  | succ fuel ih =>
    intro sz
    rw [sizeLoop, LcaBinaryLift.levelLoop, ih]

/-- For `m ≤ 2^30` the loop `for (sz = 1; sz < m; sz <<= 1);` leaves the least power of
two that is at least `m`. -/
theorem sizeLoop_pow (m : Nat) (hm : m ≤ 2 ^ 30) :
    sizeLoop m (m + 1) 1 = some (((2 ^ Nat.clog 2 m : Nat) : Int)) := by
  rw [sizeLoop_eq, LcaBinaryLift.level_count, if_pos hm]

/-- The loop `for (int i = 0; i < m; ++i) segTree[sz + i] = euler[i];`. -/
theorem leaves_spec (euler : List Nat) (sz : Nat) (hm : euler.length ≤ sz) :
    ∀ k, k ≤ euler.length →
      ∃ s, (List.range k).foldlM
          (fun (seg : List Nat) (i : Nat) => (euler[i]?).bind fun x => store seg (sz + i) x)
          (List.replicate (2 * sz) 0) = some s ∧
        s.length = 2 * sz ∧ (∀ i, i < k → s[sz + i]? = euler[i]?) ∧
        ∀ j, j < 2 * sz → (j < sz ∨ sz + k ≤ j) → s[j]? = some 0 := by
  intro k
  induction k with
  | zero =>
    intro _
    refine ⟨_, rfl, by simp, ?_, ?_⟩
    · intro i hi
      omega
    · intro j hj _
      rw [List.getElem?_replicate, if_pos hj]
  | succ k ih =>
    intro hk
    obtain ⟨s, hrun, hlen, hleaf, hrest⟩ := ih (by omega)
    have hlt : k < euler.length := by omega
    refine ⟨s.set (sz + k) euler[k], ?_, ?_, ?_, ?_⟩
    · rw [List.range_succ, List.foldlM_append, hrun]
      simp only [Option.bind_eq_bind, Option.some_bind, List.foldlM_cons, List.foldlM_nil,
        List.getElem?_eq_getElem hlt]
      rw [store_of_lt _ _ _ (by omega)]
      rfl
    · rw [List.length_set, hlen]
    · intro i hi
      by_cases hik : i = k
      · rw [hik, List.getElem?_set_self (by omega), List.getElem?_eq_getElem hlt]
      · rw [List.getElem?_set_ne (by omega)]
        exact hleaf i (by omega)
    · intro j hj hjk
      rw [List.getElem?_set_ne (by omega)]
      exact hrest j hj (by omega)

/-- One pass of the body of `for (int i = sz - 1; i >= 1; --i)`. -/
theorem buildNode_spec (depth : List Int) (s : List Nat) (sz i : Nat)
    (hlen : s.length = 2 * sz) (hb : ∀ (j x : Nat), s[j]? = some x → x < depth.length)
    (hi : 1 ≤ i) (his : i < sz) :
    ∃ v, buildNode depth s i = some (s.set i v) ∧ (v ∈ s) ∧ NodeOK depth (s.set i v) i := by
  have h1 : 2 * i < s.length := by omega
  have h2 : 2 * i + 1 < s.length := by omega
  have e1 : s[2 * i]? = some s[2 * i] := List.getElem?_eq_getElem h1
  have e2 : s[2 * i + 1]? = some s[2 * i + 1] := List.getElem?_eq_getElem h2
  have h3 := hb _ _ e1
  have h4 := hb _ _ e2
  have e3 : depth[s[2 * i]]? = some depth[s[2 * i]] := List.getElem?_eq_getElem h3
  have e4 : depth[s[2 * i + 1]]? = some depth[s[2 * i + 1]] := List.getElem?_eq_getElem h4
  refine ⟨if depth[s[2 * i]] > depth[s[2 * i + 1]] then s[2 * i + 1] else s[2 * i], ?_, ?_, ?_⟩
  · rw [buildNode]
    simp only [e1, e2, e3, e4, Option.bind_eq_bind, Option.some_bind]
    exact store_of_lt _ _ _ (by omega)
  · split
    · exact List.getElem_mem _
    · exact List.getElem_mem _
  · refine ⟨s[2 * i], s[2 * i + 1], depth[s[2 * i]], depth[s[2 * i + 1]], ?_, ?_, e3, e4, ?_⟩
    · rw [List.getElem?_set_ne (by omega)]
      exact e1
    · rw [List.getElem?_set_ne (by omega)]
      exact e2
    · exact List.getElem?_set_self (by omega)

theorem nodeOK_set {depth : List Int} {s : List Nat} {i j v : Nat} (hij : i < j)
    (h : NodeOK depth s j) : NodeOK depth (s.set i v) j := by
  obtain ⟨l, r, dl, dr, h1, h2, h3, h4, h5⟩ := h
  refine ⟨l, r, dl, dr, ?_, ?_, h3, h4, ?_⟩
  · rw [List.getElem?_set_ne (by omega)]
    exact h1
  · rw [List.getElem?_set_ne (by omega)]
    exact h2
  · rw [List.getElem?_set_ne (by omega)]
    exact h5

/-- The loop `for (int i = sz - 1; i >= 1; --i)`, after its first `k` passes. -/
theorem nodes_spec (depth : List Int) (sz : Nat) (seg1 : List Nat)
    (hlen : seg1.length = 2 * sz) (hb : ∀ (j x : Nat), seg1[j]? = some x → x < depth.length) :
    ∀ k, k ≤ sz - 1 →
      ∃ s, ((List.range k).map fun j => sz - 1 - j).foldlM (buildNode depth) seg1 = some s ∧
        s.length = 2 * sz ∧ (∀ (j x : Nat), s[j]? = some x → x < depth.length) ∧
        (∀ j, (j < sz - k ∨ sz ≤ j) → s[j]? = seg1[j]?) ∧
        ∀ j, sz - k ≤ j → j < sz → NodeOK depth s j := by
  intro k
  induction k with
  | zero =>
    intro _
    refine ⟨seg1, rfl, hlen, hb, fun _ _ => rfl, ?_⟩
    intro j h1 h2
    omega
  | succ k ih =>
    intro hk
    obtain ⟨s, hrun, hlen2, hb2, hsame, hnode⟩ := ih (by omega)
    obtain ⟨v, hstep, hv, hok⟩ := buildNode_spec depth s sz (sz - 1 - k) hlen2 hb2
      (by omega) (by omega)
    refine ⟨s.set (sz - 1 - k) v, ?_, ?_, ?_, ?_, ?_⟩
    · rw [List.range_succ, List.map_append, List.foldlM_append, hrun]
      simp only [List.map_cons, List.map_nil, Option.bind_eq_bind, Option.some_bind,
        List.foldlM_cons, List.foldlM_nil, hstep]
      rfl
    · rw [List.length_set, hlen2]
    · intro j x hx
      by_cases hj : j = sz - 1 - k
      · rw [hj, List.getElem?_set_self (by omega)] at hx
        obtain ⟨m, hm, hmv⟩ := List.getElem_of_mem hv
        have : x = v := (Option.some.inj hx).symm
        rw [this, ← hmv]
        exact hb2 m _ (List.getElem?_eq_getElem hm)
      · rw [List.getElem?_set_ne (fun e => hj e.symm)] at hx
        exact hb2 j x hx
    · intro j hj
      rw [List.getElem?_set_ne (by omega)]
      exact hsame j (by omega)
    · intro j h1 h2
      by_cases hj : j = sz - 1 - k
      · rw [hj]
        exact hok
      · exact nodeOK_set (by omega) (hnode j (by omega) h2)

/-- A node at height `k` holds a vertex of least depth among those of the leaves below
it. -/
theorem leaf_min (depth : List Int) (s : List Nat) (sz : Nat) (hlen : s.length = 2 * sz)
    (hb : ∀ (j x : Nat), s[j]? = some x → x < depth.length)
    (hnode : ∀ j, 1 ≤ j → j < sz → NodeOK depth s j) :
    ∀ k i, sz ≤ i * 2 ^ k → (i + 1) * 2 ^ k ≤ 2 * sz →
      MinLeaf depth s i (i * 2 ^ k) ((i + 1) * 2 ^ k) := by
  intro k
  induction k with
  | zero =>
    intro i hlo hhi
    simp only [pow_zero, mul_one] at hlo hhi ⊢
    have h1 : i < s.length := by omega
    have e1 : s[i]? = some s[i] := List.getElem?_eq_getElem h1
    have h2 := hb _ _ e1
    have e2 : depth[s[i]]? = some depth[s[i]] := List.getElem?_eq_getElem h2
    refine ⟨i, s[i], depth[s[i]], le_refl _, Nat.lt_succ_self _, e1, e1, e2, ?_⟩
    intro j2 h3 h4
    have : j2 = i := by omega
    rw [this]
    exact ⟨s[i], depth[s[i]], e1, e2, le_refl _⟩
  | succ k ih =>
    intro i hlo hhi
    have hp : 0 < 2 ^ k := Nat.pow_pos (by omega)
    have e1 : i * 2 ^ (k + 1) = (2 * i) * 2 ^ k := by ring
    have e2 : (i + 1) * 2 ^ (k + 1) = (2 * i + 1 + 1) * 2 ^ k := by ring
    have e3 : (2 * i + 1) * 2 ^ k = (2 * i) * 2 ^ k + 2 ^ k := by ring
    have e4 : (2 * i + 1 + 1) * 2 ^ k = (2 * i + 1) * 2 ^ k + 2 ^ k := by ring
    rw [e1] at hlo
    rw [e2] at hhi
    rw [e1, e2]
    have hi1 : 1 ≤ i := by
      rcases Nat.eq_zero_or_pos i with h0 | h0
      · rw [h0] at hlo hhi
        simp only [mul_zero, zero_mul, zero_add] at hlo hhi e4
        omega
      · exact h0
    have hi2 : i < sz := by
      have h5 : (2 * i + 1 + 1) * 1 ≤ (2 * i + 1 + 1) * 2 ^ k := Nat.mul_le_mul_left _ hp
      omega
    obtain ⟨l, r, dl, dr, hl, hr, hdl, hdr, hnd⟩ := hnode i hi1 hi2
    obtain ⟨jl, xl, dxl, a1, a2, a3, a4, a5, a6⟩ := ih (2 * i) hlo (by omega)
    obtain ⟨jr, xr, dxr, b1, b2, b3, b4, b5, b6⟩ := ih (2 * i + 1) (by omega) hhi
    have hxl : xl = l := Option.some.inj (a3.symm.trans hl)
    have hxr : xr = r := Option.some.inj (b3.symm.trans hr)
    subst hxl
    subst hxr
    have hdl2 : dxl = dl := Option.some.inj (a5.symm.trans hdl)
    have hdr2 : dxr = dr := Option.some.inj (b5.symm.trans hdr)
    subst hdl2
    subst hdr2
    by_cases hcmp : dxl > dxr
    · rw [if_pos hcmp] at hnd
      refine ⟨jr, xr, dxr, by omega, b2, hnd, b4, b5, ?_⟩
      intro j2 h3 h4
      by_cases hmid : j2 < (2 * i + 1) * 2 ^ k
      · obtain ⟨y, dy, c1, c2, c3⟩ := a6 j2 h3 hmid
        exact ⟨y, dy, c1, c2, by omega⟩
      · exact b6 j2 (by omega) h4
    · rw [if_neg hcmp] at hnd
      refine ⟨jl, xl, dxl, a1, by omega, hnd, a4, a5, ?_⟩
      intro j2 h3 h4
      by_cases hmid : j2 < (2 * i + 1) * 2 ^ k
      · exact a6 j2 h3 hmid
      · obtain ⟨y, dy, c1, c2, c3⟩ := b6 j2 (by omega) h4
        exact ⟨y, dy, c1, c2, by omega⟩

/-- Every node of a tree with `2^e` leaves has a height. -/
theorem node_height : ∀ (e i : Nat), 1 ≤ i → i < 2 * 2 ^ e →
    ∃ k, 2 ^ e ≤ i * 2 ^ k ∧ (i + 1) * 2 ^ k ≤ 2 * 2 ^ e := by
  intro e
  induction e with
  | zero =>
    intro i h1 h2
    refine ⟨0, ?_, ?_⟩
    · simp only [pow_zero, mul_one] at h2 ⊢
      omega
    · simp only [pow_zero, mul_one] at h2 ⊢
      omega
  | succ e ih =>
    intro i h1 h2
    have e1 : 2 ^ (e + 1) = 2 * 2 ^ e := by ring
    rw [e1] at h2 ⊢
    by_cases hbig : 2 * 2 ^ e ≤ i
    · refine ⟨0, ?_, ?_⟩
      · simp only [pow_zero, mul_one]
        exact hbig
      · simp only [pow_zero, mul_one]
        omega
    · obtain ⟨k, hk1, hk2⟩ := ih i h1 (by omega)
      refine ⟨k + 1, ?_, ?_⟩
      · have : i * 2 ^ (k + 1) = 2 * (i * 2 ^ k) := by ring
        omega
      · have : (i + 1) * 2 ^ (k + 1) = 2 * ((i + 1) * 2 ^ k) := by ring
        omega

/-- The tour of the whole tree has `2n - 1` entries. -/
theorem tour_length {adj : List (List Nat)} {n root : Nat} {par dep : Nat → Nat}
    (h : IsRootedTree (adjOf adj) n root par dep) {t0 t1 : LCA}
    (hinv : TourInv (adjOf adj) dep n (IsAnc par root) t0 t1 root t1.euler) :
    t1.euler.length + 1 = 2 * n := by
  obtain ⟨S, hS, hcard⟩ := hinv.count
  have hSe : S = Finset.Icc 1 n := by
    ext x
    rw [hS x, Finset.mem_Icc]
    constructor
    · exact fun hx => hx.1
    · exact fun hx => ⟨hx, LcaBinaryLift.tree_root_anc h hx⟩
  rw [hSe, Nat.card_Icc] at hcard
  omega

section Build

variable {adj : List (List Nat)} {n root : Nat} {par dep : Nat → Nat}

/-- The state in which the constructor calls `eulerTourDFS(adj, root, root)` satisfies the
requirements of the call when the vectors have a cell for every vertex. -/
theorem start_pre (h : IsRootedTree (adjOf adj) n root par dep) {cells : Nat}
    (hcells : n < cells) : TourPre par dep n root (start adj root cells) root := by
  have hr := h.root_mem.2
  refine ⟨?_, ?_, ?_, ?_, ?_, ?_⟩
  · simp only [start, List.length_replicate]
    exact hcells
  · simp only [start, List.length_set, List.length_replicate]
    exact hcells
  · simp only [start, List.length_replicate]
    exact hcells
  · intro x hx _
    have := hx.2
    refine ⟨?_, List.not_mem_nil x⟩
    show (List.replicate cells false)[x]? = some false
    rw [List.getElem?_replicate, if_pos (by omega)]
  · intro hne
    exact absurd rfl hne
  · show ((List.replicate cells (0 : Int)).set root (-1))[par root]? = _
    rw [h.par_root, h.dep_root, List.getElem?_set_self (by simp; omega)]
    rfl

/-- The traversal that the constructor starts returns when the vectors have a cell for
every vertex, and its tour is that of the whole tree. -/
theorem start_tour (h : IsRootedTree (adjOf adj) n root par dep) (hlen : adj.length = n + 1)
    {cells : Nat} (hcells : n < cells) :
    ∃ t1, eulerTourDFS adj (adj.length + 1) root root (start adj root cells) = some t1 ∧
      TourInv (adjOf adj) dep n (IsAnc par root) (start adj root cells) t1 root t1.euler ∧
      n < t1.depth.length := by
  have hpre := start_pre h hcells
  obtain ⟨t1, tour, hrun, hinv⟩ := tour_spec h hlen (adj.length + 1) root _ h.root_mem
    (by omega) hpre
  have heul : t1.euler = tour := by
    rw [hinv.euler]
    rfl
  rw [← heul] at hinv
  rw [h.par_root] at hrun
  refine ⟨t1, hrun, hinv, ?_⟩
  rw [hinv.depth_len]
  exact hpre.depth_len

/-- The constructor after the traversal has returned. -/
theorem construct_unfold (adj : List (List Nat)) (root : Nat) (v0 : Int) (cells : Nat)
    (t1 : LCA) (hc : wrap32 (v0 + 1) = (cells : Int))
    (hres : 0 ≤ wrap32 (2 * wrap32 adj.length)) (hr : root < cells)
    (hrun : eulerTourDFS adj (adj.length + 1) root root (start adj root cells) = some t1)
    (h0 : 0 < t1.depth.length) :
    LCA.construct adj root v0 =
      (sizeLoop (wrap32 t1.euler.length) (t1.euler.length + 1) 1).bind fun szInt =>
        (if 0 ≤ wrap32 (szInt * 2) then some (wrap32 (szInt * 2)).toNat else none).bind
          fun size =>
          ((List.range (wrap32 t1.euler.length).toNat).foldlM
            (fun (seg : List Nat) (i : Nat) =>
              (t1.euler[i]?).bind fun x => store seg (szInt.toNat + i) x)
            (List.replicate size 0)).bind fun seg1 =>
            (((List.range (szInt.toNat - 1)).map fun k => szInt.toNat - 1 - k).foldlM
              (buildNode (t1.depth.set 0 INF)) seg1).bind fun seg2 =>
              some { t1 with depth := t1.depth.set 0 INF, segTree := seg2,
                             segTreeSize := size } := by
  have hc0 : 0 ≤ wrap32 (v0 + 1) := by
    rw [hc]
    exact Int.ofNat_nonneg _
  have e1 : store (List.replicate cells (0 : Int)) root (-1) =
      some ((List.replicate cells 0).set root (-1)) :=
    store_of_lt _ _ _ (by simpa using hr)
  have e2 := store_of_lt t1.depth 0 INF h0
  unfold start at hrun
  unfold LCA.construct
  simp only [Option.bind_eq_bind, Option.pure_def]
  rw [if_pos hc0, Option.some_bind, if_pos hres, Option.some_bind, hc, Int.toNat_ofNat]
  rw [e1]
  rw [Option.some_bind]
  rw [hrun]
  rw [Option.some_bind]
  rw [e2]
  rw [Option.some_bind]
  congr 1
  funext szInt
  split <;> rfl

/-- The constructor returns when the unset member `V` holds a value `v0 ≥ n` and the tree
has at most `2^28` vertices; the tour is that of the whole tree and the segment tree is
built over it. -/
theorem constructor_spec (h : IsRootedTree (adjOf adj) n root par dep)
    (hlen : adj.length = n + 1) (v0 : Int) (hv0 : (n : Int) ≤ v0) (hv1 : v0 < 2 ^ 31 - 1)
    (hn : n ≤ 2 ^ 28) :
    ∃ t1 seg,
      TourInv (adjOf adj) dep n (IsAnc par root) (start adj root (v0 + 1).toNat) t1 root
        t1.euler ∧
      n < t1.depth.length ∧
      SegOK t1.euler (t1.depth.set 0 INF) seg (2 ^ Nat.clog 2 t1.euler.length) ∧
      LCA.construct adj root v0 = some
        { t1 with depth := t1.depth.set 0 INF, segTree := seg,
                  segTreeSize := 2 * 2 ^ Nat.clog 2 t1.euler.length } := by
  have hcells : n < (v0 + 1).toNat := by omega
  have hc : wrap32 (v0 + 1) = (((v0 + 1).toNat : Nat) : Int) := by
    rw [wrap32_of_range (by omega) (by omega)]
    omega
  have hres : 0 ≤ wrap32 (2 * wrap32 adj.length) := by
    have e : (2 : Int) * ((n + 1 : Nat) : Int) = ((2 * (n + 1) : Nat) : Int) := by
      push_cast
      ring
    rw [hlen, wrap32_natCast _ (by omega), e,
      wrap32_natCast _ (by omega)]
    exact Int.ofNat_nonneg _
  obtain ⟨t1, hrun, hinv, hdl⟩ := start_tour h hlen hcells
  have hl := tour_length h hinv
  have h0 : 0 < t1.depth.length := by omega
  have hm29 : t1.euler.length ≤ 2 ^ 29 := by omega
  have hmw : wrap32 t1.euler.length = (t1.euler.length : Int) :=
    wrap32_of_range (by omega) (by omega)
  have hc29 : Nat.clog 2 t1.euler.length ≤ 29 := (Nat.le_pow_iff_clog_le (by omega)).1 hm29
  have hp29 : 2 ^ Nat.clog 2 t1.euler.length ≤ 2 ^ 29 :=
    Nat.pow_le_pow_right (by omega) hc29
  have hsz : t1.euler.length ≤ 2 ^ Nat.clog 2 t1.euler.length :=
    Nat.le_pow_clog (by omega) _
  have hsw : wrap32 (((2 ^ Nat.clog 2 t1.euler.length : Nat) : Int) * 2) =
      ((2 * 2 ^ Nat.clog 2 t1.euler.length : Nat) : Int) := by
    rw [wrap32_of_range (by omega) (by omega)]
    push_cast
    ring
  obtain ⟨seg1, hs1, hl1, hleaf1, hrest1⟩ := leaves_spec t1.euler _ hsz t1.euler.length
    (le_refl _)
  have hb1 : ∀ (j x : Nat), seg1[j]? = some x → x < (t1.depth.set 0 INF).length := by
    intro j x hx
    rw [List.length_set]
    have hj : j < 2 * 2 ^ Nat.clog 2 t1.euler.length := by
      rw [← hl1]
      by_contra hge
      rw [List.getElem?_eq_none (by omega)] at hx
      exact Option.noConfusion hx
    by_cases hleaf : 2 ^ Nat.clog 2 t1.euler.length ≤ j ∧
        j < 2 ^ Nat.clog 2 t1.euler.length + t1.euler.length
    · have e := hleaf1 (j - 2 ^ Nat.clog 2 t1.euler.length) (by omega)
      rw [show 2 ^ Nat.clog 2 t1.euler.length + (j - 2 ^ Nat.clog 2 t1.euler.length) = j by
        omega, hx] at e
      have hmem : x ∈ t1.euler := List.getElem?_mem e.symm
      have := (hinv.mem x hmem).1.2
      omega
    · rw [hrest1 j hj (by omega)] at hx
      have : x = 0 := (Option.some.inj hx).symm
      omega
  obtain ⟨seg2, hs2, hl2, hb2, hsame2, hnode2⟩ := nodes_spec (t1.depth.set 0 INF) _ seg1 hl1
    hb1 (2 ^ Nat.clog 2 t1.euler.length - 1) (le_refl _)
  refine ⟨t1, seg2, hinv, hdl, ⟨hl2, ?_, ?_, hb2, ?_⟩, ?_⟩
  · intro i hi
    rw [hsame2 _ (Or.inr (by omega))]
    exact hleaf1 i hi
  · intro i hi1 hi2
    rw [hsame2 _ (Or.inr (by omega))]
    exact hrest1 _ (by omega) (Or.inr (by omega))
  · intro j hj1 hj2
    exact hnode2 j (by omega) hj2
  · rw [construct_unfold adj root v0 _ t1 hc hres (by have := h.root_mem.2; omega) hrun h0,
      hmw, sizeLoop_pow _ (by omega), Option.some_bind, hsw, if_pos (Int.ofNat_nonneg _),
      Option.some_bind]
    simp only [Int.toNat_ofNat]
    rw [hs1, Option.some_bind, hs2, Option.some_bind]

/-- The constructor does not return on a tree with more than `2^28` and at most `2^29`
vertices, whatever the unset member `V` holds: the tour has more than `2^29` entries, so
`sz` becomes `2^30` and `sz << 1` is negative. -/
theorem construct_too_big (h : IsRootedTree (adjOf adj) n root par dep)
    (hlen : adj.length = n + 1) (v0 : Int) (hv0 : (n : Int) ≤ v0) (hv1 : v0 < 2 ^ 31 - 1)
    (hn1 : 2 ^ 28 < n) (hn2 : n ≤ 2 ^ 29) :
    LCA.construct adj root v0 = none := by
  have hcells : n < (v0 + 1).toNat := by omega
  have hc : wrap32 (v0 + 1) = (((v0 + 1).toNat : Nat) : Int) := by
    rw [wrap32_of_range (by omega) (by omega)]
    omega
  have hres : 0 ≤ wrap32 (2 * wrap32 adj.length) := by
    have e : (2 : Int) * ((n + 1 : Nat) : Int) = ((2 * (n + 1) : Nat) : Int) := by
      push_cast
      ring
    rw [hlen, wrap32_natCast _ (by omega), e,
      wrap32_natCast _ (by omega)]
    exact Int.ofNat_nonneg _
  obtain ⟨t1, hrun, hinv, hdl⟩ := start_tour h hlen hcells
  have hl := tour_length h hinv
  have h0 : 0 < t1.depth.length := by omega
  have hmw : wrap32 t1.euler.length = (t1.euler.length : Int) :=
    wrap32_of_range (by omega) (by omega)
  have hc1 : Nat.clog 2 t1.euler.length ≤ 30 :=
    (Nat.le_pow_iff_clog_le (by omega)).1 (by omega)
  have hc2 : 29 < Nat.clog 2 t1.euler.length :=
    (Nat.pow_lt_iff_lt_clog (by omega)).1 (by omega)
  have hc3 : Nat.clog 2 t1.euler.length = 30 := by omega
  have hsw : wrap32 (((2 ^ Nat.clog 2 t1.euler.length : Nat) : Int) * 2) = -2 ^ 31 := by
    rw [hc3]
    decide
  rw [construct_unfold adj root v0 _ t1 hc hres (by have := h.root_mem.2; omega) hrun h0,
    hmw, sizeLoop_pow _ (by omega), Option.some_bind, hsw, if_neg (by decide)]
  rfl

end Build

/-! ### Stars as vectors of rows -/

theorem starTree_length (n : Nat) : (starTree n).length = n + 1 := by
  simp [starTree]

theorem adjOf_starTree (n : Nat) : adjOf (starTree n) = LcaBinaryLift.starAdj n := by
  funext u
  unfold adjOf starTree
  by_cases hu : u < n + 1
  · simp [List.getD_eq_getElem?_getD, List.getElem?_map, List.getElem?_range hu]
  · have hlen : ((List.range (n + 1)).map (LcaBinaryLift.starAdj n)).length ≤ u := by
      rw [List.length_map, List.length_range]
      omega
    rw [List.getD_eq_default _ _ hlen]
    unfold LcaBinaryLift.starAdj
    have h2 : ¬ (2 ≤ u ∧ u ≤ n) := by omega
    by_cases h1 : u = 1
    · have hn0 : n - 1 = 0 := by omega
      rw [if_pos h1, hn0]
      rfl
    · rw [if_neg h1, if_neg h2]

theorem starTree_tree (n : Nat) (hn : 1 ≤ n) : IsUndirectedTree (adjOf (starTree n)) n := by
  rw [adjOf_starTree]
  exact LcaBinaryLift.starAdj_tree n hn

/-! ### The claims on the Euler tour and the segment tree -/

/-- The tree `1-2, 1-3, 2-4, 2-5` given as a vector of rows is an undirected tree on the
vertices `1..5`. -/
theorem exampleTree_tree : IsUndirectedTree (adjOf exampleTree) 5 :=
  LcaBinaryLift.exampleAdj_tree

/-- With enough cells the tour is what the traversal is meant to produce: for every
undirected tree on the vertices `1..n`, `n ≤ 2^28`, given as a 1-based vector of rows
(`adj.size() = n + 1`), every root and every value `v0` with `n ≤ v0 < 2^31 - 1` of the
unset member `V`, the constructor returns and leaves a tour `euler` of exactly `2n - 1`
entries (at most `2V - 1` with `V = adj.size()`) that begins and ends with `root` and in
which every two consecutive entries are adjacent; for every vertex `v`, `firstFoundAt[v]`
is the index of the first occurrence of `v` in `euler` and `depth[v]` is the number of
edges of the tree path from `root` to `v`; `depth[root]` is 0. -/
theorem tour_shape_given_cells (adj : List (List Nat)) (n root : Nat) (v0 : Int)
    (hlen : adj.length = n + 1) (ht : IsUndirectedTree (adjOf adj) n) (hroot : InTree n root)
    (hn : n ≤ 2 ^ 28) (hv0 : (n : Int) ≤ v0) (hv1 : v0 < 2 ^ 31 - 1) :
    ∃ t, LCA.construct adj root v0 = some t ∧
      t.euler.length = 2 * n - 1 ∧ t.euler.length ≤ 2 * adj.length - 1 ∧
      t.euler.head? = some root ∧ t.euler.getLast? = some root ∧
      t.euler.Chain' (fun a b => b ∈ adjOf adj a) ∧
      (∀ v, InTree n v → v ∈ t.euler ∧ t.firstFoundAt[v]? = some (t.euler.indexOf v) ∧
        ∃ d : Nat, t.depth[v]? = some (d : Int) ∧ HasDepth (adjOf adj) root v d) ∧
      t.depth[root]? = some 0 := by
  obtain ⟨par, dep, h⟩ := LcaBinaryLift.undirectedTree_rooted ht hroot
  obtain ⟨t1, seg, hinv, _, _, hbuild⟩ := constructor_spec h hlen v0 hv0 hv1 hn
  have hl := tour_length h hinv
  have hcell : ∀ v, InTree n v → (t1.depth.set 0 INF)[v]? = some (dep v : Int) := by
    intro v hv
    rw [List.getElem?_set_ne (by have := hv.1; omega)]
    exact (hinv.below v hv (LcaBinaryLift.tree_root_anc h hv)).depth
  refine ⟨_, hbuild, ?_, ?_, hinv.head, hinv.last, hinv.chain, ?_, ?_⟩
  · show t1.euler.length = 2 * n - 1
    omega
  · show t1.euler.length ≤ 2 * adj.length - 1
    omega
  · intro v hv
    have hc := hinv.below v hv (LcaBinaryLift.tree_root_anc h hv)
    exact ⟨hc.mem, hc.first, dep v, hcell v hv, (LcaBinaryLift.hasDepth_iff h hv).2 rfl⟩
  · show (t1.depth.set 0 INF)[root]? = some 0
    rw [hcell root hroot, h.dep_root]
    rfl

/-- A negative `V + 1` is no vector size: the constructor does not return. -/
theorem construct_negative (adj : List (List Nat)) (root : Nat) (v0 : Int)
    (h1 : -2 ^ 31 ≤ v0) (h2 : v0 < -1) : LCA.construct adj root v0 = none := by
  have hw : wrap32 (v0 + 1) = v0 + 1 := wrap32_of_range (by omega) (by omega)
  have hneg : ¬ (0 ≤ wrap32 (v0 + 1)) := by
    rw [hw]
    omega
  unfold LCA.construct
  simp only [Option.bind_eq_bind]
  rw [if_neg hneg]
  rfl

/-- C18, the code at a failing input: the tree `1-2, 1-3, 2-4, 2-5` rooted at 1 needs the
cells `0..5` of `depth`, `firstFoundAt` and `visited`, but these vectors get `V + 1` cells
for the value that the member `V` holds before it is initialised.  With 0 there, and with
any `int` value below 5, the constructor writes or reads outside a vector and no Euler
tour results; only with a value from 5 on (and below `INT_MAX`) does it return, then with
the tour `1 2 4 2 5 2 1 3 1`. -/
theorem eulerTour_vectors_unsized :
    exampleTree.length = 5 + 1 ∧ IsUndirectedTree (adjOf exampleTree) 5 ∧
    LCA.construct exampleTree 1 0 = none ∧
    (∀ v0 : Int, -2 ^ 31 ≤ v0 → v0 < 5 → LCA.construct exampleTree 1 v0 = none) ∧
    LCA.construct exampleTree 1 (2 ^ 31 - 1) = none ∧
    (LCA.construct exampleTree 1 5).map (fun t => (t.euler, t.depth.length)) =
      some ([1, 2, 4, 2, 5, 2, 1, 3, 1], 6) := by
  refine ⟨rfl, exampleTree_tree, by decide, ?_, by decide, by decide⟩
  intro v0 h1 h2
  by_cases hneg : v0 < -1
  · exact construct_negative _ _ _ h1 hneg
  · have h3 : -1 ≤ v0 := by omega
    interval_cases v0 <;> decide

/-- C19, the claim at two inputs.  On the tree `1-2, 1-3, 2-4, 2-5` rooted at 1, when the
constructor returns (the unset member `V` holding 5 or 6, say), the tour has 9 entries, 16
leaves are allocated and the leaves 25..31 are padding; the internal node 15 has only the
padding leaves 30 and 31 below it and holds the sentinel 0, which is not a vertex of the
tour.  On the star with `2^28 + 1` vertices the tour has `2^29 + 1` entries, `sz` becomes
`2^30` and `sz << 1` is negative: the constructor does not return, even with enough cells
in `depth`, `firstFoundAt` and `visited`. -/
theorem segTree_padding_node_not_tour_vertex :
    exampleTree.length = 5 + 1 ∧ IsUndirectedTree (adjOf exampleTree) 5 ∧
    (LCA.construct exampleTree 1 5).map
        (fun t => (t.euler, t.segTree.length, t.segTree[15]?, t.segTree[30]?,
          t.segTree[31]?)) =
      some ([1, 2, 4, 2, 5, 2, 1, 3, 1], 32, some 0, some 0, some 0) ∧
    (LCA.construct exampleTree 1 6).map
        (fun t => (t.euler, t.segTree.length, t.segTree[15]?, t.segTree[30]?,
          t.segTree[31]?)) =
      some ([1, 2, 4, 2, 5, 2, 1, 3, 1], 32, some 0, some 0, some 0) ∧
    0 ∉ [1, 2, 4, 2, 5, 2, 1, 3, 1] ∧
    (starTree (2 ^ 28 + 1)).length = 2 ^ 28 + 1 + 1 ∧
    IsUndirectedTree (adjOf (starTree (2 ^ 28 + 1))) (2 ^ 28 + 1) ∧
    LCA.construct (starTree (2 ^ 28 + 1)) 1 ((2 ^ 28 + 1 : Nat) : Int) = none := by
  have hstar := starTree_tree (2 ^ 28 + 1) (by norm_num)
  obtain ⟨par, dep, h⟩ := LcaBinaryLift.undirectedTree_rooted hstar
    (⟨le_refl _, by norm_num⟩ : InTree (2 ^ 28 + 1) 1)
  refine ⟨rfl, exampleTree_tree, by decide, by decide, by decide, starTree_length _, hstar,
    construct_too_big h (starTree_length _) _ (le_refl _) (by norm_num) (by norm_num)
      (by norm_num)⟩

/-- C19, amended: for every undirected tree on the vertices `1..n`, `n ≤ 2^28`, given as
a 1-based vector of rows, every root and every value `v0` with `n ≤ v0 < 2^31 - 1` of the
member `V` at the time `depth`, `firstFoundAt` and `visited` are sized (so that they have
a cell for every vertex), the constructor returns and, with `m = euler.size()` and
`sz` the least power of two that is at least `m`: `segTree` has `2*sz` entries;
`segTree[sz + i] = euler[i]` for `i < m`; every padding leaf `segTree[sz + i]`,
`m ≤ i < sz`, holds the vertex 0, whose depth is `INF`; every internal node `i` in
`1..sz-1` holds `segTree[2i]` or `segTree[2i+1]`, the left one on ties, and its depth is
the minimum of the two depths; hence every node `i`, of height `k` say, holds the vertex
of one of the leaves `i*2^k .. (i+1)*2^k - 1` below it, of minimum depth among the
vertices of these leaves, and this is a vertex of the tour when one of these leaves is a
tour leaf and the sentinel 0 when all of them are padding. -/
theorem segTree_range_minimum (adj : List (List Nat)) (n root : Nat) (v0 : Int)
    (hlen : adj.length = n + 1) (ht : IsUndirectedTree (adjOf adj) n)
    (hroot : InTree n root) (hn : n ≤ 2 ^ 28) (hv0 : (n : Int) ≤ v0)
    (hv1 : v0 < 2 ^ 31 - 1) :
    ∃ t sz, LCA.construct adj root v0 = some t ∧
      ((∃ e, sz = 2 ^ e) ∧ t.euler.length ≤ sz ∧ ∀ e, t.euler.length ≤ 2 ^ e → sz ≤ 2 ^ e) ∧
      t.segTree.length = 2 * sz ∧ t.segTreeSize = 2 * sz ∧
      (∀ i, i < t.euler.length → t.segTree[sz + i]? = t.euler[i]?) ∧
      (∀ i, t.euler.length ≤ i → i < sz → t.segTree[sz + i]? = some 0) ∧
      t.depth[0]? = some INF ∧
      (∀ i, 1 ≤ i → i < sz → ∃ l r dl dr,
        t.segTree[2 * i]? = some l ∧ t.segTree[2 * i + 1]? = some r ∧
        t.depth[l]? = some dl ∧ t.depth[r]? = some dr ∧
        t.segTree[i]? = some (if dl ≤ dr then l else r) ∧
        t.depth[if dl ≤ dr then l else r]? = some (min dl dr)) ∧
      (∀ i, 1 ≤ i → i < 2 * sz → ∃ k, sz ≤ i * 2 ^ k ∧ (i + 1) * 2 ^ k ≤ 2 * sz ∧
        MinLeaf t.depth t.segTree i (i * 2 ^ k) ((i + 1) * 2 ^ k) ∧
        (i * 2 ^ k < sz + t.euler.length → ∃ x ∈ t.euler, t.segTree[i]? = some x) ∧
        (sz + t.euler.length ≤ i * 2 ^ k → t.segTree[i]? = some 0)) := by
  obtain ⟨par, dep, h⟩ := LcaBinaryLift.undirectedTree_rooted ht hroot
  obtain ⟨t1, seg, hinv, hdl, hseg, hbuild⟩ := constructor_spec h hlen v0 hv0 hv1 hn
  have hl := tour_length h hinv
  have hn1 := hroot.1.trans hroot.2
  have hm : t1.euler.length ≤ 2 ^ Nat.clog 2 t1.euler.length :=
    Nat.le_pow_clog (by omega) _
  have hzero : (t1.depth.set 0 INF)[0]? = some INF := List.getElem?_set_self (by omega)
  have hrootd : (t1.depth.set 0 INF)[root]? = some 0 := by
    rw [List.getElem?_set_ne (by have := hroot.1; omega),
      (hinv.below root hroot (IsAnc.refl par root)).depth, h.dep_root]
    rfl
  have hlast : seg[2 ^ Nat.clog 2 t1.euler.length + (t1.euler.length - 1)]? =
      some root := by
    rw [hseg.leaves _ (by omega), ← List.getLast?_eq_getElem?]
    exact hinv.last
  refine ⟨_, 2 ^ Nat.clog 2 t1.euler.length, hbuild,
    ⟨⟨_, rfl⟩, hm, ?_⟩, hseg.len, rfl, hseg.leaves, hseg.padding, hzero, ?_, ?_⟩
  · intro e he
    exact Nat.pow_le_pow_right (by omega) ((Nat.le_pow_iff_clog_le (by omega)).1 he)
  · intro i hi1 hi2
    obtain ⟨l, r, dl, dr, h1, h2, h3, h4, h5⟩ := hseg.nodes i hi1 hi2
    refine ⟨l, r, dl, dr, h1, h2, h3, h4, ?_, ?_⟩
    · show seg[i]? = _
      rw [h5]
      by_cases hc : dl ≤ dr
      · rw [if_pos hc, if_neg (by omega)]
      · rw [if_neg hc, if_pos (by omega)]
    · show (t1.depth.set 0 INF)[if dl ≤ dr then l else r]? = _
      by_cases hc : dl ≤ dr
      · rw [if_pos hc, min_eq_left hc]
        exact h3
      · rw [if_neg hc, min_eq_right (by omega)]
        exact h4
  · intro i hi1 hi2
    obtain ⟨k, hk1, hk2⟩ := node_height _ i hi1 hi2
    have hmin := leaf_min (t1.depth.set 0 INF) seg _ hseg.len hseg.bound hseg.nodes k i hk1 hk2
    refine ⟨k, hk1, hk2, hmin, ?_, ?_⟩
    · intro hlo
      have hlo2 : i * 2 ^ k < 2 ^ Nat.clog 2 t1.euler.length + t1.euler.length :=
        hlo
      obtain ⟨j, x, dx, a1, a2, a3, a4, a5, a6⟩ := hmin
      refine ⟨x, ?_, a3⟩
      by_cases hj : j < 2 ^ Nat.clog 2 t1.euler.length + t1.euler.length
      · have e := hseg.leaves (j - 2 ^ Nat.clog 2 t1.euler.length) (by omega)
        rw [show 2 ^ Nat.clog 2 t1.euler.length +
          (j - 2 ^ Nat.clog 2 t1.euler.length) = j by omega, a4] at e
        exact List.getElem?_mem e.symm
      · exfalso
        have e := hseg.padding (j - 2 ^ Nat.clog 2 t1.euler.length) (by omega)
          (by omega)
        rw [show 2 ^ Nat.clog 2 t1.euler.length +
          (j - 2 ^ Nat.clog 2 t1.euler.length) = j by omega, a4] at e
        have hx0 : x = 0 := Option.some.inj e
        rw [hx0, hzero] at a5
        have hdx : dx = INF := (Option.some.inj a5).symm
        obtain ⟨y, dy, c1, c2, c3⟩ := a6
          (2 ^ Nat.clog 2 t1.euler.length + (t1.euler.length - 1)) (by omega)
          (by omega)
        rw [hlast] at c1
        have hy : y = root := (Option.some.inj c1).symm
        rw [hy, hrootd] at c2
        have hdy : dy = 0 := (Option.some.inj c2).symm
        rw [hdx, hdy] at c3
        exact absurd c3 (by decide)
    · intro hlo
      have hlo2 : 2 ^ Nat.clog 2 t1.euler.length + t1.euler.length ≤ i * 2 ^ k :=
        hlo
      obtain ⟨j, x, dx, a1, a2, a3, a4, _, _⟩ := hmin
      have e := hseg.padding (j - 2 ^ Nat.clog 2 t1.euler.length) (by omega)
        (by omega)
      rw [show 2 ^ Nat.clog 2 t1.euler.length +
        (j - 2 ^ Nat.clog 2 t1.euler.length) = j by omega, a4] at e
      show seg[i]? = some 0
      rw [a3, e]

/-- Witness of the amended C19 on the tree `1-2, 1-3, 2-4, 2-5` rooted at 1. -/
theorem segTree_range_minimum_witness :
    exampleTree.length = 5 + 1 ∧ IsUndirectedTree (adjOf exampleTree) 5 ∧ InTree 5 1 ∧
    5 ≤ 2 ^ 28 ∧ ((5 : Nat) : Int) ≤ 5 ∧ (5 : Int) < 2 ^ 31 - 1 ∧
    ∃ t sz, LCA.construct exampleTree 1 5 = some t ∧
      ((∃ e, sz = 2 ^ e) ∧ t.euler.length ≤ sz ∧ ∀ e, t.euler.length ≤ 2 ^ e → sz ≤ 2 ^ e) ∧
      t.segTree.length = 2 * sz ∧ t.segTreeSize = 2 * sz ∧
      (∀ i, i < t.euler.length → t.segTree[sz + i]? = t.euler[i]?) ∧
      (∀ i, t.euler.length ≤ i → i < sz → t.segTree[sz + i]? = some 0) ∧
      t.depth[0]? = some INF ∧
      (∀ i, 1 ≤ i → i < sz → ∃ l r dl dr,
        t.segTree[2 * i]? = some l ∧ t.segTree[2 * i + 1]? = some r ∧
        t.depth[l]? = some dl ∧ t.depth[r]? = some dr ∧
        t.segTree[i]? = some (if dl ≤ dr then l else r) ∧
        t.depth[if dl ≤ dr then l else r]? = some (min dl dr)) ∧
      (∀ i, 1 ≤ i → i < 2 * sz → ∃ k, sz ≤ i * 2 ^ k ∧ (i + 1) * 2 ^ k ≤ 2 * sz ∧
        MinLeaf t.depth t.segTree i (i * 2 ^ k) ((i + 1) * 2 ^ k) ∧
        (i * 2 ^ k < sz + t.euler.length → ∃ x ∈ t.euler, t.segTree[i]? = some x) ∧
        (sz + t.euler.length ≤ i * 2 ^ k → t.segTree[i]? = some 0)) :=
  ⟨rfl, exampleTree_tree, by decide, by norm_num, le_refl _, by norm_num,
    segTree_range_minimum exampleTree 5 1 5 rfl exampleTree_tree (by decide) (by norm_num)
      (le_refl _) (by norm_num)⟩

end LcaSegmentTree

end GraphBook

namespace GraphBook

namespace Kruskal

/-! ## Theorems: kruskal.cpp -/

/-! ### Connectivity relative to a partition -/

theorem connR_of_eq {r : Nat → Nat} {es : List Edge} {a b : Nat} (h : r a = r b) :
    ConnR r es a b :=
  Relation.EqvGen.rel _ _ (Or.inl h)

theorem connR_of_edge {r : Nat → Nat} {es : List Edge} {e : Edge} (h : e ∈ es) :
    ConnR r es e.u e.v :=
  Relation.EqvGen.rel _ _ (Or.inr ⟨e, h, rfl, rfl⟩)

/-- A relation between partitions-with-edges that sends generators to connections sends
connections to connections. -/
theorem connR_lift {r r' : Nat → Nat} {es es' : List Edge}
    (h1 : ∀ a b, r a = r b → ConnR r' es' a b) (h2 : ∀ e ∈ es, ConnR r' es' e.u e.v)
    {x y : Nat} (h : ConnR r es x y) : ConnR r' es' x y := by
  induction h with
  | rel a b hab =>
    rcases hab with hab | ⟨e, he, hu, hv⟩
    · exact h1 a b hab
    · rw [← hu, ← hv]
      exact h2 e he
  | refl a => exact Relation.EqvGen.refl a
  | symm a b _ ih => exact Relation.EqvGen.symm _ _ ih
  | trans a b c _ _ ih1 ih2 => exact Relation.EqvGen.trans _ _ _ ih1 ih2

theorem connR_nil {r : Nat → Nat} {x y : Nat} (h : ConnR r [] x y) : r x = r y := by
  induction h with
  | rel a b hab =>
    rcases hab with hab | ⟨e, he, _⟩
    · exact hab
    · simp at he
  | refl a => rfl
  | symm a b _ ih => exact ih.symm
  | trans a b c _ _ ih1 ih2 => exact ih1.trans ih2

theorem merge_eq_iff (r : Nat → Nat) (a b x y : Nat) :
    merge r a b x = merge r a b y ↔
      r x = r y ∨ (r x = r a ∧ r y = r b) ∨ (r x = r b ∧ r y = r a) := by
  unfold merge
  by_cases hx : r x = r b <;> by_cases hy : r y = r b
  · simp only [if_pos hx, if_pos hy, true_iff]
    exact Or.inl (hx.trans hy.symm)
  · simp only [if_pos hx, if_neg hy]
    constructor
    · intro h
      exact Or.inr (Or.inr ⟨hx, h.symm⟩)
    · rintro (h | ⟨h1, h2⟩ | ⟨_, h2⟩)
      · exact absurd (h ▸ hx) hy
      · exact absurd h2 hy
      · exact h2.symm
  · simp only [if_neg hx, if_pos hy]
    constructor
    · intro h
      exact Or.inr (Or.inl ⟨h, hy⟩)
    · rintro (h | ⟨h1, _⟩ | ⟨h1, _⟩)
      · exact absurd (h ▸ hy) hx
      · exact h1
      · exact absurd h1 hx
  · simp only [if_neg hx, if_neg hy]
    constructor
    · intro h
      exact Or.inl h
    · rintro (h | ⟨_, h2⟩ | ⟨h1, _⟩)
      · exact h
      · exact absurd h2 hy
      · exact absurd h1 hx

/-- Merging the classes of the endpoints of an edge is the same as adding the edge. -/
theorem connR_merge (r : Nat → Nat) (e : Edge) (es : List Edge) (x y : Nat) :
    ConnR (merge r e.u e.v) es x y ↔ ConnR r (e :: es) x y := by
  constructor
  · apply connR_lift
    · intro a b hab
      rcases (merge_eq_iff r e.u e.v a b).1 hab with h | ⟨h1, h2⟩ | ⟨h1, h2⟩
      · exact connR_of_eq h
      · exact Relation.EqvGen.trans _ _ _ (connR_of_eq h1)
          (Relation.EqvGen.trans _ _ _ (connR_of_edge (List.mem_cons_self _ _))
            (connR_of_eq h2.symm))
      · exact Relation.EqvGen.trans _ _ _ (connR_of_eq h1)
          (Relation.EqvGen.trans _ _ _
            (Relation.EqvGen.symm _ _ (connR_of_edge (List.mem_cons_self _ _)))
            (connR_of_eq h2.symm))
    · intro e' he'
      exact connR_of_edge (List.mem_cons_of_mem _ he')
  · apply connR_lift
    · intro a b hab
      exact connR_of_eq ((merge_eq_iff r e.u e.v a b).2 (Or.inl hab))
    · intro e' he'
      rcases List.mem_cons.1 he' with h | h
      · rw [h]
        exact connR_of_eq ((merge_eq_iff r e.u e.v e.u e.v).2 (Or.inr (Or.inl ⟨rfl, rfl⟩)))
      · exact connR_of_edge h

/-- An edge inside a class adds nothing. -/
theorem connR_skip {r : Nat → Nat} {e : Edge} (h : r e.u = r e.v) (es : List Edge)
    (x y : Nat) : ConnR r (e :: es) x y ↔ ConnR r es x y := by
  constructor
  · apply connR_lift
    · intro a b hab
      exact connR_of_eq hab
    · intro e' he'
      rcases List.mem_cons.1 he' with h' | h'
      · rw [h']
        exact connR_of_eq h
      · exact connR_of_edge h'
  · apply connR_lift
    · intro a b hab
      exact connR_of_eq hab
    · intro e' he'
      exact connR_of_edge (List.mem_cons_of_mem _ he')

/-- Connectivity only depends on which edges are present. -/
theorem connR_congr {r : Nat → Nat} {es es' : List Edge} (h : ∀ e, e ∈ es → e ∈ es')
    {x y : Nat} (hc : ConnR r es x y) : ConnR r es' x y :=
  connR_lift (fun _ _ hab => connR_of_eq hab) (fun e he => connR_of_edge (h e he)) hc

theorem conn_iff_connR (es : List Edge) (x y : Nat) : Conn es x y ↔ ConnR id es x y := by
  constructor
  · intro h
    induction h with
    | rel a b hab => exact Relation.EqvGen.rel _ _ (Or.inr hab)
    | refl a => exact Relation.EqvGen.refl a
    | symm a b _ ih => exact Relation.EqvGen.symm _ _ ih
    | trans a b c _ _ ih1 ih2 => exact Relation.EqvGen.trans _ _ _ ih1 ih2
  · intro h
    induction h with
    | rel a b hab =>
      rcases hab with hab | hab
      · have : a = b := hab
        rw [this]
        exact Relation.EqvGen.refl b
      · exact Relation.EqvGen.rel _ _ hab
    | refl a => exact Relation.EqvGen.refl a
    | symm a b _ ih => exact Relation.EqvGen.symm _ _ ih
    | trans a b c _ _ ih1 ih2 => exact Relation.EqvGen.trans _ _ _ ih1 ih2

/-! ### Counting classes -/

theorem flat_merge {V : Nat} {r : Nat → Nat} (h : Flat V r) {a : Nat} (ha : InV V a)
    (b : Nat) : Flat V (merge r a b) := by
  constructor
  · intro v
    unfold merge
    by_cases hv : r v = r b
    · rw [if_pos hv]
      by_cases hab : r (r a) = r b
      · rw [if_pos hab]
      · rw [if_neg hab, h.idem]
    · rw [if_neg hv]
      have : ¬ r (r v) = r b := by rw [h.idem]; exact hv
      rw [if_neg this, h.idem]
  · intro v hv
    unfold merge
    split
    · exact h.mem a ha
    · exact h.mem v hv

/-- Merging two different classes leaves one class less. -/
theorem classes_merge {V : Nat} {r : Nat → Nat} (h : Flat V r) {a b : Nat} (hb : InV V b)
    (hab : r a ≠ r b) : classes V (merge r a b) + 1 = classes V r := by
  unfold classes
  have hset : (Finset.Icc 1 V).filter (fun v => merge r a b v = v) =
      ((Finset.Icc 1 V).filter (fun v => r v = v)).erase (r b) := by
    ext v
    simp only [Finset.mem_filter, Finset.mem_erase, merge]
    constructor
    · rintro ⟨hv, hfix⟩
      by_cases hvb : r v = r b
      · rw [if_pos hvb] at hfix
        have : r v = r a := by rw [← hfix, h.idem]
        exact absurd (this.symm.trans hvb) hab
      · rw [if_neg hvb] at hfix
        refine ⟨?_, hv, hfix⟩
        intro e
        rw [e, h.idem] at hvb
        exact hvb rfl
    · rintro ⟨hne, hv, hfix⟩
      refine ⟨hv, ?_⟩
      have : ¬ r v = r b := by
        rw [hfix]
        exact hne
      rw [if_neg this]
      exact hfix
  have hmem : r b ∈ (Finset.Icc 1 V).filter (fun v => r v = v) := by
    simp only [Finset.mem_filter, Finset.mem_Icc]
    exact ⟨h.mem b hb, h.idem b⟩
  rw [hset, Finset.card_erase_of_mem hmem]
  have := Finset.card_pos.2 ⟨_, hmem⟩
  omega

theorem classes_pos {V : Nat} {r : Nat → Nat} (h : Flat V r) (hV : 1 ≤ V) :
    1 ≤ classes V r := by
  unfold classes
  apply Finset.card_pos.2
  refine ⟨r 1, ?_⟩
  simp only [Finset.mem_filter, Finset.mem_Icc]
  exact ⟨h.mem 1 ⟨le_refl _, hV⟩, h.idem 1⟩

/-- A partition with all of `1..V` in one class has one class. -/
theorem classes_one {V : Nat} {r : Nat → Nat} (h : Flat V r) (hV : 1 ≤ V)
    (hall : ∀ x y, InV V x → InV V y → r x = r y) : classes V r = 1 := by
  unfold classes
  have hset : (Finset.Icc 1 V).filter (fun v => r v = v) = {r 1} := by
    ext v
    simp only [Finset.mem_filter, Finset.mem_Icc, Finset.mem_singleton]
    constructor
    · rintro ⟨hv, hfix⟩
      rw [← hfix]
      exact hall v 1 hv ⟨le_refl _, hV⟩
    · intro hv
      rw [hv]
      exact ⟨h.mem 1 ⟨le_refl _, hV⟩, h.idem 1⟩
  rw [hset, Finset.card_singleton]

theorem flat_id (V : Nat) : Flat V id := ⟨fun _ => rfl, fun _ hv => hv⟩

theorem classes_id (V : Nat) : classes V id = V := by
  unfold classes
  simp

/-! ### Optimality of the greedy choice -/

theorem merge_of_eq {r : Nat → Nat} {a b : Nat} (h : r a = r b) : merge r a b = r := by
  funext v
  unfold merge
  split
  · rename_i hv
    rw [h, hv]
  · rfl

/-- To bring `c` classes together one needs at least `c - 1` edges. -/
theorem connect_needs_edges {V : Nat} (hV : 1 ≤ V) (T : List Edge) :
    ∀ r : Nat → Nat, Flat V r → EdgesIn V T →
      (∀ x y, InV V x → InV V y → ConnR r T x y) → classes V r ≤ T.length + 1 := by
  induction T with
  | nil =>
    intro r hr _ hconn
    rw [classes_one hr hV (fun x y hx hy => connR_nil (hconn x y hx hy))]
    exact le_refl _
  | cons e T ih =>
    intro r hr hin hconn
    have hin' : EdgesIn V T := fun e' he' => hin e' (List.mem_cons_of_mem _ he')
    have he := hin e (List.mem_cons_self _ _)
    by_cases hsame : r e.u = r e.v
    · have := ih r hr hin' (fun x y hx hy => (connR_skip hsame T x y).1 (hconn x y hx hy))
      simp only [List.length_cons]
      omega
    · have := ih (merge r e.u e.v) (flat_merge hr he.1 _) hin'
        (fun x y hx hy => (connR_merge r e T x y).2 (hconn x y hx hy))
      have hc := classes_merge hr he.2 hsame
      simp only [List.length_cons]
      omega

/-- Among at least `c` edges that bring `c` classes together one can be dropped. -/
theorem redundant_edge {V : Nat} (hV : 1 ≤ V) (T : List Edge) :
    ∀ r : Nat → Nat, Flat V r → EdgesIn V T → classes V r ≤ T.length →
      (∀ x y, InV V x → InV V y → ConnR r T x y) →
      ∃ e ∈ T, ∀ x y, InV V x → InV V y → ConnR r (T.erase e) x y := by
  induction T with
  | nil =>
    intro r hr _ hlen _
    have := classes_pos hr hV
    simp at hlen
    omega
  | cons e T ih =>
    intro r hr hin hlen hconn
    have hin' : EdgesIn V T := fun e' he' => hin e' (List.mem_cons_of_mem _ he')
    have he := hin e (List.mem_cons_self _ _)
    by_cases hsame : r e.u = r e.v
    · refine ⟨e, List.mem_cons_self _ _, ?_⟩
      intro x y hx hy
      rw [List.erase_cons_head]
      exact (connR_skip hsame T x y).1 (hconn x y hx hy)
    · have hc := classes_merge hr he.2 hsame
      simp only [List.length_cons] at hlen
      obtain ⟨e', he', hconn'⟩ := ih (merge r e.u e.v) (flat_merge hr he.1 _) hin' (by omega)
        (fun x y hx hy => (connR_merge r e T x y).2 (hconn x y hx hy))
      refine ⟨e', List.mem_cons_of_mem _ he', ?_⟩
      intro x y hx hy
      have h1 : ConnR r (e :: T.erase e') x y := (connR_merge r e _ x y).1 (hconn' x y hx hy)
      by_cases hee : e' = e
      · subst hee
        rw [List.erase_cons_head]
        refine connR_congr ?_ h1
        intro e'' he''
        rcases List.mem_cons.1 he'' with h2 | h2
        · rw [h2]
          exact he'
        · exact List.mem_of_mem_erase h2
      · have : (e :: T).erase e' = e :: T.erase e' := by
          rw [List.erase_cons_tail]
          simpa using fun h => hee h.symm
        rw [this]
        exact h1

theorem weightSum_cons (e : Edge) (es : List Edge) :
    weightSum (e :: es) = e.weight + weightSum es := by
  simp [weightSum]

theorem weightSum_perm {es es' : List Edge} (h : es.Perm es') :
    weightSum es = weightSum es' := by
  unfold weightSum
  exact (h.map _).sum_eq

/-- Optimality: on a sorted list of edges the greedy sum is at most the weight of any
selection of `c - 1` of the edges that brings the `c` classes together. -/
theorem kruskalFlat_le {V : Nat} (hV : 1 ≤ V) (L : List Edge) :
    ∀ (r : Nat → Nat) (T : List Edge), Flat V r → EdgesIn V L → L.Sorted weightLe →
      T.Subperm L → T.length + 1 = classes V r →
      (∀ x y, InV V x → InV V y → ConnR r T x y) → kruskalFlat r L ≤ weightSum T := by
  induction L with
  | nil =>
    intro r T _ _ _ hsub _ _
    have : T = [] := List.subperm_nil.1 hsub
    rw [this]
    simp [kruskalFlat, weightSum]
  | cons e L ih =>
    intro r T hr hin hsorted hsub hlen hconn
    have hin' : EdgesIn V L := fun e' he' => hin e' (List.mem_cons_of_mem _ he')
    have he := hin e (List.mem_cons_self _ _)
    have hsorted' : L.Sorted weightLe := (List.sorted_cons.1 hsorted).2
    have hmin : ∀ b ∈ L, e.weight ≤ b.weight := (List.sorted_cons.1 hsorted).1
    have hinT : EdgesIn V T := fun e' he' => hin e' (hsub.subset he')
    have hsubE : (T.erase e).Subperm L := by
      have := hsub.erase e
      rwa [List.erase_cons_head] at this
    by_cases hsame : r e.u = r e.v
    · have hstep : kruskalFlat r (e :: L) = kruskalFlat r L := by
        rw [kruskalFlat, if_pos hsame]
      rw [hstep]
      by_cases heT : e ∈ T
      · -- impossible: without `e` too few edges would bring the classes together
        exfalso
        have hperm := List.perm_cons_erase heT
        have hconn' : ∀ x y, InV V x → InV V y → ConnR r (T.erase e) x y := by
          intro x y hx hy
          apply (connR_skip hsame _ x y).1
          exact connR_congr (fun e' he' => hperm.subset he') (hconn x y hx hy)
        have hlenE := connect_needs_edges hV (T.erase e) r hr
          (fun e' he' => hinT e' (List.mem_of_mem_erase he')) hconn'
        have := hperm.length_eq
        simp only [List.length_cons] at this
        omega
      · rw [List.erase_of_not_mem heT] at hsubE
        exact ih r T hr hin' hsorted' hsubE hlen hconn
    · have hstep : kruskalFlat r (e :: L) = e.weight + kruskalFlat (merge r e.u e.v) L := by
        rw [kruskalFlat, if_neg hsame]
      rw [hstep]
      have hr' := flat_merge hr he.1 e.v
      have hc := classes_merge hr he.2 hsame
      by_cases heT : e ∈ T
      · have hperm := List.perm_cons_erase heT
        have hlenT := hperm.length_eq
        simp only [List.length_cons] at hlenT
        have hconn' : ∀ x y, InV V x → InV V y →
            ConnR (merge r e.u e.v) (T.erase e) x y := by
          intro x y hx hy
          apply (connR_merge r e _ x y).2
          exact connR_congr (fun e' he' => hperm.subset he') (hconn x y hx hy)
        have := ih (merge r e.u e.v) (T.erase e) hr' hin' hsorted' hsubE (by omega) hconn'
        rw [weightSum_perm hperm, weightSum_cons]
        omega
      · rw [List.erase_of_not_mem heT] at hsubE
        have hconn' : ∀ x y, InV V x → InV V y → ConnR (merge r e.u e.v) T x y := by
          intro x y hx hy
          apply (connR_merge r e _ x y).2
          exact connR_congr (fun e' he' => List.mem_cons_of_mem _ he') (hconn x y hx hy)
        obtain ⟨e', he', hconn''⟩ := redundant_edge hV T (merge r e.u e.v) hr' hinT (by omega)
          hconn'
        have hperm := List.perm_cons_erase he'
        have hlenT := hperm.length_eq
        simp only [List.length_cons] at hlenT
        have hsub' : (T.erase e').Subperm L := (List.erase_subperm _ _).trans hsubE
        have := ih (merge r e.u e.v) (T.erase e') hr' hin' hsorted' hsub' (by omega) hconn''
        have hw := hmin e' (hsubE.subset he')
        rw [weightSum_perm hperm, weightSum_cons]
        omega

theorem flat_flatFinal {V : Nat} (L : List Edge) :
    ∀ r : Nat → Nat, Flat V r → EdgesIn V L → Flat V (flatFinal r L) := by
  induction L with
  | nil => intro r hr _; exact hr
  | cons e L ih =>
    intro r hr hin
    exact ih _ (flat_merge hr (hin e (List.mem_cons_self _ _)).1 _)
      (fun e' he' => hin e' (List.mem_cons_of_mem _ he'))

theorem flatFinal_eq_iff (L : List Edge) :
    ∀ (r : Nat → Nat) (x y : Nat), flatFinal r L x = flatFinal r L y ↔ ConnR r L x y := by
  induction L with
  | nil =>
    intro r x y
    exact ⟨fun h => connR_of_eq h, connR_nil⟩
  | cons e L ih =>
    intro r x y
    rw [flatFinal, ih, connR_merge]

/-- The greedy sum is the weight of a selection of edges that connects what the whole
list connects and has as many edges as classes disappear. -/
theorem kruskalFlat_achieved {V : Nat} (L : List Edge) :
    ∀ r : Nat → Nat, Flat V r → EdgesIn V L →
      ∃ F : List Edge, F.Sublist L ∧ weightSum F = kruskalFlat r L ∧
        (∀ x y, ConnR r L x y → ConnR r F x y) ∧
        F.length + classes V (flatFinal r L) = classes V r := by
  induction L with
  | nil =>
    intro r _ _
    exact ⟨[], List.Sublist.refl _, rfl, fun _ _ h => h, by simp [flatFinal]⟩
  | cons e L ih =>
    intro r hr hin
    have hin' : EdgesIn V L := fun e' he' => hin e' (List.mem_cons_of_mem _ he')
    have he := hin e (List.mem_cons_self _ _)
    by_cases hsame : r e.u = r e.v
    · obtain ⟨F, hsub, hw, hconn, hlen⟩ := ih r hr hin'
      refine ⟨F, List.Sublist.cons _ hsub, ?_, ?_, ?_⟩
      · rw [hw, kruskalFlat, if_pos hsame]
      · intro x y hxy
        exact hconn x y ((connR_skip hsame L x y).1 hxy)
      · rw [flatFinal, merge_of_eq hsame]
        exact hlen
    · obtain ⟨F, hsub, hw, hconn, hlen⟩ := ih (merge r e.u e.v) (flat_merge hr he.1 _) hin'
      have hc := classes_merge hr he.2 hsame
      refine ⟨e :: F, List.Sublist.cons₂ _ hsub, ?_, ?_, ?_⟩
      · rw [weightSum_cons, hw, kruskalFlat, if_neg hsame]
      · intro x y hxy
        exact (connR_merge r e F x y).1 (hconn x y ((connR_merge r e L x y).2 hxy))
      · rw [flatFinal]
        simp only [List.length_cons]
        omega

end Kruskal

end GraphBook

namespace GraphBook

namespace Kruskal

/-! ### The disjoint-set structure -/

theorem dsu_setAt_same (a : Nat → Nat) (i x : Nat) : setAt a i x i = x := by
  simp [setAt]

theorem dsu_setAt_ne (a : Nat → Nat) {i j : Nat} (x : Nat) (h : j ≠ i) :
    setAt a i x j = a j := by
  simp [setAt, h]

theorem iterate_fixed {p : Nat → Nat} {r : Nat} (h : p r = r) (k : Nat) : p^[k] r = r := by
  induction k with
  | zero => rfl
  | succ k ih => rw [Function.iterate_succ_apply', ih, h]

theorem isRootOf_self {s : DisjointSetUnion} {r : Nat} (h : s.parent r = r) :
    IsRootOf s r r := ⟨h, 0, rfl⟩

theorem isRootOf_step {s : DisjointSetUnion} {x r : Nat} (h : IsRootOf s (s.parent x) r) :
    IsRootOf s x r := by
  obtain ⟨hr, k, hk⟩ := h
  exact ⟨hr, k + 1, by rw [Function.iterate_succ_apply]; exact hk⟩

theorem isRootOf_unique {s : DisjointSetUnion} {v r1 r2 : Nat} (h1 : IsRootOf s v r1)
    (h2 : IsRootOf s v r2) : r1 = r2 := by
  obtain ⟨hr1, k1, hk1⟩ := h1
  obtain ⟨hr2, k2, hk2⟩ := h2
  rcases Nat.le_total k1 k2 with hle | hle
  · have : k2 = (k2 - k1) + k1 := by omega
    rw [this, Function.iterate_add_apply, hk1, iterate_fixed hr1] at hk2
    exact hk2
  · have : k1 = (k1 - k2) + k2 := by omega
    rw [this, Function.iterate_add_apply, hk2, iterate_fixed hr2] at hk1
    exact hk1.symm

theorem isRootOf_of_root {s : DisjointSetUnion} {r r' : Nat} (hr : s.parent r = r)
    (h : IsRootOf s r r') : r' = r :=
  isRootOf_unique h (isRootOf_self hr)

theorem dinv_iterate_mem {V : Nat} {s : DisjointSetUnion} (h : DInv V s) {v : Nat}
    (hv : InV V v) (k : Nat) : InV V (s.parent^[k] v) := by
  induction k with
  | zero => exact hv
  | succ k ih =>
    rw [Function.iterate_succ_apply']
    exact h.mem _ ih

theorem isRootOf_mem {V : Nat} {s : DisjointSetUnion} (h : DInv V s) {v r : Nat}
    (hv : InV V v) (hr : IsRootOf s v r) : InV V r := by
  obtain ⟨_, k, hk⟩ := hr
  rw [← hk]
  exact dinv_iterate_mem h hv k

/-- Along `parent` the ranking climbs up to the representative. -/
theorem rank_lt_root {V : Nat} {s : DisjointSetUnion} (h : DInv V s) {rank : Nat → Nat}
    (hrank : ∀ v, InV V v → s.parent v ≠ v → rank v < rank (s.parent v)) {r : Nat} (k : Nat) :
    ∀ x, InV V x → s.parent^[k] x = r → x ≠ r → rank x < rank r := by
  induction k with
  | zero =>
    intro x _ hk hne
    exact absurd hk hne
  | succ k ih =>
    intro x hx hk hne
    have hpx : s.parent x ≠ x := by
      intro hfix
      rw [iterate_fixed hfix] at hk
      exact hne hk
    have h1 := hrank x hx hpx
    rw [Function.iterate_succ_apply] at hk
    by_cases hpr : s.parent x = r
    · rw [← hpr]
      exact h1
    · exact lt_trans h1 (ih (s.parent x) (h.mem x hx) hk hpr)

/-- Every vertex has a representative, reached in fewer than `V` steps. -/
theorem exists_root {V : Nat} {s : DisjointSetUnion} (h : DInv V s) {v : Nat}
    (hv : InV V v) : ∃ k, k < V ∧ s.parent (s.parent^[k] v) = s.parent^[k] v := by
  by_contra hno
  have hno' : ∀ k, k < V → s.parent (s.parent^[k] v) ≠ s.parent^[k] v := by
    intro k hk hfix
    exact hno ⟨k, hk, hfix⟩
  obtain ⟨rank, hrank⟩ := h.ranked
  have hmono : ∀ j, j ≤ V → ∀ i, i < j → rank (s.parent^[i] v) < rank (s.parent^[j] v) := by
    intro j
    induction j with
    | zero => intro _ i hi; omega
    | succ j ih =>
      intro hj i hi
      have hstep : rank (s.parent^[j] v) < rank (s.parent^[j + 1] v) := by
        rw [Function.iterate_succ_apply']
        exact hrank _ (dinv_iterate_mem h hv j) (hno' j (by omega))
      by_cases hij : i = j
      · rw [hij]
        exact hstep
      · exact lt_trans (ih (by omega) i (by omega)) hstep
  have hinj : Set.InjOn (fun k => s.parent^[k] v) (Finset.range (V + 1) : Set Nat) := by
    intro i hi j hj hij
    have hi' : i < V + 1 := by simpa using hi
    have hj' : j < V + 1 := by simpa using hj
    simp only at hij
    by_contra hne
    rcases Nat.lt_or_gt_of_ne hne with hlt | hlt
    · have := hmono j (by omega) i hlt
      rw [hij] at this
      omega
    · have := hmono i (by omega) j hlt
      rw [hij] at this
      omega
  have hmaps : ∀ k ∈ Finset.range (V + 1), (fun k => s.parent^[k] v) k ∈ Finset.Icc 1 V := by
    intro k _
    exact Finset.mem_Icc.2 (dinv_iterate_mem h hv k)
  have := Finset.card_le_card_of_injOn _ hmaps hinj
  simp at this

theorem exists_isRootOf {V : Nat} {s : DisjointSetUnion} (h : DInv V s) {v : Nat}
    (hv : InV V v) : ∃ r, IsRootOf s v r := by
  obtain ⟨k, _, hk⟩ := exists_root h hv
  exact ⟨_, hk, k, rfl⟩

/-- Path compression of one vertex keeps the invariant and every representative. -/
theorem compress_spec {V : Nat} {s : DisjointSetUnion} (h : DInv V s) {v r : Nat}
    (hv : InV V v) (hr : IsRootOf s v r) :
    DInv V { s with parent := setAt s.parent v r } ∧
      ∀ x r', IsRootOf { s with parent := setAt s.parent v r } x r' ↔ IsRootOf s x r' := by
  by_cases hvr : v = r
  · have heq : setAt s.parent v r = s.parent := by
      funext j
      by_cases hj : j = v
      · rw [hj, dsu_setAt_same, ← hvr]
        rw [← hvr] at hr
        exact hr.1.symm
      · rw [dsu_setAt_ne _ _ hj]
    rw [heq]
    exact ⟨h, fun _ _ => Iff.rfl⟩
  have hrm : InV V r := isRootOf_mem h hv hr
  have hvfix : s.parent v ≠ v := by
    intro hfix
    exact hvr (isRootOf_of_root hfix hr).symm
  have hroot : ∀ r', s.parent r' = r' → setAt s.parent v r r' = r' := by
    intro r' hr'
    have : r' ≠ v := fun e => hvfix (e ▸ hr')
    rw [dsu_setAt_ne _ _ this]
    exact hr'
  have hroot' : ∀ r', setAt s.parent v r r' = r' → s.parent r' = r' := by
    intro r' hr'
    have : r' ≠ v := by
      intro e
      rw [e, dsu_setAt_same] at hr'
      exact hvr hr'.symm
    rw [dsu_setAt_ne _ _ this] at hr'
    exact hr'
  constructor
  · constructor
    · intro x hx
      show InV V (setAt s.parent v r x)
      by_cases hxv : x = v
      · rw [hxv, dsu_setAt_same]
        exact hrm
      · rw [dsu_setAt_ne _ _ hxv]
        exact h.mem x hx
    · obtain ⟨rank, hrank⟩ := h.ranked
      refine ⟨rank, ?_⟩
      intro x hx hne
      change setAt s.parent v r x ≠ x at hne
      show rank x < rank (setAt s.parent v r x)
      by_cases hxv : x = v
      · rw [hxv, dsu_setAt_same]
        obtain ⟨_, k, hk⟩ := hr
        exact rank_lt_root h hrank k v hv hk hvr
      · rw [dsu_setAt_ne _ _ hxv] at hne ⊢
        exact hrank x hx hne
  · intro x r'
    constructor
    · rintro ⟨hr', k, hk⟩
      change setAt s.parent v r r' = r' at hr'
      change (setAt s.parent v r)^[k] x = r' at hk
      have hr'' := hroot' r' hr'
      induction k generalizing x with
      | zero => exact ⟨hr'', 0, hk⟩
      | succ k ih =>
        rw [Function.iterate_succ_apply] at hk
        have hrec := ih _ hk
        by_cases hxv : x = v
        · rw [hxv, dsu_setAt_same] at hrec
          have : r' = r := isRootOf_of_root hr.1 hrec
          rw [hxv, this]
          exact hr
        · rw [dsu_setAt_ne _ _ hxv] at hrec
          exact isRootOf_step hrec
    · rintro ⟨hr', k, hk⟩
      have hr'' : setAt s.parent v r r' = r' := hroot r' hr'
      induction k generalizing x with
      | zero => exact ⟨hr'', 0, hk⟩
      | succ k ih =>
        rw [Function.iterate_succ_apply] at hk
        obtain ⟨_, j, hj⟩ := ih _ hk
        by_cases hxv : x = v
        · have hxr : IsRootOf s x r' := ⟨hr', k + 1, by
            rw [Function.iterate_succ_apply]; exact hk⟩
          rw [hxv] at hxr
          have : r' = r := isRootOf_unique hxr hr
          refine ⟨hr'', 1, ?_⟩
          show setAt s.parent v r x = r'
          rw [hxv, dsu_setAt_same, this]
        · refine ⟨hr'', j + 1, ?_⟩
          show (setAt s.parent v r)^[j + 1] x = r'
          rw [Function.iterate_succ_apply, dsu_setAt_ne _ _ hxv]
          exact hj

/-- Total correctness of `findSet`: with fuel for the steps up to the representative it
returns the representative and keeps the invariant and all representatives. -/
theorem findSet_spec {V : Nat} {s : DisjointSetUnion} (h : DInv V s) {r : Nat}
    (hr : s.parent r = r) (k : Nat) :
    ∀ (v fuel : Nat), InV V v → s.parent^[k] v = r → k < fuel →
      ∃ s', findSet fuel s v = some (s', r) ∧ DInv V s' ∧ s'.size = s.size ∧
        ∀ x r', IsRootOf s' x r' ↔ IsRootOf s x r' := by
  induction k with
  | zero =>
    intro v fuel _ hk hf
    have hvr : v = r := hk
    obtain ⟨fuel', rfl⟩ : ∃ f, fuel = f + 1 := ⟨fuel - 1, by omega⟩
    rw [hvr, findSet, if_pos hr.symm]
    exact ⟨s, rfl, h, rfl, fun _ _ => Iff.rfl⟩
  | succ k ih =>
    intro v fuel hv hk hf
    obtain ⟨fuel', rfl⟩ : ∃ f, fuel = f + 1 := ⟨fuel - 1, by omega⟩
    by_cases hfix : v = s.parent v
    · have hvr : v = r := by
        rw [iterate_fixed hfix.symm] at hk
        exact hk
      rw [hvr, findSet, if_pos hr.symm]
      exact ⟨s, rfl, h, rfl, fun _ _ => Iff.rfl⟩
    · rw [Function.iterate_succ_apply] at hk
      obtain ⟨s1, hrun, hinv1, hsize1, hroots1⟩ := ih (s.parent v) fuel' (h.mem v hv) hk
        (by omega)
      have hvr1 : IsRootOf s1 v r := (hroots1 v r).2 (isRootOf_step ⟨hr, k, hk⟩)
      obtain ⟨hinv2, hroots2⟩ := compress_spec hinv1 hv hvr1
      refine ⟨{ s1 with parent := setAt s1.parent v r }, ?_, hinv2, hsize1, ?_⟩
      · rw [findSet, if_neg hfix, hrun]
      · intro x r'
        rw [hroots2, hroots1]

/-- `findSet` with the fuel used by `kruskalMST`. -/
theorem findSet_total {V : Nat} {s : DisjointSetUnion} (h : DInv V s) {v : Nat}
    (hv : InV V v) :
    ∃ s' r, findSet (V + 1) s v = some (s', r) ∧ IsRootOf s v r ∧ DInv V s' ∧
      ∀ x r', IsRootOf s' x r' ↔ IsRootOf s x r' := by
  obtain ⟨k, hk, hroot⟩ := exists_root h hv
  obtain ⟨s', hrun, hinv, _, hroots⟩ := findSet_spec h hroot k v (V + 1) hv rfl (by omega)
  exact ⟨s', _, hrun, ⟨hroot, k, rfl⟩, hinv, hroots⟩

/-- Hanging the representative `b` below the representative `a`. -/
theorem hang_spec {V : Nat} {s : DisjointSetUnion} (h : DInv V s) {a b : Nat}
    (ha : InV V a) (hra : s.parent a = a) (hrb : s.parent b = b) (hab : a ≠ b)
    (size' : Nat → Nat) :
    DInv V { s with parent := setAt s.parent b a, size := size' } ∧
      ∀ x r', IsRootOf { s with parent := setAt s.parent b a, size := size' } x r' ↔
        (IsRootOf s x r' ∧ r' ≠ b) ∨ (IsRootOf s x b ∧ r' = a) := by
  have hpa : setAt s.parent b a a = a := by
    rw [dsu_setAt_ne _ _ hab]
    exact hra
  constructor
  · constructor
    · intro x hx
      show InV V (setAt s.parent b a x)
      by_cases hxb : x = b
      · rw [hxb, dsu_setAt_same]
        exact ha
      · rw [dsu_setAt_ne _ _ hxb]
        exact h.mem x hx
    · obtain ⟨rank, hrank⟩ := h.ranked
      refine ⟨fun x => if x = a then max (rank a) (rank b + 1) else rank x, ?_⟩
      intro x hx hne
      change setAt s.parent b a x ≠ x at hne
      show (if x = a then max (rank a) (rank b + 1) else rank x) <
        (if setAt s.parent b a x = a then max (rank a) (rank b + 1)
          else rank (setAt s.parent b a x))
      by_cases hxb : x = b
      · rw [hxb, dsu_setAt_same, if_neg (Ne.symm hab), if_pos rfl]
        omega
      · rw [dsu_setAt_ne _ _ hxb] at hne ⊢
        have hxa : x ≠ a := fun e => hne (e ▸ hra)
        have := hrank x hx hne
        rw [if_neg hxa]
        split
        · rename_i hpa'
          rw [hpa'] at this
          omega
        · exact this
  · intro x r'
    constructor
    · rintro ⟨hr', k, hk⟩
      change setAt s.parent b a r' = r' at hr'
      change (setAt s.parent b a)^[k] x = r' at hk
      have hrb' : r' ≠ b := by
        intro e
        rw [e, dsu_setAt_same] at hr'
        exact hab hr'
      have hr'' : s.parent r' = r' := by
        rw [dsu_setAt_ne _ _ hrb'] at hr'
        exact hr'
      induction k generalizing x with
      | zero =>
        have : x = r' := hk
        rw [this]
        exact Or.inl ⟨isRootOf_self hr'', hrb'⟩
      | succ k ih =>
        rw [Function.iterate_succ_apply] at hk
        have hrec := ih _ hk
        by_cases hxb : x = b
        · rw [hxb, dsu_setAt_same] at hrec
          rcases hrec with ⟨h1, _⟩ | ⟨h1, _⟩
          · have : r' = a := isRootOf_of_root hra h1
            rw [hxb]
            exact Or.inr ⟨isRootOf_self hrb, this⟩
          · exact absurd (isRootOf_of_root hra h1) (Ne.symm hab)
        · rw [dsu_setAt_ne _ _ hxb] at hrec
          rcases hrec with ⟨h1, h2⟩ | ⟨h1, h2⟩
          · exact Or.inl ⟨isRootOf_step h1, h2⟩
          · exact Or.inr ⟨isRootOf_step h1, h2⟩
    · rintro (⟨⟨hr', k, hk⟩, hne⟩ | ⟨⟨_, k, hk⟩, he⟩)
      · have hr'' : setAt s.parent b a r' = r' := by
          rw [dsu_setAt_ne _ _ hne]
          exact hr'
        induction k generalizing x with
        | zero => exact ⟨hr'', 0, hk⟩
        | succ k ih =>
          have hxb : x ≠ b := by
            intro e
            rw [e, iterate_fixed hrb] at hk
            exact hne hk.symm
          rw [Function.iterate_succ_apply] at hk
          obtain ⟨_, j, hj⟩ := ih _ hk
          refine ⟨hr'', j + 1, ?_⟩
          show (setAt s.parent b a)^[j + 1] x = r'
          rw [Function.iterate_succ_apply, dsu_setAt_ne _ _ hxb]
          exact hj
      · rw [he]
        induction k generalizing x with
        | zero =>
          have : x = b := hk
          refine ⟨hpa, 1, ?_⟩
          show setAt s.parent b a x = a
          rw [this, dsu_setAt_same]
        | succ k ih =>
          by_cases hxb : x = b
          · refine ⟨hpa, 1, ?_⟩
            show setAt s.parent b a x = a
            rw [hxb, dsu_setAt_same]
          · rw [Function.iterate_succ_apply] at hk
            obtain ⟨_, j, hj⟩ := ih _ hk
            refine ⟨hpa, j + 1, ?_⟩
            show (setAt s.parent b a)^[j + 1] x = a
            rw [Function.iterate_succ_apply, dsu_setAt_ne _ _ hxb]
            exact hj

/-- After hanging one representative below another, two vertices are in the same set iff
they were, or one was with the first and the other with the second. -/
theorem hang_same {V : Nat} {s s' : DisjointSetUnion} (h : DInv V s) {a b : Nat}
    (hra : s.parent a = a) (hrb : s.parent b = b) (hab : a ≠ b)
    (hroots : ∀ x r', IsRootOf s' x r' ↔
      (IsRootOf s x r' ∧ r' ≠ b) ∨ (IsRootOf s x b ∧ r' = a))
    {x y : Nat} (hx : InV V x) (hy : InV V y) :
    Same s' x y ↔ Same s x y ∨ (Same s x a ∧ Same s y b) ∨ (Same s x b ∧ Same s y a) := by
  obtain ⟨rx, hrx⟩ := exists_isRootOf h hx
  obtain ⟨ry, hry⟩ := exists_isRootOf h hy
  have hsa : ∀ {z rz : Nat}, IsRootOf s z rz → (Same s z a ↔ rz = a) := by
    intro z rz hz
    constructor
    · rintro ⟨r, h1, h2⟩
      rw [isRootOf_unique hz h1, isRootOf_of_root hra h2]
    · intro e
      exact ⟨a, e ▸ hz, isRootOf_self hra⟩
  have hsb : ∀ {z rz : Nat}, IsRootOf s z rz → (Same s z b ↔ rz = b) := by
    intro z rz hz
    constructor
    · rintro ⟨r, h1, h2⟩
      rw [isRootOf_unique hz h1, isRootOf_of_root hrb h2]
    · intro e
      exact ⟨b, e ▸ hz, isRootOf_self hrb⟩
  have hsame : Same s x y ↔ rx = ry := by
    constructor
    · rintro ⟨r, h1, h2⟩
      rw [isRootOf_unique hrx h1, isRootOf_unique hry h2]
    · intro e
      exact ⟨rx, hrx, e ▸ hry⟩
  rw [hsame, hsa hrx, hsb hry, hsb hrx, hsa hry]
  constructor
  · rintro ⟨r', h1, h2⟩
    rcases (hroots x r').1 h1 with ⟨p1, p2⟩ | ⟨p1, p2⟩ <;>
      rcases (hroots y r').1 h2 with ⟨q1, q2⟩ | ⟨q1, q2⟩
    · exact Or.inl ((isRootOf_unique hrx p1).trans (isRootOf_unique hry q1).symm)
    · exact Or.inr (Or.inl ⟨(isRootOf_unique hrx p1).trans q2, isRootOf_unique hry q1⟩)
    · exact Or.inr (Or.inr ⟨isRootOf_unique hrx p1, (isRootOf_unique hry q1).trans p2⟩)
    · exact Or.inl ((isRootOf_unique hrx p1).trans (isRootOf_unique hry q1).symm)
  · intro hcase
    by_cases hxb : rx = b <;> by_cases hyb : ry = b
    · exact ⟨a, (hroots x a).2 (Or.inr ⟨hxb ▸ hrx, rfl⟩),
        (hroots y a).2 (Or.inr ⟨hyb ▸ hry, rfl⟩)⟩
    · have hya : ry = a := by
        rcases hcase with e | ⟨_, e⟩ | ⟨_, e⟩
        · exact absurd (e ▸ hxb) hyb
        · exact absurd e hyb
        · exact e
      exact ⟨a, (hroots x a).2 (Or.inr ⟨hxb ▸ hrx, rfl⟩),
        (hroots y a).2 (Or.inl ⟨hya ▸ hry, hab⟩)⟩
    · have hxa : rx = a := by
        rcases hcase with e | ⟨e, _⟩ | ⟨e, _⟩
        · exact absurd (e ▸ hyb) hxb
        · exact e
        · exact absurd e hxb
      exact ⟨a, (hroots x a).2 (Or.inl ⟨hxa ▸ hrx, hab⟩),
        (hroots y a).2 (Or.inr ⟨hyb ▸ hry, rfl⟩)⟩
    · have hxy : rx = ry := by
        rcases hcase with e | ⟨_, e⟩ | ⟨e, _⟩
        · exact e
        · exact absurd e hyb
        · exact absurd e hxb
      exact ⟨rx, (hroots x rx).2 (Or.inl ⟨hrx, hxb⟩),
        (hroots y rx).2 (Or.inl ⟨hxy ▸ hry, hxb⟩)⟩

theorem same_congr {s s' : DisjointSetUnion}
    (hroots : ∀ x r', IsRootOf s' x r' ↔ IsRootOf s x r') (x y : Nat) :
    Same s' x y ↔ Same s x y := by
  constructor
  · rintro ⟨r, h1, h2⟩
    exact ⟨r, (hroots x r).1 h1, (hroots y r).1 h2⟩
  · rintro ⟨r, h1, h2⟩
    exact ⟨r, (hroots x r).2 h1, (hroots y r).2 h2⟩

theorem same_root_iff {s : DisjointSetUnion} {a ra : Nat} (ha : IsRootOf s a ra) (x : Nat) :
    Same s x ra ↔ Same s x a := by
  constructor
  · rintro ⟨r, h1, h2⟩
    have : r = ra := isRootOf_of_root ha.1 h2
    exact ⟨ra, this ▸ h1, ha⟩
  · rintro ⟨r, h1, h2⟩
    have : r = ra := isRootOf_unique h2 ha
    exact ⟨ra, this ▸ h1, isRootOf_self ha.1⟩

/-- Total correctness of `unionSets`: it returns, reports whether the two vertices were in
different sets, and in that case has united their sets and no others. -/
theorem unionSets_spec {V : Nat} {s : DisjointSetUnion} (h : DInv V s) {a b : Nat}
    (ha : InV V a) (hb : InV V b) :
    ∃ s' res, unionSets (V + 1) s a b = some (s', res) ∧ DInv V s' ∧
      (res = true ↔ ¬ Same s a b) ∧
      ∀ x y, InV V x → InV V y →
        (Same s' x y ↔
          Same s x y ∨ (res = true ∧ ((Same s x a ∧ Same s y b) ∨ (Same s x b ∧ Same s y a)))) := by
  obtain ⟨s1, ra, hrun1, hroota, hinv1, hroots1⟩ := findSet_total h ha
  obtain ⟨s2, rb, hrun2, hrootb1, hinv2, hroots2⟩ := findSet_total hinv1 hb
  have hroots : ∀ x r', IsRootOf s2 x r' ↔ IsRootOf s x r' := by
    intro x r'
    rw [hroots2, hroots1]
  have hrootb : IsRootOf s b rb := (hroots1 b rb).1 hrootb1
  have hra2 : IsRootOf s2 a ra := (hroots a ra).2 hroota
  have hrb2 : IsRootOf s2 b rb := (hroots b rb).2 hrootb
  have hram : InV V ra := isRootOf_mem h ha hroota
  have hrbm : InV V rb := isRootOf_mem h hb hrootb
  by_cases hab : ra = rb
  · refine ⟨s2, false, ?_, hinv2, ?_, ?_⟩
    · rw [unionSets, hrun1]
      simp only [hrun2]
      rw [if_neg (not_not.2 hab)]
    · constructor
      · intro hf
        exact absurd hf (by decide)
      · intro hns
        exact absurd ⟨ra, hroota, hab ▸ hrootb⟩ hns
    · intro x y _ _
      rw [same_congr hroots]
      constructor
      · exact Or.inl
      · rintro (hs | ⟨hf, _⟩)
        · exact hs
        · exact absurd hf (by decide)
  · have hstep : unionSets (V + 1) s a b = some (link s2 ra rb, true) := by
      rw [unionSets, hrun1]
      simp only [hrun2]
      rw [if_pos hab]
    have hns : ¬ Same s a b := by
      rintro ⟨r, h1, h2⟩
      exact hab ((isRootOf_unique hroota h1).trans (isRootOf_unique hrootb h2).symm)
    have hconv : ∀ x y, InV V x → InV V y →
        ((Same s2 x y ∨ (Same s2 x ra ∧ Same s2 y rb) ∨ (Same s2 x rb ∧ Same s2 y ra)) ↔
          (Same s x y ∨ (true = true ∧ ((Same s x a ∧ Same s y b) ∨ (Same s x b ∧ Same s y a))))) := by
      intro x y _ _
      rw [same_root_iff hra2, same_root_iff hrb2, same_root_iff hrb2, same_root_iff hra2,
        same_congr hroots, same_congr hroots, same_congr hroots, same_congr hroots,
        same_congr hroots]
      simp
    refine ⟨link s2 ra rb, true, hstep, ?_, ?_, ?_⟩
    · unfold link
      split
      · exact (hang_spec hinv2 hrbm hrb2.1 hra2.1 (Ne.symm hab) _).1
      · exact (hang_spec hinv2 hram hra2.1 hrb2.1 hab _).1
    · exact ⟨fun _ => hns, fun _ => rfl⟩
    · intro x y hx hy
      rw [← hconv x y hx hy]
      unfold link
      split
      · rw [hang_same hinv2 hrb2.1 hra2.1 (Ne.symm hab)
          (hang_spec hinv2 hrbm hrb2.1 hra2.1 (Ne.symm hab) _).2 hx hy]
        tauto
      · rw [hang_same hinv2 hra2.1 hrb2.1 hab
          (hang_spec hinv2 hram hra2.1 hrb2.1 hab _).2 hx hy]

theorem dinv_new (V : Nat) : DInv V (DisjointSetUnion.new V) := by
  have hp : ∀ v, InV V v → (DisjointSetUnion.new V).parent v = v := by
    intro v hv
    show (if 1 ≤ v ∧ v ≤ V then v else 0) = v
    exact if_pos hv
  constructor
  · intro v hv
    rw [hp v hv]
    exact hv
  · exact ⟨fun _ => 0, fun v hv hne => absurd (hp v hv) hne⟩

theorem corr_new (V : Nat) : Corr V (DisjointSetUnion.new V) id := by
  have hp : ∀ v, InV V v → (DisjointSetUnion.new V).parent v = v := by
    intro v hv
    show (if 1 ≤ v ∧ v ≤ V then v else 0) = v
    exact if_pos hv
  intro x y hx hy
  constructor
  · rintro ⟨r, h1, h2⟩
    have e1 := isRootOf_of_root (hp x hx) h1
    have e2 := isRootOf_of_root (hp y hy) h2
    show x = y
    rw [← e1, ← e2]
  · intro e
    have e' : x = y := e
    exact ⟨x, isRootOf_self (hp x hx), e' ▸ isRootOf_self (hp x hx)⟩

/-- The loop of `kruskalMST` computes the greedy sum of the partition it starts from. -/
theorem kruskalLoop_refines {V : Nat} (L : List Edge) :
    ∀ (s : DisjointSetUnion) (r : Nat → Nat) (sum : Int), DInv V s → Corr V s r →
      EdgesIn V L → kruskalLoop (V + 1) L s sum = some (sum + kruskalFlat r L) := by
  induction L with
  | nil =>
    intro s r sum _ _ _
    simp [kruskalLoop, kruskalFlat]
  | cons e L ih =>
    intro s r sum hinv hcorr hin
    have hin' : EdgesIn V L := fun e' he' => hin e' (List.mem_cons_of_mem _ he')
    obtain ⟨hu, hv⟩ := hin e (List.mem_cons_self _ _)
    obtain ⟨s', res, hrun, hinv', hres, hsame⟩ := unionSets_spec hinv hu hv
    cases res with
    | false =>
      have hs : Same s e.u e.v := by
        by_contra hns
        exact absurd (hres.2 hns) (by decide)
      have hr : r e.u = r e.v := (hcorr e.u e.v hu hv).1 hs
      have hcorr' : Corr V s' r := by
        intro x y hx hy
        rw [hsame x y hx hy, ← hcorr x y hx hy]
        simp
      rw [kruskalLoop, hrun]
      simp only
      rw [ih s' r sum hinv' hcorr' hin', kruskalFlat, if_pos hr]
    | true =>
      have hns : ¬ Same s e.u e.v := hres.1 rfl
      have hr : ¬ r e.u = r e.v := fun hr => hns ((hcorr e.u e.v hu hv).2 hr)
      have hcorr' : Corr V s' (merge r e.u e.v) := by
        intro x y hx hy
        rw [hsame x y hx hy, merge_eq_iff, hcorr x y hx hy, hcorr x e.u hx hu,
          hcorr y e.v hy hv, hcorr x e.v hx hv, hcorr y e.u hy hu]
        simp
      rw [kruskalLoop, hrun]
      simp only
      rw [ih s' (merge r e.u e.v) (sum + e.weight) hinv' hcorr' hin', kruskalFlat, if_neg hr,
        add_assoc]

end Kruskal

end GraphBook

namespace GraphBook

namespace Kruskal

/-! ### The minimum spanning tree -/

theorem conn_congr {es es' : List Edge} (h : ∀ e, e ∈ es → e ∈ es') {x y : Nat}
    (hc : Conn es x y) : Conn es' x y := by
  rw [conn_iff_connR] at hc ⊢
  exact connR_congr h hc

/-- On a connected graph, whatever sorted arrangement `std::sort` leaves, the loop returns
the greedy sum, which is the weight of a spanning tree and at most the weight of every
spanning tree. -/
theorem kruskalSorted_spec {V : Nat} (hV : 1 ≤ V) {edges sorted : List Edge}
    (hperm : sorted.Perm edges) (hsorted : sorted.Sorted weightLe) (hin : EdgesIn V edges)
    (hconn : Connected V edges) :
    kruskalSorted sorted V = some (kruskalFlat id sorted) ∧
      (∃ T, IsSpanningTree edges V T ∧ weightSum T = kruskalFlat id sorted) ∧
      ∀ T, IsSpanningTree edges V T → kruskalFlat id sorted ≤ weightSum T := by
  have hin' : EdgesIn V sorted := fun e he => hin e (hperm.subset he)
  refine ⟨?_, ?_, ?_⟩
  · have := kruskalLoop_refines sorted (DisjointSetUnion.new V) id 0 (dinv_new V) (corr_new V)
      hin'
    rw [zero_add] at this
    exact this
  · obtain ⟨F, hsub, hw, hc, hlen⟩ := kruskalFlat_achieved sorted id (flat_id V) hin'
    have hall : ∀ x y, InV V x → InV V y → ConnR id sorted x y := by
      intro x y hx hy
      rw [← conn_iff_connR]
      exact conn_congr (fun e he => hperm.symm.subset he) (hconn x y hx hy)
    have hone : classes V (flatFinal id sorted) = 1 :=
      classes_one (flat_flatFinal sorted id (flat_id V) hin') hV
        (fun x y hx hy => (flatFinal_eq_iff sorted id x y).2 (hall x y hx hy))
    rw [hone, classes_id] at hlen
    refine ⟨F, ⟨hsub.subperm.trans hperm.subperm, hlen, ?_⟩, hw⟩
    intro x y hx hy
    rw [conn_iff_connR]
    exact hc x y (hall x y hx hy)
  · rintro T ⟨hsub, hlen, hc⟩
    apply kruskalFlat_le hV sorted id T (flat_id V) hin' hsorted
      (hsub.trans hperm.symm.subperm)
    · rw [classes_id]
      exact hlen
    · intro x y hx hy
      rw [← conn_iff_connR]
      exact hc x y hx hy

theorem exampleEdges_in : EdgesIn 4 exampleEdges := by
  intro e he
  simp only [exampleEdges, List.mem_cons, List.mem_singleton, List.not_mem_nil, or_false] at he
  rcases he with h | h | h | h <;> subst h <;> exact ⟨by decide, by decide⟩

theorem exampleEdges_connected : Connected 4 exampleEdges := by
  have e12 : Conn exampleEdges 1 2 :=
    Relation.EqvGen.rel _ _ ⟨⟨1, 2, 4⟩, by simp [exampleEdges], rfl, rfl⟩
  have e23 : Conn exampleEdges 2 3 :=
    Relation.EqvGen.rel _ _ ⟨⟨2, 3, 1⟩, by simp [exampleEdges], rfl, rfl⟩
  have e34 : Conn exampleEdges 3 4 :=
    Relation.EqvGen.rel _ _ ⟨⟨3, 4, 2⟩, by simp [exampleEdges], rfl, rfl⟩
  have h1 : ∀ a, InV 4 a → Conn exampleEdges 1 a := by
    rintro a ⟨ha1, ha2⟩
    interval_cases a
    · exact Relation.EqvGen.refl _
    · exact e12
    · exact Relation.EqvGen.trans _ _ _ e12 e23
    · exact Relation.EqvGen.trans _ _ _ e12 (Relation.EqvGen.trans _ _ _ e23 e34)
  intro a b ha hb
  exact Relation.EqvGen.trans _ _ _ (Relation.EqvGen.symm _ _ (h1 a ha)) (h1 b hb)

end Kruskal

end GraphBook

namespace GraphBook

namespace Kruskal

/-! ## Theorems: prim.hpp -/

/-! ### Exchanging an edge across a cut -/

/-- The edges of `T` with no end in the class of `a`. -/
theorem mem_away {r : Nat → Nat} {T : List Edge} {a : Nat} {e : Edge} :
    e ∈ T.filter (fun e => decide (r e.u ≠ r a) && decide (r e.v ≠ r a)) ↔
      e ∈ T ∧ r e.u ≠ r a ∧ r e.v ≠ r a := by
  simp [List.mem_filter]

/-- Steps that stay away from the class of `a` do not enter or leave it. -/
theorem away_side {r : Nat → Nat} {T : List Edge} {a x y : Nat}
    (h : ConnR r (T.filter (fun e => decide (r e.u ≠ r a) && decide (r e.v ≠ r a))) x y) :
    r x = r a ↔ r y = r a := by
  induction h with
  | rel x y hxy =>
    rcases hxy with hxy | ⟨e, he, hu, hv⟩
    · rw [hxy]
    · obtain ⟨_, h1, h2⟩ := mem_away.1 he
      rw [← hu, ← hv]
      exact ⟨fun h => absurd h h1, fun h => absurd h h2⟩
  | refl x => exact Iff.rfl
  | symm x y _ ih => exact ih.symm
  | trans x y z _ _ ih1 ih2 => exact ih1.trans ih2

/-- If `T` joins `a` to a vertex `b` of another class, one of its edges leaves the class of
`a` and can be exchanged for any other link between `a` and `b`: without that edge, `T`
still joins whatever it joined, once `a` and `b` are put in one class. -/
theorem exchange_edge {r : Nat → Nat} {T : List Edge} {a b : Nat} (hab : r a ≠ r b)
    (hconn : ConnR r T a b) :
    ∃ e ∈ T, ((r e.u = r a ∧ r e.v ≠ r a) ∨ (r e.v = r a ∧ r e.u ≠ r a)) ∧
      ∀ r' : Nat → Nat, (∀ x y, r x = r y → r' x = r' y) → r' a = r' b →
        ∀ x y, ConnR r T x y → ConnR r' (T.erase e) x y := by
  -- `Att y`: `y` hangs on the class of `a` by an edge followed by steps that stay away
  have key : ∀ x y, ConnR r T x y →
      (r x = r a → r y ≠ r a →
        ∃ e ∈ T, ∃ p q, ((e.u = p ∧ e.v = q) ∨ (e.v = p ∧ e.u = q)) ∧ r p = r a ∧
          r q ≠ r a ∧
          ConnR r (T.filter (fun e => decide (r e.u ≠ r a) && decide (r e.v ≠ r a))) q y) ∧
      (r y = r a → r x ≠ r a →
        ∃ e ∈ T, ∃ p q, ((e.u = p ∧ e.v = q) ∨ (e.v = p ∧ e.u = q)) ∧ r p = r a ∧
          r q ≠ r a ∧
          ConnR r (T.filter (fun e => decide (r e.u ≠ r a) && decide (r e.v ≠ r a))) q x) ∧
      (r x ≠ r a → r y ≠ r a →
        ConnR r (T.filter (fun e => decide (r e.u ≠ r a) && decide (r e.v ≠ r a))) x y ∨
        ((∃ e ∈ T, ∃ p q, ((e.u = p ∧ e.v = q) ∨ (e.v = p ∧ e.u = q)) ∧ r p = r a ∧
          r q ≠ r a ∧
          ConnR r (T.filter (fun e => decide (r e.u ≠ r a) && decide (r e.v ≠ r a))) q x) ∧
         (∃ e ∈ T, ∃ p q, ((e.u = p ∧ e.v = q) ∨ (e.v = p ∧ e.u = q)) ∧ r p = r a ∧
          r q ≠ r a ∧
          ConnR r (T.filter (fun e => decide (r e.u ≠ r a) && decide (r e.v ≠ r a))) q y))) := by
    intro x y h
    induction h with
    | rel x y hxy =>
      rcases hxy with hxy | ⟨e, he, hu, hv⟩
      · refine ⟨fun h1 h2 => absurd (hxy ▸ h1) h2, fun h1 h2 => absurd (hxy ▸ h1) h2, ?_⟩
        intro _ _
        exact Or.inl (connR_of_eq hxy)
      · refine ⟨?_, ?_, ?_⟩
        · intro h1 h2
          exact ⟨e, he, x, y, Or.inl ⟨hu, hv⟩, h1, h2, Relation.EqvGen.refl _⟩
        · intro h1 h2
          exact ⟨e, he, y, x, Or.inr ⟨hv, hu⟩, h1, h2, Relation.EqvGen.refl _⟩
        · intro h1 h2
          left
          have : e ∈ T.filter (fun e => decide (r e.u ≠ r a) && decide (r e.v ≠ r a)) :=
            mem_away.2 ⟨he, by rw [hu]; exact h1, by rw [hv]; exact h2⟩
          have hc := connR_of_edge (r := r) this
          rw [hu, hv] at hc
          exact hc
    | refl x =>
      exact ⟨fun h1 h2 => absurd h1 h2, fun h1 h2 => absurd h1 h2,
        fun _ _ => Or.inl (Relation.EqvGen.refl _)⟩
    | symm x y _ ih =>
      obtain ⟨i1, i2, i3⟩ := ih
      refine ⟨i2, i1, ?_⟩
      intro h1 h2
      rcases i3 h2 h1 with h | ⟨h, h'⟩
      · exact Or.inl (Relation.EqvGen.symm _ _ h)
      · exact Or.inr ⟨h', h⟩
    | trans x y z _ _ ih1 ih2 =>
      obtain ⟨i1, i2, i3⟩ := ih1
      obtain ⟨j1, j2, j3⟩ := ih2
      refine ⟨?_, ?_, ?_⟩
      · intro hx hz
        by_cases hy : r y = r a
        · exact j1 hy hz
        · rcases j3 hy hz with h | ⟨_, h⟩
          · obtain ⟨e, he, p, q, ho, hp, hq, hc⟩ := i1 hx hy
            exact ⟨e, he, p, q, ho, hp, hq, Relation.EqvGen.trans _ _ _ hc h⟩
          · exact h
      · intro hz hx
        by_cases hy : r y = r a
        · exact i2 hy hx
        · rcases i3 hx hy with h | ⟨h, _⟩
          · obtain ⟨e, he, p, q, ho, hp, hq, hc⟩ := j2 hz hy
            exact ⟨e, he, p, q, ho, hp, hq,
              Relation.EqvGen.trans _ _ _ hc (Relation.EqvGen.symm _ _ h)⟩
          · exact h
      · intro hx hz
        by_cases hy : r y = r a
        · exact Or.inr ⟨i2 hy hx, j1 hy hz⟩
        · rcases i3 hx hy with h | ⟨h, h'⟩
          · rcases j3 hy hz with g | ⟨g, g'⟩
            · exact Or.inl (Relation.EqvGen.trans _ _ _ h g)
            · obtain ⟨e, he, p, q, ho, hp, hq, hc⟩ := g
              exact Or.inr ⟨⟨e, he, p, q, ho, hp, hq,
                Relation.EqvGen.trans _ _ _ hc (Relation.EqvGen.symm _ _ h)⟩, g'⟩
          · rcases j3 hy hz with g | ⟨_, g'⟩
            · obtain ⟨e, he, p, q, ho, hp, hq, hc⟩ := h'
              exact Or.inr ⟨h, ⟨e, he, p, q, ho, hp, hq, Relation.EqvGen.trans _ _ _ hc g⟩⟩
            · exact Or.inr ⟨h, g'⟩
  obtain ⟨e, he, p, q, ho, hp, hq, hc⟩ := (key a b hconn).1 rfl (fun h => hab h.symm)
  refine ⟨e, he, ?_, ?_⟩
  · rcases ho with ⟨h1, h2⟩ | ⟨h1, h2⟩
    · left
      rw [h1, h2]
      exact ⟨hp, hq⟩
    · right
      rw [h1, h2]
      exact ⟨hp, hq⟩
  · intro r' hr' hab' x y hxy
    have hne : ¬ (r e.u ≠ r a ∧ r e.v ≠ r a) := by
      rcases ho with ⟨h1, _⟩ | ⟨h1, _⟩
      · rw [h1]
        exact fun h => h.1 hp
      · rw [h1]
        exact fun h => h.2 hp
    have hqb : ConnR r' (T.erase e) q b := by
      refine connR_lift (fun x y h => connR_of_eq (hr' x y h)) ?_ hc
      intro e' he'
      obtain ⟨h1, h2, h3⟩ := mem_away.1 he'
      have : e' ≠ e := fun h => hne (h ▸ ⟨h2, h3⟩)
      exact connR_of_edge ((List.mem_erase_of_ne this).2 h1)
    have hpq : ConnR r' (T.erase e) p q :=
      Relation.EqvGen.trans _ _ _ (connR_of_eq ((hr' p a hp).trans hab'))
        (Relation.EqvGen.symm _ _ hqb)
    refine connR_lift (fun x y h => connR_of_eq (hr' x y h)) ?_ hxy
    intro e' he'
    by_cases hee : e' = e
    · rw [hee]
      rcases ho with ⟨h1, h2⟩ | ⟨h1, h2⟩
      · rw [h1, h2]
        exact hpq
      · rw [h1, h2]
        exact Relation.EqvGen.symm _ _ hpq
    · exact connR_of_edge ((List.mem_erase_of_ne hee).2 he')

end Kruskal

namespace Prim

/-! ### The queue and the graph -/

theorem minOf_fst_le (xs : List Edge) :
    ∀ (m : Edge), ∀ x ∈ m :: xs, (Dijkstra.minOf m xs).1 ≤ x.1 := by
  induction xs with
  | nil =>
    intro m x hx
    rw [List.mem_singleton.1 hx]
    exact le_refl _
  | cons y ys ih =>
    intro m x hx
    unfold Dijkstra.minOf
    by_cases hle : Dijkstra.pairLe m y = true
    · rw [if_pos hle]
      have hmy : m.1 ≤ y.1 := by
        simp only [Dijkstra.pairLe, Bool.or_eq_true, Bool.and_eq_true, decide_eq_true_eq] at hle
        omega
      rcases List.mem_cons.1 hx with h | h
      · rw [h]
        exact ih m m (List.mem_cons_self _ _)
      · rcases List.mem_cons.1 h with h | h
        · rw [h]
          exact le_trans (ih m m (List.mem_cons_self _ _)) hmy
        · exact ih m x (List.mem_cons_of_mem _ h)
    · rw [if_neg hle]
      have hym : y.1 ≤ m.1 := by
        simp only [Dijkstra.pairLe, Bool.or_eq_true, Bool.and_eq_true, decide_eq_true_eq] at hle
        omega
      rcases List.mem_cons.1 hx with h | h
      · rw [h]
        exact le_trans (ih y y (List.mem_cons_self _ _)) hym
      · exact ih y x h

theorem top_fst_le {pq : List Edge} {m : Edge} (h : Dijkstra.top pq = some m) :
    ∀ x ∈ pq, m.1 ≤ x.1 := by
  cases pq with
  | nil => simp [Dijkstra.top] at h
  | cons y ys =>
    simp only [Dijkstra.top, Option.some.injEq] at h
    subst h
    exact minOf_fst_le ys y

theorem graphOf_V (V : Nat) (edges : List Kruskal.Edge) : (graphOf V edges).V = V :=
  (weightedGraph.weighted_addEdges_spec _ _).1

/-- The records of `adj[u]` are the edges at `u`, seen from `u`. -/
theorem graphOf_adj (V : Nat) (edges : List Kruskal.Edge) (u : Int) (c : Edge) :
    c ∈ (graphOf V edges).adj u ↔
      ∃ e ∈ edges, e.weight = c.2 ∧
        (((e.u : Int) = u ∧ (e.v : Int) = c.1) ∨ ((e.v : Int) = u ∧ (e.u : Int) = c.1)) := by
  unfold graphOf
  rw [(weightedGraph.weighted_addEdges_spec _ _).2.2 u]
  simp only [weightedGraph.new, List.nil_append, List.mem_flatten, List.mem_map,
    exists_exists_and_eq_and, weightedGraph.inserted, toCall, Bool.not_false, Bool.true_and,
    decide_eq_true_eq, List.mem_append]
  constructor
  · rintro ⟨e, he, h | h⟩
    · by_cases hu : u = (e.u : Int)
      · rw [if_pos hu, List.mem_singleton] at h
        exact ⟨e, he, by rw [h], Or.inl ⟨hu.symm, by rw [h]⟩⟩
      · rw [if_neg hu] at h
        simp at h
    · by_cases hu : u = (e.v : Int)
      · rw [if_pos hu, List.mem_singleton] at h
        exact ⟨e, he, by rw [h], Or.inr ⟨hu.symm, by rw [h]⟩⟩
      · rw [if_neg hu] at h
        simp at h
  · rintro ⟨e, he, hw, ⟨h1, h2⟩ | ⟨h1, h2⟩⟩
    · refine ⟨e, he, Or.inl ?_⟩
      rw [if_pos h1.symm, List.mem_singleton]
      exact Prod.ext h2.symm hw.symm
    · refine ⟨e, he, Or.inr ?_⟩
      rw [if_pos h1.symm, List.mem_singleton]
      exact Prod.ext h2.symm hw.symm

/-! ### The partition behind `visited` -/

theorem flat_rep {V : Nat} (hV : 1 ≤ V) {vis : Int → Bool} (h1 : vis 1 = true) :
    Kruskal.Flat V (rep vis) := by
  constructor
  · intro v
    unfold rep
    by_cases hv : vis v = true
    · rw [if_pos hv]
      simp [h1]
    · rw [if_neg hv, if_neg hv]
  · intro v hv
    unfold rep
    split
    · exact ⟨le_refl _, hV⟩
    · exact hv

theorem rep_of_visited {vis : Int → Bool} {x : Nat} (h : vis x = true) : rep vis x = 1 := by
  unfold rep
  rw [if_pos h]

theorem rep_of_not_visited {vis : Int → Bool} {x : Nat} (h : vis x = false) :
    rep vis x = x := by
  unfold rep
  rw [if_neg (by simp [h])]

theorem rep_eq_one_iff {vis : Int → Bool} (h1 : vis 1 = true) (x : Nat) :
    rep vis x = 1 ↔ vis x = true := by
  constructor
  · intro h
    by_cases hx : vis x = true
    · exact hx
    · rw [rep_of_not_visited (by simpa using hx)] at h
      rw [h]
      exact h1
  · exact rep_of_visited

/-- Visiting `b` from a visited vertex `a` merges the class of `b` into the visited
class. -/
theorem rep_visit {vis : Int → Bool} (h1 : vis 1 = true) {a b : Nat} (ha : vis a = true)
    (hb : vis b = false) :
    rep (setCell vis b true) = Kruskal.merge (rep vis) a b := by
  funext x
  unfold Kruskal.merge
  rw [rep_of_visited ha, rep_of_not_visited hb]
  by_cases hxb : x = b
  · subst hxb
    rw [rep_of_not_visited hb, if_pos rfl]
    exact rep_of_visited (by simp [setCell])
  · have hcell : setCell vis (b : Int) true (x : Int) = vis x := by
      unfold setCell
      rw [if_neg (by exact_mod_cast hxb)]
    by_cases hx : vis x = true
    · rw [rep_of_visited hx, rep_of_visited (by rw [hcell]; exact hx)]
      have : (1 : Nat) ≠ b := by
        intro h
        rw [← h] at hb
        rw [show ((1 : Nat) : Int) = 1 from rfl, h1] at hb
        exact Bool.noConfusion hb
      rw [if_neg this]
    · have hx' : vis x = false := by simpa using hx
      rw [rep_of_not_visited hx', if_neg hxb]
      exact rep_of_not_visited (by rw [hcell]; exact hx')

/-- The body of the edge loop only adds entries to the queue. -/
theorem foldl_push_spec (l : List Edge) :
    ∀ st : State, ((l.foldl push st).sumMST = st.sumMST ∧
      (l.foldl push st).weightCount = st.weightCount ∧
      (l.foldl push st).visited = st.visited) ∧
      (l.foldl push st).pQ.length ≤ st.pQ.length + l.length ∧
      ∀ m, m ∈ (l.foldl push st).pQ ↔
        m ∈ st.pQ ∨ ∃ c ∈ l, st.visited c.1 = false ∧ m = (c.2, c.1) := by
  induction l with
  | nil =>
    intro st
    simp
  | cons c l ih =>
    intro st
    rw [List.foldl_cons]
    obtain ⟨⟨h1, h2, h3⟩, h4, h5⟩ := ih (push st c)
    by_cases hc : st.visited c.1 = true
    · have hp : push st c = st := by
        unfold push
        rw [if_pos hc]
      rw [hp] at h1 h2 h3 h4 h5 ⊢
      refine ⟨⟨h1, h2, h3⟩, by simp only [List.length_cons]; omega, ?_⟩
      intro m
      rw [h5 m]
      constructor
      · rintro (h | ⟨c', hc', h⟩)
        · exact Or.inl h
        · exact Or.inr ⟨c', List.mem_cons_of_mem _ hc', h⟩
      · rintro (h | ⟨c', hc', hv, h⟩)
        · exact Or.inl h
        · rcases List.mem_cons.1 hc' with e | e
          · rw [e, hc] at hv
            exact Bool.noConfusion hv
          · exact Or.inr ⟨c', e, hv, h⟩
    · have hp : push st c = { st with pQ := (c.2, c.1) :: st.pQ } := by
        unfold push
        rw [if_neg hc]
      rw [hp] at h1 h2 h3 h4 h5 ⊢
      refine ⟨⟨h1, h2, h3⟩, by simp only [List.length_cons] at h4 ⊢; omega, ?_⟩
      intro m
      rw [h5 m]
      simp only [List.mem_cons]
      constructor
      · rintro ((h | h) | ⟨c', hc', h⟩)
        · exact Or.inr ⟨c, Or.inl rfl, by simpa using hc, h⟩
        · exact Or.inl h
        · exact Or.inr ⟨c', Or.inr hc', h⟩
      · rintro (h | ⟨c', hc' | hc', hv, h⟩)
        · exact Or.inl (Or.inr h)
        · rw [hc'] at h
          exact Or.inl (Or.inl h)
        · exact Or.inr ⟨c', hc', hv, h⟩

/-! ### Visiting a vertex -/

theorem unvisited_sum_visit (g : weightedGraph) {V : Nat} (vis : Int → Bool) {b : Nat}
    (hb : Kruskal.InV V b) (hvb : vis b = false) :
    ((Finset.Icc 1 V).sum fun x : Nat =>
        if setCell vis b true x then 0 else (g.adj x).length + 1) +
      ((g.adj b).length + 1) =
    (Finset.Icc 1 V).sum fun x : Nat => if vis x then 0 else (g.adj x).length + 1 := by
  have hmem : b ∈ Finset.Icc 1 V := Finset.mem_Icc.2 hb
  rw [← Finset.add_sum_erase _ _ hmem, ← Finset.add_sum_erase (Finset.Icc 1 V) _ hmem]
  have h1 : setCell vis (b : Int) true (b : Int) = true := by simp [setCell]
  rw [if_pos h1, if_neg (by simp [hvb]), zero_add, add_comm]
  congr 1
  refine Finset.sum_congr rfl (fun x hx => ?_)
  have hxb : x ≠ b := (Finset.mem_erase.1 hx).1
  have : setCell vis (b : Int) true (x : Int) = vis x := by
    unfold setCell
    rw [if_neg (by exact_mod_cast hxb)]
  rw [this]

theorem rep_mono {vis : Int → Bool} (h1 : vis 1 = true) (b : Nat) {x y : Nat}
    (h : rep vis x = rep vis y) : rep (setCell vis b true) x = rep (setCell vis b true) y := by
  have hcell : ∀ z : Nat, vis z = true → setCell vis (b : Int) true (z : Int) = true := by
    intro z hz
    unfold setCell
    split
    · rfl
    · exact hz
  by_cases hx : vis x = true <;> by_cases hy : vis y = true
  · rw [rep_of_visited (hcell x hx), rep_of_visited (hcell y hy)]
  · rw [rep_of_visited hx, rep_of_not_visited (by simpa using hy)] at h
    rw [← h] at hy
    exact absurd h1 hy
  · rw [rep_of_visited hy, rep_of_not_visited (by simpa using hx)] at h
    rw [h] at hx
    exact absurd h1 hx
  · rw [rep_of_not_visited (by simpa using hx), rep_of_not_visited (by simpa using hy)] at h
    rw [h]

/-- Visiting `b` through a lightest edge `e` that leaves the visited part keeps the
properties of the sum, the counter and `visited`. -/
theorem core_visit {edges : List Kruskal.Edge} {V : Nat} {F : List Kruskal.Edge}
    {st : State} (hV : 1 ≤ V) (hin : Kruskal.EdgesIn V edges) (hc : PCore edges V F st)
    {e : Kruskal.Edge} (he : e ∈ edges) {a b : Nat}
    (hends : (e.u = a ∧ e.v = b) ∨ (e.v = a ∧ e.u = b))
    (ha : st.visited a = true) (hb : st.visited b = false)
    (hmin : ∀ e' ∈ edges,
      (st.visited e'.u = true ∧ st.visited e'.v = false) ∨
        (st.visited e'.v = true ∧ st.visited e'.u = false) → e.weight ≤ e'.weight)
    (pQ : List Edge) :
    PCore edges V (e :: F)
      { sumMST := st.sumMST + e.weight, weightCount := st.weightCount + 1,
        visited := setCell st.visited b true, pQ := pQ } := by
  have hbV : Kruskal.InV V b := by
    rcases hends with ⟨_, h⟩ | ⟨_, h⟩
    · exact h ▸ (hin e he).2
    · exact h ▸ (hin e he).1
  have haV : Kruskal.InV V a := hc.vis_in a ha
  have hflat := flat_rep hV hc.vis_one
  have hrab : rep st.visited a ≠ rep st.visited b := by
    rw [rep_of_visited ha, rep_of_not_visited hb]
    intro h
    rw [← h] at hb
    rw [show ((1 : Nat) : Int) = 1 from rfl, hc.vis_one] at hb
    exact Bool.noConfusion hb
  have hcl := Kruskal.classes_merge hflat hbV hrab
  rw [← rep_visit hc.vis_one ha hb] at hcl
  have hkeep : ∀ z : Nat, st.visited z = true →
      setCell st.visited (b : Int) true (z : Int) = true := by
    intro z hz
    unfold setCell
    split
    · rfl
    · exact hz
  have hnew : setCell st.visited (b : Int) true (b : Int) = true := by simp [setCell]
  constructor
  · intro x hx
    by_cases hxb : x = b
    · rw [hxb]
      exact hbV
    · apply hc.vis_in
      simp only [setCell] at hx
      rw [if_neg (by exact_mod_cast hxb)] at hx
      exact hx
  · show setCell st.visited (b : Int) true 1 = true
    exact hkeep 1 hc.vis_one
  · show st.weightCount + 1 + (Kruskal.classes V (rep (setCell st.visited b true)) : Int) =
      V + 1
    have := hc.count
    omega
  · show st.sumMST + e.weight = Kruskal.weightSum (e :: F)
    rw [Kruskal.weightSum_cons, hc.sum]
    ring
  · refine List.nodup_cons.2 ⟨?_, hc.nodup⟩
    intro heF
    obtain ⟨h1, h2⟩ := hc.ends e heF
    rcases hends with ⟨_, h⟩ | ⟨_, h⟩
    · rw [h, hb] at h2
      exact Bool.noConfusion h2
    · rw [h, hb] at h1
      exact Bool.noConfusion h1
  · intro f hf
    rcases List.mem_cons.1 hf with h | h
    · rw [h]
      exact he
    · exact hc.sub f h
  · intro f hf
    rcases List.mem_cons.1 hf with h | h
    · rw [h]
      rcases hends with ⟨h1, h2⟩ | ⟨h1, h2⟩
      · rw [h1, h2]
        exact ⟨hkeep a ha, hnew⟩
      · rw [h1, h2]
        exact ⟨hnew, hkeep a ha⟩
    · exact ⟨hkeep _ (hc.ends f h).1, hkeep _ (hc.ends f h).2⟩
  · show ((e :: F).length : Int) + 1 = st.weightCount + 1
    have := hc.len
    simp only [List.length_cons, Nat.cast_add, Nat.cast_one]
    omega
  · intro x hx
    have hab : Kruskal.Conn (e :: F) a b := by
      rcases hends with ⟨h1, h2⟩ | ⟨h1, h2⟩
      · exact Relation.EqvGen.rel _ _ ⟨e, List.mem_cons_self _ _, h1, h2⟩
      · exact Relation.EqvGen.symm _ _
          (Relation.EqvGen.rel _ _ ⟨e, List.mem_cons_self _ _, h2, h1⟩)
    by_cases hxb : x = b
    · rw [hxb]
      exact Relation.EqvGen.trans _ _ _
        (Kruskal.conn_congr (fun f hf => List.mem_cons_of_mem _ hf) (hc.conn a ha)) hab
    · apply Kruskal.conn_congr (fun f hf => List.mem_cons_of_mem _ hf)
      apply hc.conn
      simp only [setCell] at hx
      rw [if_neg (by exact_mod_cast hxb)] at hx
      exact hx
  · intro T hT
    obtain ⟨T', hsub, hlen, hconn, hle⟩ := hc.lower T hT
    obtain ⟨e', he', hcross, hex⟩ := Kruskal.exchange_edge hrab (hconn a b haV hbV)
    have hw : e.weight ≤ e'.weight := by
      apply hmin e' (hsub.subset he')
      rw [rep_of_visited ha] at hcross
      rcases hcross with ⟨h1, h2⟩ | ⟨h1, h2⟩
      · left
        refine ⟨(rep_eq_one_iff hc.vis_one _).1 h1, ?_⟩
        by_contra h
        exact h2 (rep_of_visited (by simpa using h))
      · right
        refine ⟨(rep_eq_one_iff hc.vis_one _).1 h1, ?_⟩
        by_contra h
        exact h2 (rep_of_visited (by simpa using h))
    have hperm := List.perm_cons_erase he'
    have hlen' := hperm.length_eq
    simp only [List.length_cons] at hlen'
    refine ⟨T'.erase e', (List.erase_subperm _ _).trans hsub, ?_, ?_, ?_⟩
    · show (T'.erase e').length + 1 = Kruskal.classes V (rep (setCell st.visited b true))
      omega
    · intro x y hx hy
      apply hex (rep (setCell st.visited b true)) (fun x y h => rep_mono hc.vis_one b h)
      · rw [rep_of_visited (hkeep a ha), rep_of_visited hnew]
      · exact hconn x y hx hy
    · show st.sumMST + e.weight + Kruskal.weightSum (T'.erase e') ≤ Kruskal.weightSum T
      have := Kruskal.weightSum_perm hperm
      rw [Kruskal.weightSum_cons] at this
      omega

/-! ### The queue -/

theorem queue_erase {edges : List Kruskal.Edge} {V : Nat} (hin : Kruskal.EdgesIn V edges)
    {vis : Int → Bool} {pQ : List Edge} (h : PQueue edges vis 0 pQ) (E : Edge) :
    PQueue edges vis E.2 (pQ.erase E) := by
  constructor
  · intro m hm
    exact h.sound m (List.mem_of_mem_erase hm)
  · intro e he
    have h0 : ((e.u : Int) ≠ 0) ∧ ((e.v : Int) ≠ 0) := by
      obtain ⟨h1, h2⟩ := hin e he
      have := h1.1
      have := h2.1
      omega
    constructor
    · intro h1 h2 h3
      refine (List.mem_erase_of_ne ?_).2 ((h.complete e he).1 h1 h2 h0.2)
      intro hE
      rw [← hE] at h3
      exact h3 rfl
    · intro h1 h2 h3
      refine (List.mem_erase_of_ne ?_).2 ((h.complete e he).2 h1 h2 h0.1)
      intro hE
      rw [← hE] at h3
      exact h3 rfl

theorem queue_stale {edges : List Kruskal.Edge} {vis : Int → Bool} {pQ : List Edge}
    (h : PQueue edges vis 0 pQ) {E : Edge} (hE : vis E.2 = true) :
    PQueue edges vis 0 (pQ.erase E) := by
  constructor
  · intro m hm
    exact h.sound m (List.mem_of_mem_erase hm)
  · intro e he
    constructor
    · intro h1 h2 h3
      refine (List.mem_erase_of_ne ?_).2 ((h.complete e he).1 h1 h2 h3)
      intro hEq
      rw [← hEq] at hE
      rw [show ((e.weight, (e.v : Int)) : Edge).2 = (e.v : Int) from rfl, h2] at hE
      exact Bool.noConfusion hE
    · intro h1 h2 h3
      refine (List.mem_erase_of_ne ?_).2 ((h.complete e he).2 h1 h2 h3)
      intro hEq
      rw [← hEq] at hE
      rw [show ((e.weight, (e.u : Int)) : Edge).2 = (e.u : Int) from rfl, h2] at hE
      exact Bool.noConfusion hE

/-- After `visited[b] = true` the edge loop over `adj[b]` enters the edges that leave the
visited part at `b`. -/
theorem queue_push {edges : List Kruskal.Edge} {V : Nat} {vis : Int → Bool} {b : Nat}
    {pQ : List Edge} (h : PQueue edges vis b pQ) (st : State)
    (hvis : st.visited = setCell vis b true) (hpQ : st.pQ = pQ) :
    PQueue edges (setCell vis b true) 0
      (((graphOf V edges).adj b).foldl push st).pQ := by
  obtain ⟨_, _, hmem⟩ := foldl_push_spec ((graphOf V edges).adj b) st
  have hkeep : ∀ z : Int, vis z = true → setCell vis (b : Int) true z = true := by
    intro z hz
    unfold setCell
    split
    · rfl
    · exact hz
  have hnew : setCell vis (b : Int) true (b : Int) = true := by simp [setCell]
  have hold : ∀ z : Int, setCell vis (b : Int) true z = false → vis z = false ∧ z ≠ b := by
    intro z hz
    unfold setCell at hz
    by_cases hzb : z = (b : Int)
    · rw [if_pos hzb] at hz
      exact Bool.noConfusion hz
    · rw [if_neg hzb] at hz
      exact ⟨hz, hzb⟩
  constructor
  · intro m hm
    rcases (hmem m).1 hm with h1 | ⟨c, hc, _, hmc⟩
    · rw [hpQ] at h1
      obtain ⟨e, he, hw, ho⟩ := h.sound m h1
      refine ⟨e, he, hw, ?_⟩
      rcases ho with ⟨h2, h3⟩ | ⟨h2, h3⟩
      · exact Or.inl ⟨h2, hkeep _ h3⟩
      · exact Or.inr ⟨h2, hkeep _ h3⟩
    · obtain ⟨e, he, hw, ho⟩ := (graphOf_adj V edges b c).1 hc
      refine ⟨e, he, by rw [hmc]; exact hw, ?_⟩
      rw [hmc]
      rcases ho with ⟨h2, h3⟩ | ⟨h2, h3⟩
      · exact Or.inl ⟨h3, by rw [h2]; exact hnew⟩
      · exact Or.inr ⟨h3, by rw [h2]; exact hnew⟩
  · intro e he
    constructor
    · intro h1 h2 _
      obtain ⟨h2', h2b⟩ := hold _ h2
      rw [hmem]
      by_cases heb : (e.u : Int) = b
      · right
        refine ⟨((e.v : Int), e.weight), ?_, by rw [hvis]; exact h2, rfl⟩
        exact (graphOf_adj V edges b _).2 ⟨e, he, rfl, Or.inl ⟨heb, rfl⟩⟩
      · left
        rw [hpQ]
        have h1' : vis e.u = true := by
          unfold setCell at h1
          rw [if_neg heb] at h1
          exact h1
        exact (h.complete e he).1 h1' h2' h2b
    · intro h1 h2 _
      obtain ⟨h2', h2b⟩ := hold _ h2
      rw [hmem]
      by_cases heb : (e.v : Int) = b
      · right
        refine ⟨((e.u : Int), e.weight), ?_, by rw [hvis]; exact h2, rfl⟩
        exact (graphOf_adj V edges b _).2 ⟨e, he, rfl, Or.inr ⟨heb, rfl⟩⟩
      · left
        rw [hpQ]
        have h1' : vis e.v = true := by
          unfold setCell at h1
          rw [if_neg heb] at h1
          exact h1
        exact (h.complete e he).2 h1' h2' h2b

/-- The edges of a connected graph leave every part that is not everything. -/
theorem crossing_exists {edges : List Kruskal.Edge} {V : Nat}
    (hconn : Kruskal.Connected V edges) {vis : Int → Bool} (h1 : vis 1 = true) (hV : 1 ≤ V)
    {x : Nat} (hx : Kruskal.InV V x) (hvx : vis x = false) :
    ∃ e ∈ edges, (vis e.u = true ∧ vis e.v = false) ∨ (vis e.v = true ∧ vis e.u = false) := by
  by_contra hno
  have hside : ∀ a b : Nat, Kruskal.Conn edges a b → (vis a = vis b) := by
    intro a b hab
    induction hab with
    | rel a b hab =>
      obtain ⟨e, he, hu, hv⟩ := hab
      rw [← hu, ← hv]
      by_contra hne
      apply hno
      refine ⟨e, he, ?_⟩
      cases h : vis e.u <;> cases h' : vis e.v <;> simp_all
    | refl a => rfl
    | symm a b _ ih => exact ih.symm
    | trans a b c _ _ ih1 ih2 => exact ih1.trans ih2
  have := hside 1 x (hconn 1 x ⟨le_refl _, hV⟩ hx)
  rw [show ((1 : Nat) : Int) = 1 from rfl, h1, hvx] at this
  exact Bool.noConfusion this

theorem all_visited {edges : List Kruskal.Edge} {V : Nat} {F : List Kruskal.Edge}
    {st : State} (hV : 1 ≤ V) (hc : PCore edges V F st) (hcount : st.weightCount = V) :
    ∀ x : Nat, Kruskal.InV V x → st.visited x = true := by
  intro x hx
  have hflat := flat_rep hV hc.vis_one
  have hone : Kruskal.classes V (rep st.visited) = 1 := by
    have := hc.count
    omega
  unfold Kruskal.classes at hone
  have hsub := Finset.card_le_one.1 (le_of_eq hone) (rep st.visited x)
    (by simp only [Finset.mem_filter, Finset.mem_Icc]; exact ⟨hflat.mem x hx, hflat.idem x⟩)
    (rep st.visited 1)
    (by
      simp only [Finset.mem_filter, Finset.mem_Icc]
      exact ⟨hflat.mem 1 ⟨le_refl _, hV⟩, hflat.idem 1⟩)
  apply (rep_eq_one_iff hc.vis_one x).1
  rw [hsub]
  exact rep_of_visited hc.vis_one

theorem unvisited_exists {edges : List Kruskal.Edge} {V : Nat} {F : List Kruskal.Edge}
    {st : State} (hV : 1 ≤ V) (hc : PCore edges V F st) (hcount : st.weightCount ≠ V) :
    ∃ x : Nat, Kruskal.InV V x ∧ st.visited x = false := by
  by_contra hno
  have hall : ∀ x : Nat, Kruskal.InV V x → st.visited x = true := by
    intro x hx
    by_contra h
    exact hno ⟨x, hx, by simpa using h⟩
  have hone := Kruskal.classes_one (flat_rep hV hc.vis_one) hV
    (fun x y hx hy => by rw [rep_of_visited (hall x hx), rep_of_visited (hall y hy)])
  have := hc.count
  rw [hone] at this
  apply hcount
  push_cast at this
  omega

/-- When the counter reaches `V` the sum is the weight of a minimum spanning tree. -/
theorem core_final {edges : List Kruskal.Edge} {V : Nat} {F : List Kruskal.Edge}
    {st : State} (hV : 1 ≤ V) (hc : PCore edges V F st) (hcount : st.weightCount = V) :
    IsMinWeight edges V st.sumMST := by
  have hall := all_visited hV hc hcount
  constructor
  · refine ⟨F, ⟨List.subperm_of_subset hc.nodup hc.sub, ?_, ?_⟩, hc.sum.symm⟩
    · have := hc.len
      omega
    · intro a b ha hb
      exact Relation.EqvGen.trans _ _ _
        (Relation.EqvGen.symm _ _ (hc.conn a (hall a ha))) (hc.conn b (hall b hb))
  · intro T hT
    obtain ⟨T', _, hlen, _, hle⟩ := hc.lower T hT
    have hone : Kruskal.classes V (rep st.visited) = 1 := by
      have := hc.count
      omega
    have hnil : T' = [] := List.length_eq_zero.1 (by omega)
    rw [hnil] at hle
    simpa [Kruskal.weightSum] using hle

/-! ### The loop -/

theorem core_congr {edges : List Kruskal.Edge} {V : Nat} {F : List Kruskal.Edge}
    {st st' : State} (hc : PCore edges V F st) (h1 : st'.sumMST = st.sumMST)
    (h2 : st'.weightCount = st.weightCount) (h3 : st'.visited = st.visited) :
    PCore edges V F st' := by
  obtain ⟨a1, a2, a3, a4, a5, a6, a7, a8, a9, a10⟩ := hc
  constructor
  · rw [h3]; exact a1
  · rw [h3]; exact a2
  · rw [h2, h3]; exact a3
  · rw [h1]; exact a4
  · exact a5
  · exact a6
  · rw [h3]; exact a7
  · rw [h2]; exact a8
  · rw [h3]; exact a9
  · rw [h1, h3]; exact a10

/-- On a connected graph the loop returns, whatever the queue holds beyond the edges that
leave the visited part, and the sum it has then is the weight of a minimum spanning
tree. -/
theorem prim_loop_spec {edges : List Kruskal.Edge} {V : Nat} (hV : 1 ≤ V)
    (hin : Kruskal.EdgesIn V edges) (hconn : Kruskal.Connected V edges) :
    ∀ (n : Nat) (st : State) (F : List Kruskal.Edge),
      potential (graphOf V edges) V st < n → PCore edges V F st →
      PQueue edges st.visited 0 st.pQ → st.weightCount ≠ V →
      ∃ st', loop (graphOf V edges) n st = some st' ∧ IsMinWeight edges V st'.sumMST := by
  intro n
  induction n with
  | zero => intro st F h; omega
  | succ n ih =>
    intro st F hpot hc hq hcount
    have hzero : ∀ e ∈ edges, ((e.u : Int) ≠ 0) ∧ ((e.v : Int) ≠ 0) := by
      intro e he
      obtain ⟨h1, h2⟩ := hin e he
      have := h1.1
      have := h2.1
      omega
    obtain ⟨x, hx, hvx⟩ := unvisited_exists hV hc hcount
    obtain ⟨e0, he0, hcross⟩ := crossing_exists hconn hc.vis_one hV hx hvx
    have hne : st.pQ ≠ [] := by
      intro hnil
      rcases hcross with ⟨h1, h2⟩ | ⟨h1, h2⟩
      · have := (hq.complete e0 he0).1 h1 h2 (hzero e0 he0).2
        rw [hnil] at this
        simp at this
      · have := (hq.complete e0 he0).2 h1 h2 (hzero e0 he0).1
        rw [hnil] at this
        simp at this
    cases htop : Dijkstra.top st.pQ with
    | none => exact absurd (Dijkstra.top_eq_none htop) hne
    | some E =>
      have hmem := Dijkstra.top_mem htop
      have hlenE : (st.pQ.erase E).length + 1 = st.pQ.length := by
        rw [List.length_erase_of_mem hmem]
        have := List.length_pos_of_mem hmem
        omega
      by_cases hst : st.visited E.2 = true
      · have hc1 : PCore edges V F { st with pQ := st.pQ.erase E } :=
          core_congr hc rfl rfl rfl
        obtain ⟨st', hr, hfin⟩ := ih { st with pQ := st.pQ.erase E } F
          (by
            unfold potential at hpot ⊢
            simp only
            omega)
          hc1 (queue_stale hq hst) hcount
        refine ⟨st', ?_, hfin⟩
        simp only [loop, htop]
        rw [if_pos hst]
        exact hr
      · obtain ⟨e, he, hw, ho⟩ := hq.sound E hmem
        have hab : ∃ a b : Nat, ((e.u = a ∧ e.v = b) ∨ (e.v = a ∧ e.u = b)) ∧
            st.visited a = true ∧ (b : Int) = E.2 := by
          rcases ho with ⟨h1, h2⟩ | ⟨h1, h2⟩
          · exact ⟨e.u, e.v, Or.inl ⟨rfl, rfl⟩, h2, h1⟩
          · exact ⟨e.v, e.u, Or.inr ⟨rfl, rfl⟩, h2, h1⟩
        obtain ⟨a, b, hends, ha, hbE⟩ := hab
        have hE : E = (e.weight, (b : Int)) := Prod.ext hw.symm hbE.symm
        subst hE
        have hb : st.visited b = false := by simpa using hst
        have hbV : Kruskal.InV V b := by
          rcases hends with ⟨_, h⟩ | ⟨_, h⟩
          · exact h ▸ (hin e he).2
          · exact h ▸ (hin e he).1
        have hmin : ∀ e' ∈ edges,
            (st.visited e'.u = true ∧ st.visited e'.v = false) ∨
              (st.visited e'.v = true ∧ st.visited e'.u = false) →
            e.weight ≤ e'.weight := by
          intro e' he' hc'
          rcases hc' with ⟨h1, h2⟩ | ⟨h1, h2⟩
          · exact top_fst_le htop _ ((hq.complete e' he').1 h1 h2 (hzero e' he').2)
          · exact top_fst_le htop _ ((hq.complete e' he').2 h1 h2 (hzero e' he').1)
        have hc2 := core_visit hV hin hc he hends ha hb hmin (st.pQ.erase (e.weight, (b : Int)))
        by_cases hfin : st.weightCount + 1 = V
        · refine ⟨_, ?_, core_final hV hc2 hfin⟩
          simp only [loop, htop]
          rw [if_neg hst, graphOf_V, if_pos hfin]
        · obtain ⟨⟨h1, h2, h3⟩, h4, _⟩ := foldl_push_spec ((graphOf V edges).adj b)
            { sumMST := st.sumMST + e.weight, weightCount := st.weightCount + 1,
              visited := setCell st.visited b true,
              pQ := st.pQ.erase (e.weight, (b : Int)) }
          have hq3 := queue_push (V := V) (queue_erase hin hq (e.weight, (b : Int)))
            { sumMST := st.sumMST + e.weight, weightCount := st.weightCount + 1,
              visited := setCell st.visited b true,
              pQ := st.pQ.erase (e.weight, (b : Int)) } rfl rfl
          have h2' : (((graphOf V edges).adj b).foldl push
              { sumMST := st.sumMST + e.weight, weightCount := st.weightCount + 1,
                visited := setCell st.visited b true,
                pQ := st.pQ.erase (e.weight, (b : Int)) }).weightCount =
              st.weightCount + 1 := h2
          have h3' : (((graphOf V edges).adj b).foldl push
              { sumMST := st.sumMST + e.weight, weightCount := st.weightCount + 1,
                visited := setCell st.visited b true,
                pQ := st.pQ.erase (e.weight, (b : Int)) }).visited =
              setCell st.visited b true := h3
          have h4' : (((graphOf V edges).adj b).foldl push
              { sumMST := st.sumMST + e.weight, weightCount := st.weightCount + 1,
                visited := setCell st.visited b true,
                pQ := st.pQ.erase (e.weight, (b : Int)) }).pQ.length ≤
              (st.pQ.erase (e.weight, (b : Int))).length +
                ((graphOf V edges).adj b).length := h4
          have hq3' : PQueue edges (((graphOf V edges).adj b).foldl push
              { sumMST := st.sumMST + e.weight, weightCount := st.weightCount + 1,
                visited := setCell st.visited b true,
                pQ := st.pQ.erase (e.weight, (b : Int)) }).visited 0
              (((graphOf V edges).adj b).foldl push
              { sumMST := st.sumMST + e.weight, weightCount := st.weightCount + 1,
                visited := setCell st.visited b true,
                pQ := st.pQ.erase (e.weight, (b : Int)) }).pQ := by
            rw [h3']
            exact hq3
          obtain ⟨st', hr, hres⟩ := ih _ (e :: F)
            (by
              have hsum := unvisited_sum_visit (graphOf V edges) st.visited hbV hb
              unfold potential at hpot ⊢
              rw [h3']
              omega)
            (core_congr hc2 h1 h2 h3) hq3' (by rw [h2']; exact hfin)
          refine ⟨st', ?_, hres⟩
          simp only [loop, htop]
          rw [if_neg hst, graphOf_V, if_neg hfin]
          exact hr

theorem prim_loop_mono (g : weightedGraph) :
    ∀ (n : Nat) (st r : State), loop g n st = some r → loop g (n + 1) st = some r := by
  intro n
  induction n with
  | zero => intro st r h; simp [loop] at h
  | succ n ih =>
    intro st r h
    rw [loop] at h ⊢
    cases htop : Dijkstra.top st.pQ with
    | none => simpa [htop] using h
    | some E =>
      simp only [htop] at h ⊢
      by_cases hst : st.visited E.2 = true
      · rw [if_pos hst] at h ⊢
        exact ih _ _ h
      · rw [if_neg hst] at h ⊢
        by_cases hfin : st.weightCount + 1 = g.V
        · rw [if_pos hfin] at h ⊢
          exact h
        · rw [if_neg hfin] at h ⊢
          exact ih _ _ h

theorem prim_loop_mono_add (g : weightedGraph) (n k : Nat) (st r : State)
    (h : loop g n st = some r) : loop g (n + k) st = some r := by
  induction k with
  | zero => exact h
  | succ k ih => exact prim_loop_mono g (n + k) st r ih

/-- The value that `PrimMST` returns does not depend on the fuel. -/
theorem primMST_unique (g : weightedGraph) {n m : Nat} {w w' : Int}
    (h : PrimMST g n = some w) (h' : PrimMST g m = some w') : w = w' := by
  unfold PrimMST at h h'
  cases hn : loop g n initState with
  | none => rw [hn] at h; simp at h
  | some r =>
    cases hm : loop g m initState with
    | none => rw [hm] at h'; simp at h'
    | some r' =>
      have h1 := prim_loop_mono_add g n m _ _ hn
      have h2 := prim_loop_mono_add g m n _ _ hm
      rw [Nat.add_comm] at h2
      rw [h1] at h2
      have hrr : r = r' := Option.some.inj h2
      rw [hn] at h
      rw [hm] at h'
      simp only [Option.map_some', Option.some.injEq] at h h'
      rw [← h, ← h', hrr]

/-! ### The minimum spanning tree -/

/-- The first turn of the loop pops `(0, 1)` and visits vertex 1. -/
theorem prim_first (g : weightedGraph) (n : Nat) :
    loop g (n + 1) initState =
      if (1 : Int) = g.V then
        some { sumMST := 0, weightCount := 1,
               visited := setCell (fun _ => false) 1 true, pQ := [] }
      else
        loop g n ((g.adj 1).foldl push
          { sumMST := 0, weightCount := 1,
            visited := setCell (fun _ => false) 1 true, pQ := [] }) := by
  simp [loop, initState, Dijkstra.top, Dijkstra.minOf]

theorem core_first {edges : List Kruskal.Edge} {V : Nat} (hV : 1 ≤ V) (pQ : List Edge) :
    PCore edges V []
      { sumMST := 0, weightCount := 1, visited := setCell (fun _ => false) 1 true,
        pQ := pQ } := by
  have hvis : ∀ x : Nat, setCell (fun _ => false) (1 : Int) true (x : Int) = true ↔ x = 1 := by
    intro x
    unfold setCell
    constructor
    · intro h
      by_contra hx
      rw [if_neg (by exact_mod_cast hx)] at h
      exact Bool.noConfusion h
    · intro h
      rw [h]
      rfl
  have hrep : rep (setCell (fun _ => false) (1 : Int) true) = id := by
    funext x
    unfold rep
    by_cases hx : x = 1
    · rw [if_pos ((hvis x).2 hx), hx]
      rfl
    · rw [if_neg (fun h => hx ((hvis x).1 h))]
      rfl
  constructor
  · intro x hx
    rw [(hvis x).1 hx]
    exact ⟨le_refl _, hV⟩
  · rfl
  · show (1 : Int) + (Kruskal.classes V (rep (setCell (fun _ => false) (1 : Int) true)) : Int) =
      V + 1
    rw [hrep, Kruskal.classes_id]
    ring
  · rfl
  · exact List.nodup_nil
  · intro f hf
    simp at hf
  · intro f hf
    simp at hf
  · rfl
  · intro x hx
    rw [(hvis x).1 hx]
    exact Relation.EqvGen.refl _
  · rintro T ⟨hsub, hlen, hconn⟩
    refine ⟨T, hsub, ?_, ?_, ?_⟩
    · show T.length + 1 = Kruskal.classes V (rep (setCell (fun _ => false) (1 : Int) true))
      rw [hrep, Kruskal.classes_id]
      exact hlen
    · intro x y hx hy
      show Kruskal.ConnR (rep (setCell (fun _ => false) (1 : Int) true)) T x y
      rw [hrep, ← Kruskal.conn_iff_connR]
      exact hconn x y hx hy
    · show (0 : Int) + Kruskal.weightSum T ≤ Kruskal.weightSum T
      omega

/-- On a connected graph `PrimMST` returns the weight of a minimum spanning tree. -/
theorem primMST_spec {edges : List Kruskal.Edge} {V : Nat} (hV : 1 ≤ V)
    (hin : Kruskal.EdgesIn V edges) (hconn : Kruskal.Connected V edges) :
    ∃ fuel w, PrimMST (graphOf V edges) fuel = some w ∧ IsMinWeight edges V w := by
  by_cases h1 : (1 : Int) = V
  · refine ⟨1, 0, ?_, ?_⟩
    · unfold PrimMST
      rw [prim_first, graphOf_V, if_pos h1]
      rfl
    · exact core_final hV (core_first hV []) h1
  · have hq0 : PQueue edges (fun _ => false) ((1 : Nat) : Int) [] := by
      constructor
      · intro m hm
        simp at hm
      · intro e _
        exact ⟨fun h => Bool.noConfusion h, fun h => Bool.noConfusion h⟩
    have hq := queue_push (V := V) hq0
      { sumMST := 0, weightCount := 1, visited := setCell (fun _ => false) 1 true, pQ := [] }
      rfl rfl
    obtain ⟨⟨h1', h2, h3⟩, _, _⟩ := foldl_push_spec ((graphOf V edges).adj ((1 : Nat) : Int))
      { sumMST := 0, weightCount := 1, visited := setCell (fun _ => false) 1 true, pQ := [] }
    have h2' : (((graphOf V edges).adj ((1 : Nat) : Int)).foldl push
        { sumMST := 0, weightCount := 1, visited := setCell (fun _ => false) 1 true,
          pQ := [] }).weightCount = 1 := h2
    have h3' : (((graphOf V edges).adj ((1 : Nat) : Int)).foldl push
        { sumMST := 0, weightCount := 1, visited := setCell (fun _ => false) 1 true,
          pQ := [] }).visited = setCell (fun _ => false) ((1 : Nat) : Int) true := h3
    have hq' : PQueue edges (((graphOf V edges).adj ((1 : Nat) : Int)).foldl push
        { sumMST := 0, weightCount := 1, visited := setCell (fun _ => false) 1 true,
          pQ := [] }).visited 0
        (((graphOf V edges).adj ((1 : Nat) : Int)).foldl push
        { sumMST := 0, weightCount := 1, visited := setCell (fun _ => false) 1 true,
          pQ := [] }).pQ := by
      rw [h3']
      exact hq
    obtain ⟨n, hn⟩ : ∃ n, potential (graphOf V edges) V
        (((graphOf V edges).adj ((1 : Nat) : Int)).foldl push
        { sumMST := 0, weightCount := 1, visited := setCell (fun _ => false) 1 true,
          pQ := [] }) < n := ⟨_, Nat.lt_succ_self _⟩
    obtain ⟨st', hr, hres⟩ := prim_loop_spec hV hin hconn n _ [] hn
      (core_congr (core_first hV []) h1' h2 h3) hq' (by rw [h2']; exact h1)
    refine ⟨n + 1, st'.sumMST, ?_, hres⟩
    unfold PrimMST
    rw [prim_first, graphOf_V, if_neg h1]
    show Option.map _ (loop (graphOf V edges) _
      (((graphOf V edges).adj ((1 : Nat) : Int)).foldl push _)) = _
    rw [hr]
    rfl

theorem isMinWeight_unique {edges : List Kruskal.Edge} {V : Nat} {w w' : Int}
    (h : IsMinWeight edges V w) (h' : IsMinWeight edges V w') : w = w' := by
  obtain ⟨⟨T, hT, hw⟩, hmin⟩ := h
  obtain ⟨⟨T', hT', hw'⟩, hmin'⟩ := h'
  have := hmin T' hT'
  have := hmin' T hT
  omega

/-- C11: for every `V ≥ 1` and every list of edges with endpoints in `1..V` that forms a
connected graph, `PrimMST()` on the undirected `weightedGraph` built from the list through
`addEgde` returns (with enough fuel, and the same value for every fuel with which it
returns) the minimum, over all spanning trees of the graph, of the sum of the tree's edge
weights: its value is the weight of a spanning tree and no spanning tree weighs less.
`kruskalMST` on the same edges returns the same value. -/
theorem primMST_minimum (edges : List Kruskal.Edge) (V : Nat) (hV : 1 ≤ V)
    (hin : Kruskal.EdgesIn V edges) (hconn : Kruskal.Connected V edges) :
    ∃ w, (∃ fuel, PrimMST (graphOf V edges) fuel = some w) ∧
      (∀ fuel w', PrimMST (graphOf V edges) fuel = some w' → w' = w) ∧
      (∃ T, Kruskal.IsSpanningTree edges V T ∧ Kruskal.weightSum T = w) ∧
      (∀ T, Kruskal.IsSpanningTree edges V T → w ≤ Kruskal.weightSum T) ∧
      Kruskal.kruskalMST edges V = some w := by
  obtain ⟨fuel, w, hrun, hmin⟩ := primMST_spec hV hin hconn
  obtain ⟨hk, hkT, hkmin⟩ := Kruskal.kruskalSorted_spec hV
    (List.perm_insertionSort Kruskal.weightLe edges)
    (List.sorted_insertionSort Kruskal.weightLe edges) hin hconn
  refine ⟨w, ⟨fuel, hrun⟩, ?_, hmin.1, hmin.2, ?_⟩
  · intro fuel' w' h'
    exact primMST_unique _ h' hrun
  · have : Kruskal.kruskalFlat id (edges.insertionSort Kruskal.weightLe) = w :=
      isMinWeight_unique ⟨hkT, hkmin⟩ hmin
    rw [← this]
    exact hk

/-- Witness of C11 on the example edges. -/
theorem primMST_minimum_witness :
    1 ≤ 4 ∧ Kruskal.EdgesIn 4 Kruskal.exampleEdges ∧
    Kruskal.Connected 4 Kruskal.exampleEdges ∧
    ∃ w, (∃ fuel, PrimMST (graphOf 4 Kruskal.exampleEdges) fuel = some w) ∧
      (∀ fuel w', PrimMST (graphOf 4 Kruskal.exampleEdges) fuel = some w' → w' = w) ∧
      (∃ T, Kruskal.IsSpanningTree Kruskal.exampleEdges 4 T ∧ Kruskal.weightSum T = w) ∧
      (∀ T, Kruskal.IsSpanningTree Kruskal.exampleEdges 4 T → w ≤ Kruskal.weightSum T) ∧
      Kruskal.kruskalMST Kruskal.exampleEdges 4 = some w :=
  ⟨by decide, Kruskal.exampleEdges_in, Kruskal.exampleEdges_connected,
    primMST_minimum Kruskal.exampleEdges 4 (by decide) Kruskal.exampleEdges_in
      Kruskal.exampleEdges_connected⟩

end Prim

end GraphBook

namespace GraphBook

namespace TopoSortDFS

/-! ## Theorems: topoSortUsingDFS.cpp -/

/-! ### Counting the vertices that are not marked -/

theorem unvisited_mono {V : Int} {vis vis' : Int → Bool}
    (h : ∀ x, vis x = true → vis' x = true) : unvisited V vis' ≤ unvisited V vis := by
  unfold unvisited
  apply Finset.card_le_card
  intro x hx
  simp only [Finset.mem_filter] at hx ⊢
  refine ⟨hx.1, ?_⟩
  by_contra hv
  have := h x (by simpa using hv)
  rw [hx.2] at this
  exact Bool.noConfusion this

theorem unvisited_mark {V : Int} {vis : Int → Bool} {u : Int} (hu : 1 ≤ u ∧ u ≤ V)
    (hv : vis u = false) : unvisited V (setCell vis u true) < unvisited V vis := by
  unfold unvisited
  apply Finset.card_lt_card
  rw [Finset.ssubset_iff_of_subset]
  · refine ⟨u, ?_, ?_⟩
    · simp only [Finset.mem_filter, Finset.mem_Icc]
      exact ⟨hu, hv⟩
    · simp [setCell]
  · intro x hx
    simp only [Finset.mem_filter] at hx ⊢
    refine ⟨hx.1, ?_⟩
    have := hx.2
    unfold setCell at this
    split at this
    · exact Bool.noConfusion this
    · exact this

theorem unvisited_le (V : Int) (vis : Int → Bool) : unvisited V vis ≤ V.toNat := by
  unfold unvisited
  refine le_trans (Finset.card_filter_le _ _) ?_
  rw [Int.card_Icc]
  omega

/-! ### Growth of the state -/

theorem grow_refl {G : Graph} {st : State} (h : TInv G st) : Grow st st :=
  ⟨⟨[], (List.append_nil _).symm⟩,
    fun x => ⟨fun hx => Or.inl hx, fun hx => hx.elim id (h.mem x)⟩,
    fun _ hx => Or.inl hx⟩

theorem grow_mono {st st' : State} (h : Grow st st') {x : Int} (hx : st.visited x = true) :
    st'.visited x = true :=
  (h.visited x).2 (Or.inl hx)

theorem grow_sub {st st' : State} (h : Grow st st') {x : Int} (hx : x ∈ st.order) :
    x ∈ st'.order := by
  obtain ⟨new, hnew⟩ := h.order
  rw [hnew]
  exact List.mem_append_left _ hx

theorem grow_trans {st st1 st2 : State} (h1 : Grow st st1) (h2 : Grow st1 st2) :
    Grow st st2 := by
  obtain ⟨n1, hn1⟩ := h1.order
  obtain ⟨n2, hn2⟩ := h2.order
  refine ⟨⟨n1 ++ n2, by rw [hn2, hn1, List.append_assoc]⟩, ?_, ?_⟩
  · intro x
    rw [h2.visited x, h1.visited x]
    constructor
    · rintro ((h | h) | h)
      · exact Or.inl h
      · exact Or.inr (grow_sub h2 h)
      · exact Or.inr h
    · rintro (h | h)
      · exact Or.inl (Or.inl h)
      · exact Or.inr h
  · intro x hx
    rcases h2.fresh x hx with h | h
    · exact h1.fresh x h
    · right
      by_contra hv
      have := grow_mono h1 (by simpa using hv : st.visited x = true)
      rw [h] at this
      exact Bool.noConfusion this

/-- The calls in progress stay the same. -/
theorem grow_gray {st st' : State} (h : Grow st st') {g : Int} (hv : st'.visited g = true)
    (ho : g ∉ st'.order) : st.visited g = true ∧ g ∉ st.order := by
  refine ⟨?_, fun hg => ho (grow_sub h hg)⟩
  rcases (h.visited g).1 hv with h' | h'
  · exact h'
  · exact absurd h' ho

/-! ### The recursive traversal -/

/-- The loop `for (Vertex v : adj)` of `topoSortUtil(G, u, ...)`, given that the recursive
calls behave: afterwards every neighbour of `u` is marked. -/
theorem util_loop {G : Graph} (hwf : G.OnVertices) {fuel : Nat} {u : Int}
    (hu : 1 ≤ u ∧ u ≤ G.V)
    (ih : ∀ (st : State) (v : Int), unvisited G.V st.visited < fuel → TInv G st →
      GrayReach G st v → (1 ≤ v ∧ v ≤ G.V) → st.visited v = false →
      ∃ st', topoSortUtil G fuel v st = some st' ∧ TInv G st' ∧ Grow st st' ∧ v ∈ st'.order) :
    ∀ (l : List Int) (s : State), (∀ v ∈ l, v ∈ G.adj u) → TInv G s →
      s.visited u = true → u ∉ s.order → GrayReach G s u → unvisited G.V s.visited < fuel →
      ∃ s', l.foldlM
          (fun (s : State) (v : Int) =>
            if !s.visited v then topoSortUtil G fuel v s else pure s) s = some s' ∧
        TInv G s' ∧ Grow s s' ∧ u ∉ s'.order ∧ GrayReach G s' u ∧
        ∀ v ∈ l, s'.visited v = true := by
  intro l
  induction l with
  | nil =>
    intro s _ hinv _ huo hgray _
    exact ⟨s, rfl, hinv, grow_refl hinv, huo, hgray, fun v hv => by simp at hv⟩
  | cons v l ihl =>
    intro s hl hinv hus huo hgray hcnt
    have hl' : ∀ w ∈ l, w ∈ G.adj u := fun w hw => hl w (List.mem_cons_of_mem _ hw)
    rw [List.foldlM_cons]
    by_cases hv : s.visited v = true
    · have hstep : (if (!s.visited v) = true then topoSortUtil G fuel v s else pure s) =
          some s := by
        simp [hv]
      rw [hstep]
      obtain ⟨s', hrun, hinv', hgrow, huo', hgray', hall⟩ := ihl s hl' hinv hus huo hgray hcnt
      refine ⟨s', hrun, hinv', hgrow, huo', hgray', ?_⟩
      intro w hw
      rcases List.mem_cons.1 hw with h | h
      · rw [h]
        exact grow_mono hgrow hv
      · exact hall w h
    · have hv' : s.visited v = false := by simpa using hv
      have hedge : G.HasEdge u v := ⟨hu, hl v (List.mem_cons_self _ _)⟩
      obtain ⟨s1, hrun1, hinv1, hgrow1, hv1⟩ := ih s v hcnt hinv
        (fun g hg hgo => (hgray g hg hgo).tail hedge) (hwf u v hedge) hv'
      have hstep : (if (!s.visited v) = true then topoSortUtil G fuel v s else pure s) =
          some s1 := by
        simp [hv', hrun1]
      rw [hstep]
      have huo1 : u ∉ s1.order := by
        intro hmem
        rcases hgrow1.fresh u hmem with h | h
        · exact huo h
        · rw [hus] at h
          exact Bool.noConfusion h
      obtain ⟨s', hrun, hinv', hgrow, huo', hgray', hall⟩ := ihl s1 hl' hinv1
        (grow_mono hgrow1 hus) huo1
        (fun g hg hgo => hgray g (grow_gray hgrow1 hg hgo).1 (grow_gray hgrow1 hg hgo).2)
        (lt_of_le_of_lt (unvisited_mono (fun x hx => grow_mono hgrow1 hx)) hcnt)
      refine ⟨s', hrun, hinv', grow_trans hgrow1 hgrow, huo', hgray', ?_⟩
      intro w hw
      rcases List.mem_cons.1 hw with h | h
      · rw [h]
        exact grow_mono hgrow (hinv1.mem v hv1)
      · exact hall w h

/-- `order.push_back(u)` after the loop. -/
theorem util_finish {G : Graph} {u : Int} {st s' : State} (hu : 1 ≤ u ∧ u ≤ G.V)
    (hvu : st.visited u = false) (hinv : TInv G s')
    (hgrow : Grow { st with visited := setCell st.visited u true } s') (huo : u ∉ s'.order)
    (hgray : GrayReach G s' u) (hall : ∀ v ∈ G.adj u, s'.visited v = true) :
    TInv G { s' with order := s'.order ++ [u] } ∧
      Grow st { s' with order := s'.order ++ [u] } ∧ u ∈ s'.order ++ [u] := by
  have hus : s'.visited u = true := grow_mono hgrow (by simp [setCell])
  refine ⟨?_, ?_, by simp⟩
  · constructor
    · show (s'.order ++ [u]).Nodup
      rw [List.nodup_append]
      refine ⟨hinv.nodup, List.nodup_singleton _, ?_⟩
      intro x hx hy
      rw [List.mem_singleton.1 hy] at hx
      exact huo hx
    · intro x hx
      rcases List.mem_append.1 hx with h | h
      · exact hinv.mem x h
      · rw [List.mem_singleton.1 h]
        exact hus
    · exact hinv.vis_in
    · intro x hx y hy
      show (y ∈ s'.order ++ [u] ∧
        (s'.order ++ [u]).indexOf y < (s'.order ++ [u]).indexOf x) ∨ _
      rcases List.mem_append.1 hx with h | h
      · rcases hinv.closed x h y hy with ⟨h1, h2⟩ | h1
        · left
          refine ⟨List.mem_append_left _ h1, ?_⟩
          rw [List.indexOf_append_of_mem h1, List.indexOf_append_of_mem h]
          exact h2
        · exact Or.inr h1
      · have hxu : x = u := List.mem_singleton.1 h
        subst hxu
        by_cases hyo : y ∈ s'.order
        · left
          refine ⟨List.mem_append_left _ hyo, ?_⟩
          rw [List.indexOf_append_of_mem hyo, List.indexOf_append_of_not_mem huo]
          have := List.indexOf_lt_length.2 hyo
          omega
        · exact Or.inr (hgray y (hall y hy) hyo)
  · obtain ⟨new, hnew⟩ := hgrow.order
    refine ⟨⟨new ++ [u], ?_⟩, ?_, ?_⟩
    · show s'.order ++ [u] = st.order ++ (new ++ [u])
      rw [hnew]
      simp
    · intro x
      show s'.visited x = true ↔ st.visited x = true ∨ x ∈ s'.order ++ [u]
      rw [hgrow.visited x]
      show setCell st.visited u true x = true ∨ x ∈ s'.order ↔ _
      unfold setCell
      by_cases hxu : x = u
      · rw [if_pos hxu]
        simp [hxu]
      · rw [if_neg hxu]
        simp [hxu]
    · intro x hx
      rcases List.mem_append.1 hx with h | h
      · rcases hgrow.fresh x h with h1 | h1
        · exact Or.inl h1
        · right
          have h2 : setCell st.visited u true x = false := h1
          unfold setCell at h2
          split at h2
          · exact Bool.noConfusion h2
          · exact h2
      · rw [List.mem_singleton.1 h]
        exact Or.inr hvu

/-- Total correctness of `topoSortUtil`: called on an unmarked vertex with fuel for the
vertices not yet marked, it returns, having finished `u` and what it visited on the way. -/
theorem util_spec {G : Graph} (hwf : G.OnVertices) :
    ∀ (fuel : Nat) (st : State) (u : Int), unvisited G.V st.visited < fuel → TInv G st →
      GrayReach G st u → (1 ≤ u ∧ u ≤ G.V) → st.visited u = false →
      ∃ st', topoSortUtil G fuel u st = some st' ∧ TInv G st' ∧ Grow st st' ∧
        u ∈ st'.order := by
  intro fuel
  induction fuel with
  | zero => intro st u h; omega
  | succ fuel ih =>
    intro st u hcnt hinv hgray hu hvu
    have huo : u ∉ st.order := by
      intro h
      rw [hinv.mem u h] at hvu
      exact Bool.noConfusion hvu
    have hinv1 : TInv G { st with visited := setCell st.visited u true } := by
      refine ⟨hinv.nodup, ?_, ?_, hinv.closed⟩
      · intro x hx
        show setCell st.visited u true x = true
        unfold setCell
        split
        · rfl
        · exact hinv.mem x hx
      · intro x hx
        have hx' : setCell st.visited u true x = true := hx
        unfold setCell at hx'
        split at hx'
        · rename_i h
          rw [h]
          exact hu
        · exact hinv.vis_in x hx'
    have hgray1 : GrayReach G { st with visited := setCell st.visited u true } u := by
      intro g hg hgo
      have hg' : setCell st.visited u true g = true := hg
      unfold setCell at hg'
      split at hg'
      · rename_i h
        rw [h]
      · exact hgray g hg' hgo
    have hcnt1 : unvisited G.V (setCell st.visited u true) < fuel := by
      have := unvisited_mark hu hvu
      omega
    obtain ⟨s', hrun, hinv', hgrow, huo', hgray', hall⟩ := util_loop hwf hu ih (G.adj u)
      { st with visited := setCell st.visited u true } (fun v hv => hv) hinv1
      (by simp [setCell]) huo hgray1 hcnt1
    obtain ⟨h1, h2, h3⟩ := util_finish hu hvu hinv' hgrow huo' hgray' hall
    refine ⟨{ s' with order := s'.order ++ [u] }, ?_, h1, h2, h3⟩
    rw [topoSortUtil]
    simp only [Option.bind_eq_bind, Option.pure_def] at hrun ⊢
    rw [hrun]
    rfl

/-! ### The loop over all vertices -/

theorem mem_vertices (V x : Int) : x ∈ vertices V ↔ 1 ≤ x ∧ x ≤ V := by
  unfold vertices
  simp only [List.mem_map, List.mem_range]
  constructor
  · rintro ⟨k, hk, rfl⟩
    omega
  · intro h
    exact ⟨(x - 1).toNat, by omega, by omega⟩

theorem nodup_vertices (V : Int) : (vertices V).Nodup := by
  unfold vertices
  refine (List.nodup_range _).map ?_
  intro a b hab
  simpa using hab

/-- The loop `for (Vertex i = Vertex(1); i <= V; ++i)` of `topologicalSort`: no call is in
progress between its turns, and afterwards every vertex it went through is finished. -/
theorem sort_loop {G : Graph} (hwf : G.OnVertices) {fuel : Nat} (hfuel : G.V.toNat < fuel) :
    ∀ (l : List Int) (s : State), (∀ i ∈ l, 1 ≤ i ∧ i ≤ G.V) → TInv G s →
      (∀ g, s.visited g = true → g ∈ s.order) →
      ∃ s', l.foldlM
          (fun (s : State) (i : Int) =>
            if !s.visited i then topoSortUtil G fuel i s else pure s) s = some s' ∧
        TInv G s' ∧ (∀ g, s'.visited g = true → g ∈ s'.order) ∧ Grow s s' ∧
        ∀ i ∈ l, s'.visited i = true := by
  intro l
  induction l with
  | nil =>
    intro s _ hinv hng
    exact ⟨s, rfl, hinv, hng, grow_refl hinv, fun i hi => by simp at hi⟩
  | cons i l ihl =>
    intro s hl hinv hng
    have hl' : ∀ j ∈ l, 1 ≤ j ∧ j ≤ G.V := fun j hj => hl j (List.mem_cons_of_mem _ hj)
    rw [List.foldlM_cons]
    by_cases hv : s.visited i = true
    · have hstep : (if (!s.visited i) = true then topoSortUtil G fuel i s else pure s) =
          some s := by
        simp [hv]
      rw [hstep]
      obtain ⟨s', hrun, hinv', hng', hgrow, hall⟩ := ihl s hl' hinv hng
      refine ⟨s', hrun, hinv', hng', hgrow, ?_⟩
      intro j hj
      rcases List.mem_cons.1 hj with h | h
      · rw [h]
        exact grow_mono hgrow hv
      · exact hall j h
    · have hv' : s.visited i = false := by simpa using hv
      obtain ⟨s1, hrun1, hinv1, hgrow1, hi1⟩ := util_spec hwf fuel s i
        (lt_of_le_of_lt (unvisited_le _ _) hfuel) hinv
        (fun g hg hgo => absurd (hng g hg) hgo) (hl i (List.mem_cons_self _ _)) hv'
      have hstep : (if (!s.visited i) = true then topoSortUtil G fuel i s else pure s) =
          some s1 := by
        simp [hv', hrun1]
      rw [hstep]
      have hng1 : ∀ g, s1.visited g = true → g ∈ s1.order := by
        intro g hg
        by_contra hgo
        exact (grow_gray hgrow1 hg hgo).2 (hng g (grow_gray hgrow1 hg hgo).1)
      obtain ⟨s', hrun, hinv', hng', hgrow, hall⟩ := ihl s1 hl' hinv1 hng1
      refine ⟨s', hrun, hinv', hng', grow_trans hgrow1 hgrow, ?_⟩
      intro j hj
      rcases List.mem_cons.1 hj with h | h
      · rw [h]
        exact grow_mono hgrow (hinv1.mem i hi1)
      · exact hall j h

/-! ### Positions -/

theorem assignPos_fold (l : List Int) :
    ∀ (f : Int → Int) (p : Int), l.Nodup → ∀ x,
      (l.foldl (fun (acc : (Int → Int) × Int) (u : Int) => (setCell acc.1 u acc.2, acc.2 + 1))
        (f, p)).1 x = if x ∈ l then p + l.indexOf x else f x := by
  induction l with
  | nil =>
    intro f p _ x
    simp
  | cons a t ih =>
    intro f p hnd x
    have hat : a ∉ t := (List.nodup_cons.1 hnd).1
    rw [List.foldl_cons, ih _ _ (List.nodup_cons.1 hnd).2 x]
    by_cases hxa : x = a
    · subst hxa
      rw [if_neg hat, if_pos (List.mem_cons_self _ _), List.indexOf_cons_self]
      simp [setCell]
    · by_cases hxt : x ∈ t
      · rw [if_pos hxt, if_pos (List.mem_cons_of_mem _ hxt),
          List.indexOf_cons_ne _ (fun h => hxa h.symm)]
        push_cast
        ring
      · rw [if_neg hxt, if_neg (by simp [hxa, hxt])]
        simp [setCell, hxa]

/-- After the loop `pos[u] = p; ++p`, `pos[x]` is the index of `x` in the ordering. -/
theorem assignPos_eq {l : List Int} (hnd : l.Nodup) {x : Int} (hx : x ∈ l) :
    assignPos l x = l.indexOf x := by
  unfold assignPos
  rw [assignPos_fold l _ _ hnd x, if_pos hx]
  simp

theorem indexOf_reverse {l : List Int} (hnd : l.Nodup) {x : Int} (hx : x ∈ l) :
    l.reverse.indexOf x + l.indexOf x + 1 = l.length := by
  induction l with
  | nil => simp at hx
  | cons a t ih =>
    have hat : a ∉ t := (List.nodup_cons.1 hnd).1
    rw [List.reverse_cons]
    by_cases hxa : x = a
    · subst hxa
      rw [List.indexOf_append_of_not_mem (by simpa using hat), List.indexOf_cons_self]
      simp
    · have hxt : x ∈ t := by
        rcases List.mem_cons.1 hx with h | h
        · exact absurd h hxa
        · exact h
      rw [List.indexOf_append_of_mem (by simpa using hxt),
        List.indexOf_cons_ne _ (fun h => hxa h.symm)]
      have := ih (List.nodup_cons.1 hnd).2 hxt
      simp only [List.length_cons]
      omega

/-! ### What `topologicalSort` prints -/

/-- The check `pos[v] < pos[i]` over all edges, in terms of the ordering. -/
theorem check_iff {G : Graph} (hwf : G.OnVertices) {l : List Int} (hnd : l.Nodup)
    (hmem : ∀ x, x ∈ l ↔ 1 ≤ x ∧ x ≤ G.V) :
    ((vertices G.V).any fun i =>
        (G.adj i).any fun v => decide (assignPos l v < assignPos l i)) = true ↔
      ∃ u v, G.HasEdge u v ∧ l.indexOf v < l.indexOf u := by
  simp only [List.any_eq_true, decide_eq_true_eq, mem_vertices]
  constructor
  · rintro ⟨i, hi, v, hv, hlt⟩
    have hiv : G.HasEdge i v := ⟨hi, hv⟩
    rw [assignPos_eq hnd ((hmem v).2 (hwf i v hiv)), assignPos_eq hnd ((hmem i).2 hi)] at hlt
    exact ⟨i, v, hiv, by exact_mod_cast hlt⟩
  · rintro ⟨i, v, hiv, hlt⟩
    refine ⟨i, hiv.1, v, hiv.2, ?_⟩
    rw [assignPos_eq hnd ((hmem v).2 (hwf i v hiv)), assignPos_eq hnd ((hmem i).2 hiv.1)]
    exact_mod_cast hlt

/-- What `topologicalSort` does on a graph on the vertices `1..V`, with fuel for `V`
nested calls: it builds a permutation `l` of `1..V` in which every edge leads forward or
lies on a cycle, prints the message if some edge leads backward in `l`, and prints `l`
otherwise. -/
theorem sort_run {G : Graph} (hwf : G.OnVertices) {fuel : Nat} (hfuel : G.V.toNat < fuel) :
    ∃ l : List Int, l.Nodup ∧ (∀ x, x ∈ l ↔ 1 ≤ x ∧ x ≤ G.V) ∧
      (∀ u v, G.HasEdge u v →
        l.indexOf u < l.indexOf v ∨ Relation.ReflTransGen G.HasEdge v u) ∧
      ((∃ u v, G.HasEdge u v ∧ l.indexOf v < l.indexOf u) →
        topologicalSort G fuel = some Printed.message) ∧
      ((¬ ∃ u v, G.HasEdge u v ∧ l.indexOf v < l.indexOf u) →
        topologicalSort G fuel = some (Printed.ordering l)) := by
  have hinv0 : TInv G { order := [], visited := fun _ => false } :=
    ⟨List.nodup_nil, fun x hx => by simp at hx, fun x hx => Bool.noConfusion hx,
      fun x hx => by simp at hx⟩
  obtain ⟨s, hrun, hinv, hng, _, hall⟩ := sort_loop hwf hfuel (vertices G.V) _
    (fun i hi => (mem_vertices _ _).1 hi) hinv0 (fun g hg => Bool.noConfusion hg)
  have hnd : s.order.reverse.Nodup := List.nodup_reverse.2 hinv.nodup
  have hmem : ∀ x, x ∈ s.order.reverse ↔ 1 ≤ x ∧ x ≤ G.V := by
    intro x
    rw [List.mem_reverse]
    constructor
    · intro hx
      exact hinv.vis_in x (hinv.mem x hx)
    · intro hx
      exact hng x (hall x ((mem_vertices _ _).2 hx))
  refine ⟨s.order.reverse, hnd, hmem, ?_, ?_, ?_⟩
  · intro u v huv
    have hu : u ∈ s.order := List.mem_reverse.1 ((hmem u).2 huv.1)
    rcases hinv.closed u hu v huv.2 with ⟨hv, hlt⟩ | h
    · left
      have h1 := indexOf_reverse hinv.nodup hu
      have h2 := indexOf_reverse hinv.nodup hv
      omega
    · exact Or.inr h
  · intro hex
    have hc := (check_iff hwf hnd hmem).2 hex
    unfold topologicalSort
    simp only [Option.bind_eq_bind, Option.pure_def] at hrun ⊢
    rw [hrun]
    simp only [Option.some_bind]
    rw [if_pos hc]
  · intro hex
    have hc := fun h => hex ((check_iff hwf hnd hmem).1 h)
    unfold topologicalSort
    simp only [Option.bind_eq_bind, Option.pure_def] at hrun ⊢
    rw [hrun]
    simp only [Option.some_bind]
    rw [if_neg hc]

theorem perm_vertices {V : Int} {l : List Int} (hnd : l.Nodup)
    (hmem : ∀ x, x ∈ l ↔ 1 ≤ x ∧ x ≤ V) : l.Perm (vertices V) :=
  (List.perm_ext_iff_of_nodup hnd (nodup_vertices V)).2
    (fun x => (hmem x).trans (mem_vertices V x).symm)

/-- Edges that all lead to a higher rank form no cycle. -/
theorem acyclic_of_rank {G : Graph} (r : Int → Nat) (h : ∀ u v, G.HasEdge u v → r u < r v) :
    G.Acyclic := by
  have hlt : ∀ u v, Relation.TransGen G.HasEdge u v → r u < r v := by
    intro u v huv
    induction huv with
    | single h1 => exact h _ _ h1
    | tail _ h2 ih => exact lt_trans ih (h _ _ h2)
  intro u hu
  exact lt_irrefl _ (hlt u u hu)

theorem exampleDag_onVertices : exampleDag.OnVertices := by
  rintro u v ⟨⟨h1, h2⟩, hv⟩
  have h2' : u ≤ 4 := h2
  have hv' : v ∈ (if u = 1 then [2, 3] else if u = 2 then [4] else if u = 3 then [2]
      else ([] : List Int)) := hv
  show 1 ≤ v ∧ v ≤ 4
  interval_cases u <;> simp at hv' <;> omega

theorem exampleDag_acyclic : exampleDag.Acyclic := by
  apply acyclic_of_rank (fun x => if x = 1 then 0 else if x = 3 then 1 else if x = 2 then 2
    else 3)
  rintro u v ⟨⟨h1, h2⟩, hv⟩
  have h2' : u ≤ 4 := h2
  have hv' : v ∈ (if u = 1 then [2, 3] else if u = 2 then [4] else if u = 3 then [2]
      else ([] : List Int)) := hv
  interval_cases u <;> simp at hv' <;> rcases hv' with rfl | rfl <;> simp

/-- The message is printed exactly when some edge between two different vertices lies on a
cycle. -/
theorem sort_reports_iff {G : Graph} (hwf : G.OnVertices) {fuel : Nat}
    (hfuel : G.V.toNat < fuel) :
    topologicalSort G fuel = some Printed.message ↔
      ∃ u v, u ≠ v ∧ G.HasEdge u v ∧ Relation.ReflTransGen G.HasEdge v u := by
  obtain ⟨l, hnd, hmem, hclosed, herr, hok⟩ := sort_run hwf hfuel
  constructor
  · intro hmsg
    by_cases hex : ∃ u v, G.HasEdge u v ∧ l.indexOf v < l.indexOf u
    · obtain ⟨u, v, huv, hlt⟩ := hex
      refine ⟨u, v, ?_, huv, ?_⟩
      · intro h
        rw [h] at hlt
        exact lt_irrefl _ hlt
      · rcases hclosed u v huv with h | h
        · omega
        · exact h
    · rw [hok hex] at hmsg
      exact absurd (Option.some.inj hmsg) (by simp)
  · rintro ⟨u, v, hne, huv, hback⟩
    apply herr
    by_contra hno
    have hle : ∀ a b, Relation.ReflTransGen G.HasEdge a b → l.indexOf a ≤ l.indexOf b := by
      intro a b hab
      induction hab with
      | refl => exact le_refl _
      | tail _ h2 ih =>
        refine le_trans ih ?_
        by_contra hlt
        exact hno ⟨_, _, h2, by omega⟩
    have h1 := hle v u hback
    have h2 := hle u v (Relation.ReflTransGen.single huv)
    have hu : u ∈ l := (hmem u).2 huv.1
    exact hne ((List.indexOf_inj hu ((hmem v).2 (hwf u v huv))).1 (le_antisymm h2 h1))

/-! ### The claims -/

theorem selfLoop_edge (u v : Int) : selfLoop.HasEdge u v ↔ u = 1 ∧ v = 1 := by
  unfold Graph.HasEdge selfLoop Graph.addEdge Graph.new
  simp only [Bool.not_true, Bool.false_eq_true, if_false, List.nil_append]
  constructor
  · rintro ⟨⟨h1, h2⟩, hv⟩
    have hu : u = 1 := le_antisymm h2 h1
    subst hu
    simpa [setCell] using hv
  · rintro ⟨rfl, rfl⟩
    exact ⟨⟨le_refl _, le_refl _⟩, by simp [setCell]⟩

/-- C12, at the graph with the single vertex 1 and the edge `1 -> 1`: the graph has a
directed cycle, but `topologicalSort` never prints the error message (whatever the fuel);
it prints the ordering `1`. -/
theorem topologicalSort_selfLoop_not_reported :
    ¬ selfLoop.Acyclic ∧ selfLoop.OnVertices ∧
      topologicalSort selfLoop 2 = some (Printed.ordering [1]) ∧
      ∀ fuel, topologicalSort selfLoop fuel ≠ some Printed.message := by
  have hon : selfLoop.OnVertices := by
    intro u v huv
    rw [((selfLoop_edge u v).1 huv).2]
    exact ⟨le_refl _, le_refl _⟩
  refine ⟨?_, hon, by decide, ?_⟩
  · intro h
    exact h 1 (Relation.TransGen.single ((selfLoop_edge 1 1).2 ⟨rfl, rfl⟩))
  · intro fuel hmsg
    by_cases hf : 1 < fuel
    · have hfuel : selfLoop.V.toNat < fuel := hf
      obtain ⟨u, v, hne, huv, _⟩ := (sort_reports_iff hon hfuel).1 hmsg
      obtain ⟨hu, hv⟩ := (selfLoop_edge u v).1 huv
      exact hne (hu.trans hv.symm)
    · have hcases : fuel = 0 ∨ fuel = 1 := by omega
      rcases hcases with h | h
      · rw [h] at hmsg
        exact absurd hmsg (by decide)
      · rw [h] at hmsg
        exact absurd hmsg (by decide)

/-- C13: for every directed acyclic graph on the vertices `1..V`, `topologicalSort` (with
fuel for `V` nested calls) does not print the error message; it prints a sequence that is
a permutation of `1..V` in which, for every edge `u -> v`, `u` comes before `v`. -/
theorem topologicalSort_orders_dag (G : Graph) (fuel : Nat)
    (hwf : G.OnVertices) (hdag : G.Acyclic) (hfuel : G.V.toNat < fuel) :
    ∃ l, topologicalSort G fuel = some (Printed.ordering l) ∧ l.Perm (vertices G.V) ∧
      ∀ u v, G.HasEdge u v → l.indexOf u < l.indexOf v := by
  obtain ⟨l, hnd, hmem, hclosed, _, hok⟩ := sort_run hwf hfuel
  have hfwd : ∀ u v, G.HasEdge u v → l.indexOf u < l.indexOf v := by
    intro u v huv
    rcases hclosed u v huv with h | h
    · exact h
    · exact absurd (Relation.TransGen.head' huv h) (hdag u)
  refine ⟨l, hok ?_, perm_vertices hnd hmem, hfwd⟩
  rintro ⟨u, v, huv, hlt⟩
  have := hfwd u v huv
  omega

/-- Witness of C13 on the graph `1 -> 2, 1 -> 3, 3 -> 2, 2 -> 4`. -/
theorem topologicalSort_orders_dag_witness :
    exampleDag.OnVertices ∧ exampleDag.Acyclic ∧
    exampleDag.V.toNat < 5 ∧
    ∃ l, topologicalSort exampleDag 5 = some (Printed.ordering l) ∧
      l.Perm (vertices exampleDag.V) ∧
      ∀ u v, exampleDag.HasEdge u v → l.indexOf u < l.indexOf v :=
  ⟨exampleDag_onVertices, exampleDag_acyclic, by decide,
    topologicalSort_orders_dag exampleDag 5 exampleDag_onVertices exampleDag_acyclic
      (by decide)⟩

end TopoSortDFS

end GraphBook

namespace GraphBook

namespace TopoSortKahn

/-! ## Theorems: topoSortUsingKahn.cpp -/

/-! ### Counting incoming edges -/

theorem wrap32_idem (x : Int) : wrap32 (wrap32 x) = wrap32 x := by
  unfold wrap32
  omega

/-- A count below `2^32` is zero exactly when the `int` that holds it is zero. -/
theorem wrap32_eq_zero {c : Int} (h0 : 0 ≤ c) (h1 : c < 2 ^ 32) : wrap32 c = 0 ↔ c = 0 := by
  unfold wrap32
  omega

theorem count_fold (l : List Int) :
    ∀ (d : Int → Int), (∀ x, wrap32 (d x) = d x) → ∀ x : Int,
      (l.foldl (fun (d : Int → Int) (v : Int) => setCell d v (wrap32 (d v + 1))) d) x =
        wrap32 (d x + l.count x) := by
  induction l with
  | nil =>
    intro d hd x
    rw [List.foldl_nil, List.count_nil, Nat.cast_zero, add_zero, hd]
  | cons a t ih =>
    intro d hd x
    have hd1 : ∀ y, wrap32 (setCell d a (wrap32 (d a + 1)) y) =
        setCell d a (wrap32 (d a + 1)) y := by
      intro y
      unfold setCell
      split
      · exact wrap32_idem _
      · exact hd y
    rw [List.foldl_cons, ih _ hd1]
    unfold setCell
    by_cases hxa : x = a
    · rw [if_pos hxa, hxa, List.count_cons_self, wrap32_add]
      congr 1
      push_cast
      ring
    · rw [if_neg hxa, List.count_cons_of_ne hxa]

theorem countIn_fold (G : Graph) (l : List Int) :
    ∀ (d : Int → Int), (∀ x, wrap32 (d x) = d x) → ∀ x : Int,
      (l.foldl
        (fun (d : Int → Int) (u : Int) =>
          (G.adj u).foldl (fun (d : Int → Int) (v : Int) => setCell d v (wrap32 (d v + 1)))
            d) d) x =
        wrap32 (d x + ((l.map fun u => (G.adj u).count x).sum : Nat)) := by
  induction l with
  | nil =>
    intro d hd x
    rw [List.foldl_nil, List.map_nil, List.sum_nil, Nat.cast_zero, add_zero, hd]
  | cons a t ih =>
    intro d hd x
    have hin := count_fold (G.adj a) d hd
    have hd1 : ∀ y, wrap32 ((G.adj a).foldl
        (fun (d : Int → Int) (v : Int) => setCell d v (wrap32 (d v + 1))) d y) =
        (G.adj a).foldl
          (fun (d : Int → Int) (v : Int) => setCell d v (wrap32 (d v + 1))) d y := by
      intro y
      rw [hin y, wrap32_idem]
    rw [List.foldl_cons, ih _ hd1, hin x, wrap32_add, List.map_cons, List.sum_cons,
      Nat.cast_add]
    congr 1
    ring

theorem remaining_nil (G : Graph) (v : Int) : remaining G [] v = inRecords G v := by
  unfold remaining inRecords
  simp

/-- The counting loop leaves in `inDegree[v]` the number of edge records that lead to
`v`, as an `int` holds it. -/
theorem countIn_eq (G : Graph) (v : Int) : countIn G v = wrap32 (inRecords G v) := by
  unfold countIn
  rw [countIn_fold G (vertices G.V) (fun _ => 0)
    (fun _ => (by decide : wrap32 0 = 0)), zero_add]
  rfl

theorem remaining_eq_zero {G : Graph} {out : List Int} {v : Int} :
    remaining G out v = 0 ↔ ∀ u, G.HasEdge u v → u ∈ out := by
  unfold remaining
  rw [List.sum_eq_zero_iff]
  simp only [List.mem_map, List.mem_filter, decide_eq_true_eq, TopoSortDFS.mem_vertices,
    forall_exists_index, and_imp]
  constructor
  · intro h u huv
    by_contra huo
    have := h _ u huv.1.1 huv.1.2 huo rfl
    exact (List.count_pos_iff.2 huv.2).ne' this
  · intro h n u hu1 hu2 huo hn
    rw [← hn]
    apply List.count_eq_zero.2
    intro hv
    exact huo (h u ⟨⟨hu1, hu2⟩, hv⟩)

theorem sum_filter_erase (f : Int → Nat) (out : List Int) {u : Int} (huo : u ∉ out) :
    ∀ l : List Int, l.Nodup → u ∈ l →
      ((l.filter fun w => decide (w ∉ out ++ [u])).map f).sum + f u =
        ((l.filter fun w => decide (w ∉ out)).map f).sum := by
  intro l
  induction l with
  | nil => intro _ h; simp at h
  | cons a t ih =>
    intro hnd hu
    have hat : a ∉ t := (List.nodup_cons.1 hnd).1
    have hndt := (List.nodup_cons.1 hnd).2
    by_cases hau : a = u
    · subst hau
      have hsame : (t.filter fun w => decide (w ∉ out ++ [a])) =
          t.filter fun w => decide (w ∉ out) := by
        apply List.filter_congr
        intro w hw
        have : w ≠ a := fun h => hat (h ▸ hw)
        simp [this]
      rw [List.filter_cons_of_neg (by simp),
        List.filter_cons_of_pos (by simp [huo]), hsame]
      simp only [List.map_cons, List.sum_cons]
      omega
    · have hut : u ∈ t := by
        rcases List.mem_cons.1 hu with h | h
        · exact absurd h.symm hau
        · exact h
      have := ih hndt hut
      by_cases hao : a ∈ out
      · rw [List.filter_cons_of_neg (by simp [hao]), List.filter_cons_of_neg (by simp [hao])]
        exact this
      · rw [List.filter_cons_of_pos (by simp [hao, hau]),
          List.filter_cons_of_pos (by simp [hao])]
        simp only [List.map_cons, List.sum_cons]
        omega

/-- Printing `u` takes its edge records out of the counts. -/
theorem remaining_append {G : Graph} {out : List Int} {u : Int} (hu : 1 ≤ u ∧ u ≤ G.V)
    (huo : u ∉ out) (v : Int) :
    remaining G (out ++ [u]) v + (G.adj u).count v = remaining G out v := by
  unfold remaining
  exact sum_filter_erase _ out huo _ (TopoSortDFS.nodup_vertices _)
    ((TopoSortDFS.mem_vertices _ _).2 hu)

/-! ### Releasing the successors of a vertex -/

/-- One turn of the loop over `adj[u]`: the record `v` has a positive counter, so `v` is
neither printed nor queued, and it is queued if this was its last incoming edge. -/
theorem release_step {G : Graph} {st0 s : State} {done : List Int} {v : Int}
    (hv : 1 ≤ v ∧ v ≤ G.V) (c : Nat) (hc : st0.inDegree v = wrap32 c)
    (hpos : done.count v + 1 ≤ c) (hub : c < 2 ^ 32)
    (h : KStep G st0 done s) : KStep G st0 (done ++ [v]) (release s v) := by
  have hsv : s.inDegree v = wrap32 ((c : Int) - done.count v) := by
    rw [h.deg v hv, hc]
    unfold wrap32
    omega
  have hsv0 : s.inDegree v ≠ 0 := by
    rw [hsv]
    unfold wrap32
    omega
  have hvn : v ∉ s.topologicalOrdering ++ s.Q := by
    intro hmem
    exact hsv0 ((h.zero v hv).1 hmem)
  have hdeg : ∀ x, 1 ≤ x ∧ x ≤ G.V → setCell s.inDegree v (wrap32 (s.inDegree v - 1)) x =
      wrap32 (st0.inDegree x - (done ++ [v]).count x) := by
    intro x hx
    rw [List.count_append]
    unfold setCell
    by_cases hxv : x = v
    · subst hxv
      rw [if_pos rfl, h.deg x hx, List.count_singleton_self]
      unfold wrap32
      push_cast
      omega
    · rw [if_neg hxv, h.deg x hx]
      have : v ≠ x := fun e => hxv e.symm
      simp [List.count_cons, this]
  unfold release
  by_cases hz : wrap32 (s.inDegree v - 1) = 0
  · rw [if_pos hz]
    refine ⟨h.ord, ?_, ?_, hdeg, ?_⟩
    · show (s.topologicalOrdering ++ (s.Q ++ [v])).Nodup
      rw [← List.append_assoc, List.nodup_append]
      refine ⟨h.nodup, List.nodup_singleton _, ?_⟩
      intro x hx hy
      rw [List.mem_singleton.1 hy] at hx
      exact hvn hx
    · intro x hx
      have hx' : x ∈ s.topologicalOrdering ++ (s.Q ++ [v]) := hx
      rw [← List.append_assoc] at hx'
      rcases List.mem_append.1 hx' with h1 | h1
      · exact h.mem_in x h1
      · rw [List.mem_singleton.1 h1]
        exact hv
    · intro x hx
      show x ∈ s.topologicalOrdering ++ (s.Q ++ [v]) ↔
        setCell s.inDegree v (wrap32 (s.inDegree v - 1)) x = 0
      rw [← List.append_assoc, List.mem_append, List.mem_singleton]
      unfold setCell
      by_cases hxv : x = v
      · rw [if_pos hxv]
        simp [hxv, hz]
      · rw [if_neg hxv, ← h.zero x hx]
        simp [hxv]
  · rw [if_neg hz]
    refine ⟨h.ord, h.nodup, h.mem_in, hdeg, ?_⟩
    intro x hx
    show x ∈ s.topologicalOrdering ++ s.Q ↔
      setCell s.inDegree v (wrap32 (s.inDegree v - 1)) x = 0
    unfold setCell
    by_cases hxv : x = v
    · rw [if_pos hxv, hxv]
      exact ⟨fun hm => absurd hm hvn, fun hm => absurd hm hz⟩
    · rw [if_neg hxv]
      exact h.zero x hx

/-- The loop over `adj[u]`. -/
theorem release_fold {G : Graph} (hwf : G.OnVertices) {u : Int} (hu : 1 ≤ u ∧ u ≤ G.V)
    (st0 : State) (c : Int → Nat) (hc : ∀ v ∈ G.adj u, st0.inDegree v = wrap32 (c v))
    (hle : ∀ v ∈ G.adj u, (G.adj u).count v ≤ c v)
    (hub : ∀ v ∈ G.adj u, c v < 2 ^ 32) :
    ∀ (todo done : List Int) (s : State), done ++ todo = G.adj u → KStep G st0 done s →
      KStep G st0 (G.adj u) (todo.foldl release s) := by
  intro todo
  induction todo with
  | nil =>
    intro done s hsplit h
    rw [List.append_nil] at hsplit
    rw [← hsplit]
    exact h
  | cons v todo ih =>
    intro done s hsplit h
    have hv : v ∈ G.adj u := by
      rw [← hsplit]
      exact List.mem_append_right _ (List.mem_cons_self _ _)
    have hcount : done.count v + 1 ≤ (G.adj u).count v := by
      rw [← hsplit, List.count_append, List.count_cons_self]
      omega
    have hpos : done.count v + 1 ≤ c v := by
      have := hle v hv
      omega
    rw [List.foldl_cons]
    exact ih (done ++ [v]) _ (by rw [← hsplit]; simp)
      (release_step (hwf u v ⟨hu, hv⟩) (c v) (hc v hv) hpos (hub v hv) h)

/-- One turn of the main loop keeps the invariant. -/
theorem kahn_step {G : Graph} (hwf : G.OnVertices) {st : State} {u : Int} {rest : List Int}
    (hQ : st.Q = u :: rest) (h : KInv G st) :
    KInv G ((G.adj u).foldl release
      { st with Q := rest, topologicalOrdering := st.topologicalOrdering ++ [u] }) ∧
    ((G.adj u).foldl release
      { st with Q := rest, topologicalOrdering := st.topologicalOrdering ++ [u] }
      ).topologicalOrdering = st.topologicalOrdering ++ [u] := by
  have hnd := h.nodup
  rw [hQ] at hnd
  have humem : u ∈ st.topologicalOrdering ++ st.Q := by
    rw [hQ]
    exact List.mem_append_right _ (List.mem_cons_self _ _)
  have hu : 1 ≤ u ∧ u ≤ G.V := h.mem_in u humem
  have huo : u ∉ st.topologicalOrdering := by
    intro hmem
    have := (List.nodup_append.1 hnd).2.2
    exact this hmem (List.mem_cons_self _ _)
  have hperm : (st.topologicalOrdering ++ [u] ++ rest).Perm
      (st.topologicalOrdering ++ st.Q) := by
    rw [hQ]
    simp
  have hzero : st.inDegree u = 0 := (h.zero u hu).1 humem
  have hpred : ∀ w, G.HasEdge w u → w ∈ st.topologicalOrdering := by
    apply remaining_eq_zero.1
    have h1 := h.deg u hu
    have h2 := h.small u hu
    rw [hzero] at h1
    have := (wrap32_eq_zero (Int.natCast_nonneg _) (by exact_mod_cast h2)).1 h1.symm
    exact_mod_cast this
  have hle : ∀ v ∈ G.adj u, (G.adj u).count v ≤ remaining G st.topologicalOrdering v := by
    intro v _
    have := remaining_append hu huo v
    omega
  have h0 : KStep G
      { st with Q := rest, topologicalOrdering := st.topologicalOrdering ++ [u] } []
      { st with Q := rest, topologicalOrdering := st.topologicalOrdering ++ [u] } := by
    refine ⟨rfl, hperm.nodup_iff.2 h.nodup, ?_, ?_, ?_⟩
    · intro x hx
      exact h.mem_in x (hperm.subset hx)
    · intro v hv
      show st.inDegree v = wrap32 (st.inDegree v - (([] : List Int).count v : Nat))
      rw [List.count_nil, Nat.cast_zero, sub_zero, h.deg v hv, wrap32_idem]
    · intro v hv
      show v ∈ st.topologicalOrdering ++ [u] ++ rest ↔ st.inDegree v = 0
      rw [hperm.mem_iff]
      exact h.zero v hv
  have hf := release_fold hwf hu
    { st with Q := rest, topologicalOrdering := st.topologicalOrdering ++ [u] }
    (fun v => remaining G st.topologicalOrdering v)
    (fun v hv => h.deg v (hwf u v ⟨hu, hv⟩)) hle
    (fun v hv => h.small v (hwf u v ⟨hu, hv⟩))
    (G.adj u) [] _ (List.nil_append _) h0
  have hord := hf.ord
  have hord' : ((G.adj u).foldl release
      { st with Q := rest, topologicalOrdering := st.topologicalOrdering ++ [u] }
      ).topologicalOrdering = st.topologicalOrdering ++ [u] := hord
  refine ⟨⟨hf.nodup, hf.mem_in, ?_, ?_, hf.zero, ?_⟩, hord'⟩
  · intro v hv
    rw [hf.deg v hv, hord']
    show wrap32 (st.inDegree v - ((G.adj u).count v : Int)) = _
    rw [h.deg v hv]
    have := remaining_append hu huo v
    have e : (remaining G st.topologicalOrdering v : Int) =
        (remaining G (st.topologicalOrdering ++ [u]) v : Int) + ((G.adj u).count v : Int) := by
      exact_mod_cast this.symm
    rw [e]
    unfold wrap32
    omega
  · intro v hv
    rw [hord']
    have := remaining_append hu huo v
    have := h.small v hv
    omega
  · intro v hv w hwv
    rw [hord'] at hv ⊢
    rcases List.mem_append.1 hv with h1 | h1
    · obtain ⟨h2, h3⟩ := h.before v h1 w hwv
      refine ⟨List.mem_append_left _ h2, ?_⟩
      rw [List.indexOf_append_of_mem h2, List.indexOf_append_of_mem h1]
      exact h3
    · have hvu : v = u := List.mem_singleton.1 h1
      rw [hvu] at hwv ⊢
      have h2 := hpred w hwv
      refine ⟨List.mem_append_left _ h2, ?_⟩
      rw [List.indexOf_append_of_mem h2, List.indexOf_append_of_not_mem huo]
      have := List.indexOf_lt_length.2 h2
      omega

/-! ### The main loop -/

theorem length_vertices (V : Int) : (vertices V).length = V.toNat := by
  simp [vertices]

theorem kinv_length {G : Graph} {st : State} (h : KInv G st) :
    st.topologicalOrdering.length + st.Q.length ≤ G.V.toNat := by
  have hsub : (st.topologicalOrdering ++ st.Q).Subperm (vertices G.V) :=
    List.subperm_of_subset h.nodup (fun x hx => (TopoSortDFS.mem_vertices _ _).2 (h.mem_in x hx))
  have := hsub.length_le
  rw [List.length_append, length_vertices] at this
  exact this

/-- The main loop returns, with the queue empty and the invariant in force. -/
theorem kahn_loop_spec {G : Graph} (hwf : G.OnVertices) :
    ∀ (fuel : Nat) (st : State), KInv G st →
      G.V.toNat < fuel + st.topologicalOrdering.length →
      ∃ st', loop G fuel st = some st' ∧ KInv G st' ∧ st'.Q = [] := by
  intro fuel
  induction fuel with
  | zero =>
    intro st h hf
    have := kinv_length h
    omega
  | succ fuel ih =>
    intro st h hf
    cases hQ : st.Q with
    | nil =>
      refine ⟨st, ?_, h, hQ⟩
      rw [loop, hQ]
    | cons u rest =>
      obtain ⟨hinv, hord⟩ := kahn_step hwf hQ h
      obtain ⟨st', hrun, hinv', hQ'⟩ := ih _ hinv (by
        rw [hord, List.length_append, List.length_singleton]
        omega)
      refine ⟨st', ?_, hinv', hQ'⟩
      rw [loop, hQ]
      exact hrun

theorem kinv_init (G : Graph) (hb : ∀ v, inRecords G v < 2 ^ 32) :
    KInv G (initState G) := by
  refine ⟨?_, ?_, ?_, ?_, ?_, ?_⟩
  · show ([] ++ (vertices G.V).filter fun u => decide (countIn G u = 0)).Nodup
    rw [List.nil_append]
    exact (TopoSortDFS.nodup_vertices _).filter _
  · intro x hx
    have hx' : x ∈ [] ++ (vertices G.V).filter fun u => decide (countIn G u = 0) := hx
    rw [List.nil_append] at hx'
    exact (TopoSortDFS.mem_vertices _ _).1 (List.mem_of_mem_filter hx')
  · intro v _
    show countIn G v = wrap32 (remaining G [] v)
    rw [countIn_eq G v, remaining_nil]
  · intro v _
    show remaining G [] v < 2 ^ 32
    rw [remaining_nil]
    exact hb v
  · intro v hv
    show v ∈ [] ++ (vertices G.V).filter (fun u => decide (countIn G u = 0)) ↔
      countIn G v = 0
    rw [List.nil_append, List.mem_filter]
    simp [TopoSortDFS.mem_vertices, hv]
  · intro v hv
    exact absurd hv (List.not_mem_nil v)

/-! ### Cycles -/

/-- If every vertex of a finite set has a predecessor in the set, the graph has a
cycle. -/
theorem cycle_of_pred {G : Graph} (S : Finset Int) (p : Int → Int)
    (hp : ∀ x ∈ S, p x ∈ S ∧ G.HasEdge (p x) x) {v : Int} (hv : v ∈ S) :
    ∃ u, Relation.TransGen G.HasEdge u u := by
  have hmem : ∀ k, p^[k] v ∈ S := by
    intro k
    induction k with
    | zero => exact hv
    | succ k ih =>
      rw [Function.iterate_succ_apply']
      exact (hp _ ih).1
  have hchain : ∀ k, ∀ x ∈ S, Relation.TransGen G.HasEdge (p^[k + 1] x) x := by
    intro k
    induction k with
    | zero =>
      intro x hx
      exact Relation.TransGen.single (hp x hx).2
    | succ k ih =>
      intro x hx
      rw [Function.iterate_succ_apply]
      exact (ih (p x) (hp x hx).1).tail (hp x hx).2
  obtain ⟨i, _, j, _, hij, heq⟩ := Finset.exists_ne_map_eq_of_card_lt_of_maps_to
    (s := Finset.range (S.card + 1)) (t := S) (f := fun k => p^[k] v)
    (by simp) (fun k _ => hmem k)
  have hcyc : ∀ a b, a < b → p^[a] v = p^[b] v →
      ∃ u, Relation.TransGen G.HasEdge u u := by
    intro a b hab he
    refine ⟨p^[a] v, ?_⟩
    have := hchain (b - a - 1) (p^[a] v) (hmem a)
    rw [← Function.iterate_add_apply, show b - a - 1 + 1 + a = b by omega, ← he] at this
    exact this
  rcases Nat.lt_or_gt_of_ne hij with h | h
  · exact hcyc i j h heq
  · exact hcyc j i h heq.symm

/-- When the loop stops with a vertex not printed, the graph has a cycle. -/
theorem cycle_of_stuck {G : Graph} {st : State} (h : KInv G st) (hQ : st.Q = [])
    {v : Int} (hv : 1 ≤ v ∧ v ≤ G.V) (hvo : v ∉ st.topologicalOrdering) : ¬ G.Acyclic := by
  classical
  have hpred : ∀ x, ∃ y, (1 ≤ x ∧ x ≤ G.V) → x ∉ st.topologicalOrdering →
      (y ∉ st.topologicalOrdering ∧ G.HasEdge y x) := by
    intro x
    by_cases hx : (1 ≤ x ∧ x ≤ G.V) ∧ x ∉ st.topologicalOrdering
    · have hne : st.inDegree x ≠ 0 := by
        intro hz
        have := (h.zero x hx.1).2 hz
        rw [hQ, List.append_nil] at this
        exact hx.2 this
      have hrem : remaining G st.topologicalOrdering x ≠ 0 := by
        intro hz
        apply hne
        rw [h.deg x hx.1, hz]
        decide
      rw [Ne, remaining_eq_zero] at hrem
      push_neg at hrem
      obtain ⟨y, hy, hyo⟩ := hrem
      exact ⟨y, fun _ _ => ⟨hyo, hy⟩⟩
    · exact ⟨0, fun h1 h2 => absurd ⟨h1, h2⟩ hx⟩
  choose p hp using hpred
  obtain ⟨u, hu⟩ := cycle_of_pred (G := G)
    ((Finset.Icc 1 G.V).filter fun x => x ∉ st.topologicalOrdering) p
    (by
      intro x hx
      simp only [Finset.mem_filter, Finset.mem_Icc] at hx ⊢
      obtain ⟨h1, h2⟩ := hp x hx.1 hx.2
      exact ⟨⟨h2.1, h1⟩, h2⟩)
    (v := v) (by simp [hv, hvo])
  exact fun hac => hac u hu

/-- When every vertex has been printed, the graph has no cycle and the ordering is
topological. -/
theorem order_of_complete {G : Graph} (hwf : G.OnVertices) {st : State} (h : KInv G st)
    (hall : ∀ x, 1 ≤ x ∧ x ≤ G.V → x ∈ st.topologicalOrdering) :
    G.Acyclic ∧ ∀ u v, G.HasEdge u v →
      st.topologicalOrdering.indexOf u < st.topologicalOrdering.indexOf v := by
  have hfwd : ∀ u v, G.HasEdge u v →
      st.topologicalOrdering.indexOf u < st.topologicalOrdering.indexOf v :=
    fun u v huv => (h.before v (hall v (hwf u v huv)) u huv).2
  exact ⟨TopoSortDFS.acyclic_of_rank _ hfwd, hfwd⟩

/-! ### What `topologicalSort` prints -/

/-- The loop returns, and what it leaves in `topologicalOrdering` has `V` entries exactly
when the graph has no cycle; it is then a topological ordering. -/
theorem kahn_run {G : Graph} (hV : 0 ≤ G.V) (hwf : G.OnVertices)
    (hb : ∀ v, inRecords G v < 2 ^ 32) {fuel : Nat} (hfuel : G.V.toNat < fuel) :
    ∃ st, loop G fuel (initState G) = some st ∧
      (((st.topologicalOrdering.length : Int) ≠ G.V) ↔ ¬ G.Acyclic) ∧
      (G.Acyclic → st.topologicalOrdering.Perm (vertices G.V) ∧
        ∀ u v, G.HasEdge u v →
          st.topologicalOrdering.indexOf u < st.topologicalOrdering.indexOf v) := by
  obtain ⟨st, hrun, hinv, hQ⟩ := kahn_loop_spec hwf fuel (initState G) (kinv_init G hb)
    (by
      show G.V.toNat < fuel + ([] : List Int).length
      simpa using hfuel)
  have hnd : st.topologicalOrdering.Nodup := by
    have := hinv.nodup
    rw [hQ, List.append_nil] at this
    exact this
  have hsub : st.topologicalOrdering.Subperm (vertices G.V) :=
    List.subperm_of_subset hnd (fun x hx =>
      (TopoSortDFS.mem_vertices _ _).2 (hinv.mem_in x (List.mem_append_left _ hx)))
  have hcomplete : (st.topologicalOrdering.length : Int) = G.V →
      ∀ x, 1 ≤ x ∧ x ≤ G.V → x ∈ st.topologicalOrdering := by
    intro hlen x hx
    have hperm : st.topologicalOrdering.Perm (vertices G.V) :=
      hsub.perm_of_length_le (by rw [length_vertices]; omega)
    exact hperm.mem_iff.2 ((TopoSortDFS.mem_vertices _ _).2 hx)
  have hiff : ((st.topologicalOrdering.length : Int) ≠ G.V) ↔ ¬ G.Acyclic := by
    constructor
    · intro hne
      by_contra hac
      apply hne
      have hall : ∀ x, 1 ≤ x ∧ x ≤ G.V → x ∈ st.topologicalOrdering := by
        intro x hx
        by_contra hxo
        exact cycle_of_stuck hinv hQ hx hxo hac
      have hperm : st.topologicalOrdering.Perm (vertices G.V) :=
        (List.perm_ext_iff_of_nodup hnd (TopoSortDFS.nodup_vertices _)).2
          (fun x => ⟨fun hx => hsub.subset hx,
            fun hx => hall x ((TopoSortDFS.mem_vertices _ _).1 hx)⟩)
      rw [hperm.length_eq, length_vertices]
      omega
    · intro hcyc hlen
      exact hcyc (order_of_complete hwf hinv (hcomplete hlen)).1
  refine ⟨st, hrun, hiff, ?_⟩
  intro hac
  have hlen : (st.topologicalOrdering.length : Int) = G.V := by
    by_contra hne
    exact (hiff.1 hne) hac
  exact ⟨hsub.perm_of_length_le (by rw [length_vertices]; omega),
    (order_of_complete hwf hinv (hcomplete hlen)).2⟩

/-! ### A counter that wraps around -/

/-- The loop `inDegree[v]++` over `k` records of one target `a`. -/
theorem count_replicate (a : Int) :
    ∀ (k : Nat) (d : Int → Int), wrap32 (d a) = d a → ∀ x : Int,
      ((List.replicate k a).foldl
        (fun (d : Int → Int) (v : Int) => setCell d v (wrap32 (d v + 1))) d) x =
        if x = a then wrap32 (d a + k) else d x := by
  intro k
  induction k with
  | zero =>
    intro d hd x
    rw [List.replicate_zero, List.foldl_nil]
    split
    · next h => rw [h, Nat.cast_zero, add_zero, hd]
    · rfl
  | succ k ih =>
    intro d hd x
    rw [List.replicate_succ, List.foldl_cons, ih]
    · have e : setCell d a (wrap32 (d a + 1)) a = wrap32 (d a + 1) := by
        unfold setCell
        rw [if_pos rfl]
      rw [e, wrap32_add]
      by_cases hx : x = a
      · rw [if_pos hx, if_pos hx]
        congr 1
        push_cast
        ring
      · rw [if_neg hx, if_neg hx]
        unfold setCell
        rw [if_neg hx]
    · have e : setCell d a (wrap32 (d a + 1)) a = wrap32 (d a + 1) := by
        unfold setCell
        rw [if_pos rfl]
      rw [e, wrap32_idem]

theorem release_of_ne {st : State} {v : Int} (h : wrap32 (st.inDegree v - 1) ≠ 0) :
    release st v = { st with inDegree := setCell st.inDegree v (wrap32 (st.inDegree v - 1)) } := by
  unfold release
  rw [if_neg h]

theorem release_of_eq {st : State} {v : Int} (h : wrap32 (st.inDegree v - 1) = 0) :
    release st v =
      { st with inDegree := setCell st.inDegree v (wrap32 (st.inDegree v - 1)),
                Q := st.Q ++ [v] } := by
  unfold release
  rw [if_pos h]

/-- The loop `--inDegree[v]; if (inDegree[v] == 0) Q.push(v);` over `k` records of one
target `v` whose counter does not pass zero. -/
theorem release_replicate (v : Int) :
    ∀ (k : Nat) (st : State), wrap32 (st.inDegree v) = st.inDegree v →
      (∀ j : Nat, 1 ≤ j → j ≤ k → wrap32 (st.inDegree v - j) ≠ 0) →
      ((List.replicate k v).foldl release st).Q = st.Q ∧
      ((List.replicate k v).foldl release st).topologicalOrdering = st.topologicalOrdering ∧
      ((List.replicate k v).foldl release st).inDegree v = wrap32 (st.inDegree v - k) := by
  intro k
  induction k with
  | zero =>
    intro st hd _
    rw [List.replicate_zero, List.foldl_nil, Nat.cast_zero, sub_zero, hd]
    exact ⟨rfl, rfl, rfl⟩
  | succ k ih =>
    intro st hd hnz
    obtain ⟨hQ, hO, hD⟩ := ih st hd (fun j h1 h2 => hnz j h1 (by omega))
    have hstep : wrap32 (((List.replicate k v).foldl release st).inDegree v - 1) =
        wrap32 (st.inDegree v - ((k + 1 : Nat) : Int)) := by
      rw [hD]
      have := wrap32_add (st.inDegree v - k) (-1)
      rw [show wrap32 (st.inDegree v - (k : Int)) - 1 =
        wrap32 (st.inDegree v - (k : Int)) + -1 from by ring, this]
      congr 1
      push_cast
      ring
    have hne := hnz (k + 1) (by omega) (le_refl _)
    have hne1 : wrap32 (((List.replicate k v).foldl release st).inDegree v - 1) ≠ 0 := by
      rw [hstep]
      exact hne
    rw [List.replicate_succ', List.foldl_append, List.foldl_cons, List.foldl_nil,
      release_of_ne hne1]
    refine ⟨hQ, hO, ?_⟩
    show setCell _ v _ v = _
    unfold setCell
    rw [if_pos rfl]
    exact hstep

/-- After `2^32` decrements a counter that was 0 is 0 again, and the vertex is queued at
the last of them. -/
theorem release_wraps_around (v : Int) (st : State) (hd : st.inDegree v = 0) (m : Nat)
    (hm : m + 1 = 2 ^ 32) :
    ((List.replicate (m + 1) v).foldl release st).Q = st.Q ++ [v] ∧
    ((List.replicate (m + 1) v).foldl release st).topologicalOrdering =
      st.topologicalOrdering := by
  have hw : wrap32 (st.inDegree v) = st.inDegree v := by
    rw [hd]
    decide
  obtain ⟨hQ, hO, hD⟩ := release_replicate v m st hw (by
    intro j h1 h2
    rw [hd]
    unfold wrap32
    omega)
  have hlast : wrap32 (((List.replicate m v).foldl release st).inDegree v - 1) = 0 := by
    rw [hD, hd]
    unfold wrap32
    omega
  rw [List.replicate_succ', List.foldl_append, List.foldl_cons, List.foldl_nil,
    release_of_eq hlast]
  exact ⟨by rw [← hQ], hO⟩

theorem loop_cons (G : Graph) (fuel : Nat) {st : State} {u : Int} {rest : List Int}
    (h : st.Q = u :: rest) :
    loop G (fuel + 1) st =
      loop G fuel ((G.adj u).foldl release
        { st with Q := rest, topologicalOrdering := st.topologicalOrdering ++ [u] }) := by
  rw [loop]
  split
  · next h0 => rw [h] at h0; exact absurd h0 (by simp)
  · next u1 rest1 h1 =>
    rw [h] at h1
    obtain ⟨rfl, rfl⟩ := List.cons.inj h1
    rfl

theorem loop_nil (G : Graph) (fuel : Nat) {st : State} (h : st.Q = []) :
    loop G (fuel + 1) st = some st := by
  rw [loop]
  split
  · rfl
  · next u1 rest1 h1 => rw [h] at h1; exact absurd h1 (by simp)

theorem parallelEdges_adj_one (n : Nat) : (parallelEdges n).adj 1 = List.replicate n 2 := by
  show (if (1 : Int) = 1 then List.replicate n (2 : Int) else []) = _
  exact if_pos rfl

theorem parallelEdges_adj_of_ne (n : Nat) {u : Int} (h : u ≠ 1) :
    (parallelEdges n).adj u = [] := by
  show (if u = 1 then List.replicate n (2 : Int) else []) = _
  exact if_neg h

theorem parallelEdges_hasEdge {n : Nat} {u v : Int} (h : (parallelEdges n).HasEdge u v) :
    u = 1 ∧ v = 2 := by
  obtain ⟨_, hv⟩ := h
  by_cases hu : u = 1
  · rw [hu, parallelEdges_adj_one] at hv
    exact ⟨hu, (List.mem_replicate.1 hv).2⟩
  · rw [parallelEdges_adj_of_ne n hu] at hv
    exact absurd hv (List.not_mem_nil _)

theorem parallelEdges_onVertices (n : Nat) : (parallelEdges n).OnVertices := by
  intro u v h
  obtain ⟨_, rfl⟩ := parallelEdges_hasEdge h
  exact ⟨(by decide : (1 : Int) ≤ 2), (by decide : (2 : Int) ≤ 2)⟩

theorem parallelEdges_acyclic (n : Nat) : (parallelEdges n).Acyclic := by
  have hend : ∀ u w, Relation.TransGen (parallelEdges n).HasEdge u w → u = 1 ∧ w = 2 := by
    intro u w h
    induction h with
    | single h => exact parallelEdges_hasEdge h
    | tail _ h ih => exact ⟨ih.1, (parallelEdges_hasEdge h).2⟩
  intro u h
  obtain ⟨h1, h2⟩ := hend u u h
  rw [h1] at h2
  exact absurd h2 (by decide)

theorem parallelEdges_vertices (n : Nat) : vertices (parallelEdges n).V = [1, 2] := by
  show vertices 2 = [1, 2]
  decide

theorem parallelEdges_inRecords (n : Nat) : inRecords (parallelEdges n) 2 = n := by
  unfold inRecords
  rw [parallelEdges_vertices, List.map_cons, List.map_cons, List.map_nil,
    parallelEdges_adj_one, parallelEdges_adj_of_ne n (by decide), List.count_replicate_self]
  simp

/-- The counting loop on `2^32` parallel edges: the counter of vertex 2 passes through all
`2^32` values of an `int` and ends at 0. -/
theorem parallelEdges_countIn (n : Nat) (hn : n = 2 ^ 32) (x : Int) :
    countIn (parallelEdges n) x = 0 := by
  unfold countIn
  rw [parallelEdges_vertices, List.foldl_cons, List.foldl_cons, List.foldl_nil,
    parallelEdges_adj_one, parallelEdges_adj_of_ne n (by decide), List.foldl_nil,
    count_replicate 2 n (fun _ => 0) (by decide) x]
  split
  · unfold wrap32
    omega
  · rfl

theorem parallelEdges_run (m : Nat) (hm : m + 1 = 2 ^ 32) (k : Nat) :
    ∃ st, loop (parallelEdges (m + 1)) (k + 4) (initState (parallelEdges (m + 1))) = some st ∧
      st.topologicalOrdering = [1, 2, 2] := by
  have hc := parallelEdges_countIn (m + 1) hm
  have hQ0 : (initState (parallelEdges (m + 1))).Q = [1, 2] := by
    show (vertices (parallelEdges (m + 1)).V).filter
      (fun u => decide (countIn (parallelEdges (m + 1)) u = 0)) = [1, 2]
    rw [parallelEdges_vertices]
    simp only [List.filter, hc, decide_True]
  obtain ⟨hQ1, hO1⟩ := release_wraps_around 2
    { initState (parallelEdges (m + 1)) with
      Q := [2]
      topologicalOrdering := (initState (parallelEdges (m + 1))).topologicalOrdering ++ [1] }
    (hc 2) m hm
  rw [loop_cons _ (k + 3) hQ0, parallelEdges_adj_one, loop_cons _ (k + 2) hQ1,
    parallelEdges_adj_of_ne _ (by decide), List.foldl_nil,
    loop_cons _ (k + 1) (rfl : _ = (2 : Int) :: []),
    parallelEdges_adj_of_ne _ (by decide), List.foldl_nil, loop_nil _ k rfl]
  refine ⟨_, rfl, ?_⟩
  show (((List.replicate (m + 1) (2 : Int)).foldl release _).topologicalOrdering ++ [2]) ++
    [2] = [1, 2, 2]
  rw [hO1]
  rfl

theorem parallelEdges_message (m : Nat) (hm : m + 1 = 2 ^ 32) (k : Nat) :
    topologicalSort (parallelEdges (m + 1)) (k + 4) = some Printed.message := by
  obtain ⟨st, hrun, hord⟩ := parallelEdges_run m hm k
  unfold topologicalSort
  rw [hrun, Option.map_some', hord]
  have hV : (parallelEdges (m + 1)).V = 2 := rfl
  rw [hV, if_pos (by decide)]

theorem manyEdges_eq : manyEdges = parallelEdges (4294967295 + 1) :=
  congrArg parallelEdges (by norm_num)

/-! ### Claim C14 -/

/-- Counterexample to C14 as stated: the directed graph on the vertices 1, 2 that holds
`2^32` records of the edge `1 -> 2` has no cycle, and `topologicalSort` prints the error
message for it. The `int` counter `inDegree[2]` is back at 0 after the counting loop, so
vertex 2 is queued at the start, and queued once more when the `2^32` decrements have
brought the counter round to 0 again; three vertices are then listed for `V = 2`. -/
theorem kahn_parallel_edges_message :
    manyEdges.V = 2 ∧ manyEdges.OnVertices ∧ manyEdges.Acyclic ∧
    inRecords manyEdges 2 = 2 ^ 32 ∧
    (∀ x, countIn manyEdges x = 0) ∧
    ∀ k : Nat, topologicalSort manyEdges (k + 4) = some Printed.message :=
  ⟨rfl, parallelEdges_onVertices _, parallelEdges_acyclic _, parallelEdges_inRecords _,
    parallelEdges_countIn _ rfl,
    fun k => manyEdges_eq ▸ parallelEdges_message 4294967295 (by norm_num) k⟩

/-- C14, amended: for every directed graph on the vertices `1..V` (`V ≥ 0`) in which every
vertex has fewer than `2^32` incoming edge records, Kahn's `topologicalSort` (with fuel for
`V` turns of its loop) prints the error message if and only if the graph contains a
directed cycle, self-loops included; otherwise it prints a permutation of `1..V` in which,
for every edge `u -> v`, `u` comes before `v`.  (From `2^31` records on a counter passes
through the negative `int`s; it is 0 again only when the last record has been taken
off.) -/
theorem kahn_topologicalSort_correct (G : Graph) (fuel : Nat) (hV : 0 ≤ G.V)
    (hwf : G.OnVertices) (hb : ∀ v, inRecords G v < 2 ^ 32) (hfuel : G.V.toNat < fuel) :
    (topologicalSort G fuel = some Printed.message ↔ ¬ G.Acyclic) ∧
    (G.Acyclic → ∃ l, topologicalSort G fuel = some (Printed.ordering l) ∧
      l.Perm (vertices G.V) ∧ ∀ u v, G.HasEdge u v → l.indexOf u < l.indexOf v) := by
  obtain ⟨st, hrun, hiff, hord⟩ := kahn_run hV hwf hb hfuel
  have hres : topologicalSort G fuel =
      some (if (st.topologicalOrdering.length : Int) ≠ G.V then Printed.message
        else Printed.ordering st.topologicalOrdering) := by
    unfold topologicalSort
    rw [hrun]
    rfl
  constructor
  · rw [hres]
    constructor
    · intro h
      by_cases hne : (st.topologicalOrdering.length : Int) ≠ G.V
      · exact hiff.1 hne
      · rw [if_neg hne] at h
        exact absurd (Option.some.inj h) (by simp)
    · intro h
      rw [if_pos (hiff.2 h)]
  · intro hac
    refine ⟨st.topologicalOrdering, ?_, hord hac⟩
    rw [hres, if_neg (fun hne => (hiff.1 hne) hac)]

theorem exampleDag_inRecords (v : Int) : inRecords TopoSortDFS.exampleDag v < 2 ^ 32 := by
  have hv : vertices TopoSortDFS.exampleDag.V = [1, 2, 3, 4] := by decide
  have h : inRecords TopoSortDFS.exampleDag v ≤ 4 := by
    unfold inRecords
    rw [hv]
    have e1 : TopoSortDFS.exampleDag.adj 1 = [2, 3] := rfl
    have e2 : TopoSortDFS.exampleDag.adj 2 = [4] := rfl
    have e3 : TopoSortDFS.exampleDag.adj 3 = [2] := rfl
    have e4 : TopoSortDFS.exampleDag.adj 4 = [] := rfl
    simp only [List.map_cons, List.map_nil, List.sum_cons, List.sum_nil, e1, e2, e3, e4]
    have c1 := List.count_le_length v [2, 3]
    have c2 := List.count_le_length v [4]
    have c3 := List.count_le_length v [2]
    have c4 := List.count_le_length v ([] : List Int)
    simp only [List.length_cons, List.length_nil] at c1 c2 c3 c4
    omega
  omega

/-- Witness of C14 on the graph `1 -> 2, 1 -> 3, 3 -> 2, 2 -> 4`. -/
theorem kahn_topologicalSort_correct_witness :
    0 ≤ TopoSortDFS.exampleDag.V ∧ TopoSortDFS.exampleDag.OnVertices ∧
    (∀ v, inRecords TopoSortDFS.exampleDag v < 2 ^ 32) ∧
    TopoSortDFS.exampleDag.V.toNat < 5 ∧
    (topologicalSort TopoSortDFS.exampleDag 5 = some Printed.message ↔
      ¬ TopoSortDFS.exampleDag.Acyclic) ∧
    (TopoSortDFS.exampleDag.Acyclic →
      ∃ l, topologicalSort TopoSortDFS.exampleDag 5 = some (Printed.ordering l) ∧
        l.Perm (vertices TopoSortDFS.exampleDag.V) ∧
        ∀ u v, TopoSortDFS.exampleDag.HasEdge u v → l.indexOf u < l.indexOf v) :=
  ⟨by decide, TopoSortDFS.exampleDag_onVertices, exampleDag_inRecords, by decide,
    kahn_topologicalSort_correct TopoSortDFS.exampleDag 5 (by decide)
      TopoSortDFS.exampleDag_onVertices exampleDag_inRecords (by decide)⟩

end TopoSortKahn

end GraphBook

namespace GraphBook

namespace FloydWarshall

open Dijkstra (Walk)

/-! ## Theorems: floydWarshall.cpp -/

/-! ### Sequences of edges -/

theorem walk_vtx {g : weightedGraph} (hwf : OnVertices g) {a c : Int} {l : List Int} {w : Int}
    (h : Walk g a c l w) (ha : Vtx g a) : Vtx g c ∧ ∀ x ∈ l, Vtx g x := by
  induction h with
  | single a =>
    refine ⟨ha, ?_⟩
    intro x hx
    rw [List.mem_singleton.1 hx]
    exact ha
  | cons len hmem _ ih =>
    obtain ⟨h1, h2⟩ := ih (hwf _ ha _ hmem)
    refine ⟨h1, ?_⟩
    intro x hx
    rcases List.mem_cons.1 hx with h | h
    · rw [h]
      exact ha
    · exact h2 x h

theorem walk_append {g : weightedGraph} {a b c : Int} {l1 l2 : List Int} {w1 w2 : Int}
    (h1 : Walk g a b l1 w1) (h2 : Walk g b c l2 w2) : ∃ l, Walk g a c l (w1 + w2) := by
  induction h1 with
  | single a => exact ⟨l2, by rw [zero_add]; exact h2⟩
  | cons len hmem _ ih =>
    obtain ⟨l, hl⟩ := ih h2
    exact ⟨_, by rw [add_assoc]; exact Walk.cons len hmem hl⟩

theorem walk_last_mem {g : weightedGraph} {a c : Int} {l : List Int} {w : Int}
    (h : Walk g a c l w) : c ∈ l := by
  induction h with
  | single a => exact List.mem_singleton.2 rfl
  | cons len _ _ ih => exact List.mem_cons_of_mem _ ih

/-- A sequence of edges can be cut at each of its vertices. -/
theorem walk_split {g : weightedGraph} {a c : Int} {l : List Int} {w : Int}
    (h : Walk g a c l w) :
    ∀ m ∈ l, ∃ l1 l2 w1 w2, l = l1 ++ l2 ∧ Walk g a m (l1 ++ [m]) w1 ∧ Walk g m c l2 w2 ∧
      w = w1 + w2 := by
  induction h with
  | single a =>
    intro m hm
    rw [List.mem_singleton.1 hm]
    exact ⟨[], [a], 0, 0, rfl, Walk.single a, Walk.single a, by ring⟩
  | @cons a b c l w len hmem hw ih =>
    intro m hm
    by_cases hma : m = a
    · rw [hma]
      exact ⟨[], a :: l, 0, len + w, rfl, Walk.single a, Walk.cons len hmem hw, by ring⟩
    · have hml : m ∈ l := by
        rcases List.mem_cons.1 hm with h | h
        · exact absurd h hma
        · exact h
      obtain ⟨l1, l2, w1, w2, hl, h1, h2, hw12⟩ := ih m hml
      refine ⟨a :: l1, l2, len + w1, w2, by rw [hl]; rfl, ?_, h2, by rw [hw12]; ring⟩
      exact Walk.cons len hmem h1

/-- A path that returns to its first vertex without repeating a vertex has no edge. -/
theorem walk_loop_single {g : weightedGraph} {a : Int} {l : List Int} {w : Int}
    (h : Walk g a a l w) (hnd : l.Nodup) : l = [a] ∧ w = 0 := by
  cases h with
  | single => exact ⟨rfl, rfl⟩
  | cons len hmem hw =>
    exact absurd (walk_last_mem hw) (List.nodup_cons.1 hnd).1

/-- Without negative cycles, repeated vertices can be cut out of a sequence of edges at no
cost. -/
theorem walk_simple {g : weightedGraph} (hwf : OnVertices g) (hneg : NoNegCycle g)
    {a c : Int} {l : List Int} {w : Int} (h : Walk g a c l w) (ha : Vtx g a) :
    ∃ l' w', Walk g a c l' w' ∧ l'.Nodup ∧ w' ≤ w := by
  induction h with
  | single a => exact ⟨[a], 0, Walk.single a, List.nodup_singleton a, le_refl _⟩
  | @cons a b c l w len hmem hw ih =>
    obtain ⟨l1, w1, h1, hnd, hle⟩ := ih (hwf _ ha _ hmem)
    by_cases hal : a ∈ l1
    · obtain ⟨p, q, wp, wq, hpq, hp, hq, hsum⟩ := walk_split h1 a hal
      have hcyc := hneg a _ _ ha (Walk.cons len hmem hp)
      refine ⟨q, wq, hq, ?_, by omega⟩
      rw [hpq] at hnd
      exact (List.nodup_append.1 hnd).2.1
    · exact ⟨a :: l1, len + w1, Walk.cons len hmem h1, List.nodup_cons.2 ⟨hal, hnd⟩, by omega⟩

/-! ### Lowering an entry -/

theorem setEntry_same (d : Matrix) (i j x : Int) : (setEntry d i j x).cell i j = x := by
  simp [setEntry]

theorem setEntry_other (d : Matrix) {i j a b : Int} (x : Int) (h : ¬ (a = i ∧ b = j)) :
    (setEntry d i j x).cell a b = d.cell a b := by
  simp only [setEntry]
  rw [if_neg h]

theorem le_refl_matrix (d : Matrix) : Le d d := fun _ _ => le_refl _

theorem le_trans_matrix {d1 d2 d3 : Matrix} (h1 : Le d1 d2) (h2 : Le d2 d3) : Le d1 d3 :=
  fun a b => le_trans (h1 a b) (h2 a b)

theorem lower_le (d : Matrix) (i j x : Int) : Le (setEntry d i j (min (d.cell i j) x)) d := by
  intro a b
  by_cases h : a = i ∧ b = j
  · rw [h.1, h.2, setEntry_same]
    exact min_le_left _ _
  · rw [setEntry_other d _ h]

theorem lower_cell_le (d : Matrix) (i j x : Int) :
    (setEntry d i j (min (d.cell i j) x)).cell i j ≤ x := by
  rw [setEntry_same]
  exact min_le_right _ _

theorem le_foldl {α : Type} (f : Matrix → α → Matrix) (h : ∀ d x, Le (f d x) d)
    (l : List α) : ∀ d, Le (l.foldl f d) d := by
  induction l with
  | nil => intro d; exact le_refl_matrix d
  | cons x l ih =>
    intro d
    rw [List.foldl_cons]
    exact le_trans_matrix (ih _) (h d x)

theorem via_mono {g : weightedGraph} {n : Int} {d d' : Matrix} (hle : Le d' d) {i j : Int}
    (h : Via g n d i j) : Via g n d' i j :=
  fun l w hw hnd hs => le_trans (hle i j) (h l w hw hnd hs)

theorem sound_lower {g : weightedGraph} {d : Matrix} (hs : Sound g d) {i j x : Int}
    (hx : SoundVal g i j x) : Sound g (setEntry d i j (min (d.cell i j) x)) := by
  intro a b ha hb
  by_cases h : a = i ∧ b = j
  · rw [h.1, h.2, setEntry_same]
    rcases le_total (d.cell i j) x with hle | hle
    · rw [min_eq_left hle]
      exact h.1 ▸ h.2 ▸ hs a b ha hb
    · rw [min_eq_right hle]
      exact hx
  · rw [setEntry_other d _ h]
    exact hs a b ha hb

/-- The sum of two sound values through a vertex `n` is a sound value. -/
theorem soundVal_add {g : weightedGraph} {B : Int}
    (hlo : ∀ a c l w, Vtx g a → Walk g a c l w → -B ≤ w) (hB : B ≤ INF)
    {i n j x y : Int} (hx : SoundVal g i n x) (hy : SoundVal g n j y) :
    SoundVal g i j (x + y) := by
  rcases hx with ⟨l, hl⟩ | ⟨c, l1, w1, a, l2, w2, h1, ha, h2, hle⟩
  · rcases hy with ⟨l', hl'⟩ | ⟨c', l1', w1', a', l2', w2', h1', ha', h2', hle'⟩
    · exact Or.inl (walk_append hl hl')
    · obtain ⟨l3, h3⟩ := walk_append hl h1'
      exact Or.inr ⟨c', l3, x + w1', a', l2', w2', h3, ha', h2', by omega⟩
  · rcases hy with ⟨l', hl'⟩ | ⟨c', l1', w1', a', l2', w2', h1', ha', h2', hle'⟩
    · obtain ⟨l3, h3⟩ := walk_append h2 hl'
      exact Or.inr ⟨c, l1, w1, a, l3, w2 + y, h1, ha, h3, by omega⟩
    · obtain ⟨l3, h3⟩ := walk_append h2 h1'
      have := hlo a c' l3 (w2 + w1') ha h3
      exact Or.inr ⟨c, l1, w1, a', l2', w2', h1, ha', h2', by omega⟩

/-- A sound value is not below the lower bound of the path weights. -/
theorem soundVal_lower {g : weightedGraph} {B : Int}
    (hlo : ∀ a c l w, Vtx g a → Walk g a c l w → -B ≤ w) (hB : B ≤ INF)
    {i j x : Int} (hi : Vtx g i) (hx : SoundVal g i j x) : -B ≤ x := by
  rcases hx with ⟨l, hl⟩ | ⟨c, l1, w1, a, l2, w2, h1, ha, h2, hle⟩
  · exact hlo i j l x hi hl
  · have := hlo i c l1 w1 hi h1
    have := hlo a j l2 w2 ha h2
    omega

theorem wrap64_of_range {x : Int} (h1 : -2 ^ 63 ≤ x) (h2 : x < 2 ^ 63) : wrap64 x = x := by
  unfold wrap64
  omega

/-- Between sound entries that are at most the sentinel, the `long long` sum of the
assignment is the exact sum. -/
theorem relaxVia_exact {g : weightedGraph} {B : Int}
    (hlo : ∀ a c l w, Vtx g a → Walk g a c l w → -B ≤ w) (hB : B ≤ INF) {n : Int}
    (hn : Vtx g n) {d : Matrix} {i j : Int} (hi : Vtx g i) (hj : Vtx g j) (hs : Sound g d)
    (hup : ∀ a b, d.cell a b ≤ INF) :
    relaxVia n d i j = setEntry d i j (min (d.cell i j) (d.cell i n + d.cell n j)) := by
  have h1 := soundVal_lower hlo hB hi (hs i n hi hn)
  have h2 := soundVal_lower hlo hB hn (hs n j hn hj)
  have h3 := hup i n
  have h4 := hup n j
  have hINF : INF = 4557430888798830399 := by decide
  unfold relaxVia
  rw [wrap64_of_range (by omega) (by omega)]

/-- The assignment for the pair `(i, j)` in the turn for `n + 1` brings `d[i][j]` below
every path through `1..n+1`. -/
theorem via_relax {g : weightedGraph} {n : Int} {d : Matrix} {i j : Int}
    (h1 : Via g n d i (n + 1)) (h2 : Via g n d (n + 1) j) (h3 : Via g n d i j) :
    Via g (n + 1)
      (setEntry d i j (min (d.cell i j) (d.cell i (n + 1) + d.cell (n + 1) j))) i j := by
  intro l w hw hnd hs
  rw [setEntry_same]
  by_cases hm : n + 1 ∈ l ∧ n + 1 ≠ i ∧ n + 1 ≠ j
  · obtain ⟨hml, hmi, hmj⟩ := hm
    obtain ⟨l1, l2, w1, w2, hl, hw1, hw2, hsum⟩ := walk_split hw (n + 1) hml
    rw [hl] at hnd hs
    obtain ⟨hnd1, hnd2, hdisj⟩ := List.nodup_append.1 hnd
    have hm2 : n + 1 ∈ l2 := Dijkstra.Walk.first_mem hw2
    have hj2 : j ∈ l2 := walk_last_mem hw2
    have hm1 : n + 1 ∉ l1 := fun h => hdisj h hm2
    have hi1 : i ∈ l1 := by
      have := Dijkstra.Walk.first_mem hw1
      rcases List.mem_append.1 this with h | h
      · exact h
      · exact absurd (List.mem_singleton.1 h).symm hmi
    have ha := h1 (l1 ++ [n + 1]) w1 hw1
      (by
        rw [List.nodup_append]
        refine ⟨hnd1, List.nodup_singleton _, ?_⟩
        intro x hx hy
        rw [List.mem_singleton.1 hy] at hx
        exact hm1 hx)
      (by
        intro x hx hxi hxm
        rcases List.mem_append.1 hx with h | h
        · have := hs x (List.mem_append_left _ h) hxi (fun e => hdisj h (e ▸ hj2))
          omega
        · exact absurd (List.mem_singleton.1 h) hxm)
    have hb := h2 l2 w2 hw2 hnd2
      (by
        intro x hx hxm hxj
        have := hs x (List.mem_append_right _ hx) (fun e => hdisj hi1 (e ▸ hx)) hxj
        omega)
    have := min_le_right (d.cell i j) (d.cell i (n + 1) + d.cell (n + 1) j)
    omega
  · have hc := h3 l w hw hnd
      (by
        intro x hx hxi hxj
        have := hs x hx hxi hxj
        have hne : x ≠ n + 1 := fun e => hm ⟨e ▸ hx, e ▸ hxi, e ▸ hxj⟩
        omega)
    have := min_le_left (d.cell i j) (d.cell i (n + 1) + d.cell (n + 1) j)
    omega

/-! ### One turn of the loop over `n` -/

theorem phaseInv_weaken {g : weightedGraph} {n : Int} {P Q : Int → Int → Prop} {d : Matrix}
    (h : PhaseInv g n P d) (hPQ : ∀ a b, Q a b → P a b) : PhaseInv g n Q d :=
  ⟨h.sound, h.upper, h.old, fun i j hi hj hq => h.new i j hi hj (hPQ i j hq)⟩

/-- One assignment of the turn for `n + 1`. -/
theorem phaseInv_relax {g : weightedGraph} {B : Int}
    (hlo : ∀ a c l w, Vtx g a → Walk g a c l w → -B ≤ w) (hB : B ≤ INF) {n : Int}
    (hn : Vtx g (n + 1)) {P : Int → Int → Prop} {d : Matrix} {i j : Int} (hi : Vtx g i)
    (hj : Vtx g j) (h : PhaseInv g n P d) :
    PhaseInv g n (fun a b => P a b ∨ (a = i ∧ b = j)) (relaxVia (n + 1) d i j) := by
  rw [relaxVia_exact hlo hB hn hi hj h.sound h.upper]
  have hle : Le (setEntry d i j (min (d.cell i j) (d.cell i (n + 1) + d.cell (n + 1) j))) d :=
    lower_le d i j _
  refine ⟨?_, ?_, ?_, ?_⟩
  · exact sound_lower h.sound (soundVal_add hlo hB (h.sound i _ hi hn) (h.sound _ j hn hj))
  · intro a b
    exact le_trans (hle a b) (h.upper a b)
  · intro a b ha hb
    exact via_mono hle (h.old a b ha hb)
  · intro a b ha hb hab
    rcases hab with hp | ⟨h1, h2⟩
    · exact via_mono hle (h.new a b ha hb hp)
    · rw [h1, h2]
      exact via_relax (h.old i _ hi hn) (h.old _ j hn hj) (h.old i j hi hj)

/-- The loop over `j`. -/
theorem phase_inner {g : weightedGraph} {B : Int}
    (hlo : ∀ a c l w, Vtx g a → Walk g a c l w → -B ≤ w) (hB : B ≤ INF) {n : Int}
    (hn : Vtx g (n + 1)) {i : Int} (hi : Vtx g i) :
    ∀ (J : List Int) (P : Int → Int → Prop) (d : Matrix), (∀ j ∈ J, Vtx g j) →
      PhaseInv g n P d →
      PhaseInv g n (fun a b => P a b ∨ (a = i ∧ b ∈ J))
        (J.foldl (fun (d : Matrix) (j : Int) => relaxVia (n + 1) d i j) d) := by
  intro J
  induction J with
  | nil =>
    intro P d _ h
    exact phaseInv_weaken h (fun a b hab => hab.elim id (fun h' => by simp at h'))
  | cons j J ih =>
    intro P d hJ h
    rw [List.foldl_cons]
    refine phaseInv_weaken
      (ih _ _ (fun x hx => hJ x (List.mem_cons_of_mem _ hx))
        (phaseInv_relax hlo hB hn hi (hJ j (List.mem_cons_self _ _)) h)) ?_
    intro a b hab
    rcases hab with hp | ⟨h1, h2⟩
    · exact Or.inl (Or.inl hp)
    · rcases List.mem_cons.1 h2 with e | e
      · exact Or.inl (Or.inr ⟨h1, e⟩)
      · exact Or.inr ⟨h1, e⟩

/-- The loop over `i`. -/
theorem phase_outer {g : weightedGraph} {B : Int}
    (hlo : ∀ a c l w, Vtx g a → Walk g a c l w → -B ≤ w) (hB : B ≤ INF) {n : Int}
    (hn : Vtx g (n + 1)) (J : List Int) (hJ : ∀ j ∈ J, Vtx g j) :
    ∀ (I : List Int) (P : Int → Int → Prop) (d : Matrix), (∀ i ∈ I, Vtx g i) →
      PhaseInv g n P d →
      PhaseInv g n (fun a b => P a b ∨ (a ∈ I ∧ b ∈ J))
        (I.foldl
          (fun (d : Matrix) (i : Int) =>
            J.foldl (fun (d : Matrix) (j : Int) => relaxVia (n + 1) d i j) d) d) := by
  intro I
  induction I with
  | nil =>
    intro P d _ h
    exact phaseInv_weaken h (fun a b hab => hab.elim id (fun h' => by simp at h'))
  | cons i I ih =>
    intro P d hI h
    rw [List.foldl_cons]
    refine phaseInv_weaken
      (ih _ _ (fun x hx => hI x (List.mem_cons_of_mem _ hx))
        (phase_inner hlo hB hn (hI i (List.mem_cons_self _ _)) J P d hJ h)) ?_
    intro a b hab
    rcases hab with hp | ⟨h1, h2⟩
    · exact Or.inl (Or.inl hp)
    · rcases List.mem_cons.1 h1 with e | e
      · exact Or.inl (Or.inr ⟨e, h2⟩)
      · exact Or.inr ⟨e, h2⟩

theorem mem_vertices_iff (g : weightedGraph) (x : Int) : x ∈ vertices g.V ↔ Vtx g x :=
  TopoSortDFS.mem_vertices g.V x

/-- The turn for `n + 1` keeps the matrix sound and brings it below every path through
`1..n+1`. -/
theorem phase_spec {g : weightedGraph} {B : Int}
    (hlo : ∀ a c l w, Vtx g a → Walk g a c l w → -B ≤ w) (hB : B ≤ INF) {n : Int}
    (hn : Vtx g (n + 1)) {d : Matrix} (hs : Sound g d) (hup : ∀ a b, d.cell a b ≤ INF)
    (hvia : ∀ i j, Vtx g i → Vtx g j → Via g n d i j) :
    Sound g (phase g.V d (n + 1)) ∧
      ∀ i j, Vtx g i → Vtx g j → Via g (n + 1) (phase g.V d (n + 1)) i j := by
  have h := phase_outer hlo hB hn (vertices g.V) (fun j hj => (mem_vertices_iff g j).1 hj)
    (vertices g.V) (fun _ _ => False) d (fun i hi => (mem_vertices_iff g i).1 hi)
    ⟨hs, hup, hvia, fun _ _ _ _ hf => hf.elim⟩
  refine ⟨h.sound, ?_⟩
  intro i j hi hj
  exact h.new i j hi hj (Or.inr ⟨(mem_vertices_iff g i).2 hi, (mem_vertices_iff g j).2 hj⟩)

theorem phase_le (V : Int) (d : Matrix) (n : Int) : Le (phase V d n) d := by
  unfold phase
  apply le_foldl
  intro d i
  apply le_foldl
  intro d j
  exact lower_le d i j _

/-- The loop over `n`, after the turns for `1..k`. -/
theorem phases_spec {g : weightedGraph} {B : Int}
    (hlo : ∀ a c l w, Vtx g a → Walk g a c l w → -B ≤ w) (hB : B ≤ INF) {d : Matrix}
    (hs : Sound g d) (hup : ∀ a b, d.cell a b ≤ INF)
    (hvia : ∀ i j, Vtx g i → Vtx g j → Via g 0 d i j) :
    ∀ k : Nat, k ≤ g.V.toNat →
      Sound g (((List.range k).map fun (m : Nat) => (m : Int) + 1).foldl (phase g.V) d) ∧
      ∀ i j, Vtx g i → Vtx g j →
        Via g k (((List.range k).map fun (m : Nat) => (m : Int) + 1).foldl (phase g.V) d)
          i j := by
  intro k
  induction k with
  | zero =>
    intro _
    exact ⟨hs, hvia⟩
  | succ k ih =>
    intro hk
    obtain ⟨h1, h2⟩ := ih (by omega)
    rw [List.range_succ, List.map_append, List.foldl_append]
    have hn : Vtx g ((k : Int) + 1) := by
      unfold Vtx
      omega
    have hup1 : ∀ a b,
        (((List.range k).map fun (m : Nat) => (m : Int) + 1).foldl (phase g.V) d).cell a b ≤
          INF :=
      fun a b => le_trans (le_foldl _ (fun d n => phase_le g.V d n) _ _ a b) (hup a b)
    have := phase_spec hlo hB hn h1 hup1 h2
    simpa using this

/-! ### The matrix before the loop over `n` -/

theorem diag_fold (l : List Int) :
    ∀ (d : Matrix) (a b : Int),
      (l.foldl (fun (d : Matrix) (i : Int) => setEntry d i i 0) d).cell a b =
        if a = b ∧ a ∈ l then 0 else d.cell a b := by
  induction l with
  | nil => intro d a b; simp
  | cons i l ih =>
    intro d a b
    rw [List.foldl_cons, ih]
    by_cases hl : a = b ∧ a ∈ l
    · rw [if_pos hl, if_pos ⟨hl.1, List.mem_cons_of_mem _ hl.2⟩]
    · rw [if_neg hl]
      by_cases hi : a = i ∧ b = i
      · rw [hi.1, hi.2, setEntry_same, if_pos ⟨rfl, List.mem_cons_self _ _⟩]
      · rw [setEntry_other d _ hi, if_neg]
        rintro ⟨h1, h2⟩
        rcases List.mem_cons.1 h2 with h | h
        · exact hi ⟨h, h1 ▸ h⟩
        · exact hl ⟨h1, h⟩

theorem initDiag_cell (g : weightedGraph) (a b : Int) :
    (initDiag g.V).cell a b = if a = b ∧ Vtx g a then 0 else INF := by
  unfold initDiag
  rw [diag_fold]
  simp only [mem_vertices_iff]

theorem sentinel_pos : 0 < INF := by decide

theorem initDiag_le (g : weightedGraph) (a b : Int) : (initDiag g.V).cell a b ≤ INF := by
  rw [initDiag_cell]
  split
  · exact le_of_lt sentinel_pos
  · exact le_refl _

theorem initDiag_sound (g : weightedGraph) : Sound g (initDiag g.V) := by
  intro i j hi hj
  rw [initDiag_cell]
  by_cases hij : i = j
  · rw [if_pos ⟨hij, hi⟩, hij]
    exact Or.inl ⟨[j], Walk.single j⟩
  · rw [if_neg (fun h => hij h.1)]
    exact Or.inr ⟨i, [i], 0, j, [j], 0, Walk.single i, hj, Walk.single j, by omega⟩

theorem initEdges_le (g : weightedGraph) (d : Matrix) : Le (initEdges g d) d := by
  unfold initEdges
  apply le_foldl
  intro d u
  apply le_foldl
  intro d e
  exact lower_le d u e.1 _

/-- The loop over the records of `adj[u]`. -/
theorem edges_inner {g : weightedGraph} {u : Int} :
    ∀ (E : List Edge) (d : Matrix), (∀ e ∈ E, e ∈ g.adj u) → Sound g d →
      Sound g (E.foldl
        (fun (d : Matrix) (e : Edge) => setEntry d u e.1 (min (d.cell u e.1) e.2)) d) ∧
      ∀ e ∈ E, (E.foldl
        (fun (d : Matrix) (e : Edge) => setEntry d u e.1 (min (d.cell u e.1) e.2)) d).cell
          u e.1 ≤ e.2 := by
  intro E
  induction E with
  | nil =>
    intro d _ hs
    exact ⟨hs, fun e he => by simp at he⟩
  | cons e E ih =>
    intro d hE hs
    rw [List.foldl_cons]
    have he : e ∈ g.adj u := hE e (List.mem_cons_self _ _)
    have hval : SoundVal g u e.1 e.2 := by
      left
      refine ⟨[u, e.1], ?_⟩
      have := Walk.cons (g := g) (a := u) e.2 (show (e.1, e.2) ∈ g.adj u from he)
        (Walk.single e.1)
      simpa using this
    obtain ⟨h1, h2⟩ := ih _ (fun x hx => hE x (List.mem_cons_of_mem _ hx))
      (sound_lower hs hval)
    refine ⟨h1, ?_⟩
    intro e' he'
    rcases List.mem_cons.1 he' with h | h
    · rw [h]
      exact le_trans
        (le_foldl _ (fun d e => lower_le d u e.1 _) E _ u e.1) (lower_cell_le d u e.1 e.2)
    · exact h2 e' h

/-- The loop that enters the edges. -/
theorem edges_outer {g : weightedGraph} :
    ∀ (U : List Int) (d : Matrix), Sound g d →
      Sound g (U.foldl
        (fun (d : Matrix) (u : Int) =>
          (g.adj u).foldl
            (fun (d : Matrix) (e : Edge) => setEntry d u e.1 (min (d.cell u e.1) e.2)) d)
        d) ∧
      ∀ u ∈ U, ∀ e ∈ g.adj u, (U.foldl
        (fun (d : Matrix) (u : Int) =>
          (g.adj u).foldl
            (fun (d : Matrix) (e : Edge) => setEntry d u e.1 (min (d.cell u e.1) e.2)) d)
        d).cell u e.1 ≤ e.2 := by
  intro U
  induction U with
  | nil =>
    intro d hs
    exact ⟨hs, fun u hu => by simp at hu⟩
  | cons u U ih =>
    intro d hs
    rw [List.foldl_cons]
    obtain ⟨h1, h2⟩ := edges_inner (g.adj u) d (fun e he => he) hs
    obtain ⟨h3, h4⟩ := ih _ h1
    refine ⟨h3, ?_⟩
    intro u' hu' e he
    rcases List.mem_cons.1 hu' with h | h
    · rw [h]
      refine le_trans (le_foldl _ ?_ U _ u e.1) (h2 e (h ▸ he))
      intro d x
      apply le_foldl
      intro d e
      exact lower_le d x e.1 _
    · exact h4 u' h e he

/-- Before the loop over `n` the matrix is below every path without a vertex in
between: the empty path and the single edges. -/
theorem init_via {g : weightedGraph} (hwf : OnVertices g) :
    Sound g (initEdges g (initDiag g.V)) ∧
      ∀ i j, Vtx g i → Vtx g j → Via g 0 (initEdges g (initDiag g.V)) i j := by
  obtain ⟨hs, hedge⟩ := edges_outer (vertices g.V) (initDiag g.V) (initDiag_sound g)
  refine ⟨hs, ?_⟩
  intro i j hi hj l w hw hnd hsmall
  have hvtx := (walk_vtx hwf hw hi).2
  have hends : ∀ x ∈ l, x = i ∨ x = j := by
    intro x hx
    by_contra hne
    push_neg at hne
    have := hsmall x hx hne.1 hne.2
    have := (hvtx x hx).1
    omega
  cases hw with
  | single =>
    have := initEdges_le g (initDiag g.V) i i
    rw [initDiag_cell, if_pos ⟨rfl, hi⟩] at this
    exact this
  | @cons _ b _ l' w' len hmem hw' =>
    have hbl : b ∈ l' := Dijkstra.Walk.first_mem hw'
    have hib : b ≠ i := fun e => (List.nodup_cons.1 hnd).1 (e ▸ hbl)
    have hbj : b = j := by
      rcases hends b (List.mem_cons_of_mem _ hbl) with h | h
      · exact absurd h hib
      · exact h
    subst hbj
    obtain ⟨_, hw0⟩ := walk_loop_single hw' (List.nodup_cons.1 hnd).2
    rw [hw0, add_zero]
    exact hedge i ((mem_vertices_iff g i).2 hi) (b, len) hmem

/-! ### The returned matrix -/

theorem closure_le_INF (g : weightedGraph) (a b : Int) : (closure g).cell a b ≤ INF := by
  unfold closure
  exact le_trans (le_foldl _ (fun d n => phase_le g.V d n) _ _ a b)
    (le_trans (initEdges_le g _ a b) (initDiag_le g a b))

theorem result_cell (g : weightedGraph) {i j : Int} (hi : Vtx g i) :
    (floydWarshall g).d.cell i j = (closure g).cell i j := by
  have hne : ¬ (i = 0 ∧ j = 0) := by
    intro h
    have := hi.1
    omega
  unfold floydWarshall
  simp only
  split
  · exact setEntry_other _ _ hne
  · exact setEntry_other _ _ hne

/-- After the loops the matrix is sound and below every path. -/
theorem closure_spec {g : weightedGraph} (hwf : OnVertices g) {B : Int}
    (hlo : ∀ a c l w, Vtx g a → Walk g a c l w → -B ≤ w) (hB : B ≤ INF) :
    Sound g (closure g) ∧
      ∀ i j l w, Vtx g i → Vtx g j → Walk g i j l w → l.Nodup → (closure g).cell i j ≤ w := by
  obtain ⟨hs0, hv0⟩ := init_via hwf
  obtain ⟨hs, hv⟩ := phases_spec hlo hB hs0
    (fun a b => le_trans (initEdges_le g _ a b) (initDiag_le g a b)) hv0 g.V.toNat (le_refl _)
  refine ⟨hs, ?_⟩
  intro i j l w hi hj hw hnd
  refine hv i j hi hj l w hw hnd ?_
  intro x hx _ _
  have := ((walk_vtx hwf hw hi).2 x hx).2
  omega

/-! ### The sentinel and the weights of paths -/

/-- A sequence of `k` edges with `int` weights weighs between `-k * 2^31` and `k * 2^31`. -/
theorem walk_weight_bounds {g : weightedGraph} (hwf : OnVertices g) (hint : IntWeights g)
    {a c : Int} {l : List Int} {w : Int} (h : Walk g a c l w) (ha : Vtx g a) :
    1 ≤ l.length ∧ -(((l.length : Int) - 1) * 2 ^ 31) ≤ w ∧
      w ≤ ((l.length : Int) - 1) * 2 ^ 31 := by
  induction h with
  | single a => simp
  | @cons a b c l w len hmem hw ih =>
    obtain ⟨h1, h2, h3⟩ := ih (hwf _ ha _ hmem)
    have h4 : -2 ^ 31 ≤ len ∧ len < 2 ^ 31 := hint a ha _ hmem
    have e : (((a :: l).length : Nat) : Int) = (l.length : Int) + 1 := by
      rw [List.length_cons]
      push_cast
      rfl
    rw [e]
    refine ⟨?_, ?_, ?_⟩
    · rw [List.length_cons]
      omega
    · omega
    · omega

/-- Distinct vertices are at most `V` in number. -/
theorem nodup_vtx_length {g : weightedGraph} {l : List Int} (hnd : l.Nodup)
    (hv : ∀ x ∈ l, Vtx g x) : l.length ≤ g.V.toNat := by
  have hsub : l.toFinset ⊆ Finset.Icc 1 g.V := by
    intro x hx
    rw [List.mem_toFinset] at hx
    exact Finset.mem_Icc.2 (hv x hx)
  have hcard := Finset.card_le_card hsub
  rw [List.toFinset_card_of_nodup hnd, Int.card_Icc] at hcard
  omega

/-- A sequence of edges can be cut at the last of its vertices that has a property. -/
theorem walk_split_last {g : weightedGraph} (T : Int → Prop) {a c : Int} {l : List Int}
    {w : Int} (h : Walk g a c l w) :
    (∃ z ∈ l, T z) →
    ∃ l1 x l2 w1 w2, l = l1 ++ x :: l2 ∧ T x ∧ (∀ z ∈ l2, ¬ T z) ∧
      Walk g a x (l1 ++ [x]) w1 ∧ Walk g x c (x :: l2) w2 ∧ w = w1 + w2 := by
  induction h with
  | single a =>
    rintro ⟨z, hz, hTz⟩
    rw [List.mem_singleton.1 hz] at hTz
    exact ⟨[], a, [], 0, 0, rfl, hTz, fun z hz => absurd hz (List.not_mem_nil z),
      Walk.single a, Walk.single a, by ring⟩
  | @cons a b c l w len hmem hw ih =>
    intro hT
    by_cases hex : ∃ z ∈ l, T z
    · obtain ⟨l1, x, l2, w1, w2, hl, hTx, hnot, h1, h2, hsum⟩ := ih hex
      exact ⟨a :: l1, x, l2, len + w1, w2, by rw [hl]; rfl, hTx, hnot,
        Walk.cons len hmem h1, h2, by rw [hsum]; ring⟩
    · have hTa : T a := by
        obtain ⟨z, hz, hTz⟩ := hT
        rcases List.mem_cons.1 hz with e | e
        · exact e ▸ hTz
        · exact absurd ⟨z, e, hTz⟩ hex
      exact ⟨[], a, l, 0, len + w, rfl, hTa, fun z hz hTz => hex ⟨z, hz, hTz⟩,
        Walk.single a, Walk.cons len hmem hw, by ring⟩

/-- A sequence of edges can be cut at the first of its vertices that has a property. -/
theorem walk_split_first {g : weightedGraph} (S : Int → Prop) {a c : Int} {l : List Int}
    {w : Int} (h : Walk g a c l w) :
    (∃ z ∈ l, S z) →
    ∃ l1 y l2 w1 w2, l = l1 ++ y :: l2 ∧ S y ∧ (∀ z ∈ l1, ¬ S z) ∧
      Walk g a y (l1 ++ [y]) w1 ∧ Walk g y c (y :: l2) w2 ∧ w = w1 + w2 := by
  induction h with
  | single a =>
    rintro ⟨z, hz, hSz⟩
    rw [List.mem_singleton.1 hz] at hSz
    exact ⟨[], a, [], 0, 0, rfl, hSz, fun z hz => absurd hz (List.not_mem_nil z),
      Walk.single a, Walk.single a, by ring⟩
  | @cons a b c l w len hmem hw ih =>
    intro hS
    by_cases hSa : S a
    · exact ⟨[], a, l, 0, len + w, rfl, hSa, fun z hz => absurd hz (List.not_mem_nil z),
        Walk.single a, Walk.cons len hmem hw, by ring⟩
    · have hex : ∃ z ∈ l, S z := by
        obtain ⟨z, hz, hSz⟩ := hS
        rcases List.mem_cons.1 hz with e | e
        · exact absurd (e ▸ hSz) hSa
        · exact ⟨z, e, hSz⟩
      obtain ⟨l1, y, l2, w1, w2, hl, hSy, hnot, h1, h2, hsum⟩ := ih hex
      refine ⟨a :: l1, y, l2, len + w1, w2, by rw [hl]; rfl, hSy, ?_,
        Walk.cons len hmem h1, h2, by rw [hsum]; ring⟩
      intro z hz
      rcases List.mem_cons.1 hz with e | e
      · exact e ▸ hSa
      · exact hnot z e

/-- When `j` can be reached from `i`, a sequence of edges that leaves `i` and one that
arrives at `j` can be joined into a sequence from `i` to `j` at the cost of at most `V - 1`
edges: the part of the first after its last vertex `x` that reaches `j`, the part of the
second before its first vertex `y` reachable from `x`, and a path from `x` to `y` have no
vertex in common. -/
theorem detour_bound {g : weightedGraph} (hwf : OnVertices g) (hint : IntWeights g)
    (hneg : NoNegCycle g) {i c a j : Int} {l1 l2 : List Int} {w1 w2 : Int} (hi : Vtx g i)
    (ha : Vtx g a) (h1 : Walk g i c l1 w1) (h2 : Walk g a j l2 w2)
    (hreach : ∃ l w, Walk g i j l w) :
    ∃ l w, Walk g i j l w ∧ w ≤ w1 + w2 + (g.V - 1) * 2 ^ 31 := by
  obtain ⟨p1, u, hp1, hnd1, hle1⟩ := walk_simple hwf hneg h1 hi
  obtain ⟨p2, v, hp2, hnd2, hle2⟩ := walk_simple hwf hneg h2 ha
  obtain ⟨A0, x, A, u1, u2, hA, hTx, hAnot, hix, hxc, hu⟩ :=
    walk_split_last (fun z => ∃ l w, Walk g z j l w) hp1
      ⟨i, Dijkstra.Walk.first_mem hp1, hreach⟩
  have hx : Vtx g x := (walk_vtx hwf hix hi).1
  obtain ⟨Bl, y, B0, v1, v2, hB, hSy, hBnot, hay, hyj, hv⟩ :=
    walk_split_first (fun z => ∃ l w, Walk g x z l w) hp2 ⟨j, walk_last_mem hp2, hTx⟩
  obtain ⟨R0, r0, hR0⟩ := hSy
  obtain ⟨R, r, hR, hndR, _⟩ := walk_simple hwf hneg hR0 hx
  obtain ⟨m1, hm1⟩ := walk_append hix hR
  obtain ⟨m2, hm2⟩ := walk_append hm1 hyj
  refine ⟨m2, _, hm2, ?_⟩
  have hbA := walk_weight_bounds hwf hint hxc hx
  have hbB := walk_weight_bounds hwf hint hay ha
  have hbR := walk_weight_bounds hwf hint hR hx
  rw [List.length_cons] at hbA
  rw [List.length_append, List.length_singleton] at hbB
  have hndA : A.Nodup := by
    rw [hA] at hnd1
    exact (List.nodup_cons.1 (List.nodup_append.1 hnd1).2.1).2
  have hndB : Bl.Nodup := by
    rw [hB] at hnd2
    exact (List.nodup_append.1 hnd2).1
  have hxA : ∀ z ∈ A, ∃ l w, Walk g x z l w := by
    intro z hz
    obtain ⟨q1, q2, t1, t2, _, hq1, _, _⟩ := walk_split hxc z (List.mem_cons_of_mem _ hz)
    exact ⟨_, _, hq1⟩
  have hxR : ∀ z ∈ R, ∃ l w, Walk g x z l w := by
    intro z hz
    obtain ⟨q1, q2, t1, t2, _, hq1, _, _⟩ := walk_split hR z hz
    exact ⟨_, _, hq1⟩
  have hRj : ∀ z ∈ R, ∃ l w, Walk g z j l w := by
    intro z hz
    obtain ⟨q1, q2, t1, t2, _, _, hq2, _⟩ := walk_split hR z hz
    obtain ⟨q3, hq3⟩ := walk_append hq2 hyj
    exact ⟨_, _, hq3⟩
  have hnd : (R ++ (A ++ Bl)).Nodup := by
    rw [List.nodup_append]
    refine ⟨hndR, ?_, ?_⟩
    · rw [List.nodup_append]
      exact ⟨hndA, hndB, fun z hzA hzB => hBnot z hzB (hxA z hzA)⟩
    · intro z hzR hz
      rcases List.mem_append.1 hz with hzA | hzB
      · exact hAnot z hzA (hRj z hzR)
      · exact hBnot z hzB (hxR z hzR)
  have hvtx : ∀ z ∈ R ++ (A ++ Bl), Vtx g z := by
    intro z hz
    rcases List.mem_append.1 hz with hzR | hz
    · exact (walk_vtx hwf hR hx).2 z hzR
    · rcases List.mem_append.1 hz with hzA | hzB
      · exact (walk_vtx hwf hxc hx).2 z (List.mem_cons_of_mem _ hzA)
      · exact (walk_vtx hwf hay ha).2 z (List.mem_append_left _ hzB)
  have hlen := nodup_vtx_length hnd hvtx
  rw [List.length_append, List.length_append] at hlen
  push_cast at hbA hbB
  have hV : ((R.length + (A.length + Bl.length) : Nat) : Int) ≤ g.V := by
    have := hx.1
    have := hx.2
    omega
  push_cast at hV
  omega

/-- With `int` weights and without negative cycle no path weighs less than
`-(V - 1) * 2^31`. -/
theorem walk_lower {g : weightedGraph} (hwf : OnVertices g) (hint : IntWeights g)
    (hneg : NoNegCycle g) (a c : Int) (l : List Int) (w : Int) (ha : Vtx g a)
    (hw : Walk g a c l w) : -((g.V - 1) * 2 ^ 31) ≤ w := by
  obtain ⟨l', w', hw', hnd', hle⟩ := walk_simple hwf hneg hw ha
  have hb := walk_weight_bounds hwf hint hw' ha
  have hlen := nodup_vtx_length hnd' (walk_vtx hwf hw' ha).2
  have := ha.1
  have := ha.2
  omega

/-- The content of C15 for every vertex count with `(V - 1) * 2^31 < INF`. -/
theorem shortest_below_sentinel (g : weightedGraph) (i j : Int) (hwf : OnVertices g)
    (hint : IntWeights g) (hneg : NoNegCycle g) (hV : (g.V - 1) * 2 ^ 31 < INF)
    (hi : Vtx g i) (hj : Vtx g j) (hreach : ∃ l w, Walk g i j l w) :
    Dijkstra.IsDist g i j ((floydWarshall g).d.cell i j) ∧
      (i = j → (floydWarshall g).d.cell i j = 0) := by
  have hlo : ∀ a c l w, Vtx g a → Walk g a c l w → -((g.V - 1) * 2 ^ 31) ≤ w :=
    fun a c l w ha hw => walk_lower hwf hint hneg a c l w ha hw
  obtain ⟨hs, hv⟩ := closure_spec hwf hlo (le_of_lt hV)
  have hreal : ∃ l, Walk g i j l ((closure g).cell i j) := by
    rcases hs i j hi hj with h | ⟨c, l1, w1, a, l2, w2, h1, ha, h2, hge⟩
    · exact h
    · obtain ⟨l3, w3, hw3, hle3⟩ := detour_bound hwf hint hneg hi ha h1 h2 hreach
      obtain ⟨l4, w4, hw4, hnd4, hle4⟩ := walk_simple hwf hneg hw3 hi
      have := hv i j l4 w4 hi hj hw4 hnd4
      omega
  obtain ⟨l1, hl1⟩ := hreal
  obtain ⟨l2, w2, hw2, hnd2, hle2⟩ := walk_simple hwf hneg hl1 hi
  have hge2 := hv i j l2 w2 hi hj hw2 hnd2
  have hdist : Dijkstra.IsDist g i j ((closure g).cell i j) := by
    refine ⟨⟨l2, hnd2, ?_⟩, ?_⟩
    · have : w2 = (closure g).cell i j := le_antisymm hle2 hge2
      rw [← this]
      exact hw2
    · intro l' w' hw'
      obtain ⟨l3, w3, hw3, hnd3, hle3⟩ := walk_simple hwf hneg hw' hi
      exact le_trans (hv i j l3 w3 hi hj hw3 hnd3) hle3
  rw [result_cell g hi]
  refine ⟨hdist, ?_⟩
  intro hij
  subst hij
  have h1 := hdist.2 [i] 0 (Walk.single i)
  have h2 := hneg i l1 _ hi hl1
  omega

/-- A matrix that can be addressed has so few rows that `V - 1` weights stay below the
sentinel. -/
theorem sentinel_above_paths {g : weightedGraph} (hfit : MatrixFits g) (hV : 1 ≤ g.V) :
    (g.V - 1) * 2 ^ 31 < INF := by
  unfold MatrixFits at hfit
  have hINF : INF = 4557430888798830399 := by decide
  have hle : g.V ≤ 1518500249 := by
    by_contra hgt
    push_neg at hgt
    nlinarith
  omega

theorem exampleGraph_onVertices : OnVertices Dijkstra.exampleGraph := by
  intro u _ e he
  exact (Dijkstra.exampleGraph_mem he).2.1

theorem exampleGraph_intWeights : IntWeights Dijkstra.exampleGraph := by
  intro u _ e he
  have := (Dijkstra.exampleGraph_mem he).2.2
  omega

theorem exampleGraph_fits : MatrixFits Dijkstra.exampleGraph := by
  unfold MatrixFits
  decide

theorem exampleGraph_walk_1_4 : ∃ l w, Walk Dijkstra.exampleGraph 1 4 l w := by
  refine ⟨[1, 3, 4], 5 + (2 + 0), ?_⟩
  refine Walk.cons 5 ?_ (Walk.cons 2 ?_ (Walk.single 4))
  · rw [Dijkstra.exampleGraph_adj]
    simp
  · rw [Dijkstra.exampleGraph_adj]
    simp

/-! ### Claim C15 -/

/-- C15: for every weighted graph on the vertices `1..V` with `int` weights and without
negative cycle whose matrix `d` of `(V + 1)^2` cells of 8 bytes can be addressed, and all
vertices `i`, `j` with `j` reachable from `i`, the returned matrix has in `d[i][j]` the
minimum over all paths from `i` to `j` of the sum of the edge weights; it is 0 when
`i = j`. -/
theorem floydWarshall_shortest (g : weightedGraph) (i j : Int) (hwf : OnVertices g)
    (hint : IntWeights g) (hfit : MatrixFits g) (hneg : NoNegCycle g)
    (hi : Vtx g i) (hj : Vtx g j) (hreach : ∃ l w, Walk g i j l w) :
    Dijkstra.IsDist g i j ((floydWarshall g).d.cell i j) ∧
      (i = j → (floydWarshall g).d.cell i j = 0) :=
  shortest_below_sentinel g i j hwf hint hneg
    (sentinel_above_paths hfit (le_trans hi.1 hi.2)) hi hj hreach

/-- Witness of C15 on the example graph, for the vertices 1 and 4. -/
theorem floydWarshall_shortest_witness :
    OnVertices Dijkstra.exampleGraph ∧ IntWeights Dijkstra.exampleGraph ∧
    MatrixFits Dijkstra.exampleGraph ∧ NoNegCycle Dijkstra.exampleGraph ∧
    Vtx Dijkstra.exampleGraph 1 ∧ Vtx Dijkstra.exampleGraph 4 ∧
    (∃ l w, Walk Dijkstra.exampleGraph 1 4 l w) ∧
    (Dijkstra.IsDist Dijkstra.exampleGraph 1 4
        ((floydWarshall Dijkstra.exampleGraph).d.cell 1 4) ∧
      ((1 : Int) = 4 → (floydWarshall Dijkstra.exampleGraph).d.cell 1 4 = 0)) :=
  ⟨exampleGraph_onVertices, exampleGraph_intWeights, exampleGraph_fits,
    fun _ _ _ _ hw => Dijkstra.Walk.nonneg Dijkstra.exampleGraph_nonneg hw,
    by decide, by decide, exampleGraph_walk_1_4,
    floydWarshall_shortest Dijkstra.exampleGraph 1 4 exampleGraph_onVertices
      exampleGraph_intWeights exampleGraph_fits
      (fun _ _ _ _ hw => Dijkstra.Walk.nonneg Dijkstra.exampleGraph_nonneg hw)
      (by decide) (by decide) exampleGraph_walk_1_4⟩

end FloydWarshall

end GraphBook

